import Mathlib

/-! Block deque and ownership pointers: embedding and verification.

Shallow embedding of `deque.h` and `shared/shared.h`.

Conventions of the embedding.

* A pointer is an `Option Nat`: `none` is `nullptr`, `some a` is the address `a`.
* Objects that are created with `new` live in an explicit free store; an access through a null
  pointer, through a pointer to a released object, or outside an array makes the operation
  return `none` (undefined behaviour in the source).
* `size_t` values are natural numbers.  Subtraction and decrement wrap modulo `2 ^ 64` exactly as
  in the source (`sub64`); increments are not reduced, because a counter can only reach `2 ^ 64`
  after more blocks have been allocated than the address space can hold.
* Deque elements (`int`) are integers; they are only stored and loaded, never computed with.
-/

/-! ## Machine arithmetic and loops -/

/-- Subtraction of two `size_t` values: wraps around modulo `2 ^ 64` when the result would be
negative. -/
def sub64 (a b : Nat) : Nat := if b ≤ a then a - b else a + 2 ^ 64 - b

/-- Body of `for (size_t i = ...; ...; ++i)` executed `n` more times starting at index `i`; the
body may fail. -/
def forLoop {σ : Type} (body : Nat → σ → Option σ) : Nat → Nat → σ → Option σ
  | 0, _, s => some s
  | n + 1, i, s => (body i s).bind (forLoop body n (i + 1))

/-- The loop `for (size_t i = lo; i < hi; ++i) body`. -/
def forRange {σ : Type} (body : Nat → σ → Option σ) (lo hi : Nat) (s : σ) : Option σ :=
  forLoop body (hi - lo) lo s

/-! ## The free store of ring blocks -/

/-- The struct `RingBufferElement`: links to the neighbours in the ring and the slot array, which
is either absent (`nullptr`) or an array of 128 ints. -/
structure RingBufferElement where
  left : Option Nat
  right : Option Nat
  arr : Option (List Int)

/-- The free store: `cells a` is the block living at address `a` (`none` when no live block is
there); `next` is the first address that was never handed out. -/
structure Heap where
  cells : Nat → Option RingBufferElement
  next : Nat

namespace Heap

/-- The store in which nothing has been allocated. -/
def empty : Heap := ⟨fun _ => none, 0⟩

/-- Overwrite the block at address `a`. -/
def write (h : Heap) (a : Nat) (b : RingBufferElement) : Heap :=
  ⟨fun x => if x = a then some b else h.cells x, h.next⟩

/-- The expression `new RingBufferElement()`: a block with null links and no array at a fresh
address. -/
def alloc (h : Heap) : Heap × Nat :=
  (⟨fun x => if x = h.next then some ⟨none, none, none⟩ else h.cells x, h.next + 1⟩, h.next)

/-- The statement `delete p` for a non-null `p`: the block (and its array) is released. -/
def free (h : Heap) (a : Nat) : Option Heap :=
  match h.cells a with
  | none => none
  | some _ => some ⟨fun x => if x = a then none else h.cells x, h.next⟩

/-- Read of `*p`. -/
def deref (h : Heap) (p : Option Nat) : Option RingBufferElement :=
  match p with
  | none => none
  | some a => h.cells a

/-- The assignment `p->left = q`. -/
def setLeft (h : Heap) (p q : Option Nat) : Option Heap :=
  match p with
  | none => none
  | some a =>
    match h.cells a with
    | none => none
    | some b => some (h.write a { b with left := q })

/-- The assignment `p->right = q`. -/
def setRight (h : Heap) (p q : Option Nat) : Option Heap :=
  match p with
  | none => none
  | some a =>
    match h.cells a with
    | none => none
    | some b => some (h.write a { b with right := q })

/-- The statements `delete[] p->arr; p->arr = nullptr;`. -/
def dropArr (h : Heap) (p : Option Nat) : Option Heap :=
  match p with
  | none => none
  | some a =>
    match h.cells a with
    | none => none
    | some b => some (h.write a { b with arr := none })

/-- The assignment `p->arr[i] = v`. -/
def storeSlot (h : Heap) (p : Option Nat) (i : Nat) (v : Int) : Option Heap :=
  match p with
  | none => none
  | some a =>
    match h.cells a with
    | none => none
    | some b =>
      match b.arr with
      | none => none
      | some xs => if i < xs.length then some (h.write a { b with arr := some (xs.set i v) }) else none

/-- Read of `p->arr[i]`. -/
def loadSlot (h : Heap) (p : Option Nat) (i : Nat) : Option Int :=
  match p with
  | none => none
  | some a =>
    match h.cells a with
    | none => none
    | some b =>
      match b.arr with
      | none => none
      | some xs => xs[i]?

end Heap

/-- The method `RingBufferElement::FillArray` called through the pointer `p`: an existing array is
released, then a new array of 128 zeros is installed. -/
def RingBufferElement.FillArray (h : Heap) (p : Option Nat) : Option Heap :=
  match p with
  | none => none
  | some a =>
    match h.cells a with
    | none => none
    | some b => some (h.write a { b with arr := some (List.replicate 128 0) })

/-! ## The deque -/

/-- The data members of `class Deque`.  `main_array_` is the table of block pointers (`none` for
`nullptr`). -/
structure Deque where
  ind_of_begin_ : Nat
  el_size_ : Nat
  size_ : Nat
  main_array_ : Option (List Nat)
  l_edge_ : Option Nat
  r_edge_ : Option Nat
  lcounter_ : Nat
  rcounter_ : Nat
  deriving DecidableEq

namespace Deque

/-- The default constructor `Deque()`. -/
def new : Deque :=
  { ind_of_begin_ := 0, el_size_ := 0, size_ := 0, main_array_ := none,
    l_edge_ := none, r_edge_ := none, lcounter_ := 0, rcounter_ := 0 }

/-- The private method `Delete`: every block of the table is deleted, then the table, and all
members are reset. -/
def Delete (h : Heap) (d : Deque) : Option (Heap × Deque) :=
  (forRange (fun i hp => ((d.main_array_.getD [])[i]?).bind hp.free) 0 d.size_ h).map fun h1 =>
    (h1, { ind_of_begin_ := 0, el_size_ := 0, size_ := 0, main_array_ := none,
           l_edge_ := none, r_edge_ := none, lcounter_ := 0, rcounter_ := 0 })

/-- The private method `Init`: a table with one block that is its own left and right neighbour and
has a zeroed array. -/
def Init (h : Heap) (d : Deque) : Option (Heap × Deque) := do
  let d1 := { d with size_ := 1, ind_of_begin_ := 0 }
  let (h1, a) := h.alloc
  let t := [a]
  let h2 ← h1.setLeft t[0]? t[0]?
  let h3 ← h2.setRight t[0]? t[0]?
  let d2 := { d1 with main_array_ := some t, r_edge_ := t[0]?, l_edge_ := t[0]? }
  let h4 ← RingBufferElement.FillArray h3 t[0]?
  pure (h4, { d2 with rcounter_ := 0, lcounter_ := 0 })

/-- First loop of `Relocate`: `n` times, store `curr_ptr` into the new table and follow its
`right` link. -/
def walkRight (h : Heap) : Nat → Option Nat → Option (List Nat)
  | 0, _ => some []
  | n + 1, p =>
    match p with
    | none => none
    | some a =>
      match h.cells a with
      | none => none
      | some b => (walkRight h n b.right).map (a :: ·)

/-- Second loop of `Relocate`: `n` fresh blocks, in the order of their creation. -/
def allocMany : Nat → Heap → Heap × List Nat
  | 0, h => (h, [])
  | n + 1, h =>
    let r := allocMany n h.alloc.1
    (r.1, h.alloc.2 :: r.2)

/-- Body of the linking loops: `t[i]->left = t[i - 1]; t[i]->right = t[i + 1];`. -/
def linkBoth (t : List Nat) (i : Nat) (h : Heap) : Option Heap := do
  let a ← t[i]?
  let l ← t[sub64 i 1]?
  let h1 ← h.setLeft (some a) (some l)
  let r ← t[i + 1]?
  h1.setRight (some a) (some r)

/-- The private method `Relocate`: the table is doubled; the old blocks come first, in ring order
from the left edge, the second half is fresh, and all links are rewritten. -/
def Relocate (h : Heap) (d : Deque) : Option (Heap × Deque) := do
  let olds ← walkRight h d.size_ d.l_edge_
  let (h1, fresh) := allocMany d.size_ h
  let t := olds ++ fresh
  let h2 ← forRange (linkBoth t) 1 (sub64 (2 * d.size_) 1) h1
  let d1 := { d with size_ := 2 * d.size_, main_array_ := none }
  let last ← t[sub64 d1.size_ 1]?
  let beforeLast ← t[sub64 d1.size_ 2]?
  let first ← t[0]?
  let second ← t[1]?
  let h3 ← h2.setLeft (some last) (some beforeLast)
  let h4 ← h3.setRight (some last) (some first)
  let h5 ← h4.setLeft (some first) (some last)
  let h6 ← h5.setRight (some first) (some second)
  pure (h6, { d1 with ind_of_begin_ := 0, main_array_ := some t })

/-- The statements of `PushBack` that move the right edge to its right neighbour:
`r_edge_ = r_edge_->right; r_edge_->FillArray(); rcounter_ = 0;`, followed by the final store
`r_edge_->arr[rcounter_] = value`. -/
def advanceRight (h : Heap) (d : Deque) (value : Int) : Option (Heap × Deque) := do
  let re ← h.deref d.r_edge_
  let d1 := { d with r_edge_ := re.right }
  let h1 ← RingBufferElement.FillArray h d1.r_edge_
  let d2 := { d1 with rcounter_ := 0 }
  let h2 ← h1.storeSlot d2.r_edge_ d2.rcounter_ value
  pure (h2, d2)

/-- The method `PushBack`. -/
def PushBack (h : Heap) (d : Deque) (value : Int) : Option (Heap × Deque) := do
  let d := { d with el_size_ := d.el_size_ + 1 }
  if d.size_ = 0 then
    let (h1, d1) ← Init h d
    let h2 ← h1.storeSlot d1.r_edge_ d1.rcounter_ value
    pure (h2, d1)
  else
    let d := { d with rcounter_ := d.rcounter_ + 1 }
    if d.rcounter_ = 128 then
      let re ← h.deref d.r_edge_
      if re.right = d.l_edge_ then
        let (h1, d1) ← Relocate h d
        advanceRight h1 d1 value
      else
        advanceRight h d value
    else
      let h1 ← h.storeSlot d.r_edge_ d.rcounter_ value
      pure (h1, d)

/-- The method `PopBack`. -/
def PopBack (h : Heap) (d : Deque) : Option (Heap × Deque) := do
  let d := { d with el_size_ := sub64 d.el_size_ 1 }
  if d.el_size_ = 0 then
    Delete h d
  else if d.rcounter_ > 0 then
    let h1 ← h.storeSlot d.r_edge_ d.rcounter_ 0
    pure (h1, { d with rcounter_ := sub64 d.rcounter_ 1 })
  else
    let h1 ← h.dropArr d.r_edge_
    let re ← h1.deref d.r_edge_
    pure (h1, { d with r_edge_ := re.left, rcounter_ := 127 })

/-- The statements of `PushFront` that move the left edge to its left neighbour:
`l_edge_ = l_edge_->left;`, the cyclic decrement of `ind_of_begin_`, `l_edge_->FillArray();
lcounter_ = 127;`, followed by the final store `l_edge_->arr[lcounter_] = value`. -/
def advanceLeft (h : Heap) (d : Deque) (value : Int) : Option (Heap × Deque) := do
  let le ← h.deref d.l_edge_
  let d1 := { d with l_edge_ := le.left }
  let d2 := if d1.ind_of_begin_ = 0 then { d1 with ind_of_begin_ := sub64 d1.size_ 1 }
            else { d1 with ind_of_begin_ := sub64 d1.ind_of_begin_ 1 }
  let h1 ← RingBufferElement.FillArray h d2.l_edge_
  let d3 := { d2 with lcounter_ := 127 }
  let h2 ← h1.storeSlot d3.l_edge_ d3.lcounter_ value
  pure (h2, d3)

/-- The method `PushFront`. -/
def PushFront (h : Heap) (d : Deque) (value : Int) : Option (Heap × Deque) := do
  let d := { d with el_size_ := d.el_size_ + 1 }
  if d.size_ = 0 then
    let (h1, d1) ← Init h d
    let h2 ← h1.storeSlot d1.l_edge_ d1.lcounter_ value
    pure (h2, d1)
  else if d.lcounter_ > 0 then
    let d := { d with lcounter_ := sub64 d.lcounter_ 1 }
    let h1 ← h.storeSlot d.l_edge_ d.lcounter_ value
    pure (h1, d)
  else
    let le ← h.deref d.l_edge_
    if le.left = d.r_edge_ then
      let (h1, d1) ← Relocate h d
      advanceLeft h1 d1 value
    else
      advanceLeft h d value

/-- The method `PopFront`. -/
def PopFront (h : Heap) (d : Deque) : Option (Heap × Deque) := do
  let d := { d with el_size_ := sub64 d.el_size_ 1 }
  if d.el_size_ = 0 then
    Delete h d
  else if d.lcounter_ < 127 then
    let h1 ← h.storeSlot d.l_edge_ d.lcounter_ 0
    pure (h1, { d with lcounter_ := d.lcounter_ + 1 })
  else
    let h1 ← h.dropArr d.l_edge_
    let le ← h1.deref d.l_edge_
    let d1 := { d with l_edge_ := le.right }
    let d2 := if d1.ind_of_begin_ = sub64 d1.size_ 1 then { d1 with ind_of_begin_ := 0 }
              else { d1 with ind_of_begin_ := d1.ind_of_begin_ + 1 }
    pure (h1, { d2 with lcounter_ := 0 })

/-- Inner loop of the copy operations: `for (int j = 0; j < 128; ++j) dst->arr[j] = src->arr[j];`.
-/
def copySlots (src dst : Option Nat) (h : Heap) : Option Heap :=
  forRange (fun j hp => (hp.loadSlot src j).bind fun v => hp.storeSlot dst j v) 0 128 h

/-- Body of the last loop of the copy operations for the table index `i`, on the store and the
members of the deque under construction: the array of `rhs.main_array_[i]` is copied into
`new_array[i]` if there is one, and the edges are set when `rhs.main_array_[i]` is an edge of
`rhs`. -/
def copyBlock (rhs : Deque) (t : List Nat) (i : Nat) (st : Heap × Deque) : Option (Heap × Deque) :=
  do
  let src ← (rhs.main_array_.getD [])[i]?
  let b ← st.1.cells src
  let h1 ← if b.arr ≠ none then do
      let dst ← t[i]?
      let h0 ← RingBufferElement.FillArray st.1 (some dst)
      copySlots (some src) (some dst) h0
    else some st.1
  let d1 ← if some src = rhs.l_edge_ then (t[i]?).map fun dst => { st.2 with l_edge_ := some dst }
    else some st.2
  let d2 ← if some src = rhs.r_edge_ then (t[i]?).map fun dst => { d1 with r_edge_ := some dst }
    else some d1
  pure (h1, d2)

/-- The statements of the copy operations that link the `n` blocks of the new table `t` into a
ring: the loop over the inner entries, then the assignments for the first and the last entry. -/
def linkCopy (t : List Nat) (n : Nat) (h : Heap) : Option Heap := do
  let h2 ← forRange (linkBoth t) 1 (sub64 n 1) h
  let first ← t[0]?
  let last ← t[sub64 n 1]?
  let h3 ← h2.setLeft (some first) (some last)
  let h4 ← h3.setRight (some last) (some first)
  if n > 1 then
    let second ← t[1]?
    let h5 ← h4.setRight (some first) (some second)
    let beforeLast ← t[sub64 n 2]?
    h5.setLeft (some last) (some beforeLast)
  else
    some h4

/-- The common body of the copy constructor and the copy assignment, entered with the members
`this` of the destination. -/
def copyFrom (h : Heap) (this rhs : Deque) : Option (Heap × Deque) := do
  let d := { this with ind_of_begin_ := rhs.ind_of_begin_, el_size_ := rhs.el_size_,
                       size_ := rhs.size_, lcounter_ := rhs.lcounter_,
                       rcounter_ := rhs.rcounter_ }
  if d.size_ > 0 then
    let r := allocMany d.size_ h
    let h5 ← linkCopy r.2 d.size_ r.1
    let r6 ← forRange (copyBlock rhs r.2) 0 d.size_ (h5, d)
    pure (r6.1, { r6.2 with main_array_ := some r.2 })
  else
    pure (h, d)

/-- The copy constructor `Deque(const Deque& rhs)`: the members are initialised as in the default
constructor, then the copy is made. -/
def copyCtor (h : Heap) (rhs : Deque) : Option (Heap × Deque) :=
  copyFrom h Deque.new rhs

/-- The copy assignment `*this = rhs`; `same` tells whether `this == &rhs`. -/
def copyAssign (h : Heap) (this rhs : Deque) (same : Bool) : Option (Heap × Deque) :=
  if same then some (h, this)
  else do
    let r ← Delete h this
    copyFrom r.1 r.2 rhs

/-- Address computation of `operator[]`: the block and the slot of the `int&` it returns. -/
def slotOf (d : Deque) (ind : Nat) : Option (Nat × Nat) :=
  if d.lcounter_ + ind ≤ 127 then
    d.l_edge_.map fun a => (a, d.lcounter_ + ind)
  else
    let ind := sub64 ind (sub64 128 d.lcounter_)
    match d.main_array_ with
    | none => none
    | some t =>
      let curr := if d.ind_of_begin_ = sub64 d.size_ 1 then 0 else d.ind_of_begin_ + 1
      let steps := ind / 128
      let curr :=
        if sub64 (sub64 d.size_ 1) curr ≥ steps then curr + steps
        else
          let bebra := sub64 (sub64 d.size_ 1) curr + 1
          0 + sub64 steps bebra
      (t[curr]?).map fun a => (a, ind % 128)

/-- Value of `operator[](ind)` (read through the returned reference). -/
def get (h : Heap) (d : Deque) (ind : Nat) : Option Int :=
  match slotOf d ind with
  | none => none
  | some (a, i) => h.loadSlot (some a) i

/-- The method `Size`. -/
def Size (d : Deque) : Nat := d.el_size_

end Deque

/-! ## Sequences of operations and their list semantics -/

/-- The four end operations. -/
inductive Op where
  | pushBack (v : Int)
  | pushFront (v : Int)
  | popBack
  | popFront
  deriving DecidableEq

/-- One operation on the deque. -/
def Op.apply (o : Op) (h : Heap) (d : Deque) : Option (Heap × Deque) :=
  match o with
  | .pushBack v => d.PushBack h v
  | .pushFront v => d.PushFront h v
  | .popBack => d.PopBack h
  | .popFront => d.PopFront h

/-- A sequence of operations, executed from left to right. -/
def runOps : List Op → Heap → Deque → Option (Heap × Deque)
  | [], h, d => some (h, d)
  | o :: os, h, d =>
    match o.apply h d with
    | none => none
    | some (h1, d1) => runOps os h1 d1

/-- One operation on the abstract list: `PushBack` appends, `PushFront` prepends, `PopBack`
removes the last and `PopFront` the first element; a pop of the empty list is not allowed. -/
def Op.onList (o : Op) (l : List Int) : Option (List Int) :=
  match o with
  | .pushBack v => some (l ++ [v])
  | .pushFront v => some (v :: l)
  | .popBack => if l = [] then none else some l.dropLast
  | .popFront => if l = [] then none else some l.tail

/-- Replay of a sequence of operations on the abstract list. -/
def replay : List Op → List Int → Option (List Int)
  | [], l => some l
  | o :: os, l =>
    match o.onList l with
    | none => none
    | some l1 => replay os l1

/-- Number of pushes in a sequence. -/
def pushCount (ops : List Op) : Nat :=
  (ops.filter fun o => match o with
    | .pushBack _ => true
    | .pushFront _ => true
    | _ => false).length

/-- Number of pops in a sequence. -/
def popCount (ops : List Op) : Nat :=
  (ops.filter fun o => match o with
    | .popBack => true
    | .popFront => true
    | _ => false).length

/-! ## Representation invariant of the deque -/

/-- Index `x` below `2 * n` reduced into a ring of `n` table entries. -/
def wrap (n x : Nat) : Nat := if x < n then x else x - n

/-- The block pointer stored in entry `i` of the table `t`. -/
def entry (t : List Nat) (i : Nat) : Nat := t.getD i 0

/-- Entry `i` of the table `t` of `n` blocks is a live block whose links point to the neighbouring
table entries, cyclically. -/
def LinkedAt (g : Heap) (t : List Nat) (n i : Nat) : Prop :=
  ∃ b, g.cells (entry t i) = some b ∧ b.left = some (entry t (wrap n (i + n - 1))) ∧
    b.right = some (entry t (wrap n (i + 1)))

/-- The store `g` differs from `h` at most in the links of blocks of the table `t`: same
allocation state, same arrays everywhere, and identical blocks outside `t`. -/
def Relinked (t : List Nat) (h g : Heap) : Prop :=
  g.next = h.next ∧ (∀ a, (g.cells a).map (·.arr) = (h.cells a).map (·.arr)) ∧
    ∀ a, a ∉ t → g.cells a = h.cells a

/-- Footprint of an operation on a deque with table `t` that leads from the store `h` to `g`:
blocks are only added, and every block that existed before and is not in `t` is untouched. -/
def Heap.Frame (t : List Nat) (h g : Heap) : Prop :=
  h.next ≤ g.next ∧ ∀ a, a < h.next → a ∉ t → g.cells a = h.cells a

namespace Deque

/-- The table of block pointers as a list (empty for `nullptr`). -/
def tableOf (d : Deque) : List Nat := d.main_array_.getD []

/-- Address of the block that holds the element with logical index `p`: the block
`(lcounter_ + p) / 128` places after the begin block in the table, cyclically. -/
def blockAt (d : Deque) (t : List Nat) (p : Nat) : Nat :=
  entry t (wrap d.size_ (d.ind_of_begin_ + (d.lcounter_ + p) / 128))

/-- Slot, inside its block, of the element with logical index `p`. -/
def slotAt (d : Deque) (p : Nat) : Nat := (d.lcounter_ + p) % 128

/-- Structural part of the invariant of a deque that holds `m > 0` elements and whose table is `t`:
the table entries are distinct live blocks linked into one ring in table order, the left edge is
the begin entry, the right edge is the block of the last element, exactly the blocks from the left
to the right edge own an array (of 128 slots), and the counters are the slots of the first and the
last element. -/
structure Shape (h : Heap) (d : Deque) (t : List Nat) (m : Nat) : Prop where
  table : d.main_array_ = some t
  len : t.length = d.size_
  nodup : t.Nodup
  fresh : ∀ a ∈ t, a < h.next
  count : d.el_size_ = m
  pos : 0 < m
  begin_lt : d.ind_of_begin_ < d.size_
  lc_lt : d.lcounter_ < 128
  cap : d.lcounter_ + m ≤ 128 * d.size_
  rc : d.rcounter_ = (d.lcounter_ + m - 1) % 128
  ledge : d.l_edge_ = some (entry t d.ind_of_begin_)
  redge : d.r_edge_
    = some (entry t (wrap d.size_ (d.ind_of_begin_ + (d.lcounter_ + m - 1) / 128)))
  links : ∀ i, i < d.size_ → LinkedAt h t d.size_ i
  arrs : ∀ j, j < d.size_ →
    ∃ b, h.cells (entry t (wrap d.size_ (d.ind_of_begin_ + j))) = some b ∧
      b.arr.map List.length = if j ≤ (d.lcounter_ + m - 1) / 128 then some 128 else none

/-- The table that `Relocate` builds from the table `t`: the old entries in ring order starting at
the begin entry, then as many fresh addresses. -/
def relocTable (h : Heap) (d : Deque) (t : List Nat) : List Nat :=
  (List.range' 0 d.size_).map (fun x => entry t (wrap d.size_ (d.ind_of_begin_ + x)))
    ++ List.range' h.next d.size_

/-- The members after `Relocate` installed the table `t1`. -/
def relocated (d : Deque) (t1 : List Nat) : Deque :=
  { d with size_ := 2 * d.size_, main_array_ := some t1, ind_of_begin_ := 0 }

/-- The members of a deque that holds a single element in a single block at address `a`:
table `[a]`, both edges `a`, both counters 0. -/
def single (a : Nat) : Deque :=
  { ind_of_begin_ := 0, el_size_ := 1, size_ := 1, main_array_ := some [a],
    l_edge_ := some a, r_edge_ := some a, lcounter_ := 0, rcounter_ := 0 }

/-- The store after a push of `v` on an empty deque: one more block, at the fresh address, linked
to itself, with `v` in slot 0 of its zeroed array. -/
def withSingle (h : Heap) (v : Int) : Heap :=
  ⟨fun x => if x = h.next then
      some ⟨some h.next, some h.next, some ((List.replicate 128 0).set 0 v)⟩
    else h.cells x, h.next + 1⟩

/-- The slots of the deque hold the elements of `l`, front to back. -/
def Content (h : Heap) (d : Deque) (t : List Nat) (l : List Int) : Prop :=
  ∀ p, p < l.length → h.loadSlot (some (blockAt d t p)) (slotAt d p) = l[p]?

/-- The deque `d` in the store `h` represents the list `l`: an empty list is represented by the
default-constructed state, a non-empty one by a well-shaped ring with the right contents. -/
def Models (h : Heap) (d : Deque) (l : List Int) : Prop :=
  (l = [] ∧ d = Deque.new) ∨ ∃ t, Shape h d t l.length ∧ Content h d t l

end Deque

/-- A sequence of operations on two deques that live in the same store; an operation tagged
`true` is applied to the first deque, one tagged `false` to the second. -/
def runOps2 : List (Bool × Op) → Heap → Deque → Deque → Option (Heap × Deque × Deque)
  | [], h, a, d => some (h, a, d)
  | (true, o) :: os, h, a, d =>
    match o.apply h a with
    | none => none
    | some (h1, a1) => runOps2 os h1 a1 d
  | (false, o) :: os, h, a, d =>
    match o.apply h d with
    | none => none
    | some (h1, d1) => runOps2 os h1 a d1

/-- Replay of a tagged sequence on two abstract lists. -/
def replay2 : List (Bool × Op) → List Int → List Int → Option (List Int × List Int)
  | [], la, ld => some (la, ld)
  | (true, o) :: os, la, ld =>
    match o.onList la with
    | none => none
    | some la1 => replay2 os la1 ld
  | (false, o) :: os, la, ld =>
    match o.onList ld with
    | none => none
    | some ld1 => replay2 os la ld1

/-- The operations `PushBack(1), PushBack(2), ..., PushBack(n)`. -/
def pushUpTo (n : Nat) : List Op :=
  (List.range n).map fun (i : Nat) => Op.pushBack ((i : Int) + 1)

/-! ## Shared and weak pointers

Control blocks live in their own store.  An `int` counter is an integer; an increment of a
counter that holds `INT_MAX` is a signed overflow and has no defined result.  The store keeps a
log of the objects whose destructor has run, so that theorems can count destructions. -/

/-- The largest value of an `int`, a 32-bit two's-complement integer. -/
def INT_MAX : Int := 2147483647

/-- Address of an object a `T*` can point to: a separately allocated object, or the in-place
storage `holder_` of the control block at address `block`. -/
inductive Addr where
  | raw (n : Nat)
  | holder (block : Nat)
  deriving DecidableEq

/-- The exception type `BadWeakPtr`. -/
inductive BadWeakPtr where
  | mk
  deriving DecidableEq

/-- Conversion of an `int` to `size_t`: a negative value wraps around modulo `2 ^ 64`. -/
def toSizeT (x : Int) : Nat := if 0 ≤ x then x.toNat else (x + 2 ^ 64).toNat

/-- Data members of `PointerControlBlock<T>`. -/
structure PointerControlBlock where
  ptr_ : Option Addr
  destroyed_ : Bool
  strong_counter_ : Int
  weak_counter_ : Int
  deriving DecidableEq

/-- Data members of `ControlBlock<T>`; the storage `holder_` is addressed as `Addr.holder` of the
block's own address. -/
structure ControlBlock where
  destroyed_ : Bool
  strong_counter_ : Int
  weak_counter_ : Int
  deriving DecidableEq

/-- An object of a class derived from `BaseBlock`. -/
inductive BaseBlock where
  | pointer (b : PointerControlBlock)
  | inplace (b : ControlBlock)
  deriving DecidableEq

/-- The store of control blocks: `blocks a` is the live control block at address `a`, `next` the
first address never handed out, and `destroyed` the log of pointee destructions (`delete p` and
explicit destructor calls), oldest first. -/
structure Store where
  blocks : Nat → Option BaseBlock
  next : Nat
  destroyed : List Addr

namespace Store

/-- The store without any control block. -/
def empty : Store := ⟨fun _ => none, 0, []⟩

/-- Overwrite the control block at address `a`. -/
def setBlock (s : Store) (a : Nat) (b : BaseBlock) : Store :=
  { s with blocks := fun x => if x = a then some b else s.blocks x }

/-- Release the memory of the control block at address `a`. -/
def freeBlock (s : Store) (a : Nat) : Store :=
  { s with blocks := fun x => if x = a then none else s.blocks x }

/-- The expression `new B(...)` for a control block with initial value `b`. -/
def allocBlock (s : Store) (b : BaseBlock) : Store × Nat :=
  ({ s with blocks := fun x => if x = s.next then some b else s.blocks x, next := s.next + 1 },
    s.next)

/-- The statement `delete p` for an object pointer `p` (no effect for `nullptr`), or an explicit
destructor call: the destruction is logged. -/
def destroyObj (s : Store) (p : Option Addr) : Store :=
  match p with
  | none => s
  | some a => { s with destroyed := s.destroyed ++ [a] }

end Store

namespace PointerControlBlock

/-- The constructor `PointerControlBlock(T* ptr)`. -/
def new (ptr : Option Addr) : PointerControlBlock :=
  { ptr_ := ptr, destroyed_ := false, strong_counter_ := 1, weak_counter_ := 0 }

/-- The destructor `~PointerControlBlock` of the block `b`. -/
def dtor (s : Store) (b : PointerControlBlock) : Store :=
  if !b.destroyed_ then s.destroyObj b.ptr_ else s

/-- The method `IfZeroWeak`: `delete this`. -/
def IfZeroWeak (s : Store) (a : Nat) (b : PointerControlBlock) : Store :=
  (dtor s b).freeBlock a

/-- The method `IfZeroStrong`. -/
def IfZeroStrong (s : Store) (a : Nat) (b : PointerControlBlock) : Store :=
  if !b.destroyed_ then (s.destroyObj b.ptr_).setBlock a (.pointer { b with destroyed_ := true })
  else s

/-- The method `DecreaseWeak` of the block `b` living at address `a`. -/
def DecreaseWeak (s : Store) (a : Nat) (b : PointerControlBlock) : Store :=
  let b1 := { b with weak_counter_ := b.weak_counter_ - 1 }
  let s1 := s.setBlock a (.pointer b1)
  if b1.weak_counter_ = 0 ∧ b1.strong_counter_ = 0 then IfZeroWeak s1 a b1
  else if b1.strong_counter_ = 0 then IfZeroStrong s1 a b1
  else s1

/-- The method `DecreaseStrong` of the block `b` living at address `a`. -/
def DecreaseStrong (s : Store) (a : Nat) (b : PointerControlBlock) : Store :=
  let b1 := { b with strong_counter_ := b.strong_counter_ - 1 }
  let s1 := s.setBlock a (.pointer b1)
  if b1.weak_counter_ = 0 ∧ b1.strong_counter_ = 0 then IfZeroWeak s1 a b1
  else if b1.strong_counter_ = 0 then IfZeroStrong s1 a b1
  else s1

/-- The method `IncreaseWeak`: `++weak_counter_` overflows when the counter is `INT_MAX`. -/
def IncreaseWeak (s : Store) (a : Nat) (b : PointerControlBlock) : Option Store :=
  if b.weak_counter_ < INT_MAX then
    some (s.setBlock a (.pointer { b with weak_counter_ := b.weak_counter_ + 1 }))
  else none

/-- The method `IncreaseStrong`: `++strong_counter_` overflows when the counter is `INT_MAX`. -/
def IncreaseStrong (s : Store) (a : Nat) (b : PointerControlBlock) : Option Store :=
  if b.strong_counter_ < INT_MAX then
    some (s.setBlock a (.pointer { b with strong_counter_ := b.strong_counter_ + 1 }))
  else none

/-- The method `GetStrongQ`. -/
def GetStrongQ (b : PointerControlBlock) : Int := b.strong_counter_

/-- The method `GetWeakQ`. -/
def GetWeakQ (b : PointerControlBlock) : Int := b.weak_counter_

end PointerControlBlock

namespace ControlBlock

/-- The constructors of `ControlBlock<T>`; the value is constructed in `holder_`. -/
def new : ControlBlock :=
  { destroyed_ := false, strong_counter_ := 1, weak_counter_ := 0 }

/-- The destructor `~ControlBlock` of the block `b` living at address `a`. -/
def dtor (s : Store) (a : Nat) (b : ControlBlock) : Store :=
  if !b.destroyed_ then
    (s.destroyObj (some (Addr.holder a))).setBlock a (.inplace { b with destroyed_ := true })
  else s

/-- The method `IfZeroWeak`: `delete this`. -/
def IfZeroWeak (s : Store) (a : Nat) (b : ControlBlock) : Store :=
  (dtor s a b).freeBlock a

/-- The method `IfZeroStrong`. -/
def IfZeroStrong (s : Store) (a : Nat) (b : ControlBlock) : Store :=
  if !b.destroyed_ then
    (s.destroyObj (some (Addr.holder a))).setBlock a (.inplace { b with destroyed_ := true })
  else s

/-- The method `DecreaseWeak` of the block `b` living at address `a`. -/
def DecreaseWeak (s : Store) (a : Nat) (b : ControlBlock) : Store :=
  let b1 := { b with weak_counter_ := b.weak_counter_ - 1 }
  let s1 := s.setBlock a (.inplace b1)
  if b1.weak_counter_ = 0 ∧ b1.strong_counter_ = 0 then IfZeroWeak s1 a b1
  else if b1.strong_counter_ = 0 then IfZeroStrong s1 a b1
  else s1

/-- The method `DecreaseStrong` of the block `b` living at address `a`. -/
def DecreaseStrong (s : Store) (a : Nat) (b : ControlBlock) : Store :=
  let b1 := { b with strong_counter_ := b.strong_counter_ - 1 }
  let s1 := s.setBlock a (.inplace b1)
  if b1.weak_counter_ = 0 ∧ b1.strong_counter_ = 0 then IfZeroWeak s1 a b1
  else if b1.strong_counter_ = 0 then IfZeroStrong s1 a b1
  else s1

/-- The method `IncreaseStrong`: `++strong_counter_` overflows when the counter is `INT_MAX`. -/
def IncreaseStrong (s : Store) (a : Nat) (b : ControlBlock) : Option Store :=
  if b.strong_counter_ < INT_MAX then
    some (s.setBlock a (.inplace { b with strong_counter_ := b.strong_counter_ + 1 }))
  else none

/-- The method `IncreaseWeak`: `++weak_counter_` overflows when the counter is `INT_MAX`. -/
def IncreaseWeak (s : Store) (a : Nat) (b : ControlBlock) : Option Store :=
  if b.weak_counter_ < INT_MAX then
    some (s.setBlock a (.inplace { b with weak_counter_ := b.weak_counter_ + 1 }))
  else none

/-- The method `GetStrongQ`. -/
def GetStrongQ (b : ControlBlock) : Int := b.strong_counter_

/-- The method `GetWeakQ`, which returns `strong_counter_` in the source. -/
def GetWeakQ (b : ControlBlock) : Int := b.strong_counter_

end ControlBlock

namespace BaseBlock

/-- Virtual call `p->DecreaseWeak()`; the block at `p` must be live. -/
def DecreaseWeak (s : Store) (p : Nat) : Option Store :=
  match s.blocks p with
  | none => none
  | some (.pointer b) => some (PointerControlBlock.DecreaseWeak s p b)
  | some (.inplace b) => some (ControlBlock.DecreaseWeak s p b)

/-- Virtual call `p->DecreaseStrong()`. -/
def DecreaseStrong (s : Store) (p : Nat) : Option Store :=
  match s.blocks p with
  | none => none
  | some (.pointer b) => some (PointerControlBlock.DecreaseStrong s p b)
  | some (.inplace b) => some (ControlBlock.DecreaseStrong s p b)

/-- Virtual call `p->IncreaseStrong()`. -/
def IncreaseStrong (s : Store) (p : Nat) : Option Store :=
  match s.blocks p with
  | none => none
  | some (.pointer b) => PointerControlBlock.IncreaseStrong s p b
  | some (.inplace b) => ControlBlock.IncreaseStrong s p b

/-- Virtual call `p->IncreaseWeak()`. -/
def IncreaseWeak (s : Store) (p : Nat) : Option Store :=
  match s.blocks p with
  | none => none
  | some (.pointer b) => PointerControlBlock.IncreaseWeak s p b
  | some (.inplace b) => ControlBlock.IncreaseWeak s p b

/-- Virtual call `p->GetStrongQ()`. -/
def GetStrongQ (s : Store) (p : Nat) : Option Int :=
  match s.blocks p with
  | none => none
  | some (.pointer b) => some b.GetStrongQ
  | some (.inplace b) => some b.GetStrongQ

/-- Virtual call `p->GetWeakQ()`. -/
def GetWeakQ (s : Store) (p : Nat) : Option Int :=
  match s.blocks p with
  | none => none
  | some (.pointer b) => some b.GetWeakQ
  | some (.inplace b) => some b.GetWeakQ

end BaseBlock

/-- Data members of `SharedPtr<T>`. -/
structure SharedPtr where
  alias_ptr_ : Option Addr
  control_block_ : Option Nat
  if_pointer_type_ : Bool
  deriving DecidableEq

/-- Data members of `WeakPtr<T>`. -/
structure WeakPtr where
  if_pointer_type_ : Bool
  control_block_ : Option Nat
  deriving DecidableEq

namespace WeakPtr

/-- The constructor `WeakPtr()`. -/
def new : WeakPtr := { if_pointer_type_ := false, control_block_ := none }

/-- The copy constructor `WeakPtr(const WeakPtr& other)`. -/
def copy (s : Store) (other : WeakPtr) : Option (Store × WeakPtr) :=
  match other.control_block_ with
  | none => some (s, { if_pointer_type_ := other.if_pointer_type_, control_block_ := none })
  | some a =>
    (BaseBlock.IncreaseWeak s a).map fun s1 =>
      (s1, { if_pointer_type_ := other.if_pointer_type_, control_block_ := some a })

/-- The move constructor `WeakPtr(WeakPtr&& other)`: the new pointer and the moved-from one. -/
def move (other : WeakPtr) : WeakPtr × WeakPtr :=
  ({ if_pointer_type_ := other.if_pointer_type_, control_block_ := other.control_block_ },
    { other with control_block_ := none })

/-- The constructor `WeakPtr(const SharedPtr<T>& other)`. -/
def ofShared (s : Store) (other : SharedPtr) : Option (Store × WeakPtr) :=
  match other.control_block_ with
  | none => some (s, { if_pointer_type_ := other.if_pointer_type_, control_block_ := none })
  | some a =>
    (BaseBlock.IncreaseWeak s a).map fun s1 =>
      (s1, { if_pointer_type_ := other.if_pointer_type_, control_block_ := some a })

/-- The destructor `~WeakPtr`. -/
def dtor (s : Store) (w : WeakPtr) : Option Store :=
  match w.control_block_ with
  | none => some s
  | some a => BaseBlock.DecreaseWeak s a

/-- The method `WeakPtr::Reset`. -/
def Reset (s : Store) (w : WeakPtr) : Option (Store × WeakPtr) :=
  match w.control_block_ with
  | none => some (s, { w with control_block_ := none })
  | some a => (BaseBlock.DecreaseWeak s a).map fun s1 => (s1, { w with control_block_ := none })

/-- The method `WeakPtr::UseCount`. -/
def UseCount (s : Store) (w : WeakPtr) : Option Nat :=
  match w.control_block_ with
  | none => some 0
  | some a => (BaseBlock.GetStrongQ s a).map toSizeT

/-- The method `WeakPtr::Expired`. -/
def Expired (s : Store) (w : WeakPtr) : Option Bool :=
  match w.control_block_ with
  | some a => (BaseBlock.GetStrongQ s a).map fun q => decide (q = 0)
  | none => some true

end WeakPtr

namespace SharedPtr

/-- The constructors `SharedPtr()` and `SharedPtr(std::nullptr_t)`. -/
def new : SharedPtr := { alias_ptr_ := none, control_block_ := none, if_pointer_type_ := false }

/-- The constructor `SharedPtr(U* ptr)` for a `U` that is `T` or derived from `T`: a
`PointerControlBlock` is created for `ptr`. -/
def ofRaw (s : Store) (ptr : Option Addr) : Store × SharedPtr :=
  let r := s.allocBlock (.pointer (PointerControlBlock.new ptr))
  (r.1, { alias_ptr_ := none, control_block_ := some r.2, if_pointer_type_ := true })

/-- The copy constructor `SharedPtr(const SharedPtr& other)`. -/
def copy (s : Store) (other : SharedPtr) : Option (Store × SharedPtr) :=
  match other.control_block_ with
  | none =>
    some (s, { alias_ptr_ := other.alias_ptr_, control_block_ := none,
               if_pointer_type_ := other.if_pointer_type_ })
  | some a =>
    (BaseBlock.IncreaseStrong s a).map fun s1 =>
      (s1, { alias_ptr_ := other.alias_ptr_, control_block_ := some a,
             if_pointer_type_ := other.if_pointer_type_ })

/-- The move constructor `SharedPtr(SharedPtr&& other)`: the new pointer and the moved-from
one. -/
def move (other : SharedPtr) : SharedPtr × SharedPtr :=
  ({ alias_ptr_ := other.alias_ptr_, control_block_ := other.control_block_,
     if_pointer_type_ := other.if_pointer_type_ },
    { other with control_block_ := none, alias_ptr_ := none })

/-- The copy assignment `*this = other`; `same` tells whether `this == &other`. -/
def assign (s : Store) (this other : SharedPtr) (same : Bool) : Option (Store × SharedPtr) :=
  if same then some (s, this)
  else do
    let this1 := { this with if_pointer_type_ := other.if_pointer_type_ }
    let s1 ← match this1.control_block_ with
      | none => some s
      | some a => BaseBlock.DecreaseStrong s a
    let this2 := { this1 with control_block_ := other.control_block_ }
    let s2 ← match this2.control_block_ with
      | none => some s1
      | some a => BaseBlock.IncreaseStrong s1 a
    pure (s2, { this2 with alias_ptr_ := other.alias_ptr_ })

/-- The destructor `~SharedPtr`. -/
def dtor (s : Store) (p : SharedPtr) : Option Store :=
  match p.control_block_ with
  | none => some s
  | some a => BaseBlock.DecreaseStrong s a

/-- The method `Reset()`. -/
def Reset (s : Store) (p : SharedPtr) : Option (Store × SharedPtr) := do
  let s1 ← match p.control_block_ with
    | none => some s
    | some a => BaseBlock.DecreaseStrong s a
  let s2 := s1.destroyObj p.alias_ptr_
  pure (s2, { p with alias_ptr_ := none, control_block_ := none })

/-- The method `Get`.  The `dynamic_cast` to the block class selected by `if_pointer_type_`
yields `nullptr` for a block of the other class, and the call through it is undefined. -/
def Get (s : Store) (p : SharedPtr) : Option (Option Addr) :=
  match p.alias_ptr_ with
  | some x => some (some x)
  | none =>
    match p.control_block_ with
    | none => some none
    | some a =>
      match s.blocks a with
      | none => none
      | some (.pointer b) => if p.if_pointer_type_ then some b.ptr_ else none
      | some (.inplace _) => if p.if_pointer_type_ then none else some (some (Addr.holder a))

/-- The method `UseCount`. -/
def UseCount (s : Store) (p : SharedPtr) : Option Nat :=
  match p.control_block_ with
  | none => some 0
  | some a => (BaseBlock.GetStrongQ s a).map toSizeT

/-- The comparison `operator==`. -/
def eq (left right : SharedPtr) : Bool := left.control_block_ == right.control_block_

/-- The function `MakeShared<T>(args...)`. -/
def MakeShared (s : Store) : Store × SharedPtr :=
  let sp := { SharedPtr.new with if_pointer_type_ := false }
  let r := s.allocBlock (.inplace ControlBlock.new)
  (r.1, { sp with control_block_ := some r.2 })

/-- Result of the constructor `SharedPtr(const WeakPtr<T>&)`: the new pointer, or the exception
`BadWeakPtr`; in both cases with the store the constructor leaves behind. -/
inductive Promoted where
  | ok (s : Store) (p : SharedPtr)
  | threw (e : BadWeakPtr) (s : Store)

/-- The constructor `SharedPtr(const WeakPtr<T>& other)`. -/
def ofWeak (s : Store) (other : WeakPtr) : Option Promoted :=
  match other.Expired s with
  | none => none
  | some false =>
    match other.control_block_ with
    | none =>
      some (.ok s { alias_ptr_ := none, control_block_ := none,
                    if_pointer_type_ := other.if_pointer_type_ })
    | some a =>
      (BaseBlock.IncreaseStrong s a).map fun s1 =>
        .ok s1 { alias_ptr_ := none, control_block_ := some a,
                 if_pointer_type_ := other.if_pointer_type_ }
  | some true => some (.threw BadWeakPtr.mk s)

end SharedPtr

/-- The method `WeakPtr::Lock`. -/
def WeakPtr.Lock (s : Store) (w : WeakPtr) : Option (Store × SharedPtr) :=
  match w.Expired s with
  | none => none
  | some true => some (s, SharedPtr.new)
  | some false =>
    match w.control_block_ with
    | none => none
    | some a =>
      (BaseBlock.IncreaseStrong s a).map fun s1 =>
        (s1, { SharedPtr.new with control_block_ := some a,
                                  if_pointer_type_ := w.if_pointer_type_ })

/-- The statement `SharedPtr q(p);` executed `k` times: the final store and the copies, in the
order of their creation. -/
def SharedPtr.copies (p : SharedPtr) : Nat → Store → Option (Store × List SharedPtr)
  | 0, s => some (s, [])
  | k + 1, s =>
    match SharedPtr.copy s p with
    | none => none
    | some (s1, q) => (SharedPtr.copies p k s1).map fun r => (r.1, q :: r.2)

/-! ## Runs of pointer operations around one control block -/

/-- What the pointers can observe of a control block: the two counters, the `destroyed_` flag and
the object the block owns. -/
structure BlockView where
  strong : Int
  weak : Int
  destroyed : Bool
  pointee : Option Addr
  deriving DecidableEq

/-- The view of a control block living at address `a`. -/
def BaseBlock.view (a : Nat) : BaseBlock → BlockView
  | .pointer b => ⟨b.strong_counter_, b.weak_counter_, b.destroyed_, b.ptr_⟩
  | .inplace b => ⟨b.strong_counter_, b.weak_counter_, b.destroyed_, some (Addr.holder a)⟩

/-- The view of the block at address `a`, if it is live. -/
def Store.view (s : Store) (a : Nat) : Option BlockView := (s.blocks a).map (BaseBlock.view a)

/-- The live `SharedPtr` and `WeakPtr` objects of a program together with the store. -/
structure World where
  store : Store
  shared : List SharedPtr
  weak : List WeakPtr

/-- Operations on the live pointers, addressed by their position in the world. -/
inductive PtrOp where
  /-- Statement `SharedPtr q(p_i);`. -/
  | copyShared (i : Nat)
  /-- Statement `SharedPtr q(std::move(p_i));`. -/
  | moveShared (i : Nat)
  /-- The destructor of `p_i` runs; the object is gone afterwards. -/
  | destroyShared (i : Nat)
  /-- Statement `WeakPtr w(p_i);`. -/
  | weakOfShared (i : Nat)
  /-- Statement `WeakPtr v(w_j);`. -/
  | copyWeak (j : Nat)
  /-- Statement `WeakPtr v(std::move(w_j));`. -/
  | moveWeak (j : Nat)
  /-- The destructor of `w_j` runs. -/
  | destroyWeak (j : Nat)
  /-- Statement `SharedPtr q = w_j.Lock();`. -/
  | lock (j : Nat)
  /-- Statement `SharedPtr q(w_j);`, which may throw. -/
  | promote (j : Nat)
  deriving DecidableEq

/-- One operation; an operation that names no live pointer does nothing. -/
def PtrOp.step (o : PtrOp) (w : World) : Option World :=
  match o with
  | .copyShared i =>
    match w.shared[i]? with
    | none => some w
    | some p => (SharedPtr.copy w.store p).map fun r =>
        { w with store := r.1, shared := w.shared ++ [r.2] }
  | .moveShared i =>
    match w.shared[i]? with
    | none => some w
    | some p => some { w with shared := w.shared.set i (SharedPtr.move p).2 ++ [(SharedPtr.move p).1] }
  | .destroyShared i =>
    match w.shared[i]? with
    | none => some w
    | some p => (SharedPtr.dtor w.store p).map fun s =>
        { w with store := s, shared := w.shared.eraseIdx i }
  | .weakOfShared i =>
    match w.shared[i]? with
    | none => some w
    | some p => (WeakPtr.ofShared w.store p).map fun r =>
        { w with store := r.1, weak := w.weak ++ [r.2] }
  | .copyWeak j =>
    match w.weak[j]? with
    | none => some w
    | some v => (WeakPtr.copy w.store v).map fun r =>
        { w with store := r.1, weak := w.weak ++ [r.2] }
  | .moveWeak j =>
    match w.weak[j]? with
    | none => some w
    | some v => some { w with weak := w.weak.set j (WeakPtr.move v).2 ++ [(WeakPtr.move v).1] }
  | .destroyWeak j =>
    match w.weak[j]? with
    | none => some w
    | some v => (WeakPtr.dtor w.store v).map fun s =>
        { w with store := s, weak := w.weak.eraseIdx j }
  | .lock j =>
    match w.weak[j]? with
    | none => some w
    | some v => (WeakPtr.Lock w.store v).map fun r =>
        { w with store := r.1, shared := w.shared ++ [r.2] }
  | .promote j =>
    match w.weak[j]? with
    | none => some w
    | some v =>
      match SharedPtr.ofWeak w.store v with
      | none => none
      | some (.ok s p) => some { w with store := s, shared := w.shared ++ [p] }
      | some (.threw _ s) => some { w with store := s }

/-- The world right after `SharedPtr<T> p(raw)` in the store `s`. -/
def World.ofRaw (s : Store) (raw : Addr) : World :=
  { store := (SharedPtr.ofRaw s (some raw)).1, shared := [(SharedPtr.ofRaw s (some raw)).2],
    weak := [] }

/-- The world right after `auto p = MakeShared<T>(args...)` in the store `s`. -/
def World.ofMakeShared (s : Store) : World :=
  { store := (SharedPtr.MakeShared s).1, shared := [(SharedPtr.MakeShared s).2], weak := [] }

/-- Number of shared pointers in `l` that reference the control block at `a`. -/
def sharedRefs (a : Nat) (l : List SharedPtr) : Nat :=
  l.countP fun p => p.control_block_ == some a

/-- Number of weak pointers in `l` that reference the control block at `a`. -/
def weakRefs (a : Nat) (l : List WeakPtr) : Nat :=
  l.countP fun p => p.control_block_ == some a

/-- The world has room for one more reference of each kind to the block at `a`: neither count
of references is at `INT_MAX`, the value at which the `int` counter of the block overflows. -/
def World.Room (a : Nat) (w : World) : Prop :=
  sharedRefs a w.shared < 2147483647 ∧ weakRefs a w.weak < 2147483647

namespace SharedPtr

/-- The move assignment `*this = std::move(other)`; `same` tells whether `this == &other`.  The
result is the store, `*this` and `other` after the assignment. -/
def moveAssign (s : Store) (this other : SharedPtr) (same : Bool) :
    Option (Store × SharedPtr × SharedPtr) :=
  if same then some (s, this, other)
  else do
    let this1 := { this with if_pointer_type_ := other.if_pointer_type_ }
    let s1 ← match this1.control_block_ with
      | none => some s
      | some a => BaseBlock.DecreaseStrong s a
    let this2 := { this1 with control_block_ := other.control_block_,
                              alias_ptr_ := other.alias_ptr_ }
    pure (s1, this2, { other with control_block_ := none, alias_ptr_ := none })

/-- The aliasing constructor `SharedPtr(const SharedPtr<Y>& other, T* ptr)`. -/
def aliasing (s : Store) (other : SharedPtr) (ptr : Option Addr) : Option (Store × SharedPtr) :=
  match other.control_block_ with
  | none =>
    some (s, { alias_ptr_ := ptr, control_block_ := none,
               if_pointer_type_ := other.if_pointer_type_ })
  | some a =>
    (BaseBlock.IncreaseStrong s a).map fun s1 =>
      (s1, { alias_ptr_ := ptr, control_block_ := some a,
             if_pointer_type_ := other.if_pointer_type_ })

/-- The member access `operator->`.  Unlike `Get` it has no test for a null control block: the
`dynamic_cast` of `nullptr` is `nullptr`, and the call through it is undefined. -/
def arrow (s : Store) (p : SharedPtr) : Option (Option Addr) :=
  match p.alias_ptr_ with
  | some x => some (some x)
  | none =>
    match p.control_block_ with
    | none => none
    | some a =>
      match s.blocks a with
      | none => none
      | some (.pointer b) => if p.if_pointer_type_ then some b.ptr_ else none
      | some (.inplace _) => if p.if_pointer_type_ then none else some (some (Addr.holder a))

/-- The method `Swap`: `*this` and `other` afterwards.  The three statements are
`std::swap(control_block_, other.control_block_)`, `std::swap(alias_ptr_, alias_ptr_)` and
`std::swap(if_pointer_type_, other.if_pointer_type_)`; the second one exchanges the member of
`*this` with itself. -/
def Swap (this other : SharedPtr) : SharedPtr × SharedPtr :=
  ({ alias_ptr_ := this.alias_ptr_, control_block_ := other.control_block_,
     if_pointer_type_ := other.if_pointer_type_ },
   { alias_ptr_ := other.alias_ptr_, control_block_ := this.control_block_,
     if_pointer_type_ := this.if_pointer_type_ })

end SharedPtr

/-- The scenario `SharedPtr<T> sp(q); SharedPtr<T> a(sp, p);` for raw pointers `q` and `p`: the
value of `a.Get()`. -/
def aliasGetScenario (q p : Option Addr) : Option (Option Addr) := do
  let r1 := SharedPtr.ofRaw Store.empty q
  let r2 ← SharedPtr.aliasing r1.1 r1.2 p
  r2.2.Get r2.1

/-- The scenario `SharedPtr<T> sp(q); SharedPtr<T> a(sp, p); a.Reset();`: the log of destroyed
objects, `sp.UseCount()`, `a.UseCount()` and `a.Get()` afterwards. -/
def aliasResetScenario (q p : Option Addr) : Option (List Addr × Nat × Nat × Option Addr) := do
  let r1 := SharedPtr.ofRaw Store.empty q
  let r2 ← SharedPtr.aliasing r1.1 r1.2 p
  let r3 ← r2.2.Reset r2.1
  let n ← r1.2.UseCount r3.1
  let m ← r3.2.UseCount r3.1
  let g ← r3.2.Get r3.1
  pure (r3.1.destroyed, n, m, g)

/-- The scenario `SharedPtr<T> sp(q); SharedPtr<T> a(sp, p); SharedPtr<T> b(r); a.Swap(b);`: the
values of `a.Get()`, `a.UseCount()`, `b.Get()`, `b.UseCount()` before the swap and after it. -/
def swapAliasScenario (q p r : Option Addr) :
    Option ((Option Addr × Nat × Option Addr × Nat) × (Option Addr × Nat × Option Addr × Nat)) := do
  let r1 := SharedPtr.ofRaw Store.empty q
  let r2 ← SharedPtr.aliasing r1.1 r1.2 p
  let r3 := SharedPtr.ofRaw r2.1 r
  let s := r3.1
  let ga ← r2.2.Get s
  let ua ← r2.2.UseCount s
  let gb ← r3.2.Get s
  let ub ← r3.2.UseCount s
  let sw := SharedPtr.Swap r2.2 r3.2
  let ga1 ← sw.1.Get s
  let ua1 ← sw.1.UseCount s
  let gb1 ← sw.2.Get s
  let ub1 ← sw.2.UseCount s
  pure ((ga, ua, gb, ub), (ga1, ua1, gb1, ub1))

/-! ## Intrusive pointers -/

/-- The class `SimpleCounter`. -/
structure SimpleCounter where
  count_ : Int
  deriving DecidableEq

namespace SimpleCounter

/-- The default member initialiser `count_ = 0`. -/
def new : SimpleCounter := { count_ := 0 }

/-- The method `IncRef`: the counter afterwards and the returned value; `++count_` overflows when
the counter is `INT_MAX`. -/
def IncRef (c : SimpleCounter) : Option (SimpleCounter × Int) :=
  if c.count_ < INT_MAX then some ({ count_ := c.count_ + 1 }, c.count_ + 1) else none

/-- The method `DecRef`: the counter afterwards and the returned value. -/
def DecRef (c : SimpleCounter) : SimpleCounter × Int :=
  ({ count_ := c.count_ - 1 }, c.count_ - 1)

/-- The method `RefCount`. -/
def RefCount (c : SimpleCounter) : Int := c.count_

end SimpleCounter

/-- Data members of `RefCounted<Derived, SimpleCounter, DefaultDelete>`, the base of an object
that an `IntrusivePtr` can reference; the deleter has no state. -/
structure RefCounted where
  counter_ : SimpleCounter
  deriving DecidableEq

/-- The store of reference-counted objects: `objs a` is the live object at address `a`, `next`
the first address never handed out, and `destroyed` the log of the calls of `Deleter::Destroy`,
oldest first. -/
structure ObjStore where
  objs : Nat → Option RefCounted
  next : Nat
  destroyed : List Nat

namespace ObjStore

/-- The store without any object. -/
def empty : ObjStore := ⟨fun _ => none, 0, []⟩

/-- Overwrite the object at address `a`. -/
def setObj (s : ObjStore) (a : Nat) (o : RefCounted) : ObjStore :=
  { s with objs := fun x => if x = a then some o else s.objs x }

/-- The expression `new T(args...)`: the counter of the new object is 0. -/
def allocObj (s : ObjStore) : ObjStore × Nat :=
  ({ s with objs := fun x => if x = s.next then some ⟨SimpleCounter.new⟩ else s.objs x,
            next := s.next + 1 }, s.next)

end ObjStore

/-- The function `DefaultDelete::Destroy(object)`, that is `delete object`; the call is logged. -/
def DefaultDelete.Destroy (s : ObjStore) (object : Nat) : ObjStore :=
  { s with objs := fun x => if x = object then none else s.objs x,
           destroyed := s.destroyed ++ [object] }

namespace RefCounted

/-- The method `IncRef` of the object at address `this`, which must be live. -/
def IncRef (s : ObjStore) (this : Nat) : Option ObjStore :=
  match s.objs this with
  | none => none
  | some o => o.counter_.IncRef.map fun r => s.setObj this { o with counter_ := r.1 }

/-- The method `DecRef` of the object at address `this`. -/
def DecRef (s : ObjStore) (this : Nat) : Option ObjStore :=
  match s.objs this with
  | none => none
  | some o =>
    let o1 := { o with counter_ := o.counter_.DecRef.1 }
    let s1 := s.setObj this o1
    if o1.counter_.RefCount ≤ 0 then some (DefaultDelete.Destroy s1 this) else some s1

/-- The method `RefCount` of the object at address `this`; the `int` is converted to `size_t`. -/
def RefCount (s : ObjStore) (this : Nat) : Option Nat :=
  match s.objs this with
  | none => none
  | some o => some (toSizeT o.counter_.RefCount)

end RefCounted

/-- Data member of `IntrusivePtr<T>`. -/
structure IntrusivePtr where
  ptr_ : Option Nat
  deriving DecidableEq

namespace IntrusivePtr

/-- The constructors `IntrusivePtr()` and `IntrusivePtr(std::nullptr_t)`. -/
def new : IntrusivePtr := { ptr_ := none }

/-- The constructor `IntrusivePtr(T* ptr)`; it calls `ptr->IncRef()` without a null test. -/
def ofRaw (s : ObjStore) (ptr : Option Nat) : Option (ObjStore × IntrusivePtr) :=
  match ptr with
  | none => none
  | some a => (RefCounted.IncRef s a).map fun s1 => (s1, { ptr_ := some a })

/-- The copy constructor `IntrusivePtr(const IntrusivePtr& other)`. -/
def copy (s : ObjStore) (other : IntrusivePtr) : Option (ObjStore × IntrusivePtr) :=
  match other.ptr_ with
  | none => some (s, { ptr_ := none })
  | some a => (RefCounted.IncRef s a).map fun s1 => (s1, { ptr_ := some a })

/-- The move constructor `IntrusivePtr(IntrusivePtr&& other)`: the new pointer and the moved-from
one. -/
def move (other : IntrusivePtr) : IntrusivePtr × IntrusivePtr :=
  ({ ptr_ := other.ptr_ }, { ptr_ := none })

/-- The destructor `~IntrusivePtr`. -/
def dtor (s : ObjStore) (p : IntrusivePtr) : Option ObjStore :=
  match p.ptr_ with
  | none => some s
  | some a => RefCounted.DecRef s a

/-- The method `Reset()`. -/
def Reset (s : ObjStore) (p : IntrusivePtr) : Option (ObjStore × IntrusivePtr) :=
  match p.ptr_ with
  | none => some (s, { ptr_ := none })
  | some a => (RefCounted.DecRef s a).map fun s1 => (s1, { ptr_ := none })

/-- The method `Get`. -/
def Get (p : IntrusivePtr) : Option Nat := p.ptr_

/-- The method `UseCount`. -/
def UseCount (s : ObjStore) (p : IntrusivePtr) : Option Nat :=
  match p.ptr_ with
  | none => some 0
  | some a => RefCounted.RefCount s a

/-- The function `MakeIntrusive<T>(args...)`. -/
def MakeIntrusive (s : ObjStore) : Option (ObjStore × IntrusivePtr) :=
  let r := s.allocObj
  ofRaw r.1 (some r.2)

/-- The statement `IntrusivePtr q(p);` executed `k` times: the final store and the copies, in the
order of their creation. -/
def copies (p : IntrusivePtr) : Nat → ObjStore → Option (ObjStore × List IntrusivePtr)
  | 0, s => some (s, [])
  | k + 1, s =>
    match copy s p with
    | none => none
    | some (s1, q) => (copies p k s1).map fun r => (r.1, q :: r.2)

end IntrusivePtr

/-! ## Moves of a deque -/

namespace Deque

/-- The move constructor `Deque(Deque&& rhs)`: the new deque and `rhs` afterwards. -/
def moveCtor (rhs : Deque) : Deque × Deque :=
  ({ ind_of_begin_ := rhs.ind_of_begin_, el_size_ := rhs.el_size_, size_ := rhs.size_,
     main_array_ := rhs.main_array_, l_edge_ := rhs.l_edge_, r_edge_ := rhs.r_edge_,
     lcounter_ := rhs.lcounter_, rcounter_ := rhs.rcounter_ },
   { rhs with l_edge_ := none, r_edge_ := none, main_array_ := none, lcounter_ := 0,
              rcounter_ := 0, size_ := 0, el_size_ := 0 })

/-- The move assignment `*this = std::move(rhs)`; `same` tells whether `this == &rhs`.  The result
is the store, `*this` and `rhs` afterwards. -/
def moveAssign (h : Heap) (this rhs : Deque) (same : Bool) : Option (Heap × Deque × Deque) :=
  if same then some (h, this, rhs)
  else do
    let r ← Delete h this
    let d := { r.2 with lcounter_ := rhs.lcounter_, rcounter_ := rhs.rcounter_,
                        ind_of_begin_ := rhs.ind_of_begin_, el_size_ := rhs.el_size_,
                        size_ := rhs.size_, l_edge_ := rhs.l_edge_, r_edge_ := rhs.r_edge_,
                        main_array_ := rhs.main_array_ }
    pure (r.1, d, { rhs with l_edge_ := none, r_edge_ := none, main_array_ := none,
                             lcounter_ := 0, rcounter_ := 0, size_ := 0, el_size_ := 0 })

end Deque

/-- The scenario `Deque src; src.PushBack(1); src.PushFront(2); Deque dst(std::move(src));`: the
members of `dst` and of `src` afterwards. -/
def moveCtorScenario : Option (Deque × Deque) :=
  (runOps [Op.pushBack 1, Op.pushFront 2] Heap.empty Deque.new).map fun r => Deque.moveCtor r.2

/-- The scenario `Deque src, dst; src.PushBack(1); src.PushFront(2); dst = std::move(src);`: the
members of `dst` and of `src` afterwards. -/
def moveAssignScenario : Option (Deque × Deque) :=
  match runOps [Op.pushBack 1, Op.pushFront 2] Heap.empty Deque.new with
  | none => none
  | some r => (Deque.moveAssign r.1 Deque.new r.2 false).map fun q => q.2

/-! ## Element access for writing, and the read-only access -/

namespace Deque

/-- The assignment `d[ind] = v` through the reference that the mutable `operator[]` returns. -/
def set (h : Heap) (d : Deque) (ind : Nat) (v : Int) : Option Heap :=
  match slotOf d ind with
  | none => none
  | some (a, i) => h.storeSlot (some a) i v

/-- Address computation of the read-only `operator[] const`; its statements are those of the
mutable one. -/
def slotOfConst (d : Deque) (ind : Nat) : Option (Nat × Nat) :=
  if d.lcounter_ + ind ≤ 127 then
    d.l_edge_.map fun a => (a, d.lcounter_ + ind)
  else
    let ind := sub64 ind (sub64 128 d.lcounter_)
    match d.main_array_ with
    | none => none
    | some t =>
      let curr := if d.ind_of_begin_ = sub64 d.size_ 1 then 0 else d.ind_of_begin_ + 1
      let steps := ind / 128
      let curr :=
        if sub64 (sub64 d.size_ 1) curr ≥ steps then curr + steps
        else
          let bebra := sub64 (sub64 d.size_ 1) curr + 1
          0 + sub64 steps bebra
      (t[curr]?).map fun a => (a, ind % 128)

/-- Value returned by the read-only `operator[] const`. -/
def getConst (h : Heap) (d : Deque) (ind : Nat) : Option Int :=
  match slotOfConst d ind with
  | none => none
  | some (a, i) => h.loadSlot (some a) i

end Deque

/-! ## The size constructor, `Clear`, `Swap` and worlds of several deques -/

namespace Deque

/-- The loop `while (size > 128 * size_) Relocate();`, cut off after `fuel` iterations. -/
def growTo (size : Nat) : Nat → Heap → Deque → Option (Heap × Deque)
  | 0, h, d => if size > 128 * d.size_ then none else some (h, d)
  | fuel + 1, h, d =>
    if size > 128 * d.size_ then
      match Relocate h d with
      | none => none
      | some r => growTo size fuel r.1 r.2
    else some (h, d)

/-- The constructor `Deque(size_t size)`.  Every iteration of its `while` loop doubles `size_`,
which starts at 1, so `size` iterations are never used up. -/
def ofSize (h : Heap) (size : Nat) : Option (Heap × Deque) :=
  if size = 0 then some (h, Deque.new)
  else do
    let r ← Init h Deque.new
    let r1 ← growTo size size r.1 r.2
    let needed_buffers := size / 128 + 1
    let h2 ← forRange (fun i hp => RingBufferElement.FillArray hp (r1.2.tableOf[i]?))
      0 needed_buffers r1.1
    pure (h2, { r1.2 with el_size_ := size })

/-- The method `Clear`. -/
def Clear (h : Heap) (d : Deque) : Option (Heap × Deque) := Delete h d

/-- The method `Swap`: `*this` and `rhs` afterwards. -/
def Swap (this rhs : Deque) : Deque × Deque :=
  ({ ind_of_begin_ := rhs.ind_of_begin_, el_size_ := rhs.el_size_, size_ := rhs.size_,
     main_array_ := rhs.main_array_, l_edge_ := rhs.l_edge_, r_edge_ := rhs.r_edge_,
     lcounter_ := rhs.lcounter_, rcounter_ := rhs.rcounter_ },
   { ind_of_begin_ := this.ind_of_begin_, el_size_ := this.el_size_, size_ := this.size_,
     main_array_ := this.main_array_, l_edge_ := this.l_edge_, r_edge_ := this.r_edge_,
     lcounter_ := this.lcounter_, rcounter_ := this.rcounter_ })

/-- The blocks met on the walk along `right` links that starts at `p` and ends when the block
`stop` is reached, both included; the walk is cut off after `fuel` blocks. -/
def spanWalk (h : Heap) (stop : Option Nat) : Nat → Option Nat → Option (List Nat)
  | 0, _ => none
  | fuel + 1, p =>
    match p with
    | none => none
    | some a =>
      if some a = stop then some [a]
      else
        match h.cells a with
        | none => none
        | some b => (spanWalk h stop fuel b.right).map (a :: ·)

/-- The blocks from the left edge to the right edge along `right` links; a ring of `size_` blocks
is walked for at most `size_` blocks. -/
def span (h : Heap) (d : Deque) : Option (List Nat) := spanWalk h d.r_edge_ d.size_ d.l_edge_

end Deque

/-- The four end operations and `Clear`. -/
inductive OpC where
  | op (o : Op)
  | clear
  deriving DecidableEq

/-- One operation of `OpC` on the deque `d` in the store `h`. -/
def OpC.apply (o : OpC) (h : Heap) (d : Deque) : Option (Heap × Deque) :=
  match o with
  | .op o => o.apply h d
  | .clear => Deque.Clear h d

/-- A sequence of operations of `OpC`, executed from left to right. -/
def runOpsC : List OpC → Heap → Deque → Option (Heap × Deque)
  | [], h, d => some (h, d)
  | o :: os, h, d =>
    match o.apply h d with
    | none => none
    | some (h1, d1) => runOpsC os h1 d1

/-- Effect of an operation of `OpC` on the abstract list. -/
def OpC.onList (o : OpC) (l : List Int) : Option (List Int) :=
  match o with
  | .op o => o.onList l
  | .clear => some []

/-- Replay of a sequence of operations of `OpC` on the abstract list. -/
def replayC : List OpC → List Int → Option (List Int)
  | [], l => some l
  | o :: os, l =>
    match o.onList l with
    | none => none
    | some l1 => replayC os l1

/-- The live `Deque` objects of a program together with the store of their blocks. -/
structure DequeWorld where
  heap : Heap
  deques : List Deque

/-- Public constructors and operations of `Deque`, on deques addressed by their position in the
world. -/
inductive DequeOp where
  /-- Statement `Deque d;`. -/
  | create
  /-- Statement `Deque d(n);`. -/
  | ofSize (n : Nat)
  /-- A push or a pop on `d_i`. -/
  | op (i : Nat) (o : Op)
  /-- Statement `d_i.Clear();`. -/
  | clear (i : Nat)
  /-- Statement `Deque d(d_i);`. -/
  | copyCtor (i : Nat)
  /-- Statement `d_j = d_i;`. -/
  | copyAssign (i j : Nat)
  /-- Statement `Deque d(std::move(d_i));`. -/
  | moveCtor (i : Nat)
  /-- Statement `d_j = std::move(d_i);`. -/
  | moveAssign (i j : Nat)
  /-- Statement `d_j.Swap(d_i);`. -/
  | swap (i j : Nat)
  deriving DecidableEq

/-- One operation on a world of deques; an operation that names no live deque does nothing. -/
def DequeOp.step (o : DequeOp) (w : DequeWorld) : Option DequeWorld :=
  match o with
  | .create => some { w with deques := w.deques ++ [Deque.new] }
  | .ofSize n =>
    (Deque.ofSize w.heap n).map fun r => { heap := r.1, deques := w.deques ++ [r.2] }
  | .op i o =>
    match w.deques[i]? with
    | none => some w
    | some d => (o.apply w.heap d).map fun r => { heap := r.1, deques := w.deques.set i r.2 }
  | .clear i =>
    match w.deques[i]? with
    | none => some w
    | some d => (Deque.Clear w.heap d).map fun r => { heap := r.1, deques := w.deques.set i r.2 }
  | .copyCtor i =>
    match w.deques[i]? with
    | none => some w
    | some d => (Deque.copyCtor w.heap d).map fun r =>
        { heap := r.1, deques := w.deques ++ [r.2] }
  | .copyAssign i j =>
    match w.deques[i]?, w.deques[j]? with
    | some rhs, some this =>
      (Deque.copyAssign w.heap this rhs (i == j)).map fun r =>
        { heap := r.1, deques := w.deques.set j r.2 }
    | _, _ => some w
  | .moveCtor i =>
    match w.deques[i]? with
    | none => some w
    | some d =>
      some { w with deques := w.deques.set i (Deque.moveCtor d).2 ++ [(Deque.moveCtor d).1] }
  | .moveAssign i j =>
    match w.deques[i]?, w.deques[j]? with
    | some rhs, some this =>
      (Deque.moveAssign w.heap this rhs (i == j)).map fun r =>
        { heap := r.1, deques := (w.deques.set j r.2.1).set i r.2.2 }
    | _, _ => some w
  | .swap i j =>
    match w.deques[i]?, w.deques[j]? with
    | some rhs, some this =>
      let r := Deque.Swap this rhs
      some { w with deques := (w.deques.set j r.1).set i r.2 }
    | _, _ => some w

/-- A sequence of operations on a world of deques, executed from left to right. -/
def runDequeOps : List DequeOp → DequeWorld → Option DequeWorld
  | [], w => some w
  | o :: os, w =>
    match o.step w with
    | none => none
    | some w1 => runDequeOps os w1

/-- The table size is 0 (no table) or a power of two. -/
def Deque.SizeOk (d : Deque) : Prop := d.size_ = 0 ∨ ∃ k, d.size_ = 2 ^ k

/-- The scenario `Deque d(n); d.PushBack(v);`: the values of `d.Size()` and of `d[0]`, ...,
`d[n]` afterwards. -/
def sizeCtorPushScenario (n : Nat) (v : Int) : Option (Nat × List (Option Int)) :=
  match Deque.ofSize Heap.empty n with
  | none => none
  | some r =>
    (r.2.PushBack r.1 v).map fun q =>
      (q.2.Size, (List.range (n + 1)).map fun i => q.2.get q.1 i)

/-! ## Runs with assignments, `Reset` and aliasing -/

namespace WeakPtr

/-- The copy assignment `*this = other`.  The source has no test for `this == &other`; for a
self-assignment `other` is `this`, whose `control_block_` is read after the decrement. -/
def assign (s : Store) (this other : WeakPtr) : Option (Store × WeakPtr) := do
  let s1 ← match this.control_block_ with
    | none => some s
    | some a => BaseBlock.DecreaseWeak s a
  let this1 := { this with control_block_ := other.control_block_ }
  let s2 ← match this1.control_block_ with
    | none => some s1
    | some a => BaseBlock.IncreaseWeak s1 a
  pure (s2, { this1 with if_pointer_type_ := other.if_pointer_type_ })

/-- The move assignment `*this = std::move(other)` for two distinct objects: the store, `*this`
and `other` afterwards. -/
def moveAssign (s : Store) (this other : WeakPtr) : Option (Store × WeakPtr × WeakPtr) := do
  let s1 ← match this.control_block_ with
    | none => some s
    | some a => BaseBlock.DecreaseWeak s a
  pure (s1, { control_block_ := other.control_block_, if_pointer_type_ := other.if_pointer_type_ },
    { other with control_block_ := none })

/-- The move assignment `w = std::move(w)` of an object to itself: the source has no test for it,
so the object ends with a null `control_block_` after the decrement. -/
def moveAssignSelf (s : Store) (this : WeakPtr) : Option (Store × WeakPtr) := do
  let s1 ← match this.control_block_ with
    | none => some s
    | some a => BaseBlock.DecreaseWeak s a
  pure (s1, { this with control_block_ := none })

end WeakPtr

/-- Operations on the live pointers of a world: those of `PtrOp`, and the assignments, `Reset`
and the aliasing constructor. -/
inductive PtrOpX where
  /-- An operation of `PtrOp`. -/
  | base (o : PtrOp)
  /-- Statement `SharedPtr q;`. -/
  | newShared
  /-- Statement `SharedPtr q(p_i, ptr);`. -/
  | aliasShared (i : Nat) (ptr : Option Addr)
  /-- Statement `p_j = p_i;`. -/
  | assignShared (i j : Nat)
  /-- Statement `p_j = std::move(p_i);`. -/
  | moveAssignShared (i j : Nat)
  /-- Statement `p_i.Reset();`. -/
  | resetShared (i : Nat)
  /-- Statement `WeakPtr v;`. -/
  | newWeak
  /-- Statement `w_j = w_i;`. -/
  | assignWeak (i j : Nat)
  /-- Statement `w_j = std::move(w_i);`. -/
  | moveAssignWeak (i j : Nat)
  /-- Statement `w_i.Reset();`. -/
  | resetWeak (i : Nat)
  deriving DecidableEq

/-- One operation; an operation that names no live pointer does nothing. -/
def PtrOpX.step (o : PtrOpX) (w : World) : Option World :=
  match o with
  | .base o => o.step w
  | .newShared => some { w with shared := w.shared ++ [SharedPtr.new] }
  | .aliasShared i ptr =>
    match w.shared[i]? with
    | none => some w
    | some p => (SharedPtr.aliasing w.store p ptr).map fun r =>
        { w with store := r.1, shared := w.shared ++ [r.2] }
  | .assignShared i j =>
    match w.shared[i]?, w.shared[j]? with
    | some other, some this =>
      (SharedPtr.assign w.store this other (i == j)).map fun r =>
        { w with store := r.1, shared := w.shared.set j r.2 }
    | _, _ => some w
  | .moveAssignShared i j =>
    match w.shared[i]?, w.shared[j]? with
    | some other, some this =>
      (SharedPtr.moveAssign w.store this other (i == j)).map fun r =>
        { w with store := r.1, shared := (w.shared.set j r.2.1).set i r.2.2 }
    | _, _ => some w
  | .resetShared i =>
    match w.shared[i]? with
    | none => some w
    | some p => (SharedPtr.Reset w.store p).map fun r =>
        { w with store := r.1, shared := w.shared.set i r.2 }
  | .newWeak => some { w with weak := w.weak ++ [WeakPtr.new] }
  | .assignWeak i j =>
    match w.weak[i]?, w.weak[j]? with
    | some other, some this =>
      (WeakPtr.assign w.store this other).map fun r =>
        { w with store := r.1, weak := w.weak.set j r.2 }
    | _, _ => some w
  | .moveAssignWeak i j =>
    match w.weak[i]?, w.weak[j]? with
    | some other, some this =>
      if i = j then
        (WeakPtr.moveAssignSelf w.store this).map fun r =>
          { w with store := r.1, weak := w.weak.set j r.2 }
      else
        (WeakPtr.moveAssign w.store this other).map fun r =>
          { w with store := r.1, weak := (w.weak.set j r.2.1).set i r.2.2 }
    | _, _ => some w
  | .resetWeak i =>
    match w.weak[i]? with
    | none => some w
    | some v => (WeakPtr.Reset w.store v).map fun r =>
        { w with store := r.1, weak := w.weak.set i r.2 }

/-- A sequence of operations of `PtrOpX`, executed from left to right. -/
def runPtrOpsX : List PtrOpX → World → Option World
  | [], w => some w
  | o :: os, w =>
    match o.step w with
    | none => none
    | some w1 => runPtrOpsX os w1

/-- The copy assignment of a weak pointer to itself, `w_i = w_i`. -/
def PtrOpX.selfAssignWeak : PtrOpX → Bool
  | .assignWeak i j => i == j
  | _ => false

/-- The control block at `a` counts `n` strong and `m` weak references: it is live with these
counters while a reference exists, and released when none is left. -/
def Store.Counts (s : Store) (a : Nat) (n m : Nat) : Prop :=
  ((0 < n ∨ 0 < m) ∧ ∃ v, s.view a = some v ∧ v.strong = n ∧ v.weak = m) ∨
    (n = 0 ∧ m = 0 ∧ s.blocks a = none)

/-- Invariant of a world whose pointers all stem from the control block at `a`: every pointer is
empty or references `a`, and the block counts the references. -/
structure World.Counted (a : Nat) (w : World) : Prop where
  sharedOk : ∀ p ∈ w.shared, p.control_block_ = none ∨ p.control_block_ = some a
  weakOk : ∀ v ∈ w.weak, v.control_block_ = none ∨ v.control_block_ = some a
  counts : w.store.Counts a (sharedRefs a w.shared) (weakRefs a w.weak)

/-! ## Self-assignment of a weak pointer -/

/-- The scenario: `SharedPtr<T> p(raw);` (or `auto p = MakeShared<T>();` when `inplace`), then the
operations `ops`, then `w_0 = w_0;`.  The result holds the view of the block before the
assignment, whether the block is still live after the `DecreaseWeak` call that opens the
assignment, and the view of the block after the assignment (`none` when the assignment has no
defined result). -/
def weakSelfAssignScenario (inplace : Bool) (ops : List PtrOpX) :
    Option (Option BlockView × Option Bool × Option (Option BlockView)) :=
  let w0 := if inplace then World.ofMakeShared Store.empty
    else World.ofRaw Store.empty (Addr.raw 7)
  match runPtrOpsX ops w0 with
  | none => none
  | some w =>
    some (w.store.view 0,
      (BaseBlock.DecreaseWeak w.store 0).map (fun s => (s.blocks 0).isSome),
      ((PtrOpX.assignWeak 0 0).step w).map fun w1 => w1.store.view 0)

/-! ## `IntrusivePtr::Reset(T*)` -/

namespace IntrusivePtr

/-- The method `Reset(T* ptr)`: the decrement of the old referent comes before the increment of
the new one. -/
def ResetTo (s : ObjStore) (p : IntrusivePtr) (ptr : Option Nat) :
    Option (ObjStore × IntrusivePtr) := do
  let s1 ← match p.ptr_ with
    | none => some s
    | some a => RefCounted.DecRef s a
  let p1 : IntrusivePtr := { ptr_ := ptr }
  let s2 ← match p1.ptr_ with
    | none => some s1
    | some a => RefCounted.IncRef s1 a
  pure (s2, p1)

end IntrusivePtr

/-- The scenario `auto a = MakeIntrusive<T>(); a.Reset(a.Get());`: the log of `Destroy` calls
after the `DecRef` call that opens `Reset`, and whether `Reset` has a defined result. -/
def resetToHeldScenario : Option (List Nat × Bool) := do
  let r ← IntrusivePtr.MakeIntrusive ObjStore.empty
  let a ← r.2.Get
  let s1 ← RefCounted.DecRef r.1 a
  pure (s1.destroyed, (IntrusivePtr.ResetTo r.1 r.2 r.2.Get).isSome)

/-- The scenario `auto a = MakeIntrusive<T>(); auto b = MakeIntrusive<T>(); a.Reset(b.Get());`:
the values of `a.Get()`, `b.Get()` and `a.UseCount()` and the log of `Destroy` calls
afterwards. -/
def resetToOtherScenario : Option (Option Nat × Option Nat × Nat × List Nat) := do
  let r ← IntrusivePtr.MakeIntrusive ObjStore.empty
  let q ← IntrusivePtr.MakeIntrusive r.1
  let t ← IntrusivePtr.ResetTo q.1 r.2 q.2.Get
  let c ← t.2.UseCount t.1
  pure (t.2.Get, q.2.Get, c, t.1.destroyed)

/-- The scenario `auto a = MakeIntrusive<T>(); IntrusivePtr<T> b(a); a.Reset(a.Get());`: the
values of `a.Get()` and `a.UseCount()` and the log of `Destroy` calls afterwards. -/
def resetToSharedScenario : Option (Option Nat × Nat × List Nat) := do
  let r ← IntrusivePtr.MakeIntrusive ObjStore.empty
  let q ← IntrusivePtr.copy r.1 r.2
  let t ← IntrusivePtr.ResetTo q.1 r.2 r.2.Get
  let c ← t.2.UseCount t.1
  pure (t.2.Get, c, t.1.destroyed)

/-! ## Unique pointers -/

/-- The class template `CompressedPair<F, S>`: every specialisation holds one value of each
type. -/
structure CompressedPair (F S : Type) where
  first_ : F
  second_ : S
  deriving DecidableEq

namespace CompressedPair

/-- The method `GetFirst`. -/
def GetFirst {F S : Type} (p : CompressedPair F S) : F := p.first_

/-- The method `GetSecond`. -/
def GetSecond {F S : Type} (p : CompressedPair F S) : S := p.second_

end CompressedPair

/-- The deleter classes `Slug<T>` and `Slug<T[]>`, which have no data member. -/
structure Slug where
  deriving DecidableEq

/-- The call `deleter(ptr)`: the pointer passed is appended to the log of deleter calls (`none`
is `nullptr`, for which the two `Slug` classes release nothing). -/
def Slug.call (_d : Slug) (log : List (Option Nat)) (ptr : Option Nat) : List (Option Nat) :=
  log ++ [ptr]

/-- Data member of the primary template `UniquePtr<T, DeleterTemp>`. -/
structure UniquePtr where
  t_deleter_pair_ : CompressedPair (Option Nat) Slug
  deriving DecidableEq

/-- Data members of the specialisation `UniquePtr<void, Deleter>`. -/
structure UniquePtrVoid where
  data_ : Option Nat
  deleter_ : Slug
  deriving DecidableEq

/-- Data member of the specialisation `UniquePtr<T[], DeleterTemp>`. -/
structure UniquePtrArray where
  t_deleter_pair_ : CompressedPair (Option Nat) Slug
  deriving DecidableEq

namespace UniquePtr

/-- The constructor `UniquePtr(T* ptr = nullptr)`. -/
def new (ptr : Option Nat) : UniquePtr := { t_deleter_pair_ := ⟨ptr, Slug.mk⟩ }

/-- The method `Get`. -/
def Get (p : UniquePtr) : Option Nat := p.t_deleter_pair_.GetFirst

/-- The move assignment `*this = std::move(other)`; `same` says whether `this == &other`.  The
result is the log of deleter calls, `*this` and `other` afterwards. -/
def moveAssign (log : List (Option Nat)) (this other : UniquePtr) (same : Bool) :
    List (Option Nat) × UniquePtr × UniquePtr :=
  if same then (log, this, other)
  else
    let log1 := this.t_deleter_pair_.GetSecond.call log this.t_deleter_pair_.GetFirst
    let this1 : UniquePtr := { t_deleter_pair_ := { this.t_deleter_pair_ with first_ := none } }
    let this2 : UniquePtr :=
      { t_deleter_pair_ := { this1.t_deleter_pair_ with first_ := other.t_deleter_pair_.GetFirst } }
    let other1 : UniquePtr := { t_deleter_pair_ := { other.t_deleter_pair_ with first_ := none } }
    let this3 : UniquePtr :=
      { t_deleter_pair_ :=
          { this2.t_deleter_pair_ with second_ := other1.t_deleter_pair_.GetSecond } }
    (log1, this3, other1)

/-- The destructor `~UniquePtr`. -/
def dtor (log : List (Option Nat)) (p : UniquePtr) : List (Option Nat) :=
  p.t_deleter_pair_.GetSecond.call log p.t_deleter_pair_.GetFirst

end UniquePtr

namespace UniquePtrVoid

/-- The constructor `UniquePtr(void* ptr = nullptr)`. -/
def new (ptr : Option Nat) : UniquePtrVoid := { data_ := ptr, deleter_ := Slug.mk }

/-- The method `Get`. -/
def Get (p : UniquePtrVoid) : Option Nat := p.data_

/-- The statements of the move assignment `*this = std::move(other)`, whose body has no test for
`this == &other`, does not write `other.data_` and ends without a `return`.  The result is the
log of deleter calls, `*this` and `other` after the last statement. -/
def moveAssign (log : List (Option Nat)) (this other : UniquePtrVoid) :
    List (Option Nat) × UniquePtrVoid × UniquePtrVoid :=
  let log1 := this.deleter_.call log this.data_
  let this1 : UniquePtrVoid := { this with data_ := other.data_ }
  let this2 : UniquePtrVoid := { this1 with deleter_ := other.deleter_ }
  (log1, this2, other)

/-- The destructor `~UniquePtr`. -/
def dtor (log : List (Option Nat)) (p : UniquePtrVoid) : List (Option Nat) :=
  p.deleter_.call log p.data_

end UniquePtrVoid

namespace UniquePtrArray

/-- The constructor `UniquePtr(T* ptr = nullptr)`. -/
def new (ptr : Option Nat) : UniquePtrArray := { t_deleter_pair_ := ⟨ptr, Slug.mk⟩ }

/-- The method `Get`. -/
def Get (p : UniquePtrArray) : Option Nat := p.t_deleter_pair_.GetFirst

/-- The statements of the move assignment `*this = std::move(other)`, whose body has no test for
`this == &other`, does not write the pointer of `other` and ends without a `return`.  The result
is the log of deleter calls, `*this` and `other` after the last statement. -/
def moveAssign (log : List (Option Nat)) (this other : UniquePtrArray) :
    List (Option Nat) × UniquePtrArray × UniquePtrArray :=
  let log1 := this.t_deleter_pair_.GetSecond.call log this.t_deleter_pair_.GetFirst
  let this1 : UniquePtrArray :=
    { t_deleter_pair_ := { this.t_deleter_pair_ with first_ := other.t_deleter_pair_.GetFirst } }
  let this2 : UniquePtrArray :=
    { t_deleter_pair_ := { this1.t_deleter_pair_ with second_ := other.t_deleter_pair_.GetSecond } }
  (log1, this2, other)

/-- The destructor `~UniquePtr`. -/
def dtor (log : List (Option Nat)) (p : UniquePtrArray) : List (Option Nat) :=
  p.t_deleter_pair_.GetSecond.call log p.t_deleter_pair_.GetFirst

end UniquePtrArray

/-- The scenario `{ UniquePtr<T> a; UniquePtr<T> b(p); a = std::move(b); }` for the primary
template: the values of `a.Get()` and `b.Get()` after the assignment, and the log of deleter
calls at the end of the block (`b` is destroyed before `a`). -/
def uniqueMoveAssignScenario (p : Option Nat) : Option Nat × Option Nat × List (Option Nat) :=
  let r := UniquePtr.moveAssign [] (UniquePtr.new none) (UniquePtr.new p) false
  (r.2.1.Get, r.2.2.Get, UniquePtr.dtor (UniquePtr.dtor r.1 r.2.2) r.2.1)

/-- The scenario of `uniqueMoveAssignScenario` for `UniquePtr<void>`. -/
def uniqueVoidMoveAssignScenario (p : Option Nat) :
    Option Nat × Option Nat × List (Option Nat) :=
  let r := UniquePtrVoid.moveAssign [] (UniquePtrVoid.new none) (UniquePtrVoid.new p)
  (r.2.1.Get, r.2.2.Get, UniquePtrVoid.dtor (UniquePtrVoid.dtor r.1 r.2.2) r.2.1)

/-- The scenario of `uniqueMoveAssignScenario` for `UniquePtr<T[]>`. -/
def uniqueArrayMoveAssignScenario (p : Option Nat) :
    Option Nat × Option Nat × List (Option Nat) :=
  let r := UniquePtrArray.moveAssign [] (UniquePtrArray.new none) (UniquePtrArray.new p)
  (r.2.1.Get, r.2.2.Get, UniquePtrArray.dtor (UniquePtrArray.dtor r.1 r.2.2) r.2.1)

/-! ## Counter queries of the two control-block variants -/

/-- The calls of the counter methods of `BaseBlock`. -/
inductive CounterOp where
  | increaseStrong
  | increaseWeak
  | decreaseStrong
  | decreaseWeak
  deriving DecidableEq

/-- One virtual call on the block at address `a`. -/
def CounterOp.step (a : Nat) (o : CounterOp) (s : Store) : Option Store :=
  match o with
  | .increaseStrong => BaseBlock.IncreaseStrong s a
  | .increaseWeak => BaseBlock.IncreaseWeak s a
  | .decreaseStrong => BaseBlock.DecreaseStrong s a
  | .decreaseWeak => BaseBlock.DecreaseWeak s a

/-- A sequence of calls on the block at address `a`, executed from left to right. -/
def runCounterOps (a : Nat) : List CounterOp → Store → Option Store
  | [], s => some s
  | o :: os, s =>
    match o.step a s with
    | none => none
    | some s1 => runCounterOps a os s1

/-- The scenario: a fresh block of the variant chosen by `inplace`, then the calls `ops`.  The
result holds the counters `strong_counter_` and `weak_counter_` of the block and the values of
`GetStrongQ()` and `GetWeakQ()`. -/
def counterQueryScenario (inplace : Bool) (ops : List CounterOp) :
    Option ((Int × Int) × (Int × Int)) := do
  let b : BaseBlock := if inplace then .inplace ControlBlock.new
    else .pointer (PointerControlBlock.new (some (Addr.raw 7)))
  let s ← runCounterOps 0 ops (Store.empty.allocBlock b).1
  let v ← s.view 0
  let qs ← BaseBlock.GetStrongQ s 0
  let qw ← BaseBlock.GetWeakQ s 0
  pure ((v.strong, v.weak), (qs, qw))

/-- Two stores whose block at `a` is of the pointer variant in the first and of the in-place
variant in the second, with the same counters, or is released in both. -/
def CounterRel (a : Nat) (s1 s2 : Store) : Prop :=
  (s1.blocks a = none ∧ s2.blocks a = none) ∨
  ∃ b1 b2, s1.blocks a = some (.pointer b1) ∧ s2.blocks a = some (.inplace b2) ∧
    b1.strong_counter_ = b2.strong_counter_ ∧ b1.weak_counter_ = b2.weak_counter_

/-! ## Basic facts: ring indices, table entries, store accesses -/

theorem wrap_lt {n x : Nat} (hx : x < 2 * n) : wrap n x < n := by
  unfold wrap; split_ifs <;> omega

theorem wrap_eq_mod {n x : Nat} (hx : x < 2 * n) : wrap n x = x % n := by
  unfold wrap
  split_ifs with h
  · exact (Nat.mod_eq_of_lt h).symm
  · have h1 : x - n < n := by omega
    have h2 : x = (x - n) + n := by omega
    conv_rhs => rw [h2, Nat.add_mod_right, Nat.mod_eq_of_lt h1]

theorem wrap_self {n x : Nat} (hx : x < n) : wrap n x = x := by
  unfold wrap; split_ifs <;> omega

theorem entry_inj {t : List Nat} (hn : t.Nodup) {i j : Nat} (hi : i < t.length)
    (hj : j < t.length) (h : entry t i = entry t j) : i = j := by
  unfold entry at h
  rw [List.getD_eq_getElem t 0 hi, List.getD_eq_getElem t 0 hj] at h
  exact (hn.getElem_inj_iff).1 h

theorem getElem?_eq_entry {t : List Nat} {i : Nat} (hi : i < t.length) :
    t[i]? = some (entry t i) := by
  unfold entry
  rw [List.getD_eq_getElem t 0 hi, List.getElem?_eq_getElem hi]

theorem entry_mem {t : List Nat} {i : Nat} (hi : i < t.length) : entry t i ∈ t := by
  unfold entry
  rw [List.getD_eq_getElem t 0 hi]; exact List.getElem_mem hi

namespace Heap

@[simp] theorem write_cells (h : Heap) (a : Nat) (b : RingBufferElement) (x : Nat) :
    (h.write a b).cells x = if x = a then some b else h.cells x := rfl

@[simp] theorem write_next (h : Heap) (a : Nat) (b : RingBufferElement) :
    (h.write a b).next = h.next := rfl

theorem setLeft_of {h : Heap} {a : Nat} {b : RingBufferElement} (hc : h.cells a = some b)
    (q : Option Nat) : h.setLeft (some a) q = some (h.write a { b with left := q }) := by
  simp [setLeft, hc]

theorem setRight_of {h : Heap} {a : Nat} {b : RingBufferElement} (hc : h.cells a = some b)
    (q : Option Nat) : h.setRight (some a) q = some (h.write a { b with right := q }) := by
  simp [setRight, hc]

theorem dropArr_of {h : Heap} {a : Nat} {b : RingBufferElement} (hc : h.cells a = some b) :
    h.dropArr (some a) = some (h.write a { b with arr := none }) := by
  simp [dropArr, hc]

theorem storeSlot_of {h : Heap} {a : Nat} {b : RingBufferElement} {xs : List Int}
    (hc : h.cells a = some b) (hx : b.arr = some xs) {i : Nat} (hi : i < xs.length) (v : Int) :
    h.storeSlot (some a) i v = some (h.write a { b with arr := some (xs.set i v) }) := by
  simp [storeSlot, hc, hx, hi]

theorem loadSlot_of {h : Heap} {a : Nat} {b : RingBufferElement} {xs : List Int}
    (hc : h.cells a = some b) (hx : b.arr = some xs) (i : Nat) :
    h.loadSlot (some a) i = xs[i]? := by
  simp [loadSlot, hc, hx]

theorem loadSlot_write_ne {h : Heap} {a a1 : Nat} (b : RingBufferElement) (hne : a1 ≠ a) (i : Nat) :
    (h.write a b).loadSlot (some a1) i = h.loadSlot (some a1) i := by
  simp [loadSlot, hne]

end Heap

theorem FillArray_of {h : Heap} {a : Nat} {b : RingBufferElement} (hc : h.cells a = some b) :
    RingBufferElement.FillArray h (some a)
      = some (h.write a { b with arr := some (List.replicate 128 0) }) := by
  simp [RingBufferElement.FillArray, hc]

namespace Deque

theorem Shape.slotOf_eq {h : Heap} {d : Deque} {t : List Nat} {m : Nat} (hs : Shape h d t m)
    {p : Nat} (hp : p < m) : slotOf d p = some (blockAt d t p, slotAt d p) := by
  have hcap := hs.cap
  have hlc := hs.lc_lt
  have hb := hs.begin_lt
  unfold slotOf blockAt slotAt
  by_cases h1 : d.lcounter_ + p ≤ 127
  · have hq : (d.lcounter_ + p) / 128 = 0 := by omega
    have hr : (d.lcounter_ + p) % 128 = d.lcounter_ + p := by omega
    simp [h1, hs.ledge, hq, hr, wrap_self hb]
  · have hq : (d.lcounter_ + p) / 128 < d.size_ := by omega
    have hq1 : 1 ≤ (d.lcounter_ + p) / 128 := by omega
    have hi : sub64 p (sub64 128 d.lcounter_) = d.lcounter_ + p - 128 := by
      unfold sub64; split_ifs <;> omega
    have hsteps : (d.lcounter_ + p - 128) / 128 = (d.lcounter_ + p) / 128 - 1 := by omega
    have hslot : (d.lcounter_ + p - 128) % 128 = (d.lcounter_ + p) % 128 := by omega
    have hsz : sub64 d.size_ 1 = d.size_ - 1 := by
      unfold sub64; split_ifs <;> omega
    simp only [h1, if_false, hs.table, hi, hsteps, hslot, hsz]
    generalize (d.lcounter_ + p) / 128 = q at hq hq1
    have hidx : (if sub64 (d.size_ - 1) (if d.ind_of_begin_ = d.size_ - 1 then 0 else d.ind_of_begin_ + 1) ≥ q - 1
        then (if d.ind_of_begin_ = d.size_ - 1 then 0 else d.ind_of_begin_ + 1) + (q - 1)
        else 0 + sub64 (q - 1) (sub64 (d.size_ - 1) (if d.ind_of_begin_ = d.size_ - 1 then 0 else d.ind_of_begin_ + 1) + 1))
        = wrap d.size_ (d.ind_of_begin_ + q) := by
      unfold sub64 wrap
      split_ifs <;> omega
    have hlt : wrap d.size_ (d.ind_of_begin_ + q) < t.length := by
      rw [hs.len]; exact wrap_lt (by omega)
    simp only [hidx, getElem?_eq_entry hlt, Option.map_some']

theorem Shape.get_eq {h : Heap} {d : Deque} {t : List Nat} {m : Nat} (hs : Shape h d t m)
    {p : Nat} (hp : p < m) : d.get h p = h.loadSlot (some (blockAt d t p)) (slotAt d p) := by
  simp [get, hs.slotOf_eq hp]

end Deque

theorem wrap_inj {n b i j : Nat} (hi : i < n) (hj : j < n)
    (h : wrap n (b + i) = wrap n (b + j)) : i = j := by
  unfold wrap at h
  split_ifs at h <;> omega

namespace Heap

theorem loadSlot_congr {h g : Heap} {a : Nat} (hc : (g.cells a).map (·.arr) = (h.cells a).map (·.arr))
    (i : Nat) : g.loadSlot (some a) i = h.loadSlot (some a) i := by
  unfold loadSlot
  cases hg : g.cells a <;> cases hh : h.cells a <;> simp [hg, hh] at hc ⊢
  rw [hc]

theorem loadSlot_write_set {h : Heap} {a : Nat} {b : RingBufferElement} {xs : List Int}
    (hc : h.cells a = some b) (hx : b.arr = some xs) (i : Nat) (v : Int) (a1 i1 : Nat) :
    (h.write a { b with arr := some (xs.set i v) }).loadSlot (some a1) i1
      = if a1 = a ∧ i1 = i ∧ i < xs.length then some v else h.loadSlot (some a1) i1 := by
  by_cases ha : a1 = a
  · subst ha
    by_cases hi : i1 = i
    · subst hi
      by_cases hl : i1 < xs.length
      · simp [loadSlot, hl]
      · simp [loadSlot, hl, hc, hx, List.getElem?_set]
        omega
    · simp [loadSlot, hi, hc, hx, List.getElem?_set, Ne.symm hi]
  · simp [loadSlot, ha]

end Heap

namespace Deque

theorem Shape.blockAt_lt {h : Heap} {d : Deque} {t : List Nat} {m : Nat} (hs : Shape h d t m)
    {p : Nat} (hp : d.lcounter_ + p < 128 * d.size_) :
    wrap d.size_ (d.ind_of_begin_ + (d.lcounter_ + p) / 128) < t.length := by
  have := hs.begin_lt
  rw [hs.len]; exact wrap_lt (by omega)

/-- Distinct logical indices within the capacity are stored in distinct slots. -/
theorem Shape.pos_inj {h : Heap} {d : Deque} {t : List Nat} {m : Nat} (hs : Shape h d t m)
    {p q : Nat} (hp : d.lcounter_ + p < 128 * d.size_) (hq : d.lcounter_ + q < 128 * d.size_)
    (hb : blockAt d t p = blockAt d t q) (hsl : slotAt d p = slotAt d q) : p = q := by
  have h1 := entry_inj hs.nodup (hs.blockAt_lt hp) (hs.blockAt_lt hq) hb
  have h2 := wrap_inj (by omega) (by omega) h1
  unfold slotAt at hsl
  omega

end Deque

namespace Deque

/-- The shape only depends on the links and the array lengths of the table's blocks. -/
theorem Shape.transfer {h g : Heap} {d : Deque} {t : List Nat} {m : Nat} (hs : Shape h d t m)
    (hn : h.next ≤ g.next)
    (hc : ∀ a ∈ t, ∀ b, h.cells a = some b → ∃ b1, g.cells a = some b1 ∧ b1.left = b.left ∧
      b1.right = b.right ∧ b1.arr.map List.length = b.arr.map List.length) :
    Shape g d t m := by
  refine { hs with fresh := ?_, links := ?_, arrs := ?_ }
  · intro a ha
    exact lt_of_lt_of_le (hs.fresh a ha) hn
  · intro i hi
    obtain ⟨b, hb, hl, hr⟩ := hs.links i hi
    obtain ⟨b1, hb1, hl1, hr1, -⟩ := hc _ (entry_mem (by rw [hs.len]; exact hi)) b hb
    exact ⟨b1, hb1, hl1.trans hl, hr1.trans hr⟩
  · intro j hj
    obtain ⟨b, hb, ha⟩ := hs.arrs j hj
    have hlt : wrap d.size_ (d.ind_of_begin_ + j) < t.length := by
      have := hs.begin_lt
      rw [hs.len]; exact wrap_lt (by omega)
    obtain ⟨b1, hb1, -, -, ha1⟩ := hc _ (entry_mem hlt) b hb
    exact ⟨b1, hb1, ha1.trans ha⟩

/-- The block of a position within the occupied span is live and owns an array of 128 slots. -/
theorem Shape.block_live {h : Heap} {d : Deque} {t : List Nat} {m : Nat} (hs : Shape h d t m)
    {p : Nat} (hp : p < m) :
    ∃ b xs, h.cells (blockAt d t p) = some b ∧ b.arr = some xs ∧ xs.length = 128 := by
  have hcap := hs.cap
  have hj : (d.lcounter_ + p) / 128 < d.size_ := by omega
  obtain ⟨b, hb, ha⟩ := hs.arrs _ hj
  have hk : (d.lcounter_ + p) / 128 ≤ (d.lcounter_ + m - 1) / 128 :=
    Nat.div_le_div_right (by omega)
  rw [if_pos hk] at ha
  cases hx : b.arr with
  | none => simp [hx] at ha
  | some xs => exact ⟨b, xs, hb, hx, by simpa [hx] using ha⟩

/-- A store into the slot of a valid index: it succeeds, keeps the shape, changes the value read
at that index and at no other position, and touches no block outside the table. -/
theorem Shape.store_at {h : Heap} {d : Deque} {t : List Nat} {m : Nat} (hs : Shape h d t m)
    {q : Nat} (hq : q < m) (v : Int) :
    ∃ g, h.storeSlot (some (blockAt d t q)) (slotAt d q) v = some g ∧ Shape g d t m ∧
      g.next = h.next ∧ (∀ a, a ∉ t → g.cells a = h.cells a) ∧
      ∀ p, d.lcounter_ + p < 128 * d.size_ →
        g.loadSlot (some (blockAt d t p)) (slotAt d p)
          = if p = q then some v else h.loadSlot (some (blockAt d t p)) (slotAt d p) := by
  obtain ⟨b, xs, hb, hx, hl⟩ := hs.block_live hq
  have hsl : slotAt d q < xs.length := by unfold slotAt; omega
  have hcap := hs.cap
  have hmem : blockAt d t q ∈ t := entry_mem (hs.blockAt_lt (by omega))
  refine ⟨_, Heap.storeSlot_of hb hx hsl v, ?_, rfl, ?_, ?_⟩
  · refine hs.transfer (le_refl _) ?_
    intro a _ b0 hb0
    by_cases ha : a = blockAt d t q
    · subst ha
      rw [hb] at hb0
      cases hb0
      exact ⟨{ b with arr := some (xs.set (slotAt d q) v) }, by simp, rfl, rfl, by simp [hx]⟩
    · exact ⟨b0, by simp [ha, hb0], rfl, rfl, rfl⟩
  · intro a ha
    have : a ≠ blockAt d t q := fun e => ha (e ▸ hmem)
    simp [this]
  · intro p hp
    rw [Heap.loadSlot_write_set hb hx]
    by_cases hpq : p = q
    · subst hpq; simp [hsl]
    · have : ¬ (blockAt d t p = blockAt d t q ∧ slotAt d p = slotAt d q ∧ slotAt d q < xs.length) :=
        fun ⟨e1, e2, _⟩ => hpq (hs.pos_inj hp (by omega) e1 e2)
      simp [this, hpq]

end Deque

theorem forLoop_inv {σ : Type} (body : Nat → σ → Option σ) (P : Nat → σ → Prop) :
    ∀ (n i : Nat) (s : σ), P i s →
      (∀ j s1, i ≤ j → j < i + n → P j s1 → ∃ s2, body j s1 = some s2 ∧ P (j + 1) s2) →
      ∃ s2, forLoop body n i s = some s2 ∧ P (i + n) s2 := by
  intro n
  induction n with
  | zero => intro i s h0 _; exact ⟨s, rfl, h0⟩
  | succ n ih =>
    intro i s h0 hstep
    obtain ⟨s1, hb, h1⟩ := hstep i s (le_refl _) (by omega) h0
    obtain ⟨s2, hl, h2⟩ := ih (i + 1) s1 h1 (fun j s3 hj1 hj2 hP =>
      hstep j s3 (by omega) (by omega) hP)
    refine ⟨s2, ?_, ?_⟩
    · simp [forLoop, hb, hl]
    · have : i + (n + 1) = i + 1 + n := by omega
      rw [this]; exact h2

namespace Deque

theorem allocMany_spec : ∀ (n : Nat) (h : Heap),
    (allocMany n h).2 = List.range' h.next n ∧ (allocMany n h).1.next = h.next + n ∧
    ∀ a, (allocMany n h).1.cells a
      = if h.next ≤ a ∧ a < h.next + n then some ⟨none, none, none⟩ else h.cells a := by
  intro n
  induction n with
  | zero =>
    intro h
    refine ⟨rfl, rfl, ?_⟩
    intro a
    have : ¬ (h.next ≤ a ∧ a < h.next + 0) := by omega
    rw [if_neg this]
    rfl
  | succ n ih =>
    intro h
    obtain ⟨h1, h2, h3⟩ := ih h.alloc.1
    refine ⟨?_, ?_, ?_⟩
    · simp only [allocMany, h1, List.range'_succ]
      rfl
    · simp only [allocMany, h2]
      show h.next + 1 + n = h.next + (n + 1)
      omega
    · intro a
      simp only [allocMany, h3]
      show (if h.next + 1 ≤ a ∧ a < h.next + 1 + n then some ⟨none, none, none⟩
        else if a = h.next then some ⟨none, none, none⟩ else h.cells a) = _
      split_ifs <;> first | rfl | omega

theorem Shape.walkRight_eq {h : Heap} {d : Deque} {t : List Nat} {m : Nat} (hs : Shape h d t m) :
    ∀ (k i : Nat), i + k ≤ d.size_ →
      walkRight h k (some (entry t (wrap d.size_ (d.ind_of_begin_ + i))))
        = some ((List.range' i k).map fun x => entry t (wrap d.size_ (d.ind_of_begin_ + x))) := by
  intro k
  induction k with
  | zero => intro i _; rfl
  | succ k ih =>
    intro i hi
    have hb := hs.begin_lt
    have hw : wrap d.size_ (d.ind_of_begin_ + i) < d.size_ := wrap_lt (by omega)
    obtain ⟨b, hc, -, hr⟩ := hs.links _ hw
    have hnext : wrap d.size_ (wrap d.size_ (d.ind_of_begin_ + i) + 1)
        = wrap d.size_ (d.ind_of_begin_ + (i + 1)) := by
      unfold wrap; split_ifs <;> omega
    rw [hnext] at hr
    by_cases hk : k = 0
    · subst hk
      simp [walkRight, hc]
    · simp [walkRight, hc, hr, ih (i + 1) (by omega), List.range'_succ]

end Deque

theorem Relinked.refl (t : List Nat) (h : Heap) : Relinked t h h :=
  ⟨rfl, fun _ => rfl, fun _ _ => rfl⟩

theorem Relinked.live {t : List Nat} {h g : Heap} (hr : Relinked t h g) {a : Nat}
    {b : RingBufferElement} (hb : h.cells a = some b) :
    ∃ b1, g.cells a = some b1 ∧ b1.arr = b.arr := by
  have := hr.2.1 a
  rw [hb] at this
  cases hg : g.cells a with
  | none => simp [hg] at this
  | some b1 => exact ⟨b1, rfl, by simpa [hg] using this⟩

/-- The assignments `p->left = l; p->right = r` on a block of the table. -/
theorem Relinked.set_links {t : List Nat} {h g : Heap} (hr : Relinked t h g) {a : Nat}
    (ha : a ∈ t) {b0 : RingBufferElement} (hb0 : h.cells a = some b0) (l r : Option Nat) :
    ∃ g1 g2 b2, g.setLeft (some a) l = some g1 ∧ g1.setRight (some a) r = some g2 ∧
      Relinked t h g2 ∧ (∀ x, x ≠ a → g2.cells x = g.cells x) ∧
      g2.cells a = some b2 ∧ b2.left = l ∧ b2.right = r := by
  obtain ⟨b1, hb1, harr⟩ := hr.live hb0
  have e1 := Heap.setLeft_of hb1 l
  have hc1 : (g.write a { b1 with left := l }).cells a = some { b1 with left := l } := by simp
  have e2 := Heap.setRight_of hc1 r
  refine ⟨_, _, { b1 with left := l, right := r }, e1, e2, ⟨?_, ?_, ?_⟩, ?_, ?_, rfl, rfl⟩
  · exact hr.1
  · intro x
    by_cases hx : x = a
    · subst hx; simp [hb0, harr]
    · simpa [hx] using hr.2.1 x
  · intro x hx
    have : x ≠ a := fun e => hx (e ▸ ha)
    simpa [this] using hr.2.2 x hx
  · intro x hx
    simp [hx]
  · simp

/-- The assignment `p->left = l` alone. -/
theorem Relinked.set_left {t : List Nat} {h g : Heap} (hr : Relinked t h g) {a : Nat}
    (ha : a ∈ t) {b0 : RingBufferElement} (hb0 : h.cells a = some b0) (l : Option Nat) :
    ∃ g1 b1 b2, g.setLeft (some a) l = some g1 ∧ Relinked t h g1 ∧
      (∀ x, x ≠ a → g1.cells x = g.cells x) ∧ g.cells a = some b1 ∧
      g1.cells a = some b2 ∧ b2.left = l ∧ b2.right = b1.right := by
  obtain ⟨b1, hb1, harr⟩ := hr.live hb0
  refine ⟨_, b1, { b1 with left := l }, Heap.setLeft_of hb1 l, ⟨hr.1, ?_, ?_⟩, ?_, hb1, ?_, rfl, rfl⟩
  · intro x
    by_cases hx : x = a
    · subst hx; simp [hb0, harr]
    · simpa [hx] using hr.2.1 x
  · intro x hx
    have : x ≠ a := fun e => hx (e ▸ ha)
    simpa [this] using hr.2.2 x hx
  · intro x hx
    simp [hx]
  · simp

/-- The assignment `p->right = r` alone. -/
theorem Relinked.set_right {t : List Nat} {h g : Heap} (hr : Relinked t h g) {a : Nat}
    (ha : a ∈ t) {b0 : RingBufferElement} (hb0 : h.cells a = some b0) (r : Option Nat) :
    ∃ g1 b1 b2, g.setRight (some a) r = some g1 ∧ Relinked t h g1 ∧
      (∀ x, x ≠ a → g1.cells x = g.cells x) ∧ g.cells a = some b1 ∧
      g1.cells a = some b2 ∧ b2.left = b1.left ∧ b2.right = r := by
  obtain ⟨b1, hb1, harr⟩ := hr.live hb0
  refine ⟨_, b1, { b1 with right := r }, Heap.setRight_of hb1 r, ⟨hr.1, ?_, ?_⟩, ?_, hb1, ?_, rfl, rfl⟩
  · intro x
    by_cases hx : x = a
    · subst hx; simp [hb0, harr]
    · simpa [hx] using hr.2.1 x
  · intro x hx
    have : x ≠ a := fun e => hx (e ▸ ha)
    simpa [this] using hr.2.2 x hx
  · intro x hx
    simp [hx]
  · simp

theorem LinkedAt.congr {g g1 : Heap} {t : List Nat} {n i : Nat} (hl : LinkedAt g t n i)
    (hc : g1.cells (entry t i) = g.cells (entry t i)) : LinkedAt g1 t n i := by
  obtain ⟨b, hb, h1, h2⟩ := hl
  exact ⟨b, hc.trans hb, h1, h2⟩

/-- The middle linking loop `for (i = 1; i < n - 1; ++i)` over a table of `n` distinct live blocks
links the entries `1 .. n - 2` and changes nothing else. -/
theorem linkLoop_spec {t : List Nat} {h : Heap} {n : Nat} (hlen : t.length = n) (hn : 2 ≤ n)
    (hnd : t.Nodup) (hlive : ∀ i, i < n → ∃ b, h.cells (entry t i) = some b) :
    ∃ g, forRange (Deque.linkBoth t) 1 (n - 1) h = some g ∧ Relinked t h g ∧
      ∀ x, 1 ≤ x → x < n - 1 → LinkedAt g t n x := by
  have key := forLoop_inv (Deque.linkBoth t)
    (fun i g => Relinked t h g ∧ ∀ x, 1 ≤ x → x < i → LinkedAt g t n x) (n - 1 - 1) 1 h
    ⟨Relinked.refl t h, fun x h1 h2 => by omega⟩ ?_
  · obtain ⟨g, hg, hr, hl⟩ := key
    refine ⟨g, hg, hr, ?_⟩
    intro x h1 h2
    exact hl x h1 (by omega)
  · intro j g hj1 hj2 ⟨hr, hl⟩
    have hjn : j < t.length := by omega
    obtain ⟨b0, hb0⟩ := hlive j (by omega)
    obtain ⟨g1, g2, b2, e1, e2, hr2, hne, hc2, hL, hR⟩ :=
      hr.set_links (entry_mem hjn) hb0 (some (entry t (j - 1))) (some (entry t (j + 1)))
    refine ⟨g2, ?_, hr2, ?_⟩
    · have hs : sub64 j 1 = j - 1 := by unfold sub64; split_ifs; omega
      have h1 : j - 1 < t.length := by omega
      have h2 : j + 1 < t.length := by omega
      simp only [Deque.linkBoth, getElem?_eq_entry hjn, hs, getElem?_eq_entry h1,
        getElem?_eq_entry h2, Option.bind_eq_bind, Option.some_bind, e1, e2]
    · intro x hx1 hx2
      by_cases hxj : x = j
      · subst hxj
        refine ⟨b2, hc2, ?_, ?_⟩
        · rw [hL]
          have : wrap n (x + n - 1) = x - 1 := by unfold wrap; split_ifs <;> omega
          rw [this]
        · rw [hR]
          have : wrap n (x + 1) = x + 1 := by unfold wrap; split_ifs <;> omega
          rw [this]
      · have hx : x < j := by omega
        refine (hl x hx1 hx).congr (hne _ ?_)
        intro e
        exact hxj (entry_inj hnd (by omega) hjn e)

namespace Deque

theorem Shape.size_pos {h : Heap} {d : Deque} {t : List Nat} {m : Nat} (hs : Shape h d t m) :
    0 < d.size_ := lt_of_le_of_lt (Nat.zero_le _) hs.begin_lt

theorem relocTable_length (h : Heap) (d : Deque) (t : List Nat) :
    (relocTable h d t).length = 2 * d.size_ := by
  simp [relocTable]; omega

theorem relocTable_old (h : Heap) (d : Deque) (t : List Nat) {i : Nat} (hi : i < d.size_) :
    entry (relocTable h d t) i = entry t (wrap d.size_ (d.ind_of_begin_ + i)) := by
  unfold relocTable
  conv_lhs => unfold entry
  rw [List.getD_append _ _ _ _ (by simpa using hi), List.getD_eq_getElem _ _ (by simpa using hi)]
  simp [entry]

theorem relocTable_fresh (h : Heap) (d : Deque) (t : List Nat) {i : Nat} (h1 : d.size_ ≤ i)
    (h2 : i < 2 * d.size_) : entry (relocTable h d t) i = h.next + (i - d.size_) := by
  unfold relocTable
  conv_lhs => unfold entry
  rw [List.getD_append_right _ _ _ _ (by simpa using h1),
    List.getD_eq_getElem _ _ (by simp; omega)]
  simp

theorem Shape.relocTable_mem {h : Heap} {d : Deque} {t : List Nat} {m : Nat} (hs : Shape h d t m)
    {a : Nat} (ha : a ∈ relocTable h d t) :
    a ∈ t ∨ (h.next ≤ a ∧ a < h.next + d.size_) := by
  have hb := hs.begin_lt
  unfold relocTable at ha
  rcases List.mem_append.1 ha with h1 | h1
  · left
    obtain ⟨x, hx, rfl⟩ := List.mem_map.1 h1
    have hx1 : x < d.size_ := by simpa using hx
    exact entry_mem (by rw [hs.len]; exact wrap_lt (by omega))
  · right
    simpa using h1

theorem Shape.relocTable_nodup {h : Heap} {d : Deque} {t : List Nat} {m : Nat}
    (hs : Shape h d t m) : (relocTable h d t).Nodup := by
  have hb := hs.begin_lt
  unfold relocTable
  refine List.nodup_append.2 ⟨?_, List.nodup_range' _ _, ?_⟩
  · refine List.Nodup.map_on ?_ (List.nodup_range' _ _)
    intro x hx y hy hxy
    have hx1 : x < d.size_ := by simpa using hx
    have hy1 : y < d.size_ := by simpa using hy
    have := entry_inj hs.nodup (by rw [hs.len]; exact wrap_lt (by omega))
      (by rw [hs.len]; exact wrap_lt (by omega)) hxy
    exact wrap_inj hx1 hy1 this
  · intro a h1 h2
    obtain ⟨x, hx, rfl⟩ := List.mem_map.1 h1
    have hx1 : x < d.size_ := by simpa using hx
    have hlt := hs.fresh _ (entry_mem (t := t) (i := wrap d.size_ (d.ind_of_begin_ + x))
      (by rw [hs.len]; exact wrap_lt (by omega)))
    have : h.next ≤ entry t (wrap d.size_ (d.ind_of_begin_ + x)) := by
      have := (List.mem_range'_1.1 h2).1
      exact this
    omega

end Deque

namespace Deque

theorem Shape.relocate {h : Heap} {d0 : Deque} {t : List Nat} {m : Nat} (hs : Shape h d0 t m)
    (d : Deque) (hsz : d.size_ = d0.size_) (hle : d.l_edge_ = d0.l_edge_) :
    ∃ g, Relocate h d = some (g, relocated d (relocTable h d0 t)) ∧
      Shape g (relocated d0 (relocTable h d0 t)) (relocTable h d0 t) m ∧
      g.next = h.next + d0.size_ ∧
      (∀ a, a < h.next → (g.cells a).map (·.arr) = (h.cells a).map (·.arr)) ∧
      (∀ a, a < h.next → a ∉ t → g.cells a = h.cells a) := by
  have hb := hs.begin_lt
  have hn := hs.size_pos
  have hcap := hs.cap
  have hwalk : walkRight h d0.size_ d.l_edge_
      = some ((List.range' 0 d0.size_).map fun x => entry t (wrap d0.size_ (d0.ind_of_begin_ + x))) := by
    rw [hle, hs.ledge]
    have := hs.walkRight_eq d0.size_ 0 (by omega)
    rwa [Nat.add_zero, wrap_self hb] at this
  obtain ⟨hf, hnx, hcells⟩ := allocMany_spec d0.size_ h
  -- the new table
  have hlen := relocTable_length h d0 t
  have hnd := hs.relocTable_nodup
  -- old blocks are below `h.next`
  have hold_lt : ∀ i, i < d0.size_ → entry t (wrap d0.size_ (d0.ind_of_begin_ + i)) < h.next :=
    fun i hi => hs.fresh _ (entry_mem (by rw [hs.len]; exact wrap_lt (by omega)))
  have hcell_old : ∀ a, a < h.next → (allocMany d0.size_ h).1.cells a = h.cells a := by
    intro a ha
    rw [hcells, if_neg (by omega)]
  have hlive : ∀ i, i < 2 * d0.size_ →
      ∃ b, (allocMany d0.size_ h).1.cells (entry (relocTable h d0 t) i) = some b := by
    intro i hi
    by_cases h1 : i < d0.size_
    · rw [relocTable_old h d0 t h1, hcell_old _ (hold_lt i h1)]
      obtain ⟨b, hb1, -⟩ := hs.arrs i h1
      exact ⟨b, hb1⟩
    · rw [relocTable_fresh h d0 t (by omega) hi, hcells, if_pos (by omega)]
      exact ⟨_, rfl⟩
  have hmemi : ∀ i, i < 2 * d0.size_ → entry (relocTable h d0 t) i ∈ relocTable h d0 t :=
    fun i hi => entry_mem (by rw [hlen]; exact hi)
  obtain ⟨g2, eloop, hr2, hl2⟩ := linkLoop_spec hlen (by omega) hnd hlive
  -- the four final assignments
  obtain ⟨bl, hbl⟩ := hlive (2 * d0.size_ - 1) (by omega)
  obtain ⟨bf, hbf⟩ := hlive 0 (by omega)
  obtain ⟨g3, -, b3', e3, hr3, hne3, -, hc3', hL3, -⟩ :=
    hr2.set_left (hmemi _ (by omega)) hbl (some (entry (relocTable h d0 t) (2 * d0.size_ - 2)))
  obtain ⟨g4, b3, b4, e4, hr4, hne4, hc3, hc4, hL4, hR4⟩ :=
    hr3.set_right (hmemi _ (by omega)) hbl (some (entry (relocTable h d0 t) 0))
  obtain ⟨g5, -, b5', e5, hr5, hne5, -, hc5', hL5, -⟩ :=
    hr4.set_left (hmemi _ (by omega)) hbf (some (entry (relocTable h d0 t) (2 * d0.size_ - 1)))
  obtain ⟨g6, b5, b6, e6, hr6, hne6, hc5, hc6, hL6, hR6⟩ :=
    hr5.set_right (hmemi _ (by omega)) hbf (some (entry (relocTable h d0 t) 1))
  rw [hc3'] at hc3; cases hc3
  rw [hc5'] at hc5; cases hc5
  have hlf : entry (relocTable h d0 t) (2 * d0.size_ - 1) ≠ entry (relocTable h d0 t) 0 := by
    intro e
    have := entry_inj hnd (by omega) (by omega) e
    omega
  have hlinks : ∀ x, x < 2 * d0.size_ → LinkedAt g6 (relocTable h d0 t) (2 * d0.size_) x := by
    intro x hx
    by_cases hx0 : x = 0
    · subst hx0
      refine ⟨b6, hc6, ?_, ?_⟩
      · rw [hL6, hL5]
        have : wrap (2 * d0.size_) (0 + 2 * d0.size_ - 1) = 2 * d0.size_ - 1 := by
          unfold wrap; split_ifs <;> omega
        rw [this]
      · rw [hR6]
        have : wrap (2 * d0.size_) (0 + 1) = 1 := by
          unfold wrap; split_ifs <;> omega
        rw [this]
    · by_cases hxl : x = 2 * d0.size_ - 1
      · subst hxl
        refine ⟨b4, ?_, ?_, ?_⟩
        · rw [hne6 _ hlf, hne5 _ hlf, hc4]
        · rw [hL4, hL3]
          have : wrap (2 * d0.size_) (2 * d0.size_ - 1 + 2 * d0.size_ - 1) = 2 * d0.size_ - 2 := by
            unfold wrap; split_ifs <;> omega
          rw [this]
        · rw [hR4]
          have : wrap (2 * d0.size_) (2 * d0.size_ - 1 + 1) = 0 := by
            unfold wrap; split_ifs <;> omega
          rw [this]
      · have hxf : entry (relocTable h d0 t) x ≠ entry (relocTable h d0 t) 0 := by
          intro e
          exact hx0 (entry_inj hnd (by omega) (by omega) e)
        have hxl1 : entry (relocTable h d0 t) x ≠ entry (relocTable h d0 t) (2 * d0.size_ - 1) := by
          intro e
          exact hxl (entry_inj hnd (by omega) (by omega) e)
        refine (hl2 x (by omega) (by omega)).congr ?_
        rw [hne6 _ hxf, hne5 _ hxf, hne4 _ hxl1, hne3 _ hxl1]
  have hs1 : sub64 (2 * d0.size_) 1 = 2 * d0.size_ - 1 := by unfold sub64; split_ifs <;> omega
  have hs2 : sub64 (2 * d0.size_) 2 = 2 * d0.size_ - 2 := by unfold sub64; split_ifs <;> omega
  have ht1 : ((List.range' 0 d0.size_).map fun x => entry t (wrap d0.size_ (d0.ind_of_begin_ + x)))
      ++ List.range' h.next d0.size_ = relocTable h d0 t := rfl
  have hfreshlt : ∀ a, a ∈ relocTable h d0 t → a < h.next + d0.size_ := by
    intro a ha
    rcases hs.relocTable_mem ha with h1 | h1
    · have := hs.fresh a h1; omega
    · exact h1.2
  refine ⟨g6, ?_, ?_, ?_, ?_, ?_⟩
  · unfold Relocate
    simp only [hsz, hwalk, Option.bind_eq_bind, Option.some_bind, hf, ht1, hs1, hs2, eloop,
      getElem?_eq_entry (show 2 * d0.size_ - 1 < (relocTable h d0 t).length by omega),
      getElem?_eq_entry (show 2 * d0.size_ - 2 < (relocTable h d0 t).length by omega),
      getElem?_eq_entry (show 0 < (relocTable h d0 t).length by omega),
      getElem?_eq_entry (show 1 < (relocTable h d0 t).length by omega), e3, e4, e5, e6]
    simp only [relocated, hsz]
    rfl
  · exact
      { table := rfl
        len := hlen
        nodup := hnd
        fresh := fun a ha => by rw [hr6.1, hnx]; exact hfreshlt a ha
        count := hs.count
        pos := hs.pos
        begin_lt := by show 0 < 2 * d0.size_; omega
        lc_lt := hs.lc_lt
        cap := by show d0.lcounter_ + m ≤ 128 * (2 * d0.size_); omega
        rc := hs.rc
        ledge := by
          show d0.l_edge_ = some (entry (relocTable h d0 t) 0)
          rw [relocTable_old h d0 t hn, Nat.add_zero, wrap_self hb]; exact hs.ledge
        redge := by
          show d0.r_edge_ = some (entry (relocTable h d0 t)
            (wrap (2 * d0.size_) (0 + (d0.lcounter_ + m - 1) / 128)))
          have hk : (d0.lcounter_ + m - 1) / 128 < d0.size_ := by omega
          rw [Nat.zero_add, wrap_self (by omega), relocTable_old h d0 t hk]; exact hs.redge
        links := hlinks
        arrs := by
          intro j hj
          show ∃ b, g6.cells (entry (relocTable h d0 t) (wrap (2 * d0.size_) (0 + j))) = some b ∧
            b.arr.map List.length = if j ≤ (d0.lcounter_ + m - 1) / 128 then some 128 else none
          have hj2 : j < 2 * d0.size_ := hj
          rw [Nat.zero_add, wrap_self hj2]
          by_cases h1 : j < d0.size_
          · obtain ⟨b, hb1, ha⟩ := hs.arrs j h1
            have hc1 : (allocMany d0.size_ h).1.cells (entry (relocTable h d0 t) j) = some b := by
              rw [relocTable_old h d0 t h1, hcell_old _ (hold_lt j h1)]; exact hb1
            obtain ⟨b1, hb2, harr⟩ := hr6.live hc1
            exact ⟨b1, hb2, by rw [harr]; exact ha⟩
          · have hc1 : (allocMany d0.size_ h).1.cells (entry (relocTable h d0 t) j)
                = some ⟨none, none, none⟩ := by
              rw [relocTable_fresh h d0 t (by omega) hj2, hcells, if_pos (by omega)]
            obtain ⟨b1, hb2, harr⟩ := hr6.live hc1
            refine ⟨b1, hb2, ?_⟩
            rw [harr, if_neg (by omega)]
            rfl }
  · rw [hr6.1, hnx]
  · intro a ha
    rw [hr6.2.1 a, hcell_old a ha]
  · intro a ha hat
    have : a ∉ relocTable h d0 t := by
      intro hmem
      rcases hs.relocTable_mem hmem with h1 | h1
      · exact hat h1
      · omega
    rw [hr6.2.2 a this, hcell_old a ha]

end Deque

theorem Heap.Frame.of_eq {t : List Nat} {h g : Heap} (hn : g.next = h.next)
    (hc : ∀ a, a ∉ t → g.cells a = h.cells a) : Heap.Frame t h g :=
  ⟨by rw [hn], fun a _ ha => hc a ha⟩

namespace Deque

theorem Shape.tableOf_eq {h : Heap} {d : Deque} {t : List Nat} {m : Nat} (hs : Shape h d t m) :
    tableOf d = t := by
  simp [tableOf, hs.table]

/-- Relocation keeps the contents. -/
theorem Shape.relocate_content {h g : Heap} {d : Deque} {t : List Nat} {l : List Int}
    (hs : Shape h d t l.length) (hc : Content h d t l)
    (harr : ∀ a, a < h.next → (g.cells a).map (·.arr) = (h.cells a).map (·.arr)) :
    Content g (relocated d (relocTable h d t)) (relocTable h d t) l := by
  intro p hp
  have hcap := hs.cap
  have hb := hs.begin_lt
  have hq : (d.lcounter_ + p) / 128 < d.size_ := by omega
  have hblk : blockAt (relocated d (relocTable h d t)) (relocTable h d t) p = blockAt d t p := by
    show entry (relocTable h d t) (wrap (2 * d.size_) (0 + (d.lcounter_ + p) / 128)) = _
    rw [Nat.zero_add, wrap_self (by omega), relocTable_old h d t hq]
    rfl
  have hsl : slotAt (relocated d (relocTable h d t)) p = slotAt d p := rfl
  rw [hblk, hsl, ← hc p hp]
  apply Heap.loadSlot_congr
  exact harr _ (hs.fresh _ (entry_mem (hs.blockAt_lt (by omega))))

/-- Appending at the back: the old positions keep their values and position `l.length` holds the
new value. -/
theorem Content.push_back {h g : Heap} {d d1 : Deque} {t t1 : List Nat} {l : List Int} {v : Int}
    (hc : Content h d t l)
    (hg : ∀ p, p ≤ l.length → g.loadSlot (some (blockAt d1 t1 p)) (slotAt d1 p)
      = if p = l.length then some v else h.loadSlot (some (blockAt d t p)) (slotAt d p)) :
    Content g d1 t1 (l ++ [v]) := by
  intro p hp
  have hp1 : p ≤ l.length := by simp at hp; omega
  rw [hg p hp1]
  by_cases h1 : p = l.length
  · subst h1; simp
  · have h2 : p < l.length := by omega
    rw [if_neg h1, hc p h2, List.getElem?_append_left h2]

/-- Prepending at the front: old position `p` becomes position `p + 1`. -/
theorem Content.push_front {h g : Heap} {d d1 : Deque} {t t1 : List Nat} {l : List Int} {v : Int}
    (hc : Content h d t l)
    (hg : ∀ p, p ≤ l.length → g.loadSlot (some (blockAt d1 t1 p)) (slotAt d1 p)
      = if p = 0 then some v else h.loadSlot (some (blockAt d t (p - 1))) (slotAt d (p - 1))) :
    Content g d1 t1 (v :: l) := by
  intro p hp
  have hp1 : p ≤ l.length := by simp at hp; omega
  rw [hg p hp1]
  cases p with
  | zero => simp
  | succ p =>
    have h2 : p < l.length := by omega
    simp [hc p h2]

/-- The last insertion at the back stays inside the right edge block. -/
theorem Shape.grow_back_same {h : Heap} {d : Deque} {t : List Nat} {m : Nat} (hs : Shape h d t m)
    (hrc : d.rcounter_ + 1 ≠ 128) :
    Shape h { d with el_size_ := d.el_size_ + 1, rcounter_ := d.rcounter_ + 1 } t (m + 1) := by
  have hrc0 := hs.rc
  have hpos := hs.pos
  have hcap := hs.cap
  have hk : (d.lcounter_ + (m + 1) - 1) / 128 = (d.lcounter_ + m - 1) / 128 := by omega
  exact
    { table := hs.table
      len := hs.len
      nodup := hs.nodup
      fresh := hs.fresh
      count := by show d.el_size_ + 1 = m + 1; rw [hs.count]
      pos := by omega
      begin_lt := hs.begin_lt
      lc_lt := hs.lc_lt
      cap := by
        show d.lcounter_ + (m + 1) ≤ 128 * d.size_
        omega
      rc := by
        show d.rcounter_ + 1 = (d.lcounter_ + (m + 1) - 1) % 128
        omega
      ledge := hs.ledge
      redge := by
        show d.r_edge_ = some (entry t (wrap d.size_ (d.ind_of_begin_ + (d.lcounter_ + (m + 1) - 1) / 128)))
        rw [hk]; exact hs.redge
      links := hs.links
      arrs := by
        intro j hj
        show ∃ b, h.cells (entry t (wrap d.size_ (d.ind_of_begin_ + j))) = some b ∧
          b.arr.map List.length = if j ≤ (d.lcounter_ + (m + 1) - 1) / 128 then some 128 else none
        rw [hk]; exact hs.arrs j hj }

end Deque

namespace Deque

/-- The part of `PushBack` that opens the next block to the right, when that block is free. -/
theorem Shape.advanceRight_spec {h : Heap} {d : Deque} {t : List Nat} {l : List Int}
    (hs : Shape h d t l.length) (hc : Content h d t l) (hrc : d.rcounter_ + 1 = 128)
    (hroom : (d.lcounter_ + l.length - 1) / 128 + 1 < d.size_) (v : Int) :
    ∃ g d1, advanceRight h { d with el_size_ := d.el_size_ + 1, rcounter_ := d.rcounter_ + 1 } v
        = some (g, d1) ∧
      Shape g d1 t (l.length + 1) ∧ Content g d1 t (l ++ [v]) ∧ g.next = h.next ∧
      (∀ a, a ∉ t → g.cells a = h.cells a) ∧ d1.main_array_ = d.main_array_ := by
  have hb := hs.begin_lt
  have hcap := hs.cap
  have hpos := hs.pos
  have hrc0 := hs.rc
  have hlc := hs.lc_lt
  obtain ⟨k, hk⟩ : ∃ k, k = (d.lcounter_ + l.length - 1) / 128 := ⟨_, rfl⟩
  rw [← hk] at hroom
  have hk1 : (d.lcounter_ + (l.length + 1) - 1) / 128 = k + 1 := by omega
  have hwk : wrap d.size_ (d.ind_of_begin_ + k) < d.size_ := wrap_lt (by omega)
  obtain ⟨c, hcc, -, hcr⟩ := hs.links _ hwk
  have hnext : wrap d.size_ (wrap d.size_ (d.ind_of_begin_ + k) + 1)
      = wrap d.size_ (d.ind_of_begin_ + (k + 1)) := by
    unfold wrap; split_ifs <;> omega
  rw [hnext] at hcr
  obtain ⟨c2, hc2, ha2⟩ := hs.arrs (k + 1) hroom
  rw [← hk, if_neg (by omega)] at ha2
  have hlt2 : wrap d.size_ (d.ind_of_begin_ + (k + 1)) < t.length := by
    rw [hs.len]; exact wrap_lt (by omega)
  -- the state after `FillArray`
  have hs1 : Shape (h.write (entry t (wrap d.size_ (d.ind_of_begin_ + (k + 1))))
        { c2 with arr := some (List.replicate 128 0) })
      { d with el_size_ := d.el_size_ + 1,
               r_edge_ := some (entry t (wrap d.size_ (d.ind_of_begin_ + (k + 1)))),
               rcounter_ := 0 } t (l.length + 1) :=
    { table := hs.table
      len := hs.len
      nodup := hs.nodup
      fresh := hs.fresh
      count := by show d.el_size_ + 1 = l.length + 1; rw [hs.count]
      pos := by omega
      begin_lt := hs.begin_lt
      lc_lt := hs.lc_lt
      cap := by show d.lcounter_ + (l.length + 1) ≤ 128 * d.size_; omega
      rc := by show 0 = (d.lcounter_ + (l.length + 1) - 1) % 128; omega
      ledge := hs.ledge
      redge := by
        show some (entry t (wrap d.size_ (d.ind_of_begin_ + (k + 1))))
          = some (entry t (wrap d.size_ (d.ind_of_begin_ + (d.lcounter_ + (l.length + 1) - 1) / 128)))
        rw [hk1]
      links := by
        intro i hi
        obtain ⟨b, hb1, hl1, hr1⟩ := hs.links i hi
        by_cases e : entry t i = entry t (wrap d.size_ (d.ind_of_begin_ + (k + 1)))
        · rw [e] at hb1
          rw [hc2] at hb1
          cases hb1
          exact ⟨{ c2 with arr := some (List.replicate 128 0) }, by simp [e], hl1, hr1⟩
        · exact ⟨b, by simp [e, hb1], hl1, hr1⟩
      arrs := by
        intro j hj
        have hj : j < d.size_ := hj
        show ∃ b, (h.write _ _).cells (entry t (wrap d.size_ (d.ind_of_begin_ + j))) = some b ∧
          b.arr.map List.length = if j ≤ (d.lcounter_ + (l.length + 1) - 1) / 128 then some 128 else none
        rw [hk1]
        by_cases e : j = k + 1
        · subst e
          exact ⟨{ c2 with arr := some (List.replicate 128 0) }, by simp, by simp⟩
        · obtain ⟨b, hb1, ha1⟩ := hs.arrs j hj
          have hne : entry t (wrap d.size_ (d.ind_of_begin_ + j))
              ≠ entry t (wrap d.size_ (d.ind_of_begin_ + (k + 1))) := by
            intro e1
            have := entry_inj hs.nodup (by rw [hs.len]; exact wrap_lt (by omega)) hlt2 e1
            exact e (wrap_inj hj hroom this)
          refine ⟨b, by simp [hne, hb1], ?_⟩
          rw [ha1, ← hk]
          by_cases h3 : j ≤ k
          · rw [if_pos h3, if_pos (by omega)]
          · rw [if_neg h3, if_neg (by omega)] }
  obtain ⟨g, hst, hsg, hgn, hgc, hgl⟩ := hs1.store_at (q := l.length) (by omega) v
  have hblk : blockAt
      { d with el_size_ := d.el_size_ + 1,
               r_edge_ := some (entry t (wrap d.size_ (d.ind_of_begin_ + (k + 1)))),
               rcounter_ := 0 } t l.length = entry t (wrap d.size_ (d.ind_of_begin_ + (k + 1))) := by
    show entry t (wrap d.size_ (d.ind_of_begin_ + (d.lcounter_ + l.length) / 128)) = _
    have : (d.lcounter_ + l.length) / 128 = k + 1 := by omega
    rw [this]
  have hslot : slotAt
      { d with el_size_ := d.el_size_ + 1,
               r_edge_ := some (entry t (wrap d.size_ (d.ind_of_begin_ + (k + 1)))),
               rcounter_ := 0 } l.length = 0 := by
    show (d.lcounter_ + l.length) % 128 = 0
    omega
  rw [hblk, hslot] at hst
  refine ⟨g, _, ?_, hsg, ?_, ?_, ?_, rfl⟩
  · unfold Deque.advanceRight
    simp only [Heap.deref, hs.redge, ← hk, hcc, hcr, Option.bind_eq_bind, Option.some_bind,
      FillArray_of hc2, hst]
    rfl
  · refine hc.push_back ?_
    intro p hp
    rw [hgl p (by show d.lcounter_ + p < 128 * d.size_; omega)]
    by_cases e : p = l.length
    · rw [if_pos e, if_pos e]
    · rw [if_neg e, if_neg e]
      refine Heap.loadSlot_write_ne _ ?_ _
      intro e1
      have hp1 : (d.lcounter_ + p) / 128 ≤ k := by omega
      have := entry_inj hs.nodup (hs.blockAt_lt (by omega)) hlt2 e1
      have := wrap_inj (by omega) hroom this
      omega
  · rw [hgn]; rfl
  · intro a ha
    rw [hgc a ha]
    have : a ≠ entry t (wrap d.size_ (d.ind_of_begin_ + (k + 1))) := fun e => ha (e ▸ entry_mem hlt2)
    simp [this]

end Deque

namespace Deque

/-- `PushBack` on the default-constructed state: one fresh block, linked to itself, whose array
holds the value in slot 0 and zeros elsewhere. -/
theorem PushBack_new (h : Heap) (v : Int) :
    PushBack h Deque.new v = some (withSingle h v, single h.next) := by
  simp [PushBack, Deque.new, Init, Heap.alloc, Heap.setLeft, Heap.setRight,
      RingBufferElement.FillArray, Heap.storeSlot, Heap.write, single, withSingle]
  funext x
  split_ifs <;> rfl

/-- `PushFront` on the default-constructed state yields the same state as `PushBack`. -/
theorem PushFront_new (h : Heap) (v : Int) :
    PushFront h Deque.new v = some (withSingle h v, single h.next) := by
  simp [PushFront, Deque.new, Init, Heap.alloc, Heap.setLeft, Heap.setRight,
      RingBufferElement.FillArray, Heap.storeSlot, Heap.write, single, withSingle]
  funext x
  split_ifs <;> rfl

theorem single_shape (h : Heap) (v : Int) : Shape (withSingle h v) (single h.next) [h.next] 1 := by
  have hc : (withSingle h v).cells h.next
      = some ⟨some h.next, some h.next, some ((List.replicate 128 0).set 0 v)⟩ := by
    simp [withSingle]
  exact
    { table := rfl
      len := rfl
      nodup := List.nodup_singleton _
      fresh := by
        intro x hx1
        rw [List.mem_singleton.1 hx1]
        show h.next < h.next + 1
        omega
      count := rfl
      pos := by omega
      begin_lt := by show 0 < 1; omega
      lc_lt := by show 0 < 128; omega
      cap := by show 0 + 1 ≤ 128 * 1; omega
      rc := rfl
      ledge := rfl
      redge := by
        show some h.next = some (entry [h.next] (wrap 1 (0 + (0 + 1 - 1) / 128)))
        rfl
      links := by
        intro i hi
        have : i = 0 := by have : i < 1 := hi; omega
        subst this
        exact ⟨_, hc, rfl, rfl⟩
      arrs := by
        intro j hj
        have : j = 0 := by have : j < 1 := hj; omega
        subst this
        exact ⟨_, hc, by simp⟩ }

theorem single_models (h : Heap) (v : Int) : Models (withSingle h v) (single h.next) [v] := by
  right
  refine ⟨[h.next], single_shape h v, ?_⟩
  intro p hp
  have : p = 0 := by simpa using hp
  subst this
  have hb : (single h.next).blockAt [h.next] 0 = h.next := by
    simp [blockAt, single, wrap, entry]
  have hsl : (single h.next).slotAt 0 = 0 := by simp [slotAt, single]
  have hc : (withSingle h v).cells h.next
      = some ⟨some h.next, some h.next, some ((List.replicate 128 0).set 0 v)⟩ := by
    simp only [withSingle, if_true]
  rw [hb, hsl, Heap.loadSlot_of hc rfl, List.getElem?_set_self (by rw [List.length_replicate]; omega)]
  rfl

end Deque

namespace Deque

theorem tableOf_new : tableOf Deque.new = [] := rfl

theorem tableOf_single (a : Nat) : tableOf (single a) = [a] := rfl

theorem PushBack_models {h : Heap} {d : Deque} {l : List Int} (hm : Models h d l) (v : Int) :
    ∃ g d1, PushBack h d v = some (g, d1) ∧ Models g d1 (l ++ [v]) ∧
      Heap.Frame (tableOf d) h g ∧ ∀ a ∈ tableOf d1, a ∈ tableOf d ∨ h.next ≤ a := by
  rcases hm with ⟨rfl, rfl⟩ | ⟨t, hs, hc⟩
  · refine ⟨_, _, PushBack_new h v, single_models h v, ⟨?_, ?_⟩, ?_⟩
    · show h.next ≤ h.next + 1
      omega
    · intro a ha _
      have : a ≠ h.next := by omega
      simp [withSingle, this]
    · intro a ha
      rw [tableOf_single] at ha
      right
      rw [List.mem_singleton.1 ha]
  · have hb := hs.begin_lt
    have hcap := hs.cap
    have hpos := hs.pos
    have hrc0 := hs.rc
    have hsz : d.size_ ≠ 0 := by omega
    rw [hs.tableOf_eq]
    by_cases hrc : d.rcounter_ + 1 = 128
    · -- the right edge block is full
      have hwk : wrap d.size_ (d.ind_of_begin_ + (d.lcounter_ + l.length - 1) / 128) < d.size_ :=
        wrap_lt (by omega)
      obtain ⟨c, hcc, -, hcr⟩ := hs.links _ hwk
      have hderef : h.deref d.r_edge_ = some c := by rw [hs.redge]; exact hcc
      by_cases hroom : (d.lcounter_ + l.length - 1) / 128 + 1 < d.size_
      · obtain ⟨g, d1, e, hs1, hc1, hn1, hf1, ht1⟩ := hs.advanceRight_spec hc hrc hroom v
        have hne : ¬ (c.right = d.l_edge_) := by
          rw [hcr, hs.ledge]
          intro e1
          have e2 := entry_inj hs.nodup (by rw [hs.len]; exact wrap_lt (by omega))
            (by rw [hs.len]; exact hb) (Option.some.inj e1)
          unfold wrap at e2
          split_ifs at e2 <;> omega
        refine ⟨g, d1, ?_, Or.inr ⟨t, by simpa using hs1, hc1⟩, Heap.Frame.of_eq hn1 hf1, ?_⟩
        · unfold PushBack
          simp only [hsz, if_pos hrc, if_false, hderef, hne,
            Option.bind_eq_bind, Option.some_bind]
          exact e
        · intro a ha
          left
          rw [tableOf, ht1, hs.table] at ha
          exact ha
      · -- the ring is full: relocate first
        have hk : (d.lcounter_ + l.length - 1) / 128 + 1 = d.size_ := by omega
        have heq : c.right = d.l_edge_ := by
          rw [hcr, hs.ledge]
          have : wrap d.size_ (wrap d.size_ (d.ind_of_begin_ + (d.lcounter_ + l.length - 1) / 128) + 1)
              = d.ind_of_begin_ := by
            unfold wrap; split_ifs <;> omega
          rw [this]
        obtain ⟨g0, e0, hs0, hn0, harr0, hf0⟩ := hs.relocate
          { d with el_size_ := d.el_size_ + 1, rcounter_ := d.rcounter_ + 1 } rfl rfl
        have hc0 := hs.relocate_content hc harr0
        obtain ⟨g, d1, e, hs1, hc1, hn1, hf1, ht1⟩ :=
          hs0.advanceRight_spec hc0 hrc
            (by show (d.lcounter_ + l.length - 1) / 128 + 1 < 2 * d.size_; omega) v
        refine ⟨g, d1, ?_, Or.inr ⟨_, by simpa using hs1, hc1⟩, ⟨by rw [hn1, hn0]; omega, ?_⟩, ?_⟩
        · unfold PushBack
          simp only [hsz, if_pos hrc, if_false, hderef, heq, if_true,
            Option.bind_eq_bind, Option.some_bind, e0]
          exact e
        · intro a ha hat
          have : a ∉ relocTable h d t := by
            intro hmem
            rcases hs.relocTable_mem hmem with h1 | h1
            · exact hat h1
            · omega
          rw [hf1 a this, hf0 a ha hat]
        · intro a ha
          have : tableOf d1 = relocTable h d t := by
            rw [tableOf, ht1]; rfl
          rw [this] at ha
          rcases hs.relocTable_mem ha with h1 | h1
          · exact Or.inl h1
          · exact Or.inr h1.1
    · -- the new element fits into the right edge block
      have hs1 := hs.grow_back_same hrc
      obtain ⟨g, hst, hsg, hgn, hgc, hgl⟩ := hs1.store_at (q := l.length) (by omega) v
      have hk : (d.lcounter_ + l.length) / 128 = (d.lcounter_ + l.length - 1) / 128 := by omega
      have hblk : blockAt { d with el_size_ := d.el_size_ + 1, rcounter_ := d.rcounter_ + 1 } t
          l.length = entry t (wrap d.size_ (d.ind_of_begin_ + (d.lcounter_ + l.length - 1) / 128)) := by
        show entry t (wrap d.size_ (d.ind_of_begin_ + (d.lcounter_ + l.length) / 128)) = _
        rw [hk]
      have hslot : slotAt { d with el_size_ := d.el_size_ + 1, rcounter_ := d.rcounter_ + 1 }
          l.length = d.rcounter_ + 1 := by
        show (d.lcounter_ + l.length) % 128 = _
        omega
      rw [hblk, hslot, ← hs.redge] at hst
      refine ⟨g, _, ?_, Or.inr ⟨t, by simpa using hsg, ?_⟩, Heap.Frame.of_eq hgn hgc, ?_⟩
      · unfold PushBack
        simp only [hsz, if_neg hrc, if_false, Option.bind_eq_bind, Option.some_bind, hst]
        rfl
      · refine hc.push_back ?_
        intro p hp
        exact hgl p (by show d.lcounter_ + p < 128 * d.size_; omega)
      · intro a ha
        left
        have h1 : a ∈ tableOf d := ha
        rwa [hs.tableOf_eq] at h1

end Deque

namespace Deque

/-- The part of `PushFront` that opens the next block to the left, when that block is free. -/
theorem Shape.advanceLeft_spec {h : Heap} {d : Deque} {t : List Nat} {l : List Int}
    (hs : Shape h d t l.length) (hc : Content h d t l) (hlc : d.lcounter_ = 0)
    (hroom : (d.lcounter_ + l.length - 1) / 128 + 1 < d.size_) (v : Int) :
    ∃ g d1, advanceLeft h { d with el_size_ := d.el_size_ + 1 } v = some (g, d1) ∧
      Shape g d1 t (l.length + 1) ∧ Content g d1 t (v :: l) ∧ g.next = h.next ∧
      (∀ a, a ∉ t → g.cells a = h.cells a) ∧ d1.main_array_ = d.main_array_ := by
  have hb := hs.begin_lt
  have hcap := hs.cap
  have hpos := hs.pos
  have hrc0 := hs.rc
  obtain ⟨k, hk⟩ : ∃ k, k = (d.lcounter_ + l.length - 1) / 128 := ⟨_, rfl⟩
  rw [← hk] at hroom
  obtain ⟨b', hb'⟩ : ∃ b', b' = wrap d.size_ (d.ind_of_begin_ + d.size_ - 1) := ⟨_, rfl⟩
  have hb'lt : b' < d.size_ := by rw [hb']; exact wrap_lt (by omega)
  have hk1 : (127 + (l.length + 1) - 1) / 128 = k + 1 := by omega
  obtain ⟨c, hcc, hcl, -⟩ := hs.links _ hb
  rw [← hb'] at hcl
  have hderef : h.deref d.l_edge_ = some c := by rw [hs.ledge]; exact hcc
  -- the block to the left is the last one in ring order, counted from the begin block
  have hlast : wrap d.size_ (d.ind_of_begin_ + (d.size_ - 1)) = b' := by
    rw [hb']; unfold wrap; split_ifs <;> omega
  have hshift : ∀ j, 1 ≤ j → j < d.size_ →
      wrap d.size_ (b' + j) = wrap d.size_ (d.ind_of_begin_ + (j - 1)) := by
    intro j h1 h2
    rw [hb']; unfold wrap; split_ifs <;> omega
  obtain ⟨c2, hc2, ha2⟩ := hs.arrs (d.size_ - 1) (by omega)
  rw [hlast] at hc2
  rw [← hk, if_neg (by omega)] at ha2
  have hlt2 : b' < t.length := by rw [hs.len]; exact hb'lt
  have hs1 : Shape (h.write (entry t b') { c2 with arr := some (List.replicate 128 0) })
      { d with el_size_ := d.el_size_ + 1, l_edge_ := some (entry t b'), ind_of_begin_ := b',
               lcounter_ := 127 } t (l.length + 1) :=
    { table := hs.table
      len := hs.len
      nodup := hs.nodup
      fresh := hs.fresh
      count := by show d.el_size_ + 1 = l.length + 1; rw [hs.count]
      pos := by omega
      begin_lt := hb'lt
      lc_lt := by show 127 < 128; omega
      cap := by show 127 + (l.length + 1) ≤ 128 * d.size_; omega
      rc := by show d.rcounter_ = (127 + (l.length + 1) - 1) % 128; omega
      ledge := rfl
      redge := by
        show d.r_edge_ = some (entry t (wrap d.size_ (b' + (127 + (l.length + 1) - 1) / 128)))
        rw [hk1, hshift (k + 1) (by omega) hroom, hs.redge, hk]
        rfl
      links := by
        intro i hi
        obtain ⟨b, hb1, hl1, hr1⟩ := hs.links i hi
        by_cases e : entry t i = entry t b'
        · rw [e] at hb1
          rw [hc2] at hb1
          cases hb1
          exact ⟨{ c2 with arr := some (List.replicate 128 0) }, by simp [e], hl1, hr1⟩
        · exact ⟨b, by simp [e, hb1], hl1, hr1⟩
      arrs := by
        intro j hj
        have hj : j < d.size_ := hj
        show ∃ b, (h.write _ _).cells (entry t (wrap d.size_ (b' + j))) = some b ∧
          b.arr.map List.length = if j ≤ (127 + (l.length + 1) - 1) / 128 then some 128 else none
        rw [hk1]
        by_cases e : j = 0
        · subst e
          rw [Nat.add_zero, wrap_self hb'lt]
          exact ⟨{ c2 with arr := some (List.replicate 128 0) }, by simp, by simp⟩
        · rw [hshift j (by omega) hj]
          obtain ⟨b, hb1, ha1⟩ := hs.arrs (j - 1) (by omega)
          have hne : entry t (wrap d.size_ (d.ind_of_begin_ + (j - 1))) ≠ entry t b' := by
            intro e1
            rw [← hlast] at e1
            have := entry_inj hs.nodup (by rw [hs.len]; exact wrap_lt (by omega))
              (by rw [hs.len]; exact wrap_lt (by omega)) e1
            have := wrap_inj (by omega) (by omega) this
            omega
          refine ⟨b, by simp [hne, hb1], ?_⟩
          rw [ha1, ← hk]
          by_cases h3 : j - 1 ≤ k
          · rw [if_pos h3, if_pos (by omega)]
          · rw [if_neg h3, if_neg (by omega)] }
  obtain ⟨g, hst, hsg, hgn, hgc, hgl⟩ := hs1.store_at (q := 0) (by omega) v
  have hblk : blockAt
      { d with el_size_ := d.el_size_ + 1, l_edge_ := some (entry t b'), ind_of_begin_ := b',
               lcounter_ := 127 } t 0 = entry t b' := by
    show entry t (wrap d.size_ (b' + (127 + 0) / 128)) = _
    have : (127 + 0) / 128 = 0 := by omega
    rw [this, Nat.add_zero, wrap_self hb'lt]
  have hslot : slotAt
      { d with el_size_ := d.el_size_ + 1, l_edge_ := some (entry t b'), ind_of_begin_ := b',
               lcounter_ := 127 } 0 = 127 := rfl
  rw [hblk, hslot] at hst
  have hsub1 : sub64 d.size_ 1 = d.size_ - 1 := by unfold sub64; split_ifs <;> omega
  refine ⟨g, _, ?_, hsg, ?_, ?_, ?_, rfl⟩
  · unfold Deque.advanceLeft
    by_cases hb0 : d.ind_of_begin_ = 0
    · have e1 : sub64 d.size_ 1 = b' := by
        rw [hb', hsub1]; unfold wrap; split_ifs <;> omega
      simp only [hderef, hcl, Option.bind_eq_bind, Option.some_bind, hb0, if_true, e1,
        FillArray_of hc2, hst]
      rfl
    · have e1 : sub64 d.ind_of_begin_ 1 = b' := by
        rw [hb']; unfold sub64 wrap; split_ifs <;> omega
      simp only [hderef, hcl, Option.bind_eq_bind, Option.some_bind, hb0, if_false, e1,
        FillArray_of hc2, hst]
      rfl
  · refine hc.push_front ?_
    intro p hp
    rw [hgl p (by show 127 + p < 128 * d.size_; omega)]
    by_cases e : p = 0
    · rw [if_pos e, if_pos e]
    · rw [if_neg e, if_neg e]
      have hq : (d.lcounter_ + (p - 1)) / 128 ≤ k := by omega
      have hblk1 : blockAt
          { d with el_size_ := d.el_size_ + 1, l_edge_ := some (entry t b'), ind_of_begin_ := b',
                   lcounter_ := 127 } t p = blockAt d t (p - 1) := by
        show entry t (wrap d.size_ (b' + (127 + p) / 128))
          = entry t (wrap d.size_ (d.ind_of_begin_ + (d.lcounter_ + (p - 1)) / 128))
        have : (127 + p) / 128 = (d.lcounter_ + (p - 1)) / 128 + 1 := by omega
        rw [this, hshift _ (by omega) (by omega)]
        rfl
      have hslot1 : slotAt
          { d with el_size_ := d.el_size_ + 1, l_edge_ := some (entry t b'), ind_of_begin_ := b',
                   lcounter_ := 127 } p = slotAt d (p - 1) := by
        show (127 + p) % 128 = (d.lcounter_ + (p - 1)) % 128
        omega
      rw [hblk1, hslot1]
      refine Heap.loadSlot_write_ne _ ?_ _
      intro e1
      rw [← hlast] at e1
      have := entry_inj hs.nodup (hs.blockAt_lt (by omega))
        (by rw [hs.len]; exact wrap_lt (by omega)) e1
      have := wrap_inj (by omega) (by omega) this
      omega
  · rw [hgn]; rfl
  · intro a ha
    rw [hgc a ha]
    have : a ≠ entry t b' := fun e => ha (e ▸ entry_mem hlt2)
    simp [this]

end Deque

namespace Deque

/-- The last insertion at the front stays inside the left edge block. -/
theorem Shape.grow_front_same {h : Heap} {d : Deque} {t : List Nat} {m : Nat}
    (hs : Shape h d t m) (hlc : 0 < d.lcounter_) :
    Shape h { d with el_size_ := d.el_size_ + 1, lcounter_ := d.lcounter_ - 1 } t (m + 1) := by
  have hrc0 := hs.rc
  have hpos := hs.pos
  have hcap := hs.cap
  have hlt := hs.lc_lt
  have hk : (d.lcounter_ - 1 + (m + 1) - 1) / 128 = (d.lcounter_ + m - 1) / 128 := by
    have : d.lcounter_ - 1 + (m + 1) - 1 = d.lcounter_ + m - 1 := by omega
    rw [this]
  exact
    { table := hs.table
      len := hs.len
      nodup := hs.nodup
      fresh := hs.fresh
      count := by show d.el_size_ + 1 = m + 1; rw [hs.count]
      pos := by omega
      begin_lt := hs.begin_lt
      lc_lt := by show d.lcounter_ - 1 < 128; omega
      cap := by show d.lcounter_ - 1 + (m + 1) ≤ 128 * d.size_; omega
      rc := by
        show d.rcounter_ = (d.lcounter_ - 1 + (m + 1) - 1) % 128
        have : d.lcounter_ - 1 + (m + 1) - 1 = d.lcounter_ + m - 1 := by omega
        rw [this]; exact hrc0
      ledge := hs.ledge
      redge := by
        show d.r_edge_
          = some (entry t (wrap d.size_ (d.ind_of_begin_ + (d.lcounter_ - 1 + (m + 1) - 1) / 128)))
        rw [hk]; exact hs.redge
      links := hs.links
      arrs := by
        intro j hj
        show ∃ b, h.cells (entry t (wrap d.size_ (d.ind_of_begin_ + j))) = some b ∧
          b.arr.map List.length
            = if j ≤ (d.lcounter_ - 1 + (m + 1) - 1) / 128 then some 128 else none
        rw [hk]; exact hs.arrs j hj }

theorem PushFront_models {h : Heap} {d : Deque} {l : List Int} (hm : Models h d l) (v : Int) :
    ∃ g d1, PushFront h d v = some (g, d1) ∧ Models g d1 (v :: l) ∧
      Heap.Frame (tableOf d) h g ∧ ∀ a ∈ tableOf d1, a ∈ tableOf d ∨ h.next ≤ a := by
  rcases hm with ⟨rfl, rfl⟩ | ⟨t, hs, hc⟩
  · refine ⟨_, _, PushFront_new h v, single_models h v, ⟨?_, ?_⟩, ?_⟩
    · show h.next ≤ h.next + 1
      omega
    · intro a ha _
      have : a ≠ h.next := by omega
      simp [withSingle, this]
    · intro a ha
      rw [tableOf_single] at ha
      right
      rw [List.mem_singleton.1 ha]
  · have hb := hs.begin_lt
    have hcap := hs.cap
    have hpos := hs.pos
    have hrc0 := hs.rc
    have hlt := hs.lc_lt
    have hsz : d.size_ ≠ 0 := by omega
    rw [hs.tableOf_eq]
    by_cases hlc : d.lcounter_ > 0
    · -- the new element fits into the left edge block
      have hs1 := hs.grow_front_same hlc
      obtain ⟨g, hst, hsg, hgn, hgc, hgl⟩ := hs1.store_at (q := 0) (by omega) v
      have hsub : sub64 d.lcounter_ 1 = d.lcounter_ - 1 := by unfold sub64; split_ifs <;> omega
      have hblk : blockAt { d with el_size_ := d.el_size_ + 1, lcounter_ := d.lcounter_ - 1 } t 0
          = entry t d.ind_of_begin_ := by
        show entry t (wrap d.size_ (d.ind_of_begin_ + (d.lcounter_ - 1 + 0) / 128)) = _
        have : (d.lcounter_ - 1 + 0) / 128 = 0 := by omega
        rw [this, Nat.add_zero, wrap_self hb]
      have hslot : slotAt { d with el_size_ := d.el_size_ + 1, lcounter_ := d.lcounter_ - 1 } 0
          = d.lcounter_ - 1 := by
        show (d.lcounter_ - 1 + 0) % 128 = _
        omega
      rw [hblk, hslot, ← hs.ledge] at hst
      refine ⟨g, _, ?_, Or.inr ⟨t, by simpa using hsg, ?_⟩, Heap.Frame.of_eq hgn hgc, ?_⟩
      · unfold PushFront
        simp only [hsz, if_pos hlc, if_false, Option.bind_eq_bind, Option.some_bind, hsub, hst]
        rfl
      · refine hc.push_front ?_
        intro p hp
        rw [hgl p (by show d.lcounter_ - 1 + p < 128 * d.size_; omega)]
        by_cases e : p = 0
        · rw [if_pos e, if_pos e]
        · rw [if_neg e, if_neg e]
          have e1 : d.lcounter_ - 1 + p = d.lcounter_ + (p - 1) := by omega
          have hblk1 : blockAt { d with el_size_ := d.el_size_ + 1, lcounter_ := d.lcounter_ - 1 }
              t p = blockAt d t (p - 1) := by
            show entry t (wrap d.size_ (d.ind_of_begin_ + (d.lcounter_ - 1 + p) / 128)) = _
            rw [e1]; rfl
          have hslot1 : slotAt { d with el_size_ := d.el_size_ + 1, lcounter_ := d.lcounter_ - 1 }
              p = slotAt d (p - 1) := by
            show (d.lcounter_ - 1 + p) % 128 = _
            rw [e1]; rfl
          rw [hblk1, hslot1]
      · intro a ha
        left
        have h1 : a ∈ tableOf d := ha
        rwa [hs.tableOf_eq] at h1
    · -- the left edge block is full
      have hlc0 : d.lcounter_ = 0 := by omega
      obtain ⟨c, hcc, hcl, -⟩ := hs.links _ hb
      have hderef : h.deref d.l_edge_ = some c := by rw [hs.ledge]; exact hcc
      by_cases hroom : (d.lcounter_ + l.length - 1) / 128 + 1 < d.size_
      · obtain ⟨g, d1, e, hs1, hc1, hn1, hf1, ht1⟩ := hs.advanceLeft_spec hc hlc0 hroom v
        have hne : ¬ (c.left = d.r_edge_) := by
          rw [hcl, hs.redge]
          intro e1
          have e2 := entry_inj hs.nodup (by rw [hs.len]; exact wrap_lt (by omega))
            (by rw [hs.len]; exact wrap_lt (by omega)) (Option.some.inj e1)
          unfold wrap at e2
          split_ifs at e2 <;> omega
        refine ⟨g, d1, ?_, Or.inr ⟨t, by simpa using hs1, hc1⟩, Heap.Frame.of_eq hn1 hf1, ?_⟩
        · unfold PushFront
          simp only [hsz, if_neg hlc, if_false, hderef, hne,
            Option.bind_eq_bind, Option.some_bind]
          exact e
        · intro a ha
          left
          rw [tableOf, ht1, hs.table] at ha
          exact ha
      · -- the ring is full: relocate first
        have hk : (d.lcounter_ + l.length - 1) / 128 + 1 = d.size_ := by omega
        have heq : c.left = d.r_edge_ := by
          rw [hcl, hs.redge]
          have : wrap d.size_ (d.ind_of_begin_ + d.size_ - 1)
              = wrap d.size_ (d.ind_of_begin_ + (d.lcounter_ + l.length - 1) / 128) := by
            unfold wrap; split_ifs <;> omega
          rw [this]
        obtain ⟨g0, e0, hs0, hn0, harr0, hf0⟩ := hs.relocate
          { d with el_size_ := d.el_size_ + 1 } rfl rfl
        have hc0 := hs.relocate_content hc harr0
        obtain ⟨g, d1, e, hs1, hc1, hn1, hf1, ht1⟩ :=
          hs0.advanceLeft_spec hc0 hlc0
            (by show (d.lcounter_ + l.length - 1) / 128 + 1 < 2 * d.size_; omega) v
        refine ⟨g, d1, ?_, Or.inr ⟨_, by simpa using hs1, hc1⟩, ⟨by rw [hn1, hn0]; omega, ?_⟩, ?_⟩
        · unfold PushFront
          simp only [hsz, if_neg hlc, if_false, hderef, heq, if_true,
            Option.bind_eq_bind, Option.some_bind, e0]
          exact e
        · intro a ha hat
          have : a ∉ relocTable h d t := by
            intro hmem
            rcases hs.relocTable_mem hmem with h1 | h1
            · exact hat h1
            · omega
          rw [hf1 a this, hf0 a ha hat]
        · intro a ha
          have : tableOf d1 = relocTable h d t := by
            rw [tableOf, ht1]; rfl
          rw [this] at ha
          rcases hs.relocTable_mem ha with h1 | h1
          · exact Or.inl h1
          · exact Or.inr h1.1

end Deque

theorem Heap.free_of {h : Heap} {a : Nat} {b : RingBufferElement} (hc : h.cells a = some b) :
    h.free a = some ⟨fun x => if x = a then none else h.cells x, h.next⟩ := by
  simp [Heap.free, hc]

namespace Deque

/-- The method `Delete` on a well-shaped deque releases exactly the blocks of the table and
yields the default-constructed state. -/
theorem Shape.delete_spec {h : Heap} {d0 : Deque} {t : List Nat} {m : Nat} (hs : Shape h d0 t m)
    (d : Deque) (hsz : d.size_ = d0.size_) (hta : d.main_array_ = d0.main_array_) :
    ∃ g, Delete h d = some (g, Deque.new) ∧ g.next = h.next ∧
      (∀ a, a ∉ t → g.cells a = h.cells a) ∧ ∀ a ∈ t, g.cells a = none := by
  have key := forLoop_inv (fun i hp => ((d.main_array_.getD [])[i]?).bind hp.free)
    (fun i g => g.next = h.next ∧ (∀ a, a ∉ t → g.cells a = h.cells a) ∧
      (∀ x, i ≤ x → x < d0.size_ → g.cells (entry t x) = h.cells (entry t x)) ∧
      ∀ x, x < i → g.cells (entry t x) = none) d0.size_ 0 h
    ⟨rfl, fun _ _ => rfl, fun _ _ _ => rfl, fun x hx => by omega⟩ ?_
  · obtain ⟨g, hg, hn, hout, -, hin⟩ := key
    refine ⟨g, ?_, hn, hout, ?_⟩
    · unfold Delete forRange
      rw [hsz, Nat.sub_zero, hg]
      rfl
    · intro a ha
      obtain ⟨i, hi, rfl⟩ := List.getElem_of_mem ha
      have := hin i (by rw [Nat.zero_add, ← hs.len]; exact hi)
      unfold entry at this
      rwa [List.getD_eq_getElem t 0 hi] at this
  · intro j g _ hj ⟨hn, hout, hrest, hdone⟩
    have hj1 : j < d0.size_ := by omega
    have hjt : j < t.length := by rw [hs.len]; exact hj1
    obtain ⟨b, hb, -⟩ := hs.links j hj1
    have hlive : g.cells (entry t j) = some b := by rw [hrest j (le_refl _) hj1]; exact hb
    refine ⟨⟨fun x => if x = entry t j then none else g.cells x, g.next⟩, ?_, hn, ?_, ?_, ?_⟩
    · rw [hta, hs.table]
      show (t[j]?).bind g.free = _
      rw [getElem?_eq_entry hjt]
      exact Heap.free_of hlive
    · intro a ha
      have : a ≠ entry t j := fun e => ha (e ▸ entry_mem hjt)
      simp only [this, if_false]
      exact hout a ha
    · intro x hx1 hx2
      have : entry t x ≠ entry t j := by
        intro e
        have := entry_inj hs.nodup (by rw [hs.len]; exact hx2) hjt e
        omega
      simp only [this, if_false]
      exact hrest x (by omega) hx2
    · intro x hx
      by_cases e : entry t x = entry t j
      · simp only [e, if_true]
      · simp only [e, if_false]
        exact hdone x (by
          have : x ≠ j := fun e1 => e (e1 ▸ rfl)
          omega)

/-- Removing the last element: the remaining positions keep their values. -/
theorem Content.pop_back {h g : Heap} {d d1 : Deque} {t t1 : List Nat} {l : List Int}
    (hc : Content h d t l)
    (hg : ∀ p, p + 1 < l.length → g.loadSlot (some (blockAt d1 t1 p)) (slotAt d1 p)
      = h.loadSlot (some (blockAt d t p)) (slotAt d p)) :
    Content g d1 t1 l.dropLast := by
  intro p hp
  have hp1 : p + 1 < l.length := by simp at hp; omega
  rw [hg p hp1, hc p (by omega), List.dropLast_eq_take, List.getElem?_take_of_lt (by omega)]

/-- Removing the first element: old position `p + 1` becomes position `p`. -/
theorem Content.pop_front {h g : Heap} {d d1 : Deque} {t t1 : List Nat} {l : List Int}
    (hc : Content h d t l)
    (hg : ∀ p, p + 1 < l.length → g.loadSlot (some (blockAt d1 t1 p)) (slotAt d1 p)
      = h.loadSlot (some (blockAt d t (p + 1))) (slotAt d (p + 1))) :
    Content g d1 t1 l.tail := by
  intro p hp
  have hp1 : p + 1 < l.length := by simp at hp; omega
  rw [hg p hp1, hc (p + 1) hp1, ← List.drop_one, List.getElem?_drop, Nat.add_comm]

end Deque

namespace Deque

theorem PopBack_models {h : Heap} {d : Deque} {l : List Int} (hm : Models h d l) (hne : l ≠ []) :
    ∃ g d1, PopBack h d = some (g, d1) ∧ Models g d1 l.dropLast ∧
      Heap.Frame (tableOf d) h g ∧ ∀ a ∈ tableOf d1, a ∈ tableOf d ∨ h.next ≤ a := by
  rcases hm with ⟨rfl, -⟩ | ⟨t, hs, hc⟩
  · exact absurd rfl hne
  have hb := hs.begin_lt
  have hcap := hs.cap
  have hpos := hs.pos
  have hrc0 := hs.rc
  have hlt := hs.lc_lt
  have hel := hs.count
  rw [hs.tableOf_eq]
  have hsub : sub64 d.el_size_ 1 = l.length - 1 := by
    unfold sub64; split_ifs <;> omega
  by_cases h1 : l.length = 1
  · -- the last element is removed: everything is released
    obtain ⟨g, e, hn, hout, -⟩ := hs.delete_spec { d with el_size_ := sub64 d.el_size_ 1 } rfl rfl
    have hnil : l.dropLast = [] := List.eq_nil_of_length_eq_zero (by simp [h1])
    refine ⟨g, Deque.new, ?_, Or.inl ⟨hnil, rfl⟩, Heap.Frame.of_eq hn hout, ?_⟩
    · unfold PopBack
      have : sub64 d.el_size_ 1 = 0 := by omega
      simp only [this, if_true, Option.bind_eq_bind, Option.some_bind]
      rw [← this]
      exact e
    · intro a ha
      simp [tableOf_new] at ha
  have hm2 : 2 ≤ l.length := by omega
  have hel0 : ¬ (sub64 d.el_size_ 1 = 0) := by omega
  have hel1 : ¬ (l.length - 1 = 0) := by omega
  have hlen' : l.dropLast.length = l.length - 1 := by simp
  obtain ⟨k, hk⟩ : ∃ k, k = (d.lcounter_ + l.length - 1) / 128 := ⟨_, rfl⟩
  have hkn : k < d.size_ := by omega
  by_cases hrc : d.rcounter_ > 0
  · -- the right edge block keeps at least one element
    obtain ⟨g, hst, hsg, hgn, hgc, hgl⟩ := hs.store_at (q := l.length - 1) (by omega) 0
    have hblk : blockAt d t (l.length - 1)
        = entry t (wrap d.size_ (d.ind_of_begin_ + (d.lcounter_ + l.length - 1) / 128)) := by
      show entry t (wrap d.size_ (d.ind_of_begin_ + (d.lcounter_ + (l.length - 1)) / 128)) = _
      have : d.lcounter_ + (l.length - 1) = d.lcounter_ + l.length - 1 := by omega
      rw [this]
    have hslot : slotAt d (l.length - 1) = d.rcounter_ := by
      show (d.lcounter_ + (l.length - 1)) % 128 = _
      have : d.lcounter_ + (l.length - 1) = d.lcounter_ + l.length - 1 := by omega
      rw [this, hrc0]
    rw [hblk, hslot, ← hs.redge] at hst
    have hsubrc : sub64 d.rcounter_ 1 = d.rcounter_ - 1 := by unfold sub64; split_ifs <;> omega
    have hk' : (d.lcounter_ + (l.length - 1) - 1) / 128 = (d.lcounter_ + l.length - 1) / 128 := by
      omega
    have hs1 : Shape g { d with el_size_ := l.length - 1, rcounter_ := d.rcounter_ - 1 } t
        l.dropLast.length := by
      rw [hlen']
      exact
        { table := hsg.table
          len := hsg.len
          nodup := hsg.nodup
          fresh := hsg.fresh
          count := rfl
          pos := by omega
          begin_lt := hsg.begin_lt
          lc_lt := hsg.lc_lt
          cap := by show d.lcounter_ + (l.length - 1) ≤ 128 * d.size_; omega
          rc := by show d.rcounter_ - 1 = (d.lcounter_ + (l.length - 1) - 1) % 128; omega
          ledge := hsg.ledge
          redge := by
            show d.r_edge_ = some (entry t (wrap d.size_
              (d.ind_of_begin_ + (d.lcounter_ + (l.length - 1) - 1) / 128)))
            rw [hk']; exact hsg.redge
          links := hsg.links
          arrs := by
            intro j hj
            show ∃ b, g.cells (entry t (wrap d.size_ (d.ind_of_begin_ + j))) = some b ∧
              b.arr.map List.length
                = if j ≤ (d.lcounter_ + (l.length - 1) - 1) / 128 then some 128 else none
            rw [hk']; exact hsg.arrs j hj }
    refine ⟨g, _, ?_, Or.inr ⟨t, hs1, ?_⟩, Heap.Frame.of_eq hgn hgc, ?_⟩
    · unfold PopBack
      simp only [if_neg hel0, if_neg hel1, if_pos hrc, Option.bind_eq_bind, Option.some_bind, hst,
        hsub, hsubrc]
      rfl
    · refine hc.pop_back ?_
      intro p hp
      rw [show blockAt { d with el_size_ := l.length - 1, rcounter_ := d.rcounter_ - 1 } t p
        = blockAt d t p from rfl,
        show slotAt { d with el_size_ := l.length - 1, rcounter_ := d.rcounter_ - 1 } p
        = slotAt d p from rfl, hgl p (by omega), if_neg (by omega)]
    · intro a ha
      left
      have h1 : a ∈ tableOf d := ha
      rwa [hs.tableOf_eq] at h1
  · -- the right edge block becomes vacant and is released
    have hrcz : d.rcounter_ = 0 := by omega
    have hk1 : 1 ≤ k := by omega
    have hwk : wrap d.size_ (d.ind_of_begin_ + k) < d.size_ := wrap_lt (by omega)
    obtain ⟨c, hcc, hcl, -⟩ := hs.links _ hwk
    have hprev : wrap d.size_ (wrap d.size_ (d.ind_of_begin_ + k) + d.size_ - 1)
        = wrap d.size_ (d.ind_of_begin_ + (k - 1)) := by
      unfold wrap; split_ifs <;> omega
    rw [hprev] at hcl
    have hre : d.r_edge_ = some (entry t (wrap d.size_ (d.ind_of_begin_ + k))) := by
      rw [hs.redge, hk]
    have hk' : (d.lcounter_ + (l.length - 1) - 1) / 128 = k - 1 := by omega
    have hlt2 : wrap d.size_ (d.ind_of_begin_ + k) < t.length := by rw [hs.len]; exact hwk
    have hs1 : Shape (h.write (entry t (wrap d.size_ (d.ind_of_begin_ + k))) { c with arr := none })
        { d with el_size_ := l.length - 1, r_edge_ := c.left, rcounter_ := 127 } t
        l.dropLast.length := by
      rw [hlen']
      exact
        { table := hs.table
          len := hs.len
          nodup := hs.nodup
          fresh := hs.fresh
          count := rfl
          pos := by omega
          begin_lt := hs.begin_lt
          lc_lt := hs.lc_lt
          cap := by show d.lcounter_ + (l.length - 1) ≤ 128 * d.size_; omega
          rc := by show 127 = (d.lcounter_ + (l.length - 1) - 1) % 128; omega
          ledge := hs.ledge
          redge := by
            show c.left = some (entry t (wrap d.size_
                (d.ind_of_begin_ + (d.lcounter_ + (l.length - 1) - 1) / 128)))
            rw [hk', hcl]
          links := by
            intro i hi
            obtain ⟨b, hb1, hl1, hr1⟩ := hs.links i hi
            by_cases e : entry t i = entry t (wrap d.size_ (d.ind_of_begin_ + k))
            · rw [e] at hb1
              rw [hcc] at hb1
              cases hb1
              exact ⟨{ c with arr := none }, by simp [e], hl1, hr1⟩
            · exact ⟨b, by simp [e, hb1], hl1, hr1⟩
          arrs := by
            intro j hj
            have hj : j < d.size_ := hj
            show ∃ b, (h.write _ _).cells (entry t (wrap d.size_ (d.ind_of_begin_ + j))) = some b ∧
              b.arr.map List.length
                = if j ≤ (d.lcounter_ + (l.length - 1) - 1) / 128 then some 128 else none
            rw [hk']
            by_cases e : j = k
            · subst e
              exact ⟨{ c with arr := none }, by simp, by rw [if_neg (by omega)]; rfl⟩
            · obtain ⟨b, hb1, ha1⟩ := hs.arrs j hj
              have hne1 : entry t (wrap d.size_ (d.ind_of_begin_ + j))
                  ≠ entry t (wrap d.size_ (d.ind_of_begin_ + k)) := by
                intro e1
                have := entry_inj hs.nodup (by rw [hs.len]; exact wrap_lt (by omega)) hlt2 e1
                exact e (wrap_inj hj hkn this)
              refine ⟨b, by simp [hne1, hb1], ?_⟩
              rw [ha1, ← hk]
              by_cases h3 : j ≤ k
              · rw [if_pos h3, if_pos (by omega)]
              · rw [if_neg h3, if_neg (by omega)] }
    refine ⟨_, _, ?_, Or.inr ⟨t, hs1, ?_⟩, Heap.Frame.of_eq rfl ?_, ?_⟩
    · unfold PopBack
      have hd1 : (h.write (entry t (wrap d.size_ (d.ind_of_begin_ + k))) { c with arr := none }).deref
          (some (entry t (wrap d.size_ (d.ind_of_begin_ + k)))) = some { c with arr := none } := by
        simp [Heap.deref]
      simp only [if_neg hel0, if_neg hel1, if_neg hrc, Option.bind_eq_bind, Option.some_bind, hre,
        Heap.dropArr_of hcc, hd1, hsub]
      rfl
    · refine hc.pop_back ?_
      intro p hp
      refine Heap.loadSlot_write_ne _ ?_ _
      intro e1
      have hp1 : (d.lcounter_ + p) / 128 < k := by omega
      have := entry_inj hs.nodup (hs.blockAt_lt (by omega)) hlt2 e1
      have := wrap_inj (by omega) hkn this
      omega
    · intro a ha
      have : a ≠ entry t (wrap d.size_ (d.ind_of_begin_ + k)) := fun e => ha (e ▸ entry_mem hlt2)
      simp [this]
    · intro a ha
      left
      have h1 : a ∈ tableOf d := ha
      rwa [hs.tableOf_eq] at h1

end Deque

namespace Deque

theorem PopFront_models {h : Heap} {d : Deque} {l : List Int} (hm : Models h d l) (hne : l ≠ []) :
    ∃ g d1, PopFront h d = some (g, d1) ∧ Models g d1 l.tail ∧
      Heap.Frame (tableOf d) h g ∧ ∀ a ∈ tableOf d1, a ∈ tableOf d ∨ h.next ≤ a := by
  rcases hm with ⟨rfl, -⟩ | ⟨t, hs, hc⟩
  · exact absurd rfl hne
  have hb := hs.begin_lt
  have hcap := hs.cap
  have hpos := hs.pos
  have hrc0 := hs.rc
  have hlt := hs.lc_lt
  have hel := hs.count
  rw [hs.tableOf_eq]
  have hsub : sub64 d.el_size_ 1 = l.length - 1 := by
    unfold sub64; split_ifs <;> omega
  by_cases h1 : l.length = 1
  · -- the last element is removed: everything is released
    obtain ⟨g, e, hn, hout, -⟩ := hs.delete_spec { d with el_size_ := sub64 d.el_size_ 1 } rfl rfl
    have hnil : l.tail = [] := List.eq_nil_of_length_eq_zero (by simp [h1])
    refine ⟨g, Deque.new, ?_, Or.inl ⟨hnil, rfl⟩, Heap.Frame.of_eq hn hout, ?_⟩
    · unfold PopFront
      have : sub64 d.el_size_ 1 = 0 := by omega
      simp only [this, if_true, Option.bind_eq_bind, Option.some_bind]
      rw [← this]
      exact e
    · intro a ha
      simp [tableOf_new] at ha
  have hm2 : 2 ≤ l.length := by omega
  have hel0 : ¬ (sub64 d.el_size_ 1 = 0) := by omega
  have hel1 : ¬ (l.length - 1 = 0) := by omega
  have hlen' : l.tail.length = l.length - 1 := by simp
  obtain ⟨k, hk⟩ : ∃ k, k = (d.lcounter_ + l.length - 1) / 128 := ⟨_, rfl⟩
  have hkn : k < d.size_ := by omega
  by_cases hlc : d.lcounter_ < 127
  · -- the left edge block keeps at least one element
    obtain ⟨g, hst, hsg, hgn, hgc, hgl⟩ := hs.store_at (q := 0) (by omega) 0
    have hblk : blockAt d t 0 = entry t d.ind_of_begin_ := by
      show entry t (wrap d.size_ (d.ind_of_begin_ + (d.lcounter_ + 0) / 128)) = _
      have : (d.lcounter_ + 0) / 128 = 0 := by omega
      rw [this, Nat.add_zero, wrap_self hb]
    have hslot : slotAt d 0 = d.lcounter_ := by
      show (d.lcounter_ + 0) % 128 = _
      omega
    rw [hblk, hslot, ← hs.ledge] at hst
    have hk' : (d.lcounter_ + 1 + (l.length - 1) - 1) / 128 = (d.lcounter_ + l.length - 1) / 128 := by
      have : d.lcounter_ + 1 + (l.length - 1) - 1 = d.lcounter_ + l.length - 1 := by omega
      rw [this]
    have hs1 : Shape g { d with el_size_ := l.length - 1, lcounter_ := d.lcounter_ + 1 } t
        l.tail.length := by
      rw [hlen']
      exact
        { table := hsg.table
          len := hsg.len
          nodup := hsg.nodup
          fresh := hsg.fresh
          count := rfl
          pos := by omega
          begin_lt := hsg.begin_lt
          lc_lt := by show d.lcounter_ + 1 < 128; omega
          cap := by show d.lcounter_ + 1 + (l.length - 1) ≤ 128 * d.size_; omega
          rc := by
            show d.rcounter_ = (d.lcounter_ + 1 + (l.length - 1) - 1) % 128
            have : d.lcounter_ + 1 + (l.length - 1) - 1 = d.lcounter_ + l.length - 1 := by omega
            rw [this]; exact hrc0
          ledge := hsg.ledge
          redge := by
            show d.r_edge_ = some (entry t (wrap d.size_
              (d.ind_of_begin_ + (d.lcounter_ + 1 + (l.length - 1) - 1) / 128)))
            rw [hk']; exact hsg.redge
          links := hsg.links
          arrs := by
            intro j hj
            show ∃ b, g.cells (entry t (wrap d.size_ (d.ind_of_begin_ + j))) = some b ∧
              b.arr.map List.length
                = if j ≤ (d.lcounter_ + 1 + (l.length - 1) - 1) / 128 then some 128 else none
            rw [hk']; exact hsg.arrs j hj }
    refine ⟨g, _, ?_, Or.inr ⟨t, hs1, ?_⟩, Heap.Frame.of_eq hgn hgc, ?_⟩
    · unfold PopFront
      simp only [if_neg hel0, if_neg hel1, if_pos hlc, Option.bind_eq_bind, Option.some_bind, hst,
        hsub]
      rfl
    · refine hc.pop_front ?_
      intro p hp
      have e1 : d.lcounter_ + 1 + p = d.lcounter_ + (p + 1) := by omega
      have hblk1 : blockAt { d with el_size_ := l.length - 1, lcounter_ := d.lcounter_ + 1 } t p
          = blockAt d t (p + 1) := by
        show entry t (wrap d.size_ (d.ind_of_begin_ + (d.lcounter_ + 1 + p) / 128)) = _
        rw [e1]; rfl
      have hslot1 : slotAt { d with el_size_ := l.length - 1, lcounter_ := d.lcounter_ + 1 } p
          = slotAt d (p + 1) := by
        show (d.lcounter_ + 1 + p) % 128 = _
        rw [e1]; rfl
      rw [hblk1, hslot1, hgl (p + 1) (by omega), if_neg (by omega)]
    · intro a ha
      left
      have h1 : a ∈ tableOf d := ha
      rwa [hs.tableOf_eq] at h1
  · -- the left edge block becomes vacant and is released
    have hlc1 : d.lcounter_ = 127 := by omega
    have hk1 : 1 ≤ k := by omega
    obtain ⟨b', hb'⟩ : ∃ b', b' = wrap d.size_ (d.ind_of_begin_ + 1) := ⟨_, rfl⟩
    have hb'lt : b' < d.size_ := by rw [hb']; exact wrap_lt (by omega)
    obtain ⟨c, hcc, -, hcr⟩ := hs.links _ hb
    rw [← hb'] at hcr
    have hshift : ∀ j, j + 1 < d.size_ →
        wrap d.size_ (b' + j) = wrap d.size_ (d.ind_of_begin_ + (j + 1)) := by
      intro j h2
      rw [hb']; unfold wrap; split_ifs <;> omega
    have hlast : wrap d.size_ (b' + (d.size_ - 1)) = d.ind_of_begin_ := by
      rw [hb']; unfold wrap; split_ifs <;> omega
    have hk' : (0 + (l.length - 1) - 1) / 128 = k - 1 := by omega
    have hlt2 : d.ind_of_begin_ < t.length := by rw [hs.len]; exact hb
    have hs1 : Shape (h.write (entry t d.ind_of_begin_) { c with arr := none })
        { d with el_size_ := l.length - 1, l_edge_ := c.right, ind_of_begin_ := b',
                 lcounter_ := 0 } t l.tail.length := by
      rw [hlen']
      exact
        { table := hs.table
          len := hs.len
          nodup := hs.nodup
          fresh := hs.fresh
          count := rfl
          pos := by omega
          begin_lt := hb'lt
          lc_lt := by show 0 < 128; omega
          cap := by show 0 + (l.length - 1) ≤ 128 * d.size_; omega
          rc := by show d.rcounter_ = (0 + (l.length - 1) - 1) % 128; omega
          ledge := hcr
          redge := by
            show d.r_edge_ = some (entry t (wrap d.size_ (b' + (0 + (l.length - 1) - 1) / 128)))
            rw [hk', hshift (k - 1) (by omega), hs.redge, ← hk]
            have : k - 1 + 1 = k := by omega
            rw [this]
          links := by
            intro i hi
            obtain ⟨b, hb1, hl1, hr1⟩ := hs.links i hi
            by_cases e : entry t i = entry t d.ind_of_begin_
            · rw [e] at hb1
              rw [hcc] at hb1
              cases hb1
              exact ⟨{ c with arr := none }, by simp [e], hl1, hr1⟩
            · exact ⟨b, by simp [e, hb1], hl1, hr1⟩
          arrs := by
            intro j hj
            have hj : j < d.size_ := hj
            show ∃ b, (h.write _ _).cells (entry t (wrap d.size_ (b' + j))) = some b ∧
              b.arr.map List.length
                = if j ≤ (0 + (l.length - 1) - 1) / 128 then some 128 else none
            rw [hk']
            by_cases e : j = d.size_ - 1
            · subst e
              rw [hlast]
              exact ⟨{ c with arr := none }, by simp, by rw [if_neg (by omega)]; rfl⟩
            · rw [hshift j (by omega)]
              obtain ⟨b, hb1, ha1⟩ := hs.arrs (j + 1) (by omega)
              have hne1 : entry t (wrap d.size_ (d.ind_of_begin_ + (j + 1)))
                  ≠ entry t d.ind_of_begin_ := by
                intro e1
                have := entry_inj hs.nodup (by rw [hs.len]; exact wrap_lt (by omega)) hlt2 e1
                unfold wrap at this
                split_ifs at this <;> omega
              refine ⟨b, by simp [hne1, hb1], ?_⟩
              rw [ha1, ← hk]
              by_cases h3 : j + 1 ≤ k
              · rw [if_pos h3, if_pos (by omega)]
              · rw [if_neg h3, if_neg (by omega)] }
    have hsub1 : sub64 d.size_ 1 = d.size_ - 1 := by unfold sub64; split_ifs <;> omega
    refine ⟨_, _, ?_, Or.inr ⟨t, hs1, ?_⟩, Heap.Frame.of_eq rfl ?_, ?_⟩
    · unfold PopFront
      have hd1 : (h.write (entry t d.ind_of_begin_) { c with arr := none }).deref
          (some (entry t d.ind_of_begin_)) = some { c with arr := none } := by
        simp [Heap.deref]
      by_cases hb0 : d.ind_of_begin_ = d.size_ - 1
      · have e1 : b' = 0 := by rw [hb']; unfold wrap; split_ifs <;> omega
        have hcond : d.ind_of_begin_ = sub64 d.size_ 1 := by rw [hsub1]; exact hb0
        simp only [if_neg hel0, if_neg hel1, if_neg hlc, Option.bind_eq_bind, Option.some_bind,
          hs.ledge, Heap.dropArr_of hcc, hd1, hsub, if_pos hcond, e1]
        rfl
      · have e1 : b' = d.ind_of_begin_ + 1 := by rw [hb']; unfold wrap; split_ifs <;> omega
        have hcond : ¬ (d.ind_of_begin_ = sub64 d.size_ 1) := by rw [hsub1]; exact hb0
        simp only [if_neg hel0, if_neg hel1, if_neg hlc, Option.bind_eq_bind, Option.some_bind,
          hs.ledge, Heap.dropArr_of hcc, hd1, hsub, if_neg hcond, e1]
        rfl
    · refine hc.pop_front ?_
      intro p hp
      have hq : (d.lcounter_ + (p + 1)) / 128 = p / 128 + 1 := by omega
      have hblk1 : blockAt
          { d with el_size_ := l.length - 1, l_edge_ := c.right, ind_of_begin_ := b',
                   lcounter_ := 0 } t p = blockAt d t (p + 1) := by
        show entry t (wrap d.size_ (b' + (0 + p) / 128))
          = entry t (wrap d.size_ (d.ind_of_begin_ + (d.lcounter_ + (p + 1)) / 128))
        rw [hq, Nat.zero_add, hshift _ (by omega)]
      have hslot1 : slotAt
          { d with el_size_ := l.length - 1, l_edge_ := c.right, ind_of_begin_ := b',
                   lcounter_ := 0 } p = slotAt d (p + 1) := by
        show (0 + p) % 128 = (d.lcounter_ + (p + 1)) % 128
        omega
      rw [hblk1, hslot1]
      refine Heap.loadSlot_write_ne _ ?_ _
      intro e1
      have := entry_inj hs.nodup (hs.blockAt_lt (by omega)) hlt2 e1
      unfold wrap at this
      split_ifs at this <;> omega
    · intro a ha
      have : a ≠ entry t d.ind_of_begin_ := fun e => ha (e ▸ entry_mem hlt2)
      simp [this]
    · intro a ha
      left
      have h1 : a ∈ tableOf d := ha
      rwa [hs.tableOf_eq] at h1

end Deque

namespace Deque

theorem models_new (h : Heap) : Models h Deque.new [] := Or.inl ⟨rfl, rfl⟩

theorem Models.size_eq {h : Heap} {d : Deque} {l : List Int} (hm : Models h d l) :
    d.Size = l.length := by
  rcases hm with ⟨rfl, rfl⟩ | ⟨t, hs, -⟩
  · rfl
  · exact hs.count

theorem Models.get_getElem {h : Heap} {d : Deque} {l : List Int} (hm : Models h d l) {i : Nat}
    (hi : i < l.length) : d.get h i = l[i]? := by
  rcases hm with ⟨rfl, rfl⟩ | ⟨t, hs, hc⟩
  · simp at hi
  · rw [hs.get_eq hi, hc i hi]

theorem Models.eq_new {h : Heap} {d : Deque} (hm : Models h d []) : d = Deque.new := by
  rcases hm with ⟨-, rfl⟩ | ⟨t, hs, -⟩
  · rfl
  · exact absurd hs.pos (by simp)

theorem Models.capacity {h : Heap} {d : Deque} {l : List Int} (hm : Models h d l) :
    l.length ≤ 128 * d.size_ := by
  rcases hm with ⟨rfl, rfl⟩ | ⟨t, hs, -⟩
  · simp
  · have := hs.cap; omega

theorem Models.table_lt {h : Heap} {d : Deque} {l : List Int} (hm : Models h d l) :
    ∀ a ∈ tableOf d, a < h.next := by
  rcases hm with ⟨rfl, rfl⟩ | ⟨t, hs, -⟩
  · intro a ha; simp [tableOf_new] at ha
  · rw [hs.tableOf_eq]; exact hs.fresh

end Deque

/-- Every operation that the abstract list allows succeeds on the deque and keeps the
representation; its footprint is the deque's own table and fresh blocks. -/
theorem Op.apply_models {h : Heap} {d : Deque} {l l1 : List Int} (o : Op)
    (hm : Deque.Models h d l) (hr : o.onList l = some l1) :
    ∃ g d1, o.apply h d = some (g, d1) ∧ Deque.Models g d1 l1 ∧
      Heap.Frame (Deque.tableOf d) h g ∧
      ∀ a ∈ Deque.tableOf d1, a ∈ Deque.tableOf d ∨ h.next ≤ a := by
  cases o with
  | pushBack v =>
    simp only [Op.onList, Option.some.injEq] at hr
    subst hr
    exact Deque.PushBack_models hm v
  | pushFront v =>
    simp only [Op.onList, Option.some.injEq] at hr
    subst hr
    exact Deque.PushFront_models hm v
  | popBack =>
    simp only [Op.onList] at hr
    split_ifs at hr with hl
    simp only [Option.some.injEq] at hr
    subst hr
    exact Deque.PopBack_models hm hl
  | popFront =>
    simp only [Op.onList] at hr
    split_ifs at hr with hl
    simp only [Option.some.injEq] at hr
    subst hr
    exact Deque.PopFront_models hm hl

theorem runOps_models : ∀ (ops : List Op) {h : Heap} {d : Deque} {l l1 : List Int},
    Deque.Models h d l → replay ops l = some l1 →
    ∃ g d1, runOps ops h d = some (g, d1) ∧ Deque.Models g d1 l1 := by
  intro ops
  induction ops with
  | nil =>
    intro h d l l1 hm hr
    simp only [replay, Option.some.injEq] at hr
    subst hr
    exact ⟨h, d, rfl, hm⟩
  | cons o os ih =>
    intro h d l l1 hm hr
    simp only [replay] at hr
    cases ho : o.onList l with
    | none => simp [ho] at hr
    | some l2 =>
      simp only [ho] at hr
      obtain ⟨g, d1, e, hm1, -, -⟩ := o.apply_models hm ho
      obtain ⟨g2, d2, e2, hm2⟩ := ih hm1 hr
      exact ⟨g2, d2, by simp only [runOps, e, e2], hm2⟩

theorem replay_counts : ∀ (ops : List Op) {l l1 : List Int}, replay ops l = some l1 →
    l1.length + popCount ops = l.length + pushCount ops := by
  intro ops
  induction ops with
  | nil =>
    intro l l1 hr
    simp only [replay, Option.some.injEq] at hr
    subst hr
    rfl
  | cons o os ih =>
    intro l l1 hr
    simp only [replay] at hr
    cases ho : o.onList l with
    | none => simp [ho] at hr
    | some l2 =>
      simp only [ho] at hr
      have h1 := ih hr
      cases o with
      | pushBack v =>
        simp only [Op.onList, Option.some.injEq] at ho
        subst ho
        simp [popCount, pushCount] at h1 ⊢
        omega
      | pushFront v =>
        simp only [Op.onList, Option.some.injEq] at ho
        subst ho
        simp [popCount, pushCount] at h1 ⊢
        omega
      | popBack =>
        simp only [Op.onList] at ho
        split_ifs at ho with hl
        simp only [Option.some.injEq] at ho
        subst ho
        have : 0 < l.length := List.length_pos.2 hl
        simp [popCount, pushCount] at h1 ⊢
        omega
      | popFront =>
        simp only [Op.onList] at ho
        split_ifs at ho with hl
        simp only [Option.some.injEq] at ho
        subst ho
        have : 0 < l.length := List.length_pos.2 hl
        simp [popCount, pushCount] at h1 ⊢
        omega

theorem replay_pushBacks : ∀ (vs : List Int) (l : List Int),
    replay (vs.map Op.pushBack) l = some (l ++ vs) := by
  intro vs
  induction vs with
  | nil => intro l; simp [replay]
  | cons v vs ih =>
    intro l
    simp only [List.map_cons, replay, Op.onList, ih]
    simp

theorem replay_pushUpTo (n : Nat) :
    replay (pushUpTo n) [] = some ((List.range n).map fun (i : Nat) => (i : Int) + 1) := by
  have := replay_pushBacks ((List.range n).map fun (i : Nat) => (i : Int) + 1) []
  simpa [pushUpTo, List.map_map, Function.comp_def] using this

/-- A count of references, as an `int`, is below `INT_MAX`. -/
theorem INT_MAX_natCast_lt {n : Nat} : ((n : Int) < INT_MAX) ↔ n < 2147483647 := by
  unfold INT_MAX
  omega

namespace BaseBlock

theorem IncreaseStrong_view {s : Store} {a : Nat} {v : BlockView} (hv : s.view a = some v)
    (hlt : v.strong < INT_MAX) :
    ∃ s1, IncreaseStrong s a = some s1 ∧ s1.view a = some { v with strong := v.strong + 1 } ∧
      s1.destroyed = s.destroyed ∧ (∀ x, x ≠ a → s1.blocks x = s.blocks x) ∧ s1.next = s.next := by
  unfold Store.view at hv
  cases hb : s.blocks a with
  | none => simp [hb] at hv
  | some b =>
    cases b with
    | pointer b =>
      simp only [hb, Option.map_some', Option.some.injEq, view] at hv
      subst hv
      dsimp only at hlt ⊢
      refine ⟨s.setBlock a (.pointer { b with strong_counter_ := b.strong_counter_ + 1 }),
        by simp only [IncreaseStrong, hb, PointerControlBlock.IncreaseStrong, if_pos hlt],
        ?_, rfl, ?_, rfl⟩
      · simp [Store.view, Store.setBlock, view]
      · intro x hx
        simp [Store.setBlock, hx]
    | inplace b =>
      simp only [hb, Option.map_some', Option.some.injEq, view] at hv
      subst hv
      dsimp only at hlt ⊢
      refine ⟨s.setBlock a (.inplace { b with strong_counter_ := b.strong_counter_ + 1 }),
        by simp only [IncreaseStrong, hb, ControlBlock.IncreaseStrong, if_pos hlt],
        ?_, rfl, ?_, rfl⟩
      · simp [Store.view, Store.setBlock, view]
      · intro x hx
        simp [Store.setBlock, hx]

/-- An increment of a strong counter that holds `INT_MAX` or more has no defined result. -/
theorem IncreaseStrong_overflow {s : Store} {a : Nat} {v : BlockView} (hv : s.view a = some v)
    (hge : ¬ v.strong < INT_MAX) : IncreaseStrong s a = none := by
  unfold Store.view at hv
  cases hb : s.blocks a with
  | none => simp [hb] at hv
  | some b =>
    cases b with
    | pointer b =>
      simp only [hb, Option.map_some', Option.some.injEq, view] at hv
      subst hv
      simp only [IncreaseStrong, hb, PointerControlBlock.IncreaseStrong, if_neg hge]
    | inplace b =>
      simp only [hb, Option.map_some', Option.some.injEq, view] at hv
      subst hv
      simp only [IncreaseStrong, hb, ControlBlock.IncreaseStrong, if_neg hge]

theorem IncreaseWeak_view {s : Store} {a : Nat} {v : BlockView} (hv : s.view a = some v)
    (hlt : v.weak < INT_MAX) :
    ∃ s1, IncreaseWeak s a = some s1 ∧ s1.view a = some { v with weak := v.weak + 1 } ∧
      s1.destroyed = s.destroyed ∧ (∀ x, x ≠ a → s1.blocks x = s.blocks x) ∧ s1.next = s.next := by
  unfold Store.view at hv
  cases hb : s.blocks a with
  | none => simp [hb] at hv
  | some b =>
    cases b with
    | pointer b =>
      simp only [hb, Option.map_some', Option.some.injEq, view] at hv
      subst hv
      dsimp only at hlt ⊢
      refine ⟨s.setBlock a (.pointer { b with weak_counter_ := b.weak_counter_ + 1 }),
        by simp only [IncreaseWeak, hb, PointerControlBlock.IncreaseWeak, if_pos hlt],
        ?_, rfl, ?_, rfl⟩
      · simp [Store.view, Store.setBlock, view]
      · intro x hx
        simp [Store.setBlock, hx]
    | inplace b =>
      simp only [hb, Option.map_some', Option.some.injEq, view] at hv
      subst hv
      dsimp only at hlt ⊢
      refine ⟨s.setBlock a (.inplace { b with weak_counter_ := b.weak_counter_ + 1 }),
        by simp only [IncreaseWeak, hb, ControlBlock.IncreaseWeak, if_pos hlt],
        ?_, rfl, ?_, rfl⟩
      · simp [Store.view, Store.setBlock, view]
      · intro x hx
        simp [Store.setBlock, hx]

/-- An increment of a weak counter that holds `INT_MAX` or more has no defined result. -/
theorem IncreaseWeak_overflow {s : Store} {a : Nat} {v : BlockView} (hv : s.view a = some v)
    (hge : ¬ v.weak < INT_MAX) : IncreaseWeak s a = none := by
  unfold Store.view at hv
  cases hb : s.blocks a with
  | none => simp [hb] at hv
  | some b =>
    cases b with
    | pointer b =>
      simp only [hb, Option.map_some', Option.some.injEq, view] at hv
      subst hv
      simp only [IncreaseWeak, hb, PointerControlBlock.IncreaseWeak, if_neg hge]
    | inplace b =>
      simp only [hb, Option.map_some', Option.some.injEq, view] at hv
      subst hv
      simp only [IncreaseWeak, hb, ControlBlock.IncreaseWeak, if_neg hge]

theorem GetStrongQ_view {s : Store} {a : Nat} {v : BlockView} (hv : s.view a = some v) :
    GetStrongQ s a = some v.strong := by
  unfold Store.view at hv
  cases hb : s.blocks a with
  | none => simp [hb] at hv
  | some b =>
    cases b <;> simp only [hb, Option.map_some', Option.some.injEq, view] at hv <;> subst hv <;>
      simp [GetStrongQ, hb, PointerControlBlock.GetStrongQ, ControlBlock.GetStrongQ]

end BaseBlock

theorem countP_eraseIdx_add {α : Type} (q : α → Bool) : ∀ (l : List α) (i : Nat) (x : α),
    l[i]? = some x → (l.eraseIdx i).countP q + (if q x then 1 else 0) = l.countP q := by
  intro l
  induction l with
  | nil => intro i x h; simp at h
  | cons y ys ih =>
    intro i x h
    cases i with
    | zero =>
      simp only [List.getElem?_cons_zero, Option.some.injEq] at h
      subst h
      simp [List.countP_cons]
    | succ i =>
      simp only [List.getElem?_cons_succ] at h
      have := ih i x h
      simp only [List.eraseIdx_cons_succ, List.countP_cons]
      omega

theorem countP_set_add {α : Type} (q : α → Bool) : ∀ (l : List α) (i : Nat) (x y : α),
    l[i]? = some x →
      (l.set i y).countP q + (if q x then 1 else 0) = l.countP q + (if q y then 1 else 0) := by
  intro l
  induction l with
  | nil => intro i x y h; simp at h
  | cons z zs ih =>
    intro i x y h
    cases i with
    | zero =>
      simp only [List.getElem?_cons_zero, Option.some.injEq] at h
      subst h
      simp only [List.set_cons_zero, List.countP_cons]
      omega
    | succ i =>
      simp only [List.getElem?_cons_succ] at h
      have := ih i x y h
      simp only [List.set_cons_succ, List.countP_cons]
      omega

theorem countP_pos_of_getElem? {α : Type} (q : α → Bool) {l : List α} {i : Nat} {x : α}
    (h : l[i]? = some x) (hq : q x = true) : 0 < l.countP q := by
  have := countP_eraseIdx_add q l i x h
  simp only [hq, if_true] at this
  omega

theorem mem_of_getElem?_eq {α : Type} {l : List α} {i : Nat} {x : α} (h : l[i]? = some x) :
    x ∈ l := by
  obtain ⟨hi, rfl⟩ := List.getElem?_eq_some_iff.1 h
  exact List.getElem_mem hi

theorem sharedRefs_append_one (a : Nat) (l : List SharedPtr) (p : SharedPtr) :
    sharedRefs a (l ++ [p]) = sharedRefs a l + (if p.control_block_ = some a then 1 else 0) := by
  simp only [sharedRefs, List.countP_append, List.countP_cons, List.countP_nil, beq_iff_eq]
  omega

theorem weakRefs_append_one (a : Nat) (l : List WeakPtr) (p : WeakPtr) :
    weakRefs a (l ++ [p]) = weakRefs a l + (if p.control_block_ = some a then 1 else 0) := by
  simp only [weakRefs, List.countP_append, List.countP_cons, List.countP_nil, beq_iff_eq]
  omega

theorem sharedRefs_eraseIdx (a : Nat) {l : List SharedPtr} {i : Nat} {p : SharedPtr}
    (h : l[i]? = some p) :
    sharedRefs a (l.eraseIdx i) + (if p.control_block_ = some a then 1 else 0) = sharedRefs a l := by
  have := countP_eraseIdx_add (fun p : SharedPtr => p.control_block_ == some a) l i p h
  simpa only [sharedRefs, beq_iff_eq] using this

theorem weakRefs_eraseIdx (a : Nat) {l : List WeakPtr} {i : Nat} {p : WeakPtr}
    (h : l[i]? = some p) :
    weakRefs a (l.eraseIdx i) + (if p.control_block_ = some a then 1 else 0) = weakRefs a l := by
  have := countP_eraseIdx_add (fun p : WeakPtr => p.control_block_ == some a) l i p h
  simpa only [weakRefs, beq_iff_eq] using this

theorem sharedRefs_set (a : Nat) {l : List SharedPtr} {i : Nat} {p : SharedPtr} (q : SharedPtr)
    (h : l[i]? = some p) :
    sharedRefs a (l.set i q) + (if p.control_block_ = some a then 1 else 0)
      = sharedRefs a l + (if q.control_block_ = some a then 1 else 0) := by
  have := countP_set_add (fun p : SharedPtr => p.control_block_ == some a) l i p q h
  simpa only [sharedRefs, beq_iff_eq] using this

theorem weakRefs_set (a : Nat) {l : List WeakPtr} {i : Nat} {p : WeakPtr} (q : WeakPtr)
    (h : l[i]? = some p) :
    weakRefs a (l.set i q) + (if p.control_block_ = some a then 1 else 0)
      = weakRefs a l + (if q.control_block_ = some a then 1 else 0) := by
  have := countP_set_add (fun p : WeakPtr => p.control_block_ == some a) l i p q h
  simpa only [weakRefs, beq_iff_eq] using this

theorem sharedRefs_pos (a : Nat) {l : List SharedPtr} {i : Nat} {p : SharedPtr}
    (h : l[i]? = some p) (hp : p.control_block_ = some a) : 0 < sharedRefs a l := by
  have := sharedRefs_eraseIdx a h
  rw [if_pos hp] at this
  omega

theorem weakRefs_pos (a : Nat) {l : List WeakPtr} {i : Nat} {p : WeakPtr}
    (h : l[i]? = some p) (hp : p.control_block_ = some a) : 0 < weakRefs a l := by
  have := weakRefs_eraseIdx a h
  rw [if_pos hp] at this
  omega

namespace World.Inv

end World.Inv

theorem sharedRefs_append_none (a : Nat) (l : List SharedPtr) {p : SharedPtr}
    (hp : p.control_block_ = none) : sharedRefs a (l ++ [p]) = sharedRefs a l := by
  rw [sharedRefs_append_one, hp]; simp

theorem sharedRefs_append_ref (a : Nat) (l : List SharedPtr) {p : SharedPtr}
    (hp : p.control_block_ = some a) : sharedRefs a (l ++ [p]) = sharedRefs a l + 1 := by
  rw [sharedRefs_append_one, if_pos hp]

theorem weakRefs_append_none (a : Nat) (l : List WeakPtr) {p : WeakPtr}
    (hp : p.control_block_ = none) : weakRefs a (l ++ [p]) = weakRefs a l := by
  rw [weakRefs_append_one, hp]; simp

namespace World.Inv

variable {a : Nat} {obj : Addr} {w : World}

end World.Inv

namespace World.Inv

variable {a : Nat} {obj : Addr} {w : World}

end World.Inv

namespace World.Inv

variable {a : Nat} {obj : Addr} {w : World}

end World.Inv

theorem sharedRefs_le_length (a : Nat) (l : List SharedPtr) : sharedRefs a l ≤ l.length :=
  List.countP_le_length _

theorem weakRefs_le_length (a : Nat) (l : List WeakPtr) : weakRefs a l ≤ l.length :=
  List.countP_le_length _

/-- One operation adds at most one pointer of each kind to the world. -/
theorem PtrOp.step_length {w w1 : World} (o : PtrOp) (e : o.step w = some w1) :
    w1.shared.length ≤ w.shared.length + 1 ∧ w1.weak.length ≤ w.weak.length + 1 := by
  cases o <;> simp only [PtrOp.step] at e <;> split at e <;>
    first
    | (simp only [Option.some.injEq] at e; subst e; simp)
    | (simp only [Option.map_eq_some'] at e; obtain ⟨r, -, rfl⟩ := e
       simp only [List.length_append, List.length_set, List.length_singleton, le_refl,
         Nat.le_add_right, and_self, true_and, and_true]
       try exact le_trans (List.length_eraseIdx_le _ _) (Nat.le_add_right _ _))
    | (split at e <;> cases e <;> simp)

theorem toSizeT_natCast (n : Nat) : toSizeT (n : Int) = n := by
  simp [toSizeT]

theorem SharedPtr.copies_spec {p : SharedPtr} {a : Nat} (hp : p.control_block_ = some a) :
    ∀ (k : Nat) {s : Store} {v : BlockView}, s.view a = some v → v.strong + k ≤ INT_MAX →
      ∃ s2 cs, p.copies k s = some (s2, cs) ∧ cs.length = k ∧
        s2.view a = some { v with strong := v.strong + k } ∧
        ∀ q ∈ cs, q.control_block_ = some a := by
  intro k
  induction k with
  | zero =>
    intro s v hv _
    exact ⟨s, [], rfl, rfl, by simpa using hv, by simp⟩
  | succ k ih =>
    intro s v hv hk
    push_cast at hk
    obtain ⟨s1, e1, hv1, -, -, -⟩ := BaseBlock.IncreaseStrong_view hv (by omega)
    obtain ⟨s2, cs, e2, hlen, hv2, hcs⟩ := ih hv1 (by dsimp only; omega)
    have e : SharedPtr.copy s p
        = some (s1, ⟨p.alias_ptr_, some a, p.if_pointer_type_⟩) := by
      simp only [SharedPtr.copy, hp, e1, Option.map_some']
    refine ⟨s2, ⟨p.alias_ptr_, some a, p.if_pointer_type_⟩ :: cs,
      by simp only [SharedPtr.copies, e, e2, Option.map_some'], by simp [hlen], ?_, ?_⟩
    · rw [hv2]
      simp only [Option.some.injEq, BlockView.mk.injEq, and_true, true_and]
      push_cast
      omega
    · intro q hq
      rcases List.mem_cons.1 hq with h1 | h1
      · rw [h1]
      · exact hcs q h1

theorem SharedPtr.UseCount_of_view {s : Store} {p : SharedPtr} {a : Nat} {v : BlockView}
    (hp : p.control_block_ = some a) (hv : s.view a = some v) :
    p.UseCount s = some (toSizeT v.strong) := by
  simp only [SharedPtr.UseCount, hp, BaseBlock.GetStrongQ_view hv, Option.map_some']

theorem WeakPtr.Expired_of_view {s : Store} {w : WeakPtr} {a : Nat} {v : BlockView}
    (hp : w.control_block_ = some a) (hv : s.view a = some v) :
    w.Expired s = some (decide (v.strong = 0)) := by
  simp only [WeakPtr.Expired, hp, BaseBlock.GetStrongQ_view hv, Option.map_some']

theorem ofRaw_view (s : Store) (raw : Option Addr) :
    (SharedPtr.ofRaw s raw).2.control_block_ = some s.next ∧
      (SharedPtr.ofRaw s raw).1.view s.next = some ⟨1, 0, false, raw⟩ := by
  simp [SharedPtr.ofRaw, Store.allocBlock, Store.view, BaseBlock.view, PointerControlBlock.new]

theorem MakeShared_view (s : Store) :
    (SharedPtr.MakeShared s).2.control_block_ = some s.next ∧
      (SharedPtr.MakeShared s).1.view s.next = some ⟨1, 0, false, some (Addr.holder s.next)⟩ := by
  simp [SharedPtr.MakeShared, Store.allocBlock, Store.view, BaseBlock.view, ControlBlock.new]

/-- After `k` copies of a pointer whose block has strong count 1, every pointer reports
`k + 1`. -/
theorem SharedPtr.copies_useCount {p : SharedPtr} {a : Nat} {s : Store} {v : BlockView}
    (hp : p.control_block_ = some a) (hv : s.view a = some v) (h1 : v.strong = 1) (k : Nat)
    (hk : k < 2147483647) :
    ∃ s2 cs, p.copies k s = some (s2, cs) ∧ cs.length = k ∧
      p.UseCount s2 = some (k + 1) ∧ ∀ q ∈ cs, q.UseCount s2 = some (k + 1) := by
  obtain ⟨s2, cs, e, hlen, hv2, hcs⟩ := SharedPtr.copies_spec hp k hv
    (by rw [h1]; unfold INT_MAX; omega)
  have hcount : toSizeT (v.strong + (k : Int)) = k + 1 := by
    rw [h1]
    have : (1 : Int) + (k : Int) = ((k + 1 : Nat) : Int) := by push_cast; omega
    rw [this, toSizeT_natCast]
  refine ⟨s2, cs, e, hlen, ?_, ?_⟩
  · rw [SharedPtr.UseCount_of_view hp hv2]
    exact congrArg some hcount
  · intro q hq
    rw [SharedPtr.UseCount_of_view (hcs q hq) hv2]
    exact congrArg some hcount

/-- The copy that would take the strong count beyond `INT_MAX` has no defined result. -/
theorem SharedPtr.copies_overflow {p : SharedPtr} {a : Nat} (hp : p.control_block_ = some a) :
    ∀ (k : Nat) {s : Store} {v : BlockView}, s.view a = some v → v.strong ≤ INT_MAX →
      INT_MAX < v.strong + k → p.copies k s = none := by
  intro k
  induction k with
  | zero =>
    intro s v hv hle hk
    simp only [Nat.cast_zero, add_zero] at hk
    omega
  | succ k ih =>
    intro s v hv hle hk
    push_cast at hk
    by_cases hlt : v.strong < INT_MAX
    · obtain ⟨s1, e1, hv1, -, -, -⟩ := BaseBlock.IncreaseStrong_view hv hlt
      have e : SharedPtr.copy s p
          = some (s1, ⟨p.alias_ptr_, some a, p.if_pointer_type_⟩) := by
        simp only [SharedPtr.copy, hp, e1, Option.map_some']
      have e2 := ih hv1 (by dsimp only; omega) (by dsimp only; omega)
      simp only [SharedPtr.copies, e, e2, Option.map_none']
    · have e : SharedPtr.copy s p = none := by
        simp only [SharedPtr.copy, hp, BaseBlock.IncreaseStrong_overflow hv hlt, Option.map_none']
      simp only [SharedPtr.copies, e]

theorem entry_range' {s n x : Nat} (hx : x < n) : entry (List.range' s n) x = s + x := by
  unfold entry
  rw [List.getD_eq_getElem _ _ (by simpa using hx)]
  simp

namespace Deque

/-- The linking statements of the copy operations link every entry of a table of `n ≥ 1` distinct
live blocks to its cyclic neighbours and change nothing but links. -/
theorem linkCopy_spec {t : List Nat} {h : Heap} {n : Nat} (hlen : t.length = n) (hn : 1 ≤ n)
    (hnd : t.Nodup) (hlive : ∀ i, i < n → ∃ b, h.cells (entry t i) = some b) :
    ∃ g, linkCopy t n h = some g ∧ Relinked t h g ∧ ∀ x, x < n → LinkedAt g t n x := by
  have hmemi : ∀ i, i < n → entry t i ∈ t := fun i hi => entry_mem (by rw [hlen]; exact hi)
  have hs1 : sub64 n 1 = n - 1 := by unfold sub64; split_ifs <;> omega
  obtain ⟨bf, hbf⟩ := hlive 0 (by omega)
  obtain ⟨bl, hbl⟩ := hlive (n - 1) (by omega)
  by_cases h1 : n = 1
  · subst h1
    have eloop : forRange (linkBoth t) 1 (1 - 1) h = some h := rfl
    obtain ⟨g3, b2, b3, e3, hr3, hne3, hc2, hc3, hL3, hR3⟩ :=
      (Relinked.refl t h).set_left (hmemi 0 (by omega)) hbf (some (entry t 0))
    obtain ⟨g4, b3', b4, e4, hr4, hne4, hc3', hc4, hL4, hR4⟩ :=
      hr3.set_right (hmemi 0 (by omega)) hbf (some (entry t 0))
    rw [hc3] at hc3'; cases hc3'
    refine ⟨g4, ?_, hr4, ?_⟩
    · unfold linkCopy
      simp only [hs1, eloop, Option.bind_eq_bind, Option.some_bind,
        getElem?_eq_entry (show 0 < t.length by omega),
        getElem?_eq_entry (show 1 - 1 < t.length by omega), e3]
      simp only [Nat.sub_self, e4, Option.some_bind, gt_iff_lt, lt_self_iff_false, if_false]
    · intro x hx
      have : x = 0 := by omega
      subst this
      exact ⟨b4, hc4, by rw [hL4, hL3]; rfl, by rw [hR4]; rfl⟩
  · have hn2 : 2 ≤ n := by omega
    have hs2 : sub64 n 2 = n - 2 := by unfold sub64; split_ifs <;> omega
    obtain ⟨g2, eloop, hr2, hl2⟩ := linkLoop_spec hlen hn2 hnd hlive
    have hlf : entry t (n - 1) ≠ entry t 0 := by
      intro e
      have := entry_inj hnd (by omega) (by omega) e
      omega
    obtain ⟨g3, -, c3, e3, hr3, hne3, -, hc3, hL3, -⟩ :=
      hr2.set_left (hmemi 0 (by omega)) hbf (some (entry t (n - 1)))
    obtain ⟨g4, -, c4, e4, hr4, hne4, -, hc4, -, hR4⟩ :=
      hr3.set_right (hmemi (n - 1) (by omega)) hbl (some (entry t 0))
    obtain ⟨g5, b4, b5, e5, hr5, hne5, hb4, hc5, hL5, hR5⟩ :=
      hr4.set_right (hmemi 0 (by omega)) hbf (some (entry t 1))
    obtain ⟨g6, b5', b6, e6, hr6, hne6, hb5', hc6, hL6, hR6⟩ :=
      hr5.set_left (hmemi (n - 1) (by omega)) hbl (some (entry t (n - 2)))
    rw [hne4 _ hlf.symm, hc3] at hb4
    cases hb4
    rw [hne5 _ hlf, hc4] at hb5'
    cases hb5'
    refine ⟨g6, ?_, hr6, ?_⟩
    · unfold linkCopy
      have hgt : n > 1 := by omega
      simp only [hs1, hs2, eloop, Option.bind_eq_bind, Option.some_bind,
        getElem?_eq_entry (show 0 < t.length by omega),
        getElem?_eq_entry (show n - 1 < t.length by omega),
        getElem?_eq_entry (show 1 < t.length by omega),
        getElem?_eq_entry (show n - 2 < t.length by omega), e3, e4, if_pos hgt, e5, e6]
    · intro x hx
      by_cases hx0 : x = 0
      · subst hx0
        refine ⟨b5, ?_, ?_, ?_⟩
        · rw [hne6 _ hlf.symm, hc5]
        · rw [hL5, hL3]
          have : wrap n (0 + n - 1) = n - 1 := by unfold wrap; split_ifs <;> omega
          rw [this]
        · rw [hR5]
          have : wrap n (0 + 1) = 1 := by unfold wrap; split_ifs <;> omega
          rw [this]
      · by_cases hxl : x = n - 1
        · subst hxl
          refine ⟨b6, hc6, ?_, ?_⟩
          · rw [hL6]
            have : wrap n (n - 1 + n - 1) = n - 2 := by unfold wrap; split_ifs <;> omega
            rw [this]
          · rw [hR6, hR4]
            have : wrap n (n - 1 + 1) = 0 := by unfold wrap; split_ifs <;> omega
            rw [this]
        · have hxf : entry t x ≠ entry t 0 := by
            intro e
            exact hx0 (entry_inj hnd (by omega) (by omega) e)
          have hxl1 : entry t x ≠ entry t (n - 1) := by
            intro e
            exact hxl (entry_inj hnd (by omega) (by omega) e)
          refine (hl2 x (by omega) (by omega)).congr ?_
          rw [hne6 _ hxl1, hne5 _ hxf, hne4 _ hxl1, hne3 _ hxf]

end Deque

namespace Deque

/-- The slot-copy loop overwrites the destination array with the source array and changes
nothing else. -/
theorem copySlots_spec {h : Heap} {src dst : Nat} {bs bd : RingBufferElement}
    {xs ys : List Int} (hsd : src ≠ dst) (hcs : h.cells src = some bs) (hxs : bs.arr = some xs)
    (hlx : xs.length = 128) (hcd : h.cells dst = some bd) (hys : bd.arr = some ys)
    (hly : ys.length = 128) :
    ∃ g, copySlots (some src) (some dst) h = some g ∧ g.next = h.next ∧
      (∀ a, a ≠ dst → g.cells a = h.cells a) ∧
      g.cells dst = some { bd with arr := some xs } := by
  have key := forLoop_inv
    (fun j (hp : Heap) => (hp.loadSlot (some src) j).bind fun v => hp.storeSlot (some dst) j v)
    (fun j g => g.next = h.next ∧ (∀ a, a ≠ dst → g.cells a = h.cells a) ∧
      ∃ zs, g.cells dst = some { bd with arr := some zs } ∧ zs.length = 128 ∧
        ∀ i, i < j → zs[i]? = xs[i]?) 128 0 h
    ⟨rfl, fun _ _ => rfl, ys, by rw [hcd, ← hys], hly, fun i hi => by omega⟩ ?_
  · obtain ⟨g, e, hn, hout, zs, hc, hlz, hz⟩ := key
    refine ⟨g, e, hn, hout, ?_⟩
    have : zs = xs := by
      apply List.ext_getElem?
      intro i
      by_cases hi : i < 128
      · exact hz i (by omega)
      · rw [List.getElem?_eq_none (by omega), List.getElem?_eq_none (by omega)]
    rw [hc, this]
  · intro j g _ hj ⟨hn, hout, zs, hc, hlz, hz⟩
    have hj1 : j < 128 := by omega
    have hload : g.loadSlot (some src) j = some xs[j] := by
      rw [Heap.loadSlot_of (by rw [hout src hsd]; exact hcs) hxs, List.getElem?_eq_getElem]
    have hstore := Heap.storeSlot_of (h := g) (a := dst) hc rfl (i := j) (by omega) xs[j]
    refine ⟨g.write dst { bd with arr := some (zs.set j xs[j]) }, ?_, hn, ?_, zs.set j xs[j], ?_,
      by simp [hlz], ?_⟩
    · show (g.loadSlot (some src) j).bind _ = _
      rw [hload]
      exact hstore
    · intro a ha
      simp only [Heap.write_cells, ha, if_false]
      exact hout a ha
    · simp
    · intro i hi
      rw [List.getElem?_set]
      by_cases hij : j = i
      · subst hij
        simp [hlz, hj1, List.getElem?_eq_getElem (show j < xs.length by omega)]
      · rw [if_neg hij]
        exact hz i (by omega)

end Deque

namespace Deque

/-- Every table entry of a well-shaped deque is a live block whose array is absent or has 128
slots. -/
theorem Shape.entry_arr {h : Heap} {d : Deque} {t : List Nat} {m : Nat} (hs : Shape h d t m)
    {i : Nat} (hi : i < d.size_) :
    ∃ b, h.cells (entry t i) = some b ∧
      (b.arr = none ∨ ∃ xs, b.arr = some xs ∧ xs.length = 128) := by
  have hb := hs.begin_lt
  have hj : wrap d.size_ (i + d.size_ - d.ind_of_begin_) < d.size_ := wrap_lt (by omega)
  obtain ⟨b, hc, ha⟩ := hs.arrs _ hj
  have hw : wrap d.size_ (d.ind_of_begin_ + wrap d.size_ (i + d.size_ - d.ind_of_begin_)) = i := by
    unfold wrap; split_ifs <;> omega
  rw [hw] at hc
  refine ⟨b, hc, ?_⟩
  cases hx : b.arr with
  | none => exact Or.inl rfl
  | some xs =>
    right
    refine ⟨xs, rfl, ?_⟩
    rw [hx] at ha
    split_ifs at ha
    · simpa using ha
    · simp at ha

/-- The block-copy loop of the copy operations. -/
theorem Shape.copyLoop_spec {h g5 : Heap} {rhs d0 : Deque} {rt : List Nat} {m : Nat}
    (hs : Shape h rhs rt m) (hd0l : d0.l_edge_ = none) (hd0r : d0.r_edge_ = none)
    (hnext : g5.next = h.next + rhs.size_)
    (hold : ∀ a, a < h.next → g5.cells a = h.cells a)
    (hnew : ∀ x, x < rhs.size_ → ∃ bn, g5.cells (h.next + x) = some bn ∧ bn.arr = none) :
    ∃ g, forRange (copyBlock rhs (List.range' h.next rhs.size_)) 0 rhs.size_ (g5, d0)
        = some (g, { d0 with
          l_edge_ := some (h.next + rhs.ind_of_begin_),
          r_edge_ := some (h.next + wrap rhs.size_
            (rhs.ind_of_begin_ + (rhs.lcounter_ + m - 1) / 128)) }) ∧
      g.next = h.next + rhs.size_ ∧ (∀ a, a < h.next → g.cells a = h.cells a) ∧
      ∀ x, x < rhs.size_ → ∃ bn bg bo, g5.cells (h.next + x) = some bn ∧
        g.cells (h.next + x) = some bg ∧ h.cells (entry rt x) = some bo ∧
        bg.left = bn.left ∧ bg.right = bn.right ∧ bg.arr = bo.arr := by
  have hb := hs.begin_lt
  have hcap := hs.cap
  have hpos := hs.pos
  obtain ⟨re, hre⟩ : ∃ re, re = wrap rhs.size_
      (rhs.ind_of_begin_ + (rhs.lcounter_ + m - 1) / 128) := ⟨_, rfl⟩
  have hrelt : re < rhs.size_ := by rw [hre]; exact wrap_lt (by omega)
  rw [← hre]
  have key := forLoop_inv (copyBlock rhs (List.range' h.next rhs.size_))
    (fun i (st : Heap × Deque) => st.1.next = h.next + rhs.size_ ∧
      (∀ a, a < h.next → st.1.cells a = h.cells a) ∧
      (∀ x, x < rhs.size_ → ∃ bn bg, g5.cells (h.next + x) = some bn ∧
        st.1.cells (h.next + x) = some bg ∧ bg.left = bn.left ∧ bg.right = bn.right ∧
        ∀ bo, h.cells (entry rt x) = some bo → bg.arr = if x < i then bo.arr else none) ∧
      st.2 = { d0 with
        l_edge_ := if rhs.ind_of_begin_ < i then some (h.next + rhs.ind_of_begin_) else none,
        r_edge_ := if re < i then some (h.next + re) else none })
    rhs.size_ 0 (g5, d0) ⟨hnext, hold, ?_, ?_⟩ ?_
  · obtain ⟨⟨g, d⟩, e, hn, ho, hx, hd⟩ := key
    dsimp only at hn ho hx hd
    rw [Nat.zero_add] at hx hd
    rw [if_pos hb, if_pos hrelt] at hd
    subst hd
    refine ⟨g, by unfold forRange; rw [Nat.sub_zero]; exact e, hn, ho, ?_⟩
    intro x hxn
    obtain ⟨bn, bg, h1, h2, h3, h4, h5⟩ := hx x hxn
    obtain ⟨bo, hbo, -⟩ := hs.entry_arr hxn
    refine ⟨bn, bg, bo, h1, h2, hbo, h3, h4, ?_⟩
    rw [h5 bo hbo, if_pos hxn]
  · intro x hxn
    obtain ⟨bn, h1, h2⟩ := hnew x hxn
    exact ⟨bn, bn, h1, h1, rfl, rfl, fun bo _ => by rw [h2]; simp⟩
  · show d0 = _
    simp only [Nat.not_lt_zero, if_false]
    cases d0
    simp only at hd0l hd0r
    subst hd0l hd0r
    rfl
  · rintro i ⟨g, d⟩ - hi ⟨hn, ho, hx, hd⟩
    dsimp only at hn ho hx hd
    have hin : i < rhs.size_ := by omega
    have hirt : i < rt.length := by rw [hs.len]; exact hin
    obtain ⟨bo, hbo, harr⟩ := hs.entry_arr hin
    have hsrc_lt : entry rt i < h.next := hs.fresh _ (entry_mem hirt)
    have hgsrc : g.cells (entry rt i) = some bo := by rw [ho _ hsrc_lt]; exact hbo
    obtain ⟨bn, bg, hbn, hbg, hL, hR, hA⟩ := hx i hin
    have hAi : bg.arr = none := by rw [hA bo hbo, if_neg (by omega)]
    have htl : i < (List.range' h.next rhs.size_).length := by simpa using hin
    have hti : (List.range' h.next rhs.size_)[i]? = some (h.next + i) := by
      rw [getElem?_eq_entry htl, entry_range' hin]
    have hne : entry rt i ≠ h.next + i := by omega
    -- the edges
    have hle : (some (entry rt i) = rhs.l_edge_) ↔ i = rhs.ind_of_begin_ := by
      rw [hs.ledge]
      constructor
      · intro e
        exact entry_inj hs.nodup hirt (by rw [hs.len]; exact hb) (Option.some.inj e)
      · intro e; rw [e]
    have hred : (some (entry rt i) = rhs.r_edge_) ↔ i = re := by
      rw [hs.redge, ← hre]
      constructor
      · intro e
        exact entry_inj hs.nodup hirt (by rw [hs.len]; exact hrelt) (Option.some.inj e)
      · intro e; rw [e]
    have hedges : (if rhs.ind_of_begin_ < i + 1 then some (h.next + rhs.ind_of_begin_) else none)
        = (if i = rhs.ind_of_begin_ then some (h.next + i)
            else if rhs.ind_of_begin_ < i then some (h.next + rhs.ind_of_begin_) else none) := by
      split_ifs <;> first | rfl | omega | (congr 1; omega)
    have hedges2 : (if re < i + 1 then some (h.next + re) else none)
        = (if i = re then some (h.next + i)
            else if re < i then some (h.next + re) else none) := by
      split_ifs <;> first | rfl | omega | (congr 1; omega)
    -- the deque part of the step
    have hdq : ∀ g1 : Heap, (do
        let d1 ← if some (entry rt i) = rhs.l_edge_ then
            ((List.range' h.next rhs.size_)[i]?).map fun dst => { d with l_edge_ := some dst }
          else some d
        let d2 ← if some (entry rt i) = rhs.r_edge_ then
            ((List.range' h.next rhs.size_)[i]?).map fun dst => { d1 with r_edge_ := some dst }
          else some d1
        pure (g1, d2) : Option (Heap × Deque))
        = some (g1, { d0 with
          l_edge_ := if rhs.ind_of_begin_ < i + 1 then some (h.next + rhs.ind_of_begin_) else none,
          r_edge_ := if re < i + 1 then some (h.next + re) else none }) := by
      intro g1
      rw [hedges, hedges2, hd, hti]
      by_cases h1 : i = rhs.ind_of_begin_
      · by_cases h2 : i = re
        · simp only [if_pos (hle.2 h1), if_pos (hred.2 h2), if_pos h1, if_pos h2,
            Option.map_some', Option.bind_eq_bind, Option.some_bind, Option.pure_def]
        · simp only [if_pos (hle.2 h1), if_neg (fun e => h2 (hred.1 e)), if_pos h1, if_neg h2,
            Option.map_some', Option.bind_eq_bind, Option.some_bind, Option.pure_def]
      · by_cases h2 : i = re
        · simp only [if_neg (fun e => h1 (hle.1 e)), if_pos (hred.2 h2), if_neg h1, if_pos h2,
            Option.map_some', Option.bind_eq_bind, Option.some_bind, Option.pure_def]
        · simp only [if_neg (fun e => h1 (hle.1 e)), if_neg (fun e => h2 (hred.1 e)), if_neg h1,
            if_neg h2, Option.map_some', Option.bind_eq_bind, Option.some_bind, Option.pure_def]
    rcases harr with hnone | ⟨xs, hxs, hlx⟩
    · -- nothing to copy
      refine ⟨(g, _), ?_, hn, ho, ?_, rfl⟩
      · unfold copyBlock
        simp only [hs.table, Option.getD_some, getElem?_eq_entry hirt, Option.bind_eq_bind,
          Option.some_bind, hgsrc, hnone, ne_eq, not_true_eq_false, if_false]
        simpa only [hti, Option.bind_eq_bind, Option.some_bind, Option.map_some',
          Option.pure_def] using hdq g
      · intro x hxn
        obtain ⟨bn', bg', h1, h2, h3, h4, h5⟩ := hx x hxn
        refine ⟨bn', bg', h1, h2, h3, h4, ?_⟩
        intro bo' hbo'
        rw [h5 bo' hbo']
        by_cases hxi : x = i
        · subst hxi
          rw [hbo] at hbo'
          cases hbo'
          rw [if_neg (by omega), if_pos (by omega), hnone]
        · by_cases hlt : x < i
          · rw [if_pos hlt, if_pos (by omega)]
          · rw [if_neg hlt, if_neg (by omega)]
    · -- the array is copied
      have hfill := FillArray_of (h := g) hbg
      have hc1 : (g.write (h.next + i) { bg with arr := some (List.replicate 128 0) }).cells
          (h.next + i) = some { bg with arr := some (List.replicate 128 0) } := by simp
      have hc0 : (g.write (h.next + i) { bg with arr := some (List.replicate 128 0) }).cells
          (entry rt i) = some bo := by
        simp only [Heap.write_cells, hne, if_false]; exact hgsrc
      obtain ⟨g1, e1, hn1, ho1, hcd1⟩ := copySlots_spec hne hc0 hxs hlx hc1 rfl (by simp)
      refine ⟨(g1, _), ?_, ?_, ?_, ?_, rfl⟩
      · unfold copyBlock
        have hnn : bo.arr ≠ none := by rw [hxs]; simp
        simp only [hs.table, Option.getD_some, getElem?_eq_entry hirt, Option.bind_eq_bind,
          Option.some_bind, hgsrc, hnn, ne_eq, not_false_eq_true, if_true, hti, hfill, e1]
        simpa only [hti, Option.bind_eq_bind, Option.some_bind, Option.map_some',
          Option.pure_def] using hdq g1
      · show g1.next = _
        rw [hn1]; exact hn
      · intro a ha
        show g1.cells a = _
        rw [ho1 a (by omega)]
        simp only [Heap.write_cells, show a ≠ h.next + i by omega, if_false]
        exact ho a ha
      · intro x hxn
        by_cases hxi : x = i
        · subst hxi
          refine ⟨bn, _, hbn, hcd1, hL, hR, ?_⟩
          intro bo' hbo'
          rw [hbo] at hbo'
          cases hbo'
          rw [if_pos (by omega), hxs]
        · obtain ⟨bn', bg', h1, h2, h3, h4, h5⟩ := hx x hxn
          refine ⟨bn', bg', h1, ?_, h3, h4, ?_⟩
          · show g1.cells (h.next + x) = _
            rw [ho1 _ (by omega)]
            simp only [Heap.write_cells, show h.next + x ≠ h.next + i by omega, if_false]
            exact h2
          · intro bo' hbo'
            rw [h5 bo' hbo']
            by_cases hlt : x < i
            · rw [if_pos hlt, if_pos (by omega)]
            · rw [if_neg hlt, if_neg (by omega)]

end Deque

theorem Heap.loadSlot_across {h g : Heap} {a a1 : Nat}
    (hc : (g.cells a).map (·.arr) = (h.cells a1).map (·.arr)) (i : Nat) :
    g.loadSlot (some a) i = h.loadSlot (some a1) i := by
  unfold Heap.loadSlot
  cases hg : g.cells a <;> cases hh : h.cells a1 <;> simp [hg, hh] at hc ⊢
  rw [hc]

namespace Deque

/-- The copy of a deque that represents `l` represents `l` as well, lives in fresh blocks only,
and leaves every block that existed before untouched. -/
theorem Models.copyFrom_spec {h : Heap} {rhs : Deque} {l : List Int} (hm : Models h rhs l) :
    ∃ g c, copyFrom h Deque.new rhs = some (g, c) ∧ Models g c l ∧ h.next ≤ g.next ∧
      (∀ a, a < h.next → g.cells a = h.cells a) ∧ ∀ a ∈ tableOf c, h.next ≤ a := by
  rcases hm with ⟨rfl, rfl⟩ | ⟨rt, hs, hc⟩
  · exact ⟨h, Deque.new, rfl, Or.inl ⟨rfl, rfl⟩, le_refl _, fun _ _ => rfl,
      fun a ha => by simp [tableOf_new] at ha⟩
  have hb := hs.begin_lt
  have hcap := hs.cap
  have hn := hs.size_pos
  obtain ⟨hf, hnx, hcells⟩ := allocMany_spec rhs.size_ h
  have hlen : (List.range' h.next rhs.size_).length = rhs.size_ := by simp
  have hnd : (List.range' h.next rhs.size_).Nodup := List.nodup_range' _ _
  have hent : ∀ x, x < rhs.size_ → entry (List.range' h.next rhs.size_) x = h.next + x :=
    fun x hx => entry_range' hx
  have hfresh : ∀ x, x < rhs.size_ →
      (allocMany rhs.size_ h).1.cells (h.next + x) = some ⟨none, none, none⟩ := by
    intro x hx
    rw [hcells, if_pos (by omega)]
  have hlive : ∀ i, i < rhs.size_ →
      ∃ b, (allocMany rhs.size_ h).1.cells (entry (List.range' h.next rhs.size_) i) = some b := by
    intro i hi
    rw [hent i hi]
    exact ⟨_, hfresh i hi⟩
  obtain ⟨g5, e5, hr5, hl5⟩ := linkCopy_spec hlen (by omega) hnd hlive
  have hnotin : ∀ a, a < h.next → a ∉ List.range' h.next rhs.size_ := by
    intro a ha hmem
    have := (List.mem_range'_1.1 hmem).1
    omega
  have hold5 : ∀ a, a < h.next → g5.cells a = h.cells a := by
    intro a ha
    rw [hr5.2.2 a (hnotin a ha), hcells, if_neg (by omega)]
  have hnew5 : ∀ x, x < rhs.size_ → ∃ bn, g5.cells (h.next + x) = some bn ∧ bn.arr = none := by
    intro x hx
    obtain ⟨b1, h1, h2⟩ := hr5.live (hfresh x hx)
    exact ⟨b1, h1, h2⟩
  obtain ⟨d0, hd0⟩ : ∃ d0 : Deque, d0 = { Deque.new with
      ind_of_begin_ := rhs.ind_of_begin_, el_size_ := rhs.el_size_, size_ := rhs.size_,
      lcounter_ := rhs.lcounter_, rcounter_ := rhs.rcounter_ } := ⟨_, rfl⟩
  obtain ⟨g, e, hgn, hgo, hgx⟩ := @Shape.copyLoop_spec h g5 rhs d0 rt l.length hs (by rw [hd0]; rfl)
    (by rw [hd0]; rfl) (by rw [hr5.1, hnx]) hold5 hnew5
  obtain ⟨re, hre⟩ : ∃ re, re = wrap rhs.size_
      (rhs.ind_of_begin_ + (rhs.lcounter_ + l.length - 1) / 128) := ⟨_, rfl⟩
  have hrelt : re < rhs.size_ := by rw [hre]; exact wrap_lt (by omega)
  rw [← hre] at e
  -- the cells of the copy
  have hcell : ∀ x, x < rhs.size_ → ∃ bg bo,
      g.cells (entry (List.range' h.next rhs.size_) x) = some bg ∧
      h.cells (entry rt x) = some bo ∧
      bg.left = some (entry (List.range' h.next rhs.size_) (wrap rhs.size_ (x + rhs.size_ - 1))) ∧
      bg.right = some (entry (List.range' h.next rhs.size_) (wrap rhs.size_ (x + 1))) ∧
      bg.arr = bo.arr := by
    intro x hx
    obtain ⟨bn, bg, bo, h1, h2, h3, h4, h5, h6⟩ := hgx x hx
    obtain ⟨bl, hbl, hl1, hl2⟩ := hl5 x hx
    rw [hent x hx, h1] at hbl
    cases hbl
    exact ⟨bg, bo, by rw [hent x hx]; exact h2, h3, by rw [h4, hl1], by rw [h5, hl2], h6⟩
  refine ⟨g, { ({ d0 with l_edge_ := some (h.next + rhs.ind_of_begin_),
                          r_edge_ := some (h.next + re) } : Deque) with
      main_array_ := some (List.range' h.next rhs.size_) }, ?_,
    Or.inr ⟨List.range' h.next rhs.size_, ?_, ?_⟩, ?_, hgo, ?_⟩
  · unfold copyFrom
    have hgt : rhs.size_ > 0 := hn
    simp only [if_pos hgt, hf, e5, Option.bind_eq_bind, Option.some_bind, ← hd0, e]
    rfl
  · subst hd0
    exact
      { table := rfl
        len := hlen
        nodup := hnd
        fresh := by
          intro a ha
          have := (List.mem_range'_1.1 ha).2
          rw [hgn]; exact this
        count := hs.count
        pos := hs.pos
        begin_lt := hb
        lc_lt := hs.lc_lt
        cap := hcap
        rc := hs.rc
        ledge := by
          show some (h.next + rhs.ind_of_begin_) = some (entry _ rhs.ind_of_begin_)
          rw [hent _ hb]
        redge := by
          show some (h.next + re) = some (entry _ (wrap rhs.size_
            (rhs.ind_of_begin_ + (rhs.lcounter_ + l.length - 1) / 128)))
          rw [← hre, hent _ hrelt]
        links := by
          intro x hx
          obtain ⟨bg, bo, h1, -, h3, h4, -⟩ := hcell x hx
          exact ⟨bg, h1, h3, h4⟩
        arrs := by
          intro j hj
          have hj : j < rhs.size_ := hj
          have hw : wrap rhs.size_ (rhs.ind_of_begin_ + j) < rhs.size_ := wrap_lt (by omega)
          obtain ⟨bg, bo, h1, h2, -, -, h5⟩ := hcell _ hw
          obtain ⟨b', hb', ha'⟩ := hs.arrs j hj
          rw [h2] at hb'
          cases hb'
          exact ⟨bg, h1, by rw [h5]; exact ha'⟩ }
  · intro p hp
    subst hd0
    have hw : wrap rhs.size_ (rhs.ind_of_begin_ + (rhs.lcounter_ + p) / 128) < rhs.size_ :=
      wrap_lt (by omega)
    obtain ⟨bg, bo, h1, h2, -, -, h5⟩ := hcell _ hw
    rw [← hc p hp]
    show g.loadSlot (some (entry (List.range' h.next rhs.size_)
        (wrap rhs.size_ (rhs.ind_of_begin_ + (rhs.lcounter_ + p) / 128))))
        ((rhs.lcounter_ + p) % 128)
      = h.loadSlot (some (entry rt (wrap rhs.size_ (rhs.ind_of_begin_ + (rhs.lcounter_ + p) / 128))))
        ((rhs.lcounter_ + p) % 128)
    refine Heap.loadSlot_across ?_ _
    rw [h1, h2]
    simp [h5]
  · rw [hgn]; omega
  · intro a ha
    have : a ∈ List.range' h.next rhs.size_ := ha
    exact (List.mem_range'_1.1 this).1

end Deque

namespace Deque

/-- A representation survives every change of the store that leaves the deque's own blocks
alone. -/
theorem Models.frame {h g : Heap} {d : Deque} {l : List Int} (hm : Models h d l)
    (hn : h.next ≤ g.next) (hc : ∀ x ∈ tableOf d, g.cells x = h.cells x) : Models g d l := by
  rcases hm with ⟨rfl, rfl⟩ | ⟨t, hs, hcont⟩
  · exact Or.inl ⟨rfl, rfl⟩
  · rw [hs.tableOf_eq] at hc
    refine Or.inr ⟨t, hs.transfer hn ?_, ?_⟩
    · intro a ha b hb
      exact ⟨b, by rw [hc a ha]; exact hb, rfl, rfl, rfl⟩
    · intro p hp
      have hcap := hs.cap
      rw [← hcont p hp]
      apply Heap.loadSlot_congr
      have hx : blockAt d t p ∈ t :=
        entry_mem (hs.blockAt_lt (p := p) (by omega))
      rw [hc _ hx]

/-- The method `Delete` on a deque that represents a list: it succeeds, resets the members, and
touches the deque's own blocks only. -/
theorem Models.delete_resets {h : Heap} {d : Deque} {l : List Int} (hm : Models h d l) :
    ∃ g, Delete h d = some (g, Deque.new) ∧ g.next = h.next ∧
      ∀ a, a ∉ tableOf d → g.cells a = h.cells a := by
  rcases hm with ⟨rfl, rfl⟩ | ⟨t, hs, -⟩
  · exact ⟨h, rfl, rfl, fun _ _ => rfl⟩
  · obtain ⟨g, e, hn, hout, -⟩ := hs.delete_spec d rfl rfl
    rw [hs.tableOf_eq]
    exact ⟨g, e, hn, hout⟩

end Deque

/-- Two deques in one store: both represent their lists and own disjoint sets of blocks. -/
theorem runOps2_models : ∀ (ops : List (Bool × Op)) {h : Heap} {a d : Deque} {la ld la1 ld1 : List Int},
    Deque.Models h a la → Deque.Models h d ld →
    (∀ x ∈ Deque.tableOf a, x ∉ Deque.tableOf d) →
    replay2 ops la ld = some (la1, ld1) →
    ∃ g a1 d1, runOps2 ops h a d = some (g, a1, d1) ∧ Deque.Models g a1 la1 ∧
      Deque.Models g d1 ld1 ∧ ∀ x ∈ Deque.tableOf a1, x ∉ Deque.tableOf d1 := by
  intro ops
  induction ops with
  | nil =>
    intro h a d la ld la1 ld1 hma hmd hdis hr
    simp only [replay2, Option.some.injEq, Prod.mk.injEq] at hr
    obtain ⟨rfl, rfl⟩ := hr
    exact ⟨h, a, d, rfl, hma, hmd, hdis⟩
  | cons o os ih =>
    intro h a d la ld la1 ld1 hma hmd hdis hr
    obtain ⟨b, o⟩ := o
    cases b with
    | true =>
      simp only [replay2] at hr
      cases hol : o.onList la with
      | none => rw [hol] at hr; cases hr
      | some la2 =>
        rw [hol] at hr
        obtain ⟨g, a2, e, hma2, hfr, htab⟩ := Op.apply_models o hma hol
        have hmd2 : Deque.Models g d ld := hmd.frame hfr.1
          (fun x hx => hfr.2 x (hmd.table_lt x hx) (fun hxa => hdis x hxa hx))
        have hdis2 : ∀ x ∈ Deque.tableOf a2, x ∉ Deque.tableOf d := by
          intro x hx hxd
          rcases htab x hx with h1 | h1
          · exact hdis x h1 hxd
          · have := hmd.table_lt x hxd
            omega
        obtain ⟨g1, a3, d3, e3, h3⟩ := ih hma2 hmd2 hdis2 hr
        exact ⟨g1, a3, d3, by simp only [runOps2, e, e3], h3⟩
    | false =>
      simp only [replay2] at hr
      cases hol : o.onList ld with
      | none => rw [hol] at hr; cases hr
      | some ld2 =>
        rw [hol] at hr
        obtain ⟨g, d2, e, hmd2, hfr, htab⟩ := Op.apply_models o hmd hol
        have hma2 : Deque.Models g a la := hma.frame hfr.1
          (fun x hx => hfr.2 x (hma.table_lt x hx) (hdis x hx))
        have hdis2 : ∀ x ∈ Deque.tableOf a, x ∉ Deque.tableOf d2 := by
          intro x hx hxd
          rcases htab x hxd with h1 | h1
          · exact hdis x hx h1
          · have := hma.table_lt x hx
            omega
        obtain ⟨g1, a3, d3, e3, h3⟩ := ih hma2 hmd2 hdis2 hr
        exact ⟨g1, a3, d3, by simp only [runOps2, e, e3], h3⟩

namespace Deque

end Deque

/-- The aliasing constructor on a pointer whose block is live: the block gains one strong
reference and nothing else changes. -/
theorem SharedPtr.aliasing_of_view {s : Store} {sp : SharedPtr} {a : Nat} {v : BlockView}
    (hcb : sp.control_block_ = some a) (hv : s.view a = some v) (hlt : v.strong < INT_MAX)
    (p : Option Addr) :
    ∃ s1, SharedPtr.aliasing s sp p = some (s1, ⟨p, some a, sp.if_pointer_type_⟩) ∧
      BaseBlock.IncreaseStrong s a = some s1 ∧
      s1.view a = some { v with strong := v.strong + 1 } ∧ s1.destroyed = s.destroyed := by
  obtain ⟨s1, e1, hv1, hlog, -, -⟩ := BaseBlock.IncreaseStrong_view hv hlt
  exact ⟨s1, by simp only [SharedPtr.aliasing, hcb, e1, Option.map_some'], e1, hv1, hlog⟩

namespace RefCounted

theorem IncRef_of {s : ObjStore} {a : Nat} {o : RefCounted} (h : s.objs a = some o)
    (hlt : o.counter_.count_ < INT_MAX) :
    IncRef s a = some (s.setObj a ⟨⟨o.counter_.count_ + 1⟩⟩) := by
  simp only [IncRef, h, SimpleCounter.IncRef, if_pos hlt, Option.map_some']

/-- An increment of a counter that holds `INT_MAX` or more has no defined result. -/
theorem IncRef_overflow {s : ObjStore} {a : Nat} {o : RefCounted} (h : s.objs a = some o)
    (hge : ¬ o.counter_.count_ < INT_MAX) : IncRef s a = none := by
  simp only [IncRef, h, SimpleCounter.IncRef, if_neg hge, Option.map_none']

theorem RefCount_of {s : ObjStore} {a : Nat} {o : RefCounted} (h : s.objs a = some o) :
    RefCount s a = some (toSizeT o.counter_.count_) := by
  simp only [RefCount, h, SimpleCounter.RefCount]

end RefCounted

theorem ObjStore.setObj_self (s : ObjStore) (a : Nat) (o : RefCounted) :
    (s.setObj a o).objs a = some o := by
  simp [ObjStore.setObj]

theorem ObjStore.setObj_destroyed (s : ObjStore) (a : Nat) (o : RefCounted) :
    (s.setObj a o).destroyed = s.destroyed := rfl

namespace IntrusivePtr

/-- The store after `k` copies of a pointer to the object at `a` whose counter is `c`. -/
theorem copies_counter {s : ObjStore} {a : Nat} {c : Int} (h : s.objs a = some ⟨⟨c⟩⟩) :
    ∀ k : Nat, c + k ≤ INT_MAX →
      ∃ s2 cs, copies ⟨some a⟩ k s = some (s2, cs) ∧ cs = List.replicate k ⟨some a⟩ ∧
        s2.objs a = some ⟨⟨c + k⟩⟩ ∧ s2.destroyed = s.destroyed := by
  intro k
  induction k generalizing s c with
  | zero => intro _; exact ⟨s, [], rfl, rfl, by simpa using h, rfl⟩
  | succ k ih =>
    intro hk
    push_cast at hk
    have e : copy s ⟨some a⟩ = some (s.setObj a ⟨⟨c + 1⟩⟩, ⟨some a⟩) := by
      simp only [copy, RefCounted.IncRef_of h (show c < INT_MAX by omega), Option.map_some']
    obtain ⟨s2, cs, e2, hcs, ho, hd⟩ := ih (s := s.setObj a ⟨⟨c + 1⟩⟩) (c := c + 1)
      (ObjStore.setObj_self _ _ _) (by omega)
    refine ⟨s2, ⟨some a⟩ :: cs, ?_, ?_, ?_, ?_⟩
    · simp only [copies, e, e2, Option.map_some']
    · rw [hcs, List.replicate_succ]
    · rw [ho]
      push_cast
      congr 3
      ring
    · rw [hd]; rfl

/-- The copy that would take the counter beyond `INT_MAX` has no defined result. -/
theorem copies_counter_overflow {s : ObjStore} {a : Nat} {c : Int}
    (h : s.objs a = some ⟨⟨c⟩⟩) :
    ∀ k : Nat, c ≤ INT_MAX → INT_MAX < c + k → copies ⟨some a⟩ k s = none := by
  intro k
  induction k generalizing s c with
  | zero =>
    intro hle hk
    simp only [Nat.cast_zero, add_zero] at hk
    omega
  | succ k ih =>
    intro hle hk
    push_cast at hk
    by_cases hlt : c < INT_MAX
    · have e : copy s ⟨some a⟩ = some (s.setObj a ⟨⟨c + 1⟩⟩, ⟨some a⟩) := by
        simp only [copy, RefCounted.IncRef_of h hlt, Option.map_some']
      have e2 := ih (s := s.setObj a ⟨⟨c + 1⟩⟩) (c := c + 1) (ObjStore.setObj_self _ _ _)
        (by omega) (by omega)
      simp only [copies, e, e2, Option.map_none']
    · have e : copy s ⟨some a⟩ = none := by
        simp only [copy, RefCounted.IncRef_overflow h hlt, Option.map_none']
      simp only [copies, e]

end IntrusivePtr

namespace BaseBlock

/-- Effect of `DecreaseStrong` on a live block in any state of its flag: the block is released
exactly when both counters are 0 after the decrement; the value is destroyed (unless it had been
destroyed before) exactly when the strong counter is 0 after the decrement. -/
theorem DecreaseStrong_counts {s : Store} {a : Nat} {v : BlockView} (hv : s.view a = some v) :
    ∃ s1, DecreaseStrong s a = some s1 ∧ s1.next = s.next ∧
      (∀ x, x ≠ a → s1.blocks x = s.blocks x) ∧
      (v.strong - 1 = 0 → v.weak = 0 → s1.blocks a = none ∧
        s1.destroyed = s.destroyed ++ (if v.destroyed then [] else v.pointee.toList)) ∧
      (v.strong - 1 = 0 → v.weak ≠ 0 →
        s1.view a = some { v with strong := 0, destroyed := true } ∧
        s1.destroyed = s.destroyed ++ (if v.destroyed then [] else v.pointee.toList)) ∧
      (v.strong - 1 ≠ 0 →
        s1.view a = some { v with strong := v.strong - 1 } ∧ s1.destroyed = s.destroyed) := by
  unfold Store.view at hv
  cases hb : s.blocks a with
  | none => simp [hb] at hv
  | some b =>
    cases b with
    | pointer b =>
      simp only [hb, Option.map_some', Option.some.injEq, view] at hv
      subst hv
      dsimp only
      refine ⟨PointerControlBlock.DecreaseStrong s a b, by simp only [DecreaseStrong, hb],
        ?_, ?_, ?_, ?_, ?_⟩
      · simp only [PointerControlBlock.DecreaseStrong, PointerControlBlock.IfZeroWeak,
          PointerControlBlock.IfZeroStrong, PointerControlBlock.dtor]
        split_ifs <;> cases b.ptr_ <;> rfl
      · intro x hx
        simp only [PointerControlBlock.DecreaseStrong, PointerControlBlock.IfZeroWeak,
          PointerControlBlock.IfZeroStrong, PointerControlBlock.dtor]
        split_ifs <;> cases b.ptr_ <;> simp [Store.setBlock, Store.freeBlock, Store.destroyObj, hx]
      · intro h1 h2
        cases hp : b.ptr_ <;> cases hd : b.destroyed_ <;>
        simp [PointerControlBlock.DecreaseStrong, PointerControlBlock.IfZeroWeak,
          PointerControlBlock.dtor, h1, h2, Store.setBlock, Store.freeBlock,
          Store.destroyObj, hp, hd]
      · intro h1 h2
        cases hp : b.ptr_ <;> cases hd : b.destroyed_ <;>
        simp [PointerControlBlock.DecreaseStrong, PointerControlBlock.IfZeroStrong, h1, h2,
          Store.view, Store.setBlock, view, Store.destroyObj, hp, hd]
      · intro h1
        simp [PointerControlBlock.DecreaseStrong, h1, Store.view, Store.setBlock, view]
    | inplace b =>
      simp only [hb, Option.map_some', Option.some.injEq, view] at hv
      subst hv
      dsimp only
      refine ⟨ControlBlock.DecreaseStrong s a b, by simp only [DecreaseStrong, hb],
        ?_, ?_, ?_, ?_, ?_⟩
      · simp only [ControlBlock.DecreaseStrong, ControlBlock.IfZeroWeak,
          ControlBlock.IfZeroStrong, ControlBlock.dtor]
        split_ifs <;> rfl
      · intro x hx
        simp only [ControlBlock.DecreaseStrong, ControlBlock.IfZeroWeak,
          ControlBlock.IfZeroStrong, ControlBlock.dtor]
        split_ifs <;> simp [Store.setBlock, Store.freeBlock, Store.destroyObj, hx]
      · intro h1 h2
        cases hd : b.destroyed_ <;>
        simp [ControlBlock.DecreaseStrong, ControlBlock.IfZeroWeak,
          ControlBlock.dtor, h1, h2, Store.setBlock, Store.freeBlock,
          Store.destroyObj, hd]
      · intro h1 h2
        cases hd : b.destroyed_ <;>
        simp [ControlBlock.DecreaseStrong, ControlBlock.IfZeroStrong, h1, h2,
          Store.view, Store.setBlock, view, Store.destroyObj, hd]
      · intro h1
        simp [ControlBlock.DecreaseStrong, h1, Store.view, Store.setBlock, view]

/-- Effect of `DecreaseWeak` on a live block in any state of its flag. -/
theorem DecreaseWeak_counts {s : Store} {a : Nat} {v : BlockView} (hv : s.view a = some v) :
    ∃ s1, DecreaseWeak s a = some s1 ∧ s1.next = s.next ∧
      (∀ x, x ≠ a → s1.blocks x = s.blocks x) ∧
      (v.weak - 1 = 0 → v.strong = 0 → s1.blocks a = none ∧
        s1.destroyed = s.destroyed ++ (if v.destroyed then [] else v.pointee.toList)) ∧
      (v.weak - 1 ≠ 0 → v.strong = 0 →
        s1.view a = some { v with weak := v.weak - 1, destroyed := true } ∧
        s1.destroyed = s.destroyed ++ (if v.destroyed then [] else v.pointee.toList)) ∧
      (v.strong ≠ 0 →
        s1.view a = some { v with weak := v.weak - 1 } ∧ s1.destroyed = s.destroyed) := by
  unfold Store.view at hv
  cases hb : s.blocks a with
  | none => simp [hb] at hv
  | some b =>
    cases b with
    | pointer b =>
      simp only [hb, Option.map_some', Option.some.injEq, view] at hv
      subst hv
      dsimp only
      refine ⟨PointerControlBlock.DecreaseWeak s a b, by simp only [DecreaseWeak, hb],
        ?_, ?_, ?_, ?_, ?_⟩
      · simp only [PointerControlBlock.DecreaseWeak, PointerControlBlock.IfZeroWeak,
          PointerControlBlock.IfZeroStrong, PointerControlBlock.dtor]
        split_ifs <;> cases b.ptr_ <;> rfl
      · intro x hx
        simp only [PointerControlBlock.DecreaseWeak, PointerControlBlock.IfZeroWeak,
          PointerControlBlock.IfZeroStrong, PointerControlBlock.dtor]
        split_ifs <;> cases b.ptr_ <;> simp [Store.setBlock, Store.freeBlock, Store.destroyObj, hx]
      · intro h1 h2
        cases hp : b.ptr_ <;> cases hd : b.destroyed_ <;>
        simp [PointerControlBlock.DecreaseWeak, PointerControlBlock.IfZeroWeak,
          PointerControlBlock.dtor, h1, h2, Store.setBlock, Store.freeBlock,
          Store.destroyObj, hp, hd]
      · intro h1 h2
        cases hp : b.ptr_ <;> cases hd : b.destroyed_ <;>
        simp [PointerControlBlock.DecreaseWeak, PointerControlBlock.IfZeroStrong, h1, h2,
          Store.view, Store.setBlock, view, Store.destroyObj, hp, hd]
      · intro h1
        simp [PointerControlBlock.DecreaseWeak, h1, Store.view, Store.setBlock, view]
    | inplace b =>
      simp only [hb, Option.map_some', Option.some.injEq, view] at hv
      subst hv
      dsimp only
      refine ⟨ControlBlock.DecreaseWeak s a b, by simp only [DecreaseWeak, hb],
        ?_, ?_, ?_, ?_, ?_⟩
      · simp only [ControlBlock.DecreaseWeak, ControlBlock.IfZeroWeak,
          ControlBlock.IfZeroStrong, ControlBlock.dtor]
        split_ifs <;> rfl
      · intro x hx
        simp only [ControlBlock.DecreaseWeak, ControlBlock.IfZeroWeak,
          ControlBlock.IfZeroStrong, ControlBlock.dtor]
        split_ifs <;> simp [Store.setBlock, Store.freeBlock, Store.destroyObj, hx]
      · intro h1 h2
        cases hd : b.destroyed_ <;>
        simp [ControlBlock.DecreaseWeak, ControlBlock.IfZeroWeak,
          ControlBlock.dtor, h1, h2, Store.setBlock, Store.freeBlock,
          Store.destroyObj, hd]
      · intro h1 h2
        cases hd : b.destroyed_ <;>
        simp [ControlBlock.DecreaseWeak, ControlBlock.IfZeroStrong, h1, h2,
          Store.view, Store.setBlock, view, Store.destroyObj, hd]
      · intro h1
        simp [ControlBlock.DecreaseWeak, h1, Store.view, Store.setBlock, view]

end BaseBlock

theorem Store.blocks_of_view {s : Store} {a : Nat} {v : BlockView} (h : s.view a = some v) :
    s.blocks a ≠ none := by
  intro hn
  simp [Store.view, hn] at h

namespace Deque

theorem getConst_eq_get (h : Heap) (d : Deque) (i : Nat) : d.getConst h i = d.get h i := rfl

/-- A write through `operator[]` at a valid index of a well-shaped deque: it succeeds, keeps the
shape, and changes the value at that index only. -/
theorem Shape.set_spec {h : Heap} {d : Deque} {t : List Nat} {m : Nat} (hs : Shape h d t m)
    {i : Nat} (hi : i < m) (v : Int) :
    ∃ g, d.set h i v = some g ∧ Shape g d t m ∧ d.get g i = some v ∧
      ∀ j, j < m → j ≠ i → d.get g j = d.get h j := by
  have hcap := hs.cap
  obtain ⟨g, e, hsg, -, -, hload⟩ := hs.store_at hi v
  refine ⟨g, by simp only [set, hs.slotOf_eq hi, e], hsg, ?_, ?_⟩
  · rw [hsg.get_eq hi, hload i (by omega), if_pos rfl]
  · intro j hj hne
    rw [hsg.get_eq hj, hs.get_eq hj, hload j (by omega), if_neg hne]

/-- Where `operator[]` finds a valid index of a well-shaped deque. -/
theorem Shape.index_address {h : Heap} {d : Deque} {t : List Nat} {m : Nat} (hs : Shape h d t m)
    {i : Nat} (hi : i < m) :
    ∃ a b xs, (d.ind_of_begin_ + (d.lcounter_ + i) / 128) % d.size_ < t.length ∧
      t[(d.ind_of_begin_ + (d.lcounter_ + i) / 128) % d.size_]? = some a ∧
      d.slotOf i = some (a, (d.lcounter_ + i) % 128) ∧
      h.cells a = some b ∧ b.arr = some xs ∧ xs.length = 128 ∧
      d.get h i = xs[(d.lcounter_ + i) % 128]? := by
  have hcap := hs.cap
  have hb := hs.begin_lt
  have hq : (d.lcounter_ + i) / 128 < d.size_ := by omega
  have hw : wrap d.size_ (d.ind_of_begin_ + (d.lcounter_ + i) / 128)
      = (d.ind_of_begin_ + (d.lcounter_ + i) / 128) % d.size_ := wrap_eq_mod (by omega)
  have hlt : (d.ind_of_begin_ + (d.lcounter_ + i) / 128) % d.size_ < t.length := by
    rw [hs.len]; exact Nat.mod_lt _ hs.size_pos
  obtain ⟨b, xs, hc, hx, hlen⟩ := hs.block_live hi
  have hblk : blockAt d t i
      = entry t ((d.ind_of_begin_ + (d.lcounter_ + i) / 128) % d.size_) := by
    unfold blockAt; rw [hw]
  rw [hblk] at hc
  refine ⟨_, b, xs, hlt, getElem?_eq_entry hlt, ?_, hc, hx, hlen, ?_⟩
  · rw [hs.slotOf_eq hi, hblk]; rfl
  · rw [hs.get_eq hi, hblk]
    exact Heap.loadSlot_of hc hx _

end Deque

namespace Deque

theorem Delete_eq_new {h g : Heap} {d d1 : Deque} (e : Delete h d = some (g, d1)) :
    d1 = Deque.new := by
  simp only [Delete, Option.map_eq_some', Prod.mk.injEq] at e
  obtain ⟨_, -, -, rfl⟩ := e
  rfl

theorem Init_size {h g : Heap} {d d1 : Deque} (e : Init h d = some (g, d1)) : d1.size_ = 1 := by
  simp only [Init, Option.bind_eq_bind, Option.bind_eq_some, Option.pure_def,
    Option.some.injEq, Prod.mk.injEq] at e
  obtain ⟨_, -, _, -, _, -, -, rfl⟩ := e
  rfl

theorem Relocate_size {h g : Heap} {d d1 : Deque} (e : Relocate h d = some (g, d1)) :
    d1.size_ = 2 * d.size_ := by
  simp only [Relocate, Option.bind_eq_bind, Option.bind_eq_some, Option.pure_def,
    Option.some.injEq, Prod.mk.injEq] at e
  obtain ⟨_, -, _, -, _, -, _, -, _, -, _, -, _, -, _, -, _, -, _, -, -, rfl⟩ := e
  rfl

theorem advanceRight_size {h g : Heap} {d d1 : Deque} {v : Int}
    (e : advanceRight h d v = some (g, d1)) : d1.size_ = d.size_ := by
  simp only [advanceRight, Option.bind_eq_bind, Option.bind_eq_some, Option.pure_def,
    Option.some.injEq, Prod.mk.injEq] at e
  obtain ⟨_, -, _, -, _, -, -, rfl⟩ := e
  rfl

theorem advanceLeft_size {h g : Heap} {d d1 : Deque} {v : Int}
    (e : advanceLeft h d v = some (g, d1)) : d1.size_ = d.size_ := by
  simp only [advanceLeft, Option.bind_eq_bind, Option.bind_eq_some, Option.pure_def,
    Option.some.injEq, Prod.mk.injEq] at e
  obtain ⟨_, -, _, -, _, -, -, rfl⟩ := e
  dsimp only
  split_ifs <;> rfl

/-- Table size after a `PushBack` that returns. -/
theorem PushBack_size {h g : Heap} {d d1 : Deque} {v : Int}
    (e : PushBack h d v = some (g, d1)) :
    (d.size_ = 0 ∧ d1.size_ = 1) ∨
    (d.size_ ≠ 0 ∧ ∃ re, h.deref d.r_edge_ = some re ∧ d.rcounter_ + 1 = 128 ∧
      re.right = d.l_edge_ ∧ d1.size_ = 2 * d.size_) ∨
    (d.size_ ≠ 0 ∧ ¬ (∃ re, h.deref d.r_edge_ = some re ∧ d.rcounter_ + 1 = 128 ∧
      re.right = d.l_edge_) ∧ d1.size_ = d.size_) := by
  unfold PushBack at e
  by_cases h0 : d.size_ = 0
  · left
    simp only [h0, if_true, Option.bind_eq_bind, Option.bind_eq_some, Option.pure_def,
      Option.some.injEq, Prod.mk.injEq] at e
    obtain ⟨r, hr, _, -, -, rfl⟩ := e
    exact ⟨h0, Init_size hr⟩
  · right
    simp only [h0, if_false] at e
    by_cases h1 : d.rcounter_ + 1 = 128
    · simp only [h1, if_true, Option.bind_eq_bind, Option.bind_eq_some] at e
      obtain ⟨re, hre, e⟩ := e
      by_cases h2 : re.right = d.l_edge_
      · left
        simp only [h2, if_true, Option.bind_eq_some] at e
        obtain ⟨r, hr, e⟩ := e
        refine ⟨h0, re, hre, h1, h2, ?_⟩
        rw [advanceRight_size e, Relocate_size hr]
      · right
        simp only [h2, if_false] at e
        refine ⟨h0, ?_, by rw [advanceRight_size e]⟩
        rintro ⟨re', hre', -, h3⟩
        rw [hre] at hre'
        cases hre'
        exact h2 h3
    · right
      simp only [h1, if_false, Option.bind_eq_bind, Option.bind_eq_some, Option.pure_def,
        Option.some.injEq, Prod.mk.injEq] at e
      obtain ⟨_, -, -, rfl⟩ := e
      exact ⟨h0, fun ⟨_, _, h3, _⟩ => h1 h3, rfl⟩

/-- Table size after a `PushFront` that returns. -/
theorem PushFront_size {h g : Heap} {d d1 : Deque} {v : Int}
    (e : PushFront h d v = some (g, d1)) :
    (d.size_ = 0 ∧ d1.size_ = 1) ∨
    (d.size_ ≠ 0 ∧ ∃ le, h.deref d.l_edge_ = some le ∧ d.lcounter_ = 0 ∧
      le.left = d.r_edge_ ∧ d1.size_ = 2 * d.size_) ∨
    (d.size_ ≠ 0 ∧ ¬ (∃ le, h.deref d.l_edge_ = some le ∧ d.lcounter_ = 0 ∧
      le.left = d.r_edge_) ∧ d1.size_ = d.size_) := by
  unfold PushFront at e
  by_cases h0 : d.size_ = 0
  · left
    simp only [h0, if_true, Option.bind_eq_bind, Option.bind_eq_some, Option.pure_def,
      Option.some.injEq, Prod.mk.injEq] at e
    obtain ⟨r, hr, _, -, -, rfl⟩ := e
    exact ⟨h0, Init_size hr⟩
  · right
    simp only [h0, if_false] at e
    by_cases h1 : d.lcounter_ > 0
    · right
      simp only [h1, if_true, Option.bind_eq_bind, Option.bind_eq_some, Option.pure_def,
        Option.some.injEq, Prod.mk.injEq] at e
      obtain ⟨_, -, -, rfl⟩ := e
      exact ⟨h0, fun ⟨_, _, h3, _⟩ => by omega, rfl⟩
    · have hlc : d.lcounter_ = 0 := by omega
      simp only [h1, if_false, Option.bind_eq_bind, Option.bind_eq_some] at e
      obtain ⟨le, hle, e⟩ := e
      by_cases h2 : le.left = d.r_edge_
      · left
        simp only [h2, if_true, Option.bind_eq_some] at e
        obtain ⟨r, hr, e⟩ := e
        refine ⟨h0, le, hle, hlc, h2, ?_⟩
        rw [advanceLeft_size e, Relocate_size hr]
      · right
        simp only [h2, if_false] at e
        refine ⟨h0, ?_, by rw [advanceLeft_size e]⟩
        rintro ⟨le', hle', -, h3⟩
        rw [hle] at hle'
        cases hle'
        exact h2 h3

/-- Table size after a `PopBack` that returns. -/
theorem PopBack_size {h g : Heap} {d d1 : Deque} (e : PopBack h d = some (g, d1)) :
    d1.size_ = 0 ∨ d1.size_ = d.size_ := by
  unfold PopBack at e
  dsimp only at e
  split_ifs at e with h1 h2
  · left
    rw [Delete_eq_new e]; rfl
  · right
    simp only [Option.bind_eq_bind, Option.bind_eq_some, Option.pure_def,
      Option.some.injEq, Prod.mk.injEq] at e
    obtain ⟨_, -, -, rfl⟩ := e
    rfl
  · right
    simp only [Option.bind_eq_bind, Option.bind_eq_some, Option.pure_def,
      Option.some.injEq, Prod.mk.injEq] at e
    obtain ⟨_, -, _, -, -, rfl⟩ := e
    rfl

/-- Table size after a `PopFront` that returns. -/
theorem PopFront_size {h g : Heap} {d d1 : Deque} (e : PopFront h d = some (g, d1)) :
    d1.size_ = 0 ∨ d1.size_ = d.size_ := by
  unfold PopFront at e
  dsimp only at e
  split_ifs at e with h1 h2 h3
  · left
    rw [Delete_eq_new e]; rfl
  · right
    simp only [Option.bind_eq_bind, Option.bind_eq_some, Option.pure_def,
      Option.some.injEq, Prod.mk.injEq] at e
    obtain ⟨_, -, -, rfl⟩ := e
    rfl
  · right
    simp only [Option.bind_eq_bind, Option.bind_eq_some, Option.pure_def,
      Option.some.injEq, Prod.mk.injEq] at e
    obtain ⟨_, -, _, -, -, rfl⟩ := e
    rfl
  · right
    simp only [Option.bind_eq_bind, Option.bind_eq_some, Option.pure_def,
      Option.some.injEq, Prod.mk.injEq] at e
    obtain ⟨_, -, _, -, -, rfl⟩ := e
    rfl

end Deque

namespace Deque

/-- The edges of a well-shaped deque and their outer neighbours: the right neighbour of the right
edge is the left edge, and the left neighbour of the left edge is the right edge, exactly when
all blocks of the table are occupied. -/
theorem Shape.edges_meet {h : Heap} {d : Deque} {t : List Nat} {m : Nat} (hs : Shape h d t m) :
    ∃ re le, h.deref d.r_edge_ = some re ∧ h.deref d.l_edge_ = some le ∧
      (re.right = d.l_edge_ ↔ (d.lcounter_ + m - 1) / 128 + 1 = d.size_) ∧
      (le.left = d.r_edge_ ↔ (d.lcounter_ + m - 1) / 128 + 1 = d.size_) := by
  have hcap := hs.cap
  have hb := hs.begin_lt
  have hpos := hs.pos
  have hK : (d.lcounter_ + m - 1) / 128 < d.size_ := by omega
  have hidx : wrap d.size_ (d.ind_of_begin_ + (d.lcounter_ + m - 1) / 128) < d.size_ :=
    wrap_lt (by omega)
  obtain ⟨re, hre, -, hrr⟩ := hs.links _ hidx
  obtain ⟨le, hle, hll, -⟩ := hs.links _ hb
  refine ⟨re, le, by rw [hs.redge]; exact hre, by rw [hs.ledge]; exact hle, ?_, ?_⟩
  · rw [hrr, hs.ledge]
    constructor
    · intro heq
      have := entry_inj hs.nodup (by rw [hs.len]; exact wrap_lt (by omega))
        (by rw [hs.len]; exact hb) (Option.some.inj heq)
      unfold wrap at this
      split_ifs at this <;> omega
    · intro heq
      congr 2
      unfold wrap
      split_ifs <;> omega
  · rw [hll, hs.redge]
    constructor
    · intro heq
      have := entry_inj hs.nodup (by rw [hs.len]; exact wrap_lt (by omega))
        (by rw [hs.len]; exact hidx) (Option.some.inj heq)
      unfold wrap at this
      split_ifs at this <;> omega
    · intro heq
      congr 2
      unfold wrap
      split_ifs <;> omega

end Deque

/-- Every operation of `OpC` that the abstract list allows succeeds and keeps the
representation. -/
theorem runOpsC_models : ∀ (ops : List OpC) {h : Heap} {d : Deque} {l l1 : List Int},
    Deque.Models h d l → replayC ops l = some l1 →
    ∃ g d1, runOpsC ops h d = some (g, d1) ∧ Deque.Models g d1 l1 := by
  intro ops
  induction ops with
  | nil =>
    intro h d l l1 hm hr
    simp only [replayC, Option.some.injEq] at hr
    subst hr
    exact ⟨h, d, rfl, hm⟩
  | cons o os ih =>
    intro h d l l1 hm hr
    simp only [replayC] at hr
    cases o with
    | op o =>
      cases hol : o.onList l with
      | none => simp only [OpC.onList, hol] at hr; cases hr
      | some l2 =>
        simp only [OpC.onList, hol] at hr
        obtain ⟨g, d2, e, hm2, -, -⟩ := Op.apply_models o hm hol
        obtain ⟨g1, d3, e3, hm3⟩ := ih hm2 hr
        exact ⟨g1, d3, by simp only [runOpsC, OpC.apply, e, e3], hm3⟩
    | clear =>
      simp only [OpC.onList] at hr
      obtain ⟨g, e, -, -⟩ := hm.delete_resets
      obtain ⟨g1, d3, e3, hm3⟩ := ih (Deque.models_new g) hr
      exact ⟨g1, d3, by simp only [runOpsC, OpC.apply, Deque.Clear, e, e3], hm3⟩

namespace Deque

/-- The walk from the block `i` places after the begin block up to the right edge. -/
theorem Shape.spanWalk_eq {h : Heap} {d : Deque} {t : List Nat} {m : Nat} (hs : Shape h d t m) :
    ∀ (k i fuel : Nat), i + k = (d.lcounter_ + m - 1) / 128 → k < fuel →
      spanWalk h d.r_edge_ fuel (some (entry t (wrap d.size_ (d.ind_of_begin_ + i))))
        = some ((List.range' i (k + 1)).map
            fun x => entry t (wrap d.size_ (d.ind_of_begin_ + x))) := by
  have hcap := hs.cap
  have hb := hs.begin_lt
  have hpos := hs.pos
  have hK : (d.lcounter_ + m - 1) / 128 < d.size_ := by omega
  intro k
  induction k with
  | zero =>
    intro i fuel hi hf
    obtain ⟨f, rfl⟩ : ∃ f, fuel = f + 1 := ⟨fuel - 1, by omega⟩
    have hiK : i = (d.lcounter_ + m - 1) / 128 := by omega
    subst hiK
    simp [spanWalk, hs.redge]
  | succ k ih =>
    intro i fuel hi hf
    obtain ⟨f, rfl⟩ : ∃ f, fuel = f + 1 := ⟨fuel - 1, by omega⟩
    have hne : some (entry t (wrap d.size_ (d.ind_of_begin_ + i))) ≠ d.r_edge_ := by
      rw [hs.redge]
      intro heq
      have h1 := entry_inj hs.nodup (by rw [hs.len]; exact wrap_lt (by omega))
        (by rw [hs.len]; exact wrap_lt (by omega)) (Option.some.inj heq)
      have := wrap_inj (by omega) hK h1
      omega
    obtain ⟨blk, hblk, -, hright⟩ := hs.links (wrap d.size_ (d.ind_of_begin_ + i))
      (wrap_lt (by omega))
    have hnext : wrap d.size_ (wrap d.size_ (d.ind_of_begin_ + i) + 1)
        = wrap d.size_ (d.ind_of_begin_ + (i + 1)) := by
      unfold wrap
      split_ifs <;> omega
    rw [hnext] at hright
    have := ih (i + 1) f (by omega) (by omega)
    simp only [spanWalk, if_neg hne, hblk, hright, this, Option.map_some']
    rw [List.range'_succ i (k + 1)]
    rfl

/-- The blocks from the left to the right edge of a well-shaped deque. -/
theorem Shape.span_eq {h : Heap} {d : Deque} {t : List Nat} {m : Nat} (hs : Shape h d t m) :
    span h d = some ((List.range' 0 ((d.lcounter_ + m - 1) / 128 + 1)).map
      fun x => entry t (wrap d.size_ (d.ind_of_begin_ + x))) := by
  have hcap := hs.cap
  have hpos := hs.pos
  have hb := hs.begin_lt
  have := hs.spanWalk_eq ((d.lcounter_ + m - 1) / 128) 0 d.size_ (by omega) (by omega)
  unfold span
  rw [hs.ledge]
  simpa only [Nat.add_zero, wrap_self hb] using this

/-- In a well-shaped deque the blocks of the span own an array and the other blocks of the table
own none. -/
theorem Shape.span_arrays {h : Heap} {d : Deque} {t : List Nat} {m : Nat} (hs : Shape h d t m) :
    ∃ bs, span h d = some bs ∧ d.l_edge_ = bs.head? ∧ d.r_edge_ = bs.getLast? ∧
      (∀ a ∈ bs, a ∈ t ∧ ∃ b xs, h.cells a = some b ∧ b.arr = some xs ∧ xs.length = 128) ∧
      ∀ a ∈ t, a ∉ bs → ∃ b, h.cells a = some b ∧ b.arr = none := by
  have hcap := hs.cap
  have hpos := hs.pos
  have hb := hs.begin_lt
  have hK : (d.lcounter_ + m - 1) / 128 < d.size_ := by omega
  refine ⟨_, hs.span_eq, ?_, ?_, ?_, ?_⟩
  · rw [hs.ledge, List.range'_succ]
    simp [wrap_self hb]
  · rw [hs.redge, List.range'_concat]
    simp
  · intro a ha
    simp only [List.mem_map, List.mem_range'_1] at ha
    obtain ⟨j, ⟨-, hj⟩, rfl⟩ := ha
    obtain ⟨b, hb1, hb2⟩ := hs.arrs j (by omega)
    rw [if_pos (by omega)] at hb2
    refine ⟨entry_mem (by rw [hs.len]; exact wrap_lt (by omega)), b, ?_⟩
    cases hba : b.arr with
    | none => rw [hba] at hb2; simp at hb2
    | some xs =>
      rw [hba] at hb2
      simp only [Option.map_some', Option.some.injEq] at hb2
      exact ⟨xs, hb1, rfl, hb2⟩
  · intro a ha hnot
    obtain ⟨idx, hidx, rfl⟩ := List.getElem_of_mem ha
    rw [hs.len] at hidx
    obtain ⟨j, hj, hjw⟩ : ∃ j, j < d.size_ ∧ wrap d.size_ (d.ind_of_begin_ + j) = idx := by
      by_cases hge : d.ind_of_begin_ ≤ idx
      · exact ⟨idx - d.ind_of_begin_, by omega, by unfold wrap; split_ifs <;> omega⟩
      · exact ⟨idx + d.size_ - d.ind_of_begin_, by omega, by unfold wrap; split_ifs <;> omega⟩
    have hent : t[idx] = entry t idx := by
      unfold entry
      rw [List.getD_eq_getElem t 0 (by rw [hs.len]; exact hidx)]
    rw [hent] at hnot ⊢
    obtain ⟨b, hb1, hb2⟩ := hs.arrs j hj
    rw [hjw] at hb1
    have hjK : ¬ (j ≤ (d.lcounter_ + m - 1) / 128) := by
      intro hle
      apply hnot
      simp only [List.mem_map, List.mem_range'_1]
      exact ⟨j, ⟨by omega, by omega⟩, by rw [hjw]⟩
    rw [if_neg hjK] at hb2
    refine ⟨b, hb1, ?_⟩
    cases hba : b.arr with
    | none => rfl
    | some xs => rw [hba] at hb2; simp at hb2

end Deque

/-- A property that every iteration keeps holds after a loop that returns. -/
theorem forLoop_keeps {σ : Type} (body : Nat → σ → Option σ) (P : σ → Prop)
    (hstep : ∀ j s1 s2, body j s1 = some s2 → P s1 → P s2) :
    ∀ (n i : Nat) (s s2 : σ), forLoop body n i s = some s2 → P s → P s2 := by
  intro n
  induction n with
  | zero =>
    intro i s s2 e hP
    simp only [forLoop, Option.some.injEq] at e
    subst e
    exact hP
  | succ n ih =>
    intro i s s2 e hP
    simp only [forLoop, Option.bind_eq_some] at e
    obtain ⟨s1, hb, hl⟩ := e
    exact ih (i + 1) s1 s2 hl (hstep i s s1 hb hP)

namespace Deque

theorem SizeOk.new : Deque.new.SizeOk := Or.inl rfl

theorem SizeOk.of_size_eq {d d1 : Deque} (hd : d.SizeOk) (h : d1.size_ = d.size_) : d1.SizeOk := by
  unfold SizeOk at *
  rw [h]; exact hd

theorem SizeOk.double {d d1 : Deque} (hd : d.SizeOk) (h0 : d.size_ ≠ 0)
    (h : d1.size_ = 2 * d.size_) : d1.SizeOk := by
  rcases hd with h1 | ⟨k, hk⟩
  · exact absurd h1 h0
  · exact Or.inr ⟨k + 1, by rw [h, hk, pow_succ]; ring⟩

theorem SizeOk.one {d : Deque} (h : d.size_ = 1) : d.SizeOk := Or.inr ⟨0, by rw [h]; rfl⟩

theorem SizeOk.zero {d : Deque} (h : d.size_ = 0) : d.SizeOk := Or.inl h

theorem copyBlock_size {rhs : Deque} {t : List Nat} {i : Nat} {st st1 : Heap × Deque}
    (e : copyBlock rhs t i st = some st1) : st1.2.size_ = st.2.size_ := by
  unfold copyBlock at e
  simp only [Option.bind_eq_bind, Option.pure_def] at e
  obtain ⟨src, -, e⟩ := Option.bind_eq_some.1 e
  obtain ⟨b, -, e⟩ := Option.bind_eq_some.1 e
  split_ifs at e <;>
    simp only [Option.bind_eq_some, Option.map_eq_some', Option.some_bind,
      Option.some.injEq] at e
  all_goals
    try casesm* ∃ _, _, _ ∧ _
    subst_vars
    rfl

/-- Table size of a copy. -/
theorem copyFrom_size {h g : Heap} {this rhs c : Deque} (e : copyFrom h this rhs = some (g, c)) :
    c.size_ = rhs.size_ := by
  unfold copyFrom at e
  dsimp only at e
  split_ifs at e with h0
  · simp only [Option.bind_eq_bind, Option.bind_eq_some, Option.pure_def,
      Option.some.injEq, Prod.mk.injEq] at e
    obtain ⟨h5, -, r6, hr6, -, rfl⟩ := e
    have := forLoop_keeps (copyBlock rhs (allocMany rhs.size_ h).2)
      (fun st : Heap × Deque => st.2.size_ = rhs.size_)
      (fun j s1 s2 hb hP => by
        show s2.2.size_ = rhs.size_
        rw [copyBlock_size hb]; exact hP) _ _ _ _ hr6 rfl
    exact this
  · simp only [Option.pure_def, Option.some.injEq, Prod.mk.injEq] at e
    obtain ⟨-, rfl⟩ := e
    rfl

theorem copyAssign_size {h g : Heap} {this rhs c : Deque} {same : Bool}
    (e : copyAssign h this rhs same = some (g, c)) :
    c.size_ = rhs.size_ ∨ c.size_ = this.size_ := by
  unfold copyAssign at e
  split_ifs at e
  · simp only [Option.some.injEq, Prod.mk.injEq] at e
    obtain ⟨-, rfl⟩ := e
    exact Or.inr rfl
  · simp only [Option.bind_eq_bind, Option.bind_eq_some] at e
    obtain ⟨r, -, hr⟩ := e
    exact Or.inl (copyFrom_size hr)

theorem moveAssign_size {h g : Heap} {this rhs d1 r1 : Deque} {same : Bool}
    (e : moveAssign h this rhs same = some (g, d1, r1)) :
    (d1.size_ = this.size_ ∧ r1.size_ = rhs.size_) ∨ (d1.size_ = rhs.size_ ∧ r1.size_ = 0) := by
  unfold moveAssign at e
  split_ifs at e
  · simp only [Option.some.injEq, Prod.mk.injEq] at e
    obtain ⟨-, rfl, rfl⟩ := e
    exact Or.inl ⟨rfl, rfl⟩
  · simp only [Option.bind_eq_bind, Option.bind_eq_some, Option.pure_def,
      Option.some.injEq, Prod.mk.injEq] at e
    obtain ⟨r, -, -, rfl, rfl⟩ := e
    exact Or.inr ⟨rfl, rfl⟩

/-- The loop of the size constructor multiplies the table size by a power of two. -/
theorem growTo_size {size : Nat} : ∀ (fuel : Nat) {h g : Heap} {d d1 : Deque},
    growTo size fuel h d = some (g, d1) →
    (∃ k, d1.size_ = 2 ^ k * d.size_) ∧ size ≤ 128 * d1.size_ := by
  intro fuel
  induction fuel with
  | zero =>
    intro h g d d1 e
    simp only [growTo] at e
    split_ifs at e with h1
    simp only [Option.some.injEq, Prod.mk.injEq] at e
    obtain ⟨-, rfl⟩ := e
    exact ⟨⟨0, by simp⟩, by omega⟩
  | succ fuel ih =>
    intro h g d d1 e
    simp only [growTo] at e
    split_ifs at e with h1
    · cases hr : Relocate h d with
      | none => rw [hr] at e; cases e
      | some r =>
        rw [hr] at e
        obtain ⟨⟨k, hk⟩, hle⟩ := ih e
        have : r.2.size_ = 2 * d.size_ := @Relocate_size _ r.1 _ r.2 hr
        exact ⟨⟨k + 1, by rw [hk, this, pow_succ]; ring⟩, hle⟩
    · simp only [Option.some.injEq, Prod.mk.injEq] at e
      obtain ⟨-, rfl⟩ := e
      exact ⟨⟨0, by simp⟩, by omega⟩

/-- Table size of a deque made by the size constructor. -/
theorem ofSize_sizeOk {h g : Heap} {n : Nat} {d : Deque} (e : ofSize h n = some (g, d)) :
    d.SizeOk := by
  unfold ofSize at e
  split_ifs at e with h0
  · simp only [Option.some.injEq, Prod.mk.injEq] at e
    obtain ⟨-, rfl⟩ := e
    exact SizeOk.new
  · simp only [Option.bind_eq_bind, Option.bind_eq_some, Option.pure_def,
      Option.some.injEq, Prod.mk.injEq] at e
    obtain ⟨r, hr, r1, hr1, h2, -, -, rfl⟩ := e
    obtain ⟨⟨k, hk⟩, -⟩ := growTo_size n hr1
    have h1 : r.2.size_ = 1 := @Init_size _ r.1 _ r.2 hr
    exact Or.inr ⟨k, by show r1.2.size_ = 2 ^ k; rw [hk, h1, Nat.mul_one]⟩

end Deque

/-- Every push and pop that returns keeps the table size 0 or a power of two. -/
theorem Op.apply_sizeOk {o : Op} {h g : Heap} {d d1 : Deque} (e : o.apply h d = some (g, d1))
    (hd : d.SizeOk) : d1.SizeOk := by
  cases o with
  | pushBack v =>
    rcases Deque.PushBack_size e with ⟨-, h1⟩ | ⟨h0, -, -, -, -, h1⟩ | ⟨-, -, h1⟩
    · exact Deque.SizeOk.one h1
    · exact hd.double h0 h1
    · exact hd.of_size_eq h1
  | pushFront v =>
    rcases Deque.PushFront_size e with ⟨-, h1⟩ | ⟨h0, -, -, -, -, h1⟩ | ⟨-, -, h1⟩
    · exact Deque.SizeOk.one h1
    · exact hd.double h0 h1
    · exact hd.of_size_eq h1
  | popBack =>
    rcases Deque.PopBack_size e with h1 | h1
    · exact Deque.SizeOk.zero h1
    · exact hd.of_size_eq h1
  | popFront =>
    rcases Deque.PopFront_size e with h1 | h1
    · exact Deque.SizeOk.zero h1
    · exact hd.of_size_eq h1

theorem sizeOk_set {l : List Deque} {i : Nat} {d : Deque} (hl : ∀ x ∈ l, x.SizeOk)
    (hd : d.SizeOk) : ∀ x ∈ l.set i d, x.SizeOk := by
  intro x hx
  rcases List.mem_or_eq_of_mem_set hx with h1 | h1
  · exact hl x h1
  · rw [h1]; exact hd

theorem sizeOk_append {l : List Deque} {d : Deque} (hl : ∀ x ∈ l, x.SizeOk)
    (hd : d.SizeOk) : ∀ x ∈ l ++ [d], x.SizeOk := by
  intro x hx
  rcases List.mem_append.1 hx with h1 | h1
  · exact hl x h1
  · rw [List.mem_singleton.1 h1]; exact hd

/-- Every public operation that returns keeps all table sizes 0 or a power of two. -/
theorem DequeOp.step_sizeOk {o : DequeOp} {w w1 : DequeWorld} (e : o.step w = some w1)
    (hw : ∀ d ∈ w.deques, d.SizeOk) : ∀ d ∈ w1.deques, d.SizeOk := by
  cases o with
  | create =>
    simp only [DequeOp.step, Option.some.injEq] at e
    subst e
    exact sizeOk_append hw Deque.SizeOk.new
  | ofSize n =>
    simp only [DequeOp.step, Option.map_eq_some'] at e
    obtain ⟨r, hr, rfl⟩ := e
    exact sizeOk_append hw (Deque.ofSize_sizeOk (g := r.1) (d := r.2) hr)
  | op i o =>
    simp only [DequeOp.step] at e
    cases hd : w.deques[i]? with
    | none => simp only [hd, Option.some.injEq] at e; subst e; exact hw
    | some d =>
      simp only [hd, Option.map_eq_some'] at e
      obtain ⟨r, hr, rfl⟩ := e
      exact sizeOk_set hw (@Op.apply_sizeOk _ _ r.1 _ r.2 hr
        (hw d (mem_of_getElem?_eq hd)))
  | clear i =>
    simp only [DequeOp.step] at e
    cases hd : w.deques[i]? with
    | none => simp only [hd, Option.some.injEq] at e; subst e; exact hw
    | some d =>
      simp only [hd, Option.map_eq_some'] at e
      obtain ⟨r, hr, rfl⟩ := e
      have : r.2 = Deque.new := @Deque.Delete_eq_new _ r.1 _ r.2 hr
      exact sizeOk_set hw (by rw [this]; exact Deque.SizeOk.new)
  | copyCtor i =>
    simp only [DequeOp.step] at e
    cases hd : w.deques[i]? with
    | none => simp only [hd, Option.some.injEq] at e; subst e; exact hw
    | some d =>
      simp only [hd, Option.map_eq_some'] at e
      obtain ⟨r, hr, rfl⟩ := e
      exact sizeOk_append hw ((hw d (mem_of_getElem?_eq hd)).of_size_eq
        (Deque.copyFrom_size (g := r.1) (c := r.2) hr))
  | copyAssign i j =>
    simp only [DequeOp.step] at e
    cases hi : w.deques[i]? with
    | none => simp only [hi, Option.some.injEq] at e; subst e; exact hw
    | some rhs =>
      cases hj : w.deques[j]? with
      | none => simp only [hi, hj, Option.some.injEq] at e; subst e; exact hw
      | some this =>
        simp only [hi, hj, Option.map_eq_some'] at e
        obtain ⟨r, hr, rfl⟩ := e
        rcases Deque.copyAssign_size (g := r.1) (c := r.2) hr with h1 | h1
        · exact sizeOk_set hw ((hw rhs (mem_of_getElem?_eq hi)).of_size_eq h1)
        · exact sizeOk_set hw ((hw this (mem_of_getElem?_eq hj)).of_size_eq h1)
  | moveCtor i =>
    simp only [DequeOp.step] at e
    cases hd : w.deques[i]? with
    | none => simp only [hd, Option.some.injEq] at e; subst e; exact hw
    | some d =>
      simp only [hd, Option.some.injEq] at e
      subst e
      exact sizeOk_append (sizeOk_set hw (Deque.SizeOk.zero rfl))
        ((hw d (mem_of_getElem?_eq hd)).of_size_eq rfl)
  | moveAssign i j =>
    simp only [DequeOp.step] at e
    cases hi : w.deques[i]? with
    | none => simp only [hi, Option.some.injEq] at e; subst e; exact hw
    | some rhs =>
      cases hj : w.deques[j]? with
      | none => simp only [hi, hj, Option.some.injEq] at e; subst e; exact hw
      | some this =>
        simp only [hi, hj, Option.map_eq_some'] at e
        obtain ⟨r, hr, rfl⟩ := e
        have hrhs := hw rhs (mem_of_getElem?_eq hi)
        have hthis := hw this (mem_of_getElem?_eq hj)
        rcases @Deque.moveAssign_size _ r.1 _ _ r.2.1 r.2.2 _ hr with
          ⟨h1, h2⟩ | ⟨h1, h2⟩
        · exact sizeOk_set (sizeOk_set hw (hthis.of_size_eq h1)) (hrhs.of_size_eq h2)
        · exact sizeOk_set (sizeOk_set hw (hrhs.of_size_eq h1)) (Deque.SizeOk.zero h2)
  | swap i j =>
    simp only [DequeOp.step] at e
    cases hi : w.deques[i]? with
    | none => simp only [hi, Option.some.injEq] at e; subst e; exact hw
    | some rhs =>
      cases hj : w.deques[j]? with
      | none => simp only [hi, hj, Option.some.injEq] at e; subst e; exact hw
      | some this =>
        simp only [hi, hj, Option.some.injEq] at e
        subst e
        have hrhs := hw rhs (mem_of_getElem?_eq hi)
        have hthis := hw this (mem_of_getElem?_eq hj)
        exact sizeOk_set (sizeOk_set hw (hrhs.of_size_eq rfl)) (hthis.of_size_eq rfl)

theorem runDequeOps_sizeOk : ∀ (ops : List DequeOp) {w w1 : DequeWorld},
    runDequeOps ops w = some w1 → (∀ d ∈ w.deques, d.SizeOk) → ∀ d ∈ w1.deques, d.SizeOk := by
  intro ops
  induction ops with
  | nil =>
    intro w w1 e hw
    simp only [runDequeOps, Option.some.injEq] at e
    subst e
    exact hw
  | cons o os ih =>
    intro w w1 e hw
    simp only [runDequeOps] at e
    cases hs : o.step w with
    | none => rw [hs] at e; cases e
    | some w2 =>
      rw [hs] at e
      exact ih e (DequeOp.step_sizeOk hs hw)

theorem OpC.applyC_sizeOk {o : OpC} {h g : Heap} {d d1 : Deque} (e : o.apply h d = some (g, d1))
    (hd : d.SizeOk) : d1.SizeOk := by
  cases o with
  | op o => exact Op.apply_sizeOk e hd
  | clear =>
    have : d1 = Deque.new := Deque.Delete_eq_new e
    rw [this]
    exact Deque.SizeOk.new

theorem runOpsC_sizeOk : ∀ (ops : List OpC) {h g : Heap} {d d1 : Deque},
    runOpsC ops h d = some (g, d1) → d.SizeOk → d1.SizeOk := by
  intro ops
  induction ops with
  | nil =>
    intro h g d d1 e hd
    simp only [runOpsC, Option.some.injEq, Prod.mk.injEq] at e
    obtain ⟨-, rfl⟩ := e
    exact hd
  | cons o os ih =>
    intro h g d d1 e hd
    simp only [runOpsC] at e
    cases hs : o.apply h d with
    | none => rw [hs] at e; cases e
    | some r =>
      rw [hs] at e
      exact ih e (@OpC.applyC_sizeOk _ _ r.1 _ r.2 hs hd)

namespace Store.Counts

variable {s : Store} {a n m : Nat}

theorem view_of (hc : s.Counts a n m) (h : 0 < n ∨ 0 < m) :
    ∃ v, s.view a = some v ∧ v.strong = n ∧ v.weak = m := by
  rcases hc with ⟨-, hv⟩ | ⟨h1, h2, -⟩
  · exact hv
  · omega

theorem incStrong (hc : s.Counts a n m) (h : 0 < n ∨ 0 < m) :
    (BaseBlock.IncreaseStrong s a = none ∧ ¬ n < 2147483647) ∨
    ∃ s1, BaseBlock.IncreaseStrong s a = some s1 ∧ s1.Counts a (n + 1) m := by
  obtain ⟨v, hv, h1, h2⟩ := hc.view_of h
  by_cases hlt : n < 2147483647
  · obtain ⟨s1, e1, hv1, -, -, -⟩ :=
      BaseBlock.IncreaseStrong_view hv (by rw [h1]; exact INT_MAX_natCast_lt.2 hlt)
    exact Or.inr ⟨s1, e1, Or.inl ⟨Or.inl (by omega), _, hv1, by simp [h1], h2⟩⟩
  · exact Or.inl ⟨BaseBlock.IncreaseStrong_overflow hv
      (by rw [h1]; exact fun h => hlt (INT_MAX_natCast_lt.1 h)), hlt⟩

theorem incWeak (hc : s.Counts a n m) (h : 0 < n ∨ 0 < m) :
    (BaseBlock.IncreaseWeak s a = none ∧ ¬ m < 2147483647) ∨
    ∃ s1, BaseBlock.IncreaseWeak s a = some s1 ∧ s1.Counts a n (m + 1) := by
  obtain ⟨v, hv, h1, h2⟩ := hc.view_of h
  by_cases hlt : m < 2147483647
  · obtain ⟨s1, e1, hv1, -, -, -⟩ :=
      BaseBlock.IncreaseWeak_view hv (by rw [h2]; exact INT_MAX_natCast_lt.2 hlt)
    exact Or.inr ⟨s1, e1, Or.inl ⟨Or.inr (by omega), _, hv1, h1, by simp [h2]⟩⟩
  · exact Or.inl ⟨BaseBlock.IncreaseWeak_overflow hv
      (by rw [h2]; exact fun h => hlt (INT_MAX_natCast_lt.1 h)), hlt⟩

theorem decStrong (hc : s.Counts a (n + 1) m) :
    ∃ s1, BaseBlock.DecreaseStrong s a = some s1 ∧ s1.Counts a n m := by
  obtain ⟨v, hv, h1, h2⟩ := hc.view_of (Or.inl (by omega))
  obtain ⟨s1, e1, -, -, hA, hB, hC⟩ := BaseBlock.DecreaseStrong_counts hv
  refine ⟨s1, e1, ?_⟩
  by_cases hn : n = 0
  · by_cases hm : m = 0
    · exact Or.inr ⟨hn, hm, (hA (by rw [h1, hn]; simp) (by rw [h2, hm]; simp)).1⟩
    · refine Or.inl ⟨Or.inr (by omega), _, (hB (by rw [h1, hn]; simp) (by rw [h2]; omega)).1,
        by simp [hn], h2⟩
  · refine Or.inl ⟨Or.inl (by omega), _, (hC (by rw [h1]; omega)).1, ?_, h2⟩
    simp only [h1]
    omega

theorem decWeak (hc : s.Counts a n (m + 1)) :
    ∃ s1, BaseBlock.DecreaseWeak s a = some s1 ∧ s1.Counts a n m := by
  obtain ⟨v, hv, h1, h2⟩ := hc.view_of (Or.inr (by omega))
  obtain ⟨s1, e1, -, -, hA, hB, hC⟩ := BaseBlock.DecreaseWeak_counts hv
  refine ⟨s1, e1, ?_⟩
  by_cases hn : n = 0
  · by_cases hm : m = 0
    · exact Or.inr ⟨hn, hm, (hA (by rw [h2, hm]; simp) (by rw [h1, hn]; simp)).1⟩
    · refine Or.inl ⟨Or.inr (by omega), _, (hB (by rw [h2]; omega) (by rw [h1, hn]; simp)).1,
        h1, ?_⟩
      simp only [h2]
      omega
  · refine Or.inl ⟨Or.inl (by omega), _, (hC (by rw [h1]; omega)).1, h1, ?_⟩
    simp only [h2]
    omega

theorem expired (hc : s.Counts a n m) (hm : 0 < m) {v : WeakPtr}
    (hcb : v.control_block_ = some a) : v.Expired s = some (decide (n = 0)) := by
  obtain ⟨b, hv, h1, -⟩ := hc.view_of (Or.inr hm)
  rw [WeakPtr.Expired_of_view hcb hv, h1]
  congr 1
  simp

end Store.Counts

theorem okOf_set {α : Type} {P : α → Prop} {l : List α} {i : Nat} {x : α} (hl : ∀ q ∈ l, P q)
    (hx : P x) : ∀ q ∈ l.set i x, P q := by
  intro q hq
  rcases List.mem_or_eq_of_mem_set hq with h1 | h1
  · exact hl q h1
  · rw [h1]; exact hx

theorem okOf_append {α : Type} {P : α → Prop} {l : List α} {x : α} (hl : ∀ q ∈ l, P q)
    (hx : P x) : ∀ q ∈ l ++ [x], P q := by
  intro q hq
  rcases List.mem_append.1 hq with h1 | h1
  · exact hl q h1
  · rw [List.mem_singleton.1 h1]; exact hx

/-- Replacing a pointer by an empty one lowers the number of references by the one it held. -/
theorem sharedRefs_set_none (a : Nat) {l : List SharedPtr} {i : Nat} {p q : SharedPtr}
    (h : l[i]? = some p) (hq : q.control_block_ = none) :
    sharedRefs a (l.set i q) + (if p.control_block_ = some a then 1 else 0) = sharedRefs a l := by
  have := sharedRefs_set a q h
  rw [hq] at this
  simpa using this

theorem weakRefs_set_none (a : Nat) {l : List WeakPtr} {i : Nat} {p q : WeakPtr}
    (h : l[i]? = some p) (hq : q.control_block_ = none) :
    weakRefs a (l.set i q) + (if p.control_block_ = some a then 1 else 0) = weakRefs a l := by
  have := weakRefs_set a q h
  rw [hq] at this
  simpa using this

theorem Store.Counts.after_destroyObj {s : Store} {a n m : Nat} (hc : s.Counts a n m)
    (x : Option Addr) : (s.destroyObj x).Counts a n m := by
  cases x with
  | none => exact hc
  | some y => exact hc

/-- The invariant from its parts. -/
theorem World.Counted.build {a : Nat} {s : Store} {sh : List SharedPtr} {wk : List WeakPtr}
    {n m : Nat} (hs : ∀ p ∈ sh, p.control_block_ = none ∨ p.control_block_ = some a)
    (hw : ∀ v ∈ wk, v.control_block_ = none ∨ v.control_block_ = some a)
    (hc : s.Counts a n m) (hn : sharedRefs a sh = n) (hm : weakRefs a wk = m) :
    World.Counted a ⟨s, sh, wk⟩ :=
  ⟨hs, hw, by show s.Counts a (sharedRefs a sh) (weakRefs a wk); rw [hn, hm]; exact hc⟩

namespace World.Counted

variable {a : Nat} {w : World}

theorem counted_copyShared (hi : World.Counted a w) (i : Nat) :
    ((PtrOp.copyShared i).step w = none ∧ ¬ World.Room a w) ∨
    ∃ w1, (PtrOp.copyShared i).step w = some w1 ∧ World.Counted a w1 ∧
      (sharedRefs a w.shared = 0 → sharedRefs a w1.shared = 0) := by
  simp only [PtrOp.step]
  cases hp : w.shared[i]? with
  | none => exact Or.inr ⟨w, rfl, hi, id⟩
  | some p =>
    rcases hi.sharedOk p (mem_of_getElem?_eq hp) with hcb | hcb
    · have e : SharedPtr.copy w.store p
          = some (w.store, ⟨p.alias_ptr_, none, p.if_pointer_type_⟩) := by
        simp only [SharedPtr.copy, hcb]
      simp only [e, Option.map_some']
      have hr : sharedRefs a (w.shared ++ [⟨p.alias_ptr_, none, p.if_pointer_type_⟩])
          = sharedRefs a w.shared := sharedRefs_append_none a w.shared rfl
      exact Or.inr ⟨_, rfl, build (okOf_append hi.sharedOk (Or.inl rfl)) hi.weakOk hi.counts hr rfl,
        fun h => hr.trans h⟩
    · have hpos := sharedRefs_pos a hp hcb
      rcases hi.counts.incStrong (Or.inl hpos) with ⟨e0, hb⟩ | ⟨s1, e1, hc1⟩
      · exact Or.inl ⟨by simp only [SharedPtr.copy, hcb, e0, Option.map_none'],
          fun h => hb h.1⟩
      have e : SharedPtr.copy w.store p
          = some (s1, ⟨p.alias_ptr_, some a, p.if_pointer_type_⟩) := by
        simp only [SharedPtr.copy, hcb, e1, Option.map_some']
      simp only [e, Option.map_some']
      have hr : sharedRefs a (w.shared ++ [⟨p.alias_ptr_, some a, p.if_pointer_type_⟩])
          = sharedRefs a w.shared + 1 := sharedRefs_append_ref a w.shared rfl
      exact Or.inr ⟨_, rfl, build (okOf_append hi.sharedOk (Or.inr rfl)) hi.weakOk hc1 hr rfl,
        fun h => by omega⟩

theorem counted_aliasShared (hi : World.Counted a w) (i : Nat) (x : Option Addr) :
    ((PtrOpX.aliasShared i x).step w = none ∧ ¬ World.Room a w) ∨
    ∃ w1, (PtrOpX.aliasShared i x).step w = some w1 ∧ World.Counted a w1 ∧
      (sharedRefs a w.shared = 0 → sharedRefs a w1.shared = 0) := by
  simp only [PtrOpX.step]
  cases hp : w.shared[i]? with
  | none => exact Or.inr ⟨w, rfl, hi, id⟩
  | some p =>
    rcases hi.sharedOk p (mem_of_getElem?_eq hp) with hcb | hcb
    · have e : SharedPtr.aliasing w.store p x
          = some (w.store, ⟨x, none, p.if_pointer_type_⟩) := by
        simp only [SharedPtr.aliasing, hcb]
      simp only [e, Option.map_some']
      have hr : sharedRefs a (w.shared ++ [⟨x, none, p.if_pointer_type_⟩])
          = sharedRefs a w.shared := sharedRefs_append_none a w.shared rfl
      exact Or.inr ⟨_, rfl, build (okOf_append hi.sharedOk (Or.inl rfl)) hi.weakOk hi.counts hr rfl,
        fun h => hr.trans h⟩
    · have hpos := sharedRefs_pos a hp hcb
      rcases hi.counts.incStrong (Or.inl hpos) with ⟨e0, hb⟩ | ⟨s1, e1, hc1⟩
      · exact Or.inl ⟨by simp only [SharedPtr.aliasing, hcb, e0, Option.map_none'],
          fun h => hb h.1⟩
      have e : SharedPtr.aliasing w.store p x
          = some (s1, ⟨x, some a, p.if_pointer_type_⟩) := by
        simp only [SharedPtr.aliasing, hcb, e1, Option.map_some']
      simp only [e, Option.map_some']
      have hr : sharedRefs a (w.shared ++ [⟨x, some a, p.if_pointer_type_⟩])
          = sharedRefs a w.shared + 1 := sharedRefs_append_ref a w.shared rfl
      exact Or.inr ⟨_, rfl, build (okOf_append hi.sharedOk (Or.inr rfl)) hi.weakOk hc1 hr rfl,
        fun h => by omega⟩

theorem counted_moveShared (hi : World.Counted a w) (i : Nat) :
    ∃ w1, (PtrOp.moveShared i).step w = some w1 ∧ World.Counted a w1 ∧
      (sharedRefs a w.shared = 0 → sharedRefs a w1.shared = 0) := by
  simp only [PtrOp.step]
  cases hp : w.shared[i]? with
  | none => exact ⟨w, rfl, hi, id⟩
  | some p =>
    have hpm := hi.sharedOk p (mem_of_getElem?_eq hp)
    have hr : sharedRefs a (w.shared.set i (SharedPtr.move p).2 ++ [(SharedPtr.move p).1])
        = sharedRefs a w.shared := by
      have h1 := sharedRefs_set_none a (q := (SharedPtr.move p).2) hp rfl
      rw [sharedRefs_append_one]
      have h2 : (SharedPtr.move p).1.control_block_ = p.control_block_ := rfl
      rw [h2]
      omega
    exact ⟨_, rfl, build (okOf_append (okOf_set hi.sharedOk (Or.inl rfl)) hpm) hi.weakOk
      hi.counts hr rfl, fun h => hr.trans h⟩

theorem counted_destroyShared (hi : World.Counted a w) (i : Nat) :
    ∃ w1, (PtrOp.destroyShared i).step w = some w1 ∧ World.Counted a w1 ∧
      (sharedRefs a w.shared = 0 → sharedRefs a w1.shared = 0) := by
  simp only [PtrOp.step]
  cases hp : w.shared[i]? with
  | none => exact ⟨w, rfl, hi, id⟩
  | some p =>
    have hok : ∀ q ∈ w.shared.eraseIdx i, q.control_block_ = none ∨ q.control_block_ = some a :=
      fun q hq => hi.sharedOk q (List.mem_of_mem_eraseIdx hq)
    have hcnt := sharedRefs_eraseIdx a hp
    rcases hi.sharedOk p (mem_of_getElem?_eq hp) with hcb | hcb
    · have e : SharedPtr.dtor w.store p = some w.store := by simp only [SharedPtr.dtor, hcb]
      simp only [e, Option.map_some']
      have hr : sharedRefs a (w.shared.eraseIdx i) = sharedRefs a w.shared := by
        rw [hcb] at hcnt
        simpa using hcnt
      exact ⟨_, rfl, build hok hi.weakOk hi.counts hr rfl, fun h => hr.trans h⟩
    · rw [if_pos hcb] at hcnt
      have hc := hi.counts
      rw [← hcnt] at hc
      obtain ⟨s1, e1, hc1⟩ := hc.decStrong
      have e : SharedPtr.dtor w.store p = some s1 := by simp only [SharedPtr.dtor, hcb, e1]
      simp only [e, Option.map_some']
      exact ⟨_, rfl, build hok hi.weakOk hc1 rfl rfl, fun h => by omega⟩

theorem counted_resetShared (hi : World.Counted a w) (i : Nat) :
    ∃ w1, (PtrOpX.resetShared i).step w = some w1 ∧ World.Counted a w1 ∧
      (sharedRefs a w.shared = 0 → sharedRefs a w1.shared = 0) := by
  simp only [PtrOpX.step]
  cases hp : w.shared[i]? with
  | none => exact ⟨w, rfl, hi, id⟩
  | some p =>
    have hok : ∀ q ∈ w.shared.set i ⟨none, none, p.if_pointer_type_⟩,
        q.control_block_ = none ∨ q.control_block_ = some a :=
      okOf_set hi.sharedOk (Or.inl rfl)
    have hcnt := sharedRefs_set_none a (q := ⟨none, none, p.if_pointer_type_⟩) hp rfl
    rcases hi.sharedOk p (mem_of_getElem?_eq hp) with hcb | hcb
    · have e : SharedPtr.Reset w.store p
          = some (w.store.destroyObj p.alias_ptr_, ⟨none, none, p.if_pointer_type_⟩) := by
        simp only [SharedPtr.Reset, hcb, Option.bind_eq_bind, Option.some_bind, Option.pure_def]
      simp only [e, Option.map_some']
      have hr : sharedRefs a (w.shared.set i ⟨none, none, p.if_pointer_type_⟩)
          = sharedRefs a w.shared := by
        rw [hcb] at hcnt
        simpa using hcnt
      exact ⟨_, rfl, build hok hi.weakOk (hi.counts.after_destroyObj _) hr rfl, fun h => hr.trans h⟩
    · rw [if_pos hcb] at hcnt
      have hc := hi.counts
      rw [← hcnt] at hc
      obtain ⟨s1, e1, hc1⟩ := hc.decStrong
      have e : SharedPtr.Reset w.store p
          = some (s1.destroyObj p.alias_ptr_, ⟨none, none, p.if_pointer_type_⟩) := by
        simp only [SharedPtr.Reset, hcb, e1, Option.bind_eq_bind, Option.some_bind,
          Option.pure_def]
      simp only [e, Option.map_some']
      exact ⟨_, rfl, build hok hi.weakOk (hc1.after_destroyObj _) rfl rfl, fun h => by omega⟩

end World.Counted

/-- The copy assignment between two distinct objects, from its two counter operations. -/
theorem SharedPtr.assign_of_steps {s s1 s2 : Store} {this other : SharedPtr}
    (hdec : (match this.control_block_ with
      | none => some s
      | some b => BaseBlock.DecreaseStrong s b) = some s1)
    (hinc : (match other.control_block_ with
      | none => some s1
      | some b => BaseBlock.IncreaseStrong s1 b) = some s2) :
    SharedPtr.assign s this other false
      = some (s2, ⟨other.alias_ptr_, other.control_block_, other.if_pointer_type_⟩) := by
  unfold SharedPtr.assign
  cases ht : this.control_block_ <;> cases ho : other.control_block_ <;>
    simp only [ht, ho] at hdec hinc <;>
    simp [hdec, hinc]

/-- The copy assignment between two distinct objects has no result when the increment of the
block of `other` has none. -/
theorem SharedPtr.assign_none_of_steps {s s1 : Store} {this other : SharedPtr}
    (hdec : (match this.control_block_ with
      | none => some s
      | some b => BaseBlock.DecreaseStrong s b) = some s1)
    (hinc : (match other.control_block_ with
      | none => some s1
      | some b => BaseBlock.IncreaseStrong s1 b) = none) :
    SharedPtr.assign s this other false = none := by
  unfold SharedPtr.assign
  cases ht : this.control_block_ <;> cases ho : other.control_block_ <;>
    simp only [ht, ho] at hdec hinc <;>
    simp_all

/-- The move assignment between two distinct objects, from its counter operation. -/
theorem SharedPtr.moveAssign_of_step {s s1 : Store} {this other : SharedPtr}
    (hdec : (match this.control_block_ with
      | none => some s
      | some b => BaseBlock.DecreaseStrong s b) = some s1) :
    SharedPtr.moveAssign s this other false
      = some (s1, ⟨other.alias_ptr_, other.control_block_, other.if_pointer_type_⟩,
          { other with control_block_ := none, alias_ptr_ := none }) := by
  unfold SharedPtr.moveAssign
  cases ht : this.control_block_ <;> simp only [ht] at hdec <;> simp [hdec]

/-- The first statement of the assignments: the destination lets go of its block. -/
theorem World.Counted.release_shared {a : Nat} {w : World} (hi : World.Counted a w) {j : Nat}
    {this : SharedPtr} (hpj : w.shared[j]? = some this) (q : SharedPtr)
    (hq : q.control_block_ = none) :
    ∃ s1, (match this.control_block_ with
        | none => some w.store
        | some b => BaseBlock.DecreaseStrong w.store b) = some s1 ∧
      s1.Counts a (sharedRefs a (w.shared.set j q)) (weakRefs a w.weak) ∧
      sharedRefs a (w.shared.set j q) ≤ sharedRefs a w.shared := by
  have h1 := sharedRefs_set_none a hpj hq
  rcases hi.sharedOk this (mem_of_getElem?_eq hpj) with hcb | hcb
  · refine ⟨w.store, by rw [hcb], ?_, by omega⟩
    rw [hcb] at h1
    simp only [reduceCtorEq, if_false, Nat.add_zero] at h1
    rw [h1]
    exact hi.counts
  · rw [if_pos hcb] at h1
    have hc := hi.counts
    rw [← h1] at hc
    obtain ⟨s1, e1, hc1⟩ := hc.decStrong
    exact ⟨s1, by rw [hcb]; exact e1, hc1, by omega⟩

namespace World.Counted

variable {a : Nat} {w : World}

theorem counted_assignShared (hi : World.Counted a w) (i j : Nat) :
    ((PtrOpX.assignShared i j).step w = none ∧ ¬ World.Room a w) ∨
    ∃ w1, (PtrOpX.assignShared i j).step w = some w1 ∧ World.Counted a w1 ∧
      (sharedRefs a w.shared = 0 → sharedRefs a w1.shared = 0) := by
  simp only [PtrOpX.step]
  cases hpi : w.shared[i]? with
  | none => exact Or.inr ⟨w, rfl, hi, id⟩
  | some other =>
    cases hpj : w.shared[j]? with
    | none => exact Or.inr ⟨w, rfl, hi, id⟩
    | some this =>
      dsimp only
      have hoth := hi.sharedOk other (mem_of_getElem?_eq hpi)
      have hthis := hi.sharedOk this (mem_of_getElem?_eq hpj)
      by_cases hij : i = j
      · have e : SharedPtr.assign w.store this other (i == j) = some (w.store, this) := by
          simp [SharedPtr.assign, hij]
        simp only [e, Option.map_some']
        have hr : sharedRefs a (w.shared.set j this) = sharedRefs a w.shared := by
          have := sharedRefs_set a this hpj
          omega
        exact Or.inr ⟨_, rfl, build (okOf_set hi.sharedOk hthis) hi.weakOk hi.counts hr rfl,
          fun h => hr.trans h⟩
      · have hbeq : (i == j) = false := by simpa using hij
        obtain ⟨s1, e1, hc1, hle⟩ := hi.release_shared hpj
          (⟨this.alias_ptr_, none, other.if_pointer_type_⟩ : SharedPtr) rfl
        have h1 := sharedRefs_set_none a
          (q := (⟨this.alias_ptr_, none, other.if_pointer_type_⟩ : SharedPtr)) hpj rfl
        have hget : (w.shared.set j ⟨this.alias_ptr_, none, other.if_pointer_type_⟩)[i]?
            = some other := by
          rw [List.getElem?_set_ne (Ne.symm hij)]
          exact hpi
        have h2 := sharedRefs_set a
          (⟨other.alias_ptr_, other.control_block_, other.if_pointer_type_⟩ : SharedPtr) hpj
        dsimp only at h2
        rw [hbeq]
        rcases hoth with hcb | hcb
        · have e := @SharedPtr.assign_of_steps _ _ s1 _ other e1 (by rw [hcb])
          simp only [e, Option.map_some']
          have hif : (if other.control_block_ = some a then 1 else 0) = 0 := by
            rw [hcb]; simp
          rw [hif] at h2
          have hr : sharedRefs a (w.shared.set j
              ⟨other.alias_ptr_, other.control_block_, other.if_pointer_type_⟩)
              = sharedRefs a (w.shared.set j ⟨this.alias_ptr_, none, other.if_pointer_type_⟩) := by
            omega
          exact Or.inr ⟨_, rfl, build (okOf_set hi.sharedOk (Or.inl hcb)) hi.weakOk hc1 hr rfl,
            fun h => by
              show sharedRefs a (w.shared.set j _) = 0
              omega⟩
        · have hpos := sharedRefs_pos a hget hcb
          rcases hc1.incStrong (Or.inl hpos) with ⟨e0, hb⟩ | ⟨s2, e2, hc2⟩
          · refine Or.inl ⟨?_, fun h => hb (by have := h.1; omega)⟩
            rw [SharedPtr.assign_none_of_steps e1 (by rw [hcb]; exact e0)]
            rfl
          have e := @SharedPtr.assign_of_steps _ _ s2 _ other e1
            (by rw [hcb]; exact e2)
          simp only [e, Option.map_some']
          have hif : (if other.control_block_ = some a then 1 else 0) = 1 := by
            rw [if_pos hcb]
          rw [hif] at h2
          have hr : sharedRefs a (w.shared.set j
              ⟨other.alias_ptr_, other.control_block_, other.if_pointer_type_⟩)
              = sharedRefs a (w.shared.set j ⟨this.alias_ptr_, none, other.if_pointer_type_⟩)
                + 1 := by
            omega
          have hpos0 := sharedRefs_pos a hpi hcb
          exact Or.inr ⟨_, rfl, build (okOf_set hi.sharedOk (Or.inr hcb)) hi.weakOk hc2 hr rfl,
            fun h => by omega⟩

theorem counted_moveAssignShared (hi : World.Counted a w) (i j : Nat) :
    ∃ w1, (PtrOpX.moveAssignShared i j).step w = some w1 ∧ World.Counted a w1 ∧
      (sharedRefs a w.shared = 0 → sharedRefs a w1.shared = 0) := by
  simp only [PtrOpX.step]
  cases hpi : w.shared[i]? with
  | none => exact ⟨w, rfl, hi, id⟩
  | some other =>
    cases hpj : w.shared[j]? with
    | none => exact ⟨w, rfl, hi, id⟩
    | some this =>
      dsimp only
      have hoth := hi.sharedOk other (mem_of_getElem?_eq hpi)
      have hthis := hi.sharedOk this (mem_of_getElem?_eq hpj)
      have hjlt : j < w.shared.length := (List.getElem?_eq_some_iff.1 hpj).1
      by_cases hij : i = j
      · subst hij
        rw [hpi] at hpj
        cases hpj
        have e : SharedPtr.moveAssign w.store other other (i == i)
            = some (w.store, other, other) := by
          simp [SharedPtr.moveAssign]
        simp only [e, Option.map_some']
        have hg1 : (w.shared.set i other)[i]? = some other := by
          rw [List.getElem?_set_self hjlt]
        have hr : sharedRefs a ((w.shared.set i other).set i other) = sharedRefs a w.shared := by
          have h1 := sharedRefs_set a other hpi
          have h2 := sharedRefs_set a other hg1
          omega
        exact ⟨_, rfl, build (okOf_set (okOf_set hi.sharedOk hoth) hoth) hi.weakOk hi.counts
          hr rfl, fun h => hr.trans h⟩
      · have hbeq : (i == j) = false := by simpa using hij
        obtain ⟨s1, e1, hc1, hle⟩ := hi.release_shared hpj
          (⟨this.alias_ptr_, none, other.if_pointer_type_⟩ : SharedPtr) rfl
        have h0 := sharedRefs_set_none a
          (q := (⟨this.alias_ptr_, none, other.if_pointer_type_⟩ : SharedPtr)) hpj rfl
        have h1 := sharedRefs_set a
          (⟨other.alias_ptr_, other.control_block_, other.if_pointer_type_⟩ : SharedPtr) hpj
        dsimp only at h1
        have hget : (w.shared.set j
            ⟨other.alias_ptr_, other.control_block_, other.if_pointer_type_⟩)[i]? = some other := by
          rw [List.getElem?_set_ne (Ne.symm hij)]
          exact hpi
        have h2 := sharedRefs_set_none a
          (q := ({ other with control_block_ := none, alias_ptr_ := none } : SharedPtr)) hget rfl
        have hok : ∀ q ∈ (w.shared.set j
            ⟨other.alias_ptr_, other.control_block_, other.if_pointer_type_⟩).set i
            { other with control_block_ := none, alias_ptr_ := none },
            q.control_block_ = none ∨ q.control_block_ = some a :=
          okOf_set (okOf_set hi.sharedOk hoth) (Or.inl rfl)
        rw [hbeq, @SharedPtr.moveAssign_of_step _ _ _ other e1]
        simp only [Option.map_some']
        have hr : sharedRefs a ((w.shared.set j
            ⟨other.alias_ptr_, other.control_block_, other.if_pointer_type_⟩).set i
            { other with control_block_ := none, alias_ptr_ := none })
            = sharedRefs a (w.shared.set j ⟨this.alias_ptr_, none, other.if_pointer_type_⟩) := by
          omega
        exact ⟨_, rfl, build hok hi.weakOk hc1 hr rfl, fun h => by
          show sharedRefs a ((w.shared.set j _).set i _) = 0
          omega⟩

end World.Counted

/-- The copy assignment of weak pointers, from its two counter operations. -/
theorem WeakPtr.weakAssign_of_steps {s s1 s2 : Store} {this other : WeakPtr}
    (hdec : (match this.control_block_ with
      | none => some s
      | some b => BaseBlock.DecreaseWeak s b) = some s1)
    (hinc : (match other.control_block_ with
      | none => some s1
      | some b => BaseBlock.IncreaseWeak s1 b) = some s2) :
    WeakPtr.assign s this other = some (s2, ⟨other.if_pointer_type_, other.control_block_⟩) := by
  unfold WeakPtr.assign
  cases ht : this.control_block_ <;> cases ho : other.control_block_ <;>
    simp only [ht, ho] at hdec hinc <;>
    simp [hdec, hinc]

/-- The copy assignment of a weak pointer has no result when the increment of the block of `other` has
none. -/
theorem WeakPtr.weakAssign_none_of_steps {s s1 : Store} {this other : WeakPtr}
    (hdec : (match this.control_block_ with
      | none => some s
      | some b => BaseBlock.DecreaseWeak s b) = some s1)
    (hinc : (match other.control_block_ with
      | none => some s1
      | some b => BaseBlock.IncreaseWeak s1 b) = none) :
    WeakPtr.assign s this other = none := by
  unfold WeakPtr.assign
  cases ht : this.control_block_ <;> cases ho : other.control_block_ <;>
    simp only [ht, ho] at hdec hinc <;>
    simp_all

/-- The move assignment of weak pointers, from its counter operation. -/
theorem WeakPtr.weakMoveAssign_of_step {s s1 : Store} {this other : WeakPtr}
    (hdec : (match this.control_block_ with
      | none => some s
      | some b => BaseBlock.DecreaseWeak s b) = some s1) :
    WeakPtr.moveAssign s this other
      = some (s1, ⟨other.if_pointer_type_, other.control_block_⟩,
          { other with control_block_ := none }) := by
  unfold WeakPtr.moveAssign
  cases ht : this.control_block_ <;> simp only [ht] at hdec <;> simp_all

theorem WeakPtr.moveAssignSelf_of_step {s s1 : Store} {this : WeakPtr}
    (hdec : (match this.control_block_ with
      | none => some s
      | some b => BaseBlock.DecreaseWeak s b) = some s1) :
    WeakPtr.moveAssignSelf s this = some (s1, { this with control_block_ := none }) := by
  unfold WeakPtr.moveAssignSelf
  cases ht : this.control_block_ <;> simp only [ht] at hdec <;> simp_all

theorem WeakPtr.Reset_of_step {s s1 : Store} {this : WeakPtr}
    (hdec : (match this.control_block_ with
      | none => some s
      | some b => BaseBlock.DecreaseWeak s b) = some s1) :
    WeakPtr.Reset s this = some (s1, { this with control_block_ := none }) := by
  unfold WeakPtr.Reset
  cases ht : this.control_block_ <;> simp only [ht] at hdec <;> simp_all

theorem WeakPtr.dtor_of_step {s s1 : Store} {this : WeakPtr}
    (hdec : (match this.control_block_ with
      | none => some s
      | some b => BaseBlock.DecreaseWeak s b) = some s1) :
    WeakPtr.dtor s this = some s1 := by
  unfold WeakPtr.dtor
  cases ht : this.control_block_ <;> simp only [ht] at hdec <;> simp_all

/-- A weak pointer lets go of its block. -/
theorem World.Counted.release_weak {a : Nat} {w : World} (hi : World.Counted a w) {j : Nat}
    {this : WeakPtr} (hpj : w.weak[j]? = some this) {m : Nat}
    (hm : m + (if this.control_block_ = some a then 1 else 0) = weakRefs a w.weak) :
    ∃ s1, (match this.control_block_ with
        | none => some w.store
        | some b => BaseBlock.DecreaseWeak w.store b) = some s1 ∧
      s1.Counts a (sharedRefs a w.shared) m := by
  rcases hi.weakOk this (mem_of_getElem?_eq hpj) with hcb | hcb
  · refine ⟨w.store, by rw [hcb], ?_⟩
    rw [hcb] at hm
    simp only [reduceCtorEq, if_false, Nat.add_zero] at hm
    rw [hm]
    exact hi.counts
  · rw [if_pos hcb] at hm
    have hc := hi.counts
    rw [← hm] at hc
    obtain ⟨s1, e1, hc1⟩ := hc.decWeak
    exact ⟨s1, by rw [hcb]; exact e1, hc1⟩

/-- A weak reference to the block of a live pointer is added. -/
theorem World.Counted.gain_weak {a : Nat} {s : Store} {n m : Nat} (hc : s.Counts a n m)
    {cb : Option Nat} (hcb : cb = none ∨ cb = some a) (hpos : cb = some a → 0 < n ∨ 0 < m) :
    ((match cb with
        | none => some s
        | some b => BaseBlock.IncreaseWeak s b) = none ∧ ¬ m < 2147483647) ∨
    ∃ s1, (match cb with
        | none => some s
        | some b => BaseBlock.IncreaseWeak s b) = some s1 ∧
      s1.Counts a n (m + (if cb = some a then 1 else 0)) := by
  rcases hcb with h | h
  · subst h
    exact Or.inr ⟨s, rfl, by simpa using hc⟩
  · subst h
    rcases hc.incWeak (hpos rfl) with ⟨e0, hb⟩ | ⟨s1, e1, hc1⟩
    · exact Or.inl ⟨e0, hb⟩
    · exact Or.inr ⟨s1, e1, by simpa using hc1⟩

namespace World.Counted

variable {a : Nat} {w : World}

theorem counted_weakOfShared (hi : World.Counted a w) (i : Nat) :
    ((PtrOp.weakOfShared i).step w = none ∧ ¬ World.Room a w) ∨
    ∃ w1, (PtrOp.weakOfShared i).step w = some w1 ∧ World.Counted a w1 ∧
      (sharedRefs a w.shared = 0 → sharedRefs a w1.shared = 0) := by
  simp only [PtrOp.step]
  cases hp : w.shared[i]? with
  | none => exact Or.inr ⟨w, rfl, hi, id⟩
  | some p =>
    rcases gain_weak hi.counts (hi.sharedOk p (mem_of_getElem?_eq hp))
      (fun h => Or.inl (sharedRefs_pos a hp h)) with ⟨e0, hb⟩ | ⟨s1, e1, hc1⟩
    · refine Or.inl ⟨?_, fun h => hb h.2⟩
      unfold WeakPtr.ofShared
      cases hc : p.control_block_ <;> simp only [hc] at e0 <;> simp_all
    have e : WeakPtr.ofShared w.store p = some (s1, ⟨p.if_pointer_type_, p.control_block_⟩) := by
      unfold WeakPtr.ofShared
      cases hc : p.control_block_ <;> simp only [hc] at e1 <;> simp_all
    simp only [e, Option.map_some']
    exact Or.inr ⟨_, rfl, build hi.sharedOk
      (okOf_append hi.weakOk (hi.sharedOk p (mem_of_getElem?_eq hp))) hc1 rfl
      (weakRefs_append_one a w.weak _), id⟩

theorem counted_copyWeak (hi : World.Counted a w) (j : Nat) :
    ((PtrOp.copyWeak j).step w = none ∧ ¬ World.Room a w) ∨
    ∃ w1, (PtrOp.copyWeak j).step w = some w1 ∧ World.Counted a w1 ∧
      (sharedRefs a w.shared = 0 → sharedRefs a w1.shared = 0) := by
  simp only [PtrOp.step]
  cases hp : w.weak[j]? with
  | none => exact Or.inr ⟨w, rfl, hi, id⟩
  | some v =>
    rcases gain_weak hi.counts (hi.weakOk v (mem_of_getElem?_eq hp))
      (fun h => Or.inr (weakRefs_pos a hp h)) with ⟨e0, hb⟩ | ⟨s1, e1, hc1⟩
    · refine Or.inl ⟨?_, fun h => hb h.2⟩
      unfold WeakPtr.copy
      cases hc : v.control_block_ <;> simp only [hc] at e0 <;> simp_all
    have e : WeakPtr.copy w.store v = some (s1, ⟨v.if_pointer_type_, v.control_block_⟩) := by
      unfold WeakPtr.copy
      cases hc : v.control_block_ <;> simp only [hc] at e1 <;> simp_all
    simp only [e, Option.map_some']
    exact Or.inr ⟨_, rfl, build hi.sharedOk
      (okOf_append hi.weakOk (hi.weakOk v (mem_of_getElem?_eq hp))) hc1 rfl
      (weakRefs_append_one a w.weak _), id⟩

theorem counted_moveWeak (hi : World.Counted a w) (j : Nat) :
    ∃ w1, (PtrOp.moveWeak j).step w = some w1 ∧ World.Counted a w1 ∧
      (sharedRefs a w.shared = 0 → sharedRefs a w1.shared = 0) := by
  simp only [PtrOp.step]
  cases hp : w.weak[j]? with
  | none => exact ⟨w, rfl, hi, id⟩
  | some p =>
    have hpm := hi.weakOk p (mem_of_getElem?_eq hp)
    have hr : weakRefs a (w.weak.set j (WeakPtr.move p).2 ++ [(WeakPtr.move p).1])
        = weakRefs a w.weak := by
      have h1 := weakRefs_set_none a (q := (WeakPtr.move p).2) hp rfl
      rw [weakRefs_append_one]
      have h2 : (WeakPtr.move p).1.control_block_ = p.control_block_ := rfl
      rw [h2]
      omega
    exact ⟨_, rfl, build hi.sharedOk (okOf_append (okOf_set hi.weakOk (Or.inl rfl)) hpm)
      hi.counts rfl hr, id⟩

theorem counted_destroyWeak (hi : World.Counted a w) (j : Nat) :
    ∃ w1, (PtrOp.destroyWeak j).step w = some w1 ∧ World.Counted a w1 ∧
      (sharedRefs a w.shared = 0 → sharedRefs a w1.shared = 0) := by
  simp only [PtrOp.step]
  cases hp : w.weak[j]? with
  | none => exact ⟨w, rfl, hi, id⟩
  | some v =>
    have hok : ∀ q ∈ w.weak.eraseIdx j, q.control_block_ = none ∨ q.control_block_ = some a :=
      fun q hq => hi.weakOk q (List.mem_of_mem_eraseIdx hq)
    obtain ⟨s1, e1, hc1⟩ := hi.release_weak hp (weakRefs_eraseIdx a hp)
    simp only [WeakPtr.dtor_of_step e1, Option.map_some']
    exact ⟨_, rfl, build hi.sharedOk hok hc1 rfl rfl, id⟩

theorem counted_resetWeak (hi : World.Counted a w) (j : Nat) :
    ∃ w1, (PtrOpX.resetWeak j).step w = some w1 ∧ World.Counted a w1 ∧
      (sharedRefs a w.shared = 0 → sharedRefs a w1.shared = 0) := by
  simp only [PtrOpX.step]
  cases hp : w.weak[j]? with
  | none => exact ⟨w, rfl, hi, id⟩
  | some v =>
    obtain ⟨s1, e1, hc1⟩ := hi.release_weak hp
      (weakRefs_set_none a (q := ({ v with control_block_ := none } : WeakPtr)) hp rfl)
    simp only [WeakPtr.Reset_of_step e1, Option.map_some']
    exact ⟨_, rfl, build hi.sharedOk (okOf_set hi.weakOk (Or.inl rfl)) hc1 rfl rfl, id⟩

theorem counted_assignWeak (hi : World.Counted a w) (i j : Nat) (hij : i ≠ j) :
    ((PtrOpX.assignWeak i j).step w = none ∧ ¬ World.Room a w) ∨
    ∃ w1, (PtrOpX.assignWeak i j).step w = some w1 ∧ World.Counted a w1 ∧
      (sharedRefs a w.shared = 0 → sharedRefs a w1.shared = 0) := by
  simp only [PtrOpX.step]
  cases hpi : w.weak[i]? with
  | none => exact Or.inr ⟨w, rfl, hi, id⟩
  | some other =>
    cases hpj : w.weak[j]? with
    | none => exact Or.inr ⟨w, rfl, hi, id⟩
    | some this =>
      dsimp only
      have hoth := hi.weakOk other (mem_of_getElem?_eq hpi)
      obtain ⟨s1, e1, hc1⟩ := hi.release_weak hpj
        (weakRefs_set_none a (q := (⟨this.if_pointer_type_, none⟩ : WeakPtr)) hpj rfl)
      have hget : (w.weak.set j ⟨this.if_pointer_type_, none⟩)[i]? = some other := by
        rw [List.getElem?_set_ne (Ne.symm hij)]
        exact hpi
      have h1 := weakRefs_set_none a (q := (⟨this.if_pointer_type_, none⟩ : WeakPtr)) hpj rfl
      rcases gain_weak hc1 hoth (fun h => Or.inr (weakRefs_pos a hget h)) with
        ⟨e0, hb⟩ | ⟨s2, e2, hc2⟩
      · refine Or.inl ⟨?_, fun h => hb (by have := h.2; omega)⟩
        rw [WeakPtr.weakAssign_none_of_steps e1 e0]
        rfl
      simp only [WeakPtr.weakAssign_of_steps e1 e2, Option.map_some']
      have h2 := weakRefs_set a (⟨other.if_pointer_type_, other.control_block_⟩ : WeakPtr) hpj
      dsimp only at h2
      exact Or.inr ⟨_, rfl, build hi.sharedOk (okOf_set hi.weakOk hoth) hc2 rfl (by omega), id⟩

theorem counted_moveAssignWeak (hi : World.Counted a w) (i j : Nat) :
    ∃ w1, (PtrOpX.moveAssignWeak i j).step w = some w1 ∧ World.Counted a w1 ∧
      (sharedRefs a w.shared = 0 → sharedRefs a w1.shared = 0) := by
  simp only [PtrOpX.step]
  cases hpi : w.weak[i]? with
  | none => exact ⟨w, rfl, hi, id⟩
  | some other =>
    cases hpj : w.weak[j]? with
    | none => exact ⟨w, rfl, hi, id⟩
    | some this =>
      dsimp only
      have hoth := hi.weakOk other (mem_of_getElem?_eq hpi)
      by_cases hij : i = j
      · rw [if_pos hij]
        obtain ⟨s1, e1, hc1⟩ := hi.release_weak hpj
          (weakRefs_set_none a (q := ({ this with control_block_ := none } : WeakPtr)) hpj rfl)
        simp only [WeakPtr.moveAssignSelf_of_step e1, Option.map_some']
        exact ⟨_, rfl, build hi.sharedOk (okOf_set hi.weakOk (Or.inl rfl)) hc1 rfl rfl, id⟩
      · rw [if_neg hij]
        have h1 := weakRefs_set a (⟨other.if_pointer_type_, other.control_block_⟩ : WeakPtr) hpj
        dsimp only at h1
        have hget : (w.weak.set j ⟨other.if_pointer_type_, other.control_block_⟩)[i]?
            = some other := by
          rw [List.getElem?_set_ne (Ne.symm hij)]
          exact hpi
        have h2 := weakRefs_set_none a
          (q := ({ other with control_block_ := none } : WeakPtr)) hget rfl
        obtain ⟨s1, e1, hc1⟩ := hi.release_weak hpj
          (m := weakRefs a ((w.weak.set j ⟨other.if_pointer_type_, other.control_block_⟩).set i
            { other with control_block_ := none })) (by omega)
        simp only [@WeakPtr.weakMoveAssign_of_step _ _ _ other e1, Option.map_some']
        exact ⟨_, rfl, build hi.sharedOk (okOf_set (okOf_set hi.weakOk hoth) (Or.inl rfl))
          hc1 rfl rfl, id⟩

theorem counted_lock (hi : World.Counted a w) (j : Nat) :
    ((PtrOp.lock j).step w = none ∧ ¬ World.Room a w) ∨
    ∃ w1, (PtrOp.lock j).step w = some w1 ∧ World.Counted a w1 ∧
      (sharedRefs a w.shared = 0 → sharedRefs a w1.shared = 0) := by
  simp only [PtrOp.step]
  cases hp : w.weak[j]? with
  | none => exact Or.inr ⟨w, rfl, hi, id⟩
  | some v =>
    have hempty : (some (⟨w.store, w.shared ++ [SharedPtr.new], w.weak⟩ : World) = none ∧
          ¬ World.Room a w) ∨ ∃ w1, some (⟨w.store, w.shared ++ [SharedPtr.new], w.weak⟩ : World)
          = some w1 ∧ World.Counted a w1 ∧
        (sharedRefs a w.shared = 0 → sharedRefs a w1.shared = 0) :=
      Or.inr ⟨_, rfl, build (okOf_append hi.sharedOk (Or.inl rfl)) hi.weakOk hi.counts
        (sharedRefs_append_none a w.shared rfl) rfl,
        fun h => (sharedRefs_append_none a w.shared rfl).trans h⟩
    rcases hi.weakOk v (mem_of_getElem?_eq hp) with hcb | hcb
    · have e : WeakPtr.Lock w.store v = some (w.store, SharedPtr.new) := by
        simp only [WeakPtr.Lock, WeakPtr.Expired, hcb]
      simp only [e, Option.map_some']
      exact hempty
    · have hexp := hi.counts.expired (weakRefs_pos a hp hcb) hcb
      by_cases h0 : sharedRefs a w.shared = 0
      · have e : WeakPtr.Lock w.store v = some (w.store, SharedPtr.new) := by
          simp [WeakPtr.Lock, hexp, h0]
        simp only [e, Option.map_some']
        exact hempty
      · rcases hi.counts.incStrong (Or.inl (by omega)) with ⟨e0, hb⟩ | ⟨s1, e1, hc1⟩
        · exact Or.inl ⟨by simp [WeakPtr.Lock, hexp, h0, hcb, e0], fun h => hb h.1⟩
        have e : WeakPtr.Lock w.store v = some (s1, ⟨none, some a, v.if_pointer_type_⟩) := by
          simp [WeakPtr.Lock, hexp, h0, hcb, e1, SharedPtr.new]
        simp only [e, Option.map_some']
        exact Or.inr ⟨_, rfl, build (okOf_append hi.sharedOk (Or.inr rfl)) hi.weakOk hc1
          (sharedRefs_append_ref a w.shared rfl) rfl, fun h => absurd h h0⟩

theorem counted_promote (hi : World.Counted a w) (j : Nat) :
    ((PtrOp.promote j).step w = none ∧ ¬ World.Room a w) ∨
    ∃ w1, (PtrOp.promote j).step w = some w1 ∧ World.Counted a w1 ∧
      (sharedRefs a w.shared = 0 → sharedRefs a w1.shared = 0) := by
  simp only [PtrOp.step]
  cases hp : w.weak[j]? with
  | none => exact Or.inr ⟨w, rfl, hi, id⟩
  | some v =>
    rcases hi.weakOk v (mem_of_getElem?_eq hp) with hcb | hcb
    · have e : SharedPtr.ofWeak w.store v = some (.threw BadWeakPtr.mk w.store) := by
        simp only [SharedPtr.ofWeak, WeakPtr.Expired, hcb]
      simp only [e]
      exact Or.inr ⟨_, rfl, hi, id⟩
    · have hexp := hi.counts.expired (weakRefs_pos a hp hcb) hcb
      by_cases h0 : sharedRefs a w.shared = 0
      · have e : SharedPtr.ofWeak w.store v = some (.threw BadWeakPtr.mk w.store) := by
          simp [SharedPtr.ofWeak, hexp, h0]
        simp only [e]
        exact Or.inr ⟨_, rfl, hi, id⟩
      · rcases hi.counts.incStrong (Or.inl (by omega)) with ⟨e0, hb⟩ | ⟨s1, e1, hc1⟩
        · exact Or.inl ⟨by simp [SharedPtr.ofWeak, hexp, h0, hcb, e0], fun h => hb h.1⟩
        have e : SharedPtr.ofWeak w.store v
            = some (.ok s1 ⟨none, some a, v.if_pointer_type_⟩) := by
          simp [SharedPtr.ofWeak, hexp, h0, hcb, e1]
        simp only [e]
        exact Or.inr ⟨_, rfl, build (okOf_append hi.sharedOk (Or.inr rfl)) hi.weakOk hc1
          (sharedRefs_append_ref a w.shared rfl) rfl, fun h => absurd h h0⟩

end World.Counted

/-- Every operation other than the self-assignment of a weak pointer keeps a counted world
counted and cannot bring the number of strong references up from 0, or has no defined result
because a counter that holds `INT_MAX` would be incremented. -/
theorem PtrOpX.step_counted {a : Nat} {w : World} (o : PtrOpX) (hi : World.Counted a w)
    (hno : o.selfAssignWeak = false) :
    (o.step w = none ∧ ¬ World.Room a w) ∨
    ∃ w1, o.step w = some w1 ∧ World.Counted a w1 ∧
      (sharedRefs a w.shared = 0 → sharedRefs a w1.shared = 0) := by
  cases o with
  | base o =>
    cases o with
    | copyShared i => exact hi.counted_copyShared i
    | moveShared i => exact Or.inr (hi.counted_moveShared i)
    | destroyShared i => exact Or.inr (hi.counted_destroyShared i)
    | weakOfShared i => exact hi.counted_weakOfShared i
    | copyWeak j => exact hi.counted_copyWeak j
    | moveWeak j => exact Or.inr (hi.counted_moveWeak j)
    | destroyWeak j => exact Or.inr (hi.counted_destroyWeak j)
    | lock j => exact hi.counted_lock j
    | promote j => exact hi.counted_promote j
  | newShared =>
    exact Or.inr ⟨_, rfl, World.Counted.build (okOf_append hi.sharedOk (Or.inl rfl)) hi.weakOk
      hi.counts (sharedRefs_append_none a w.shared rfl) rfl,
      fun h => (sharedRefs_append_none a w.shared rfl).trans h⟩
  | aliasShared i x => exact hi.counted_aliasShared i x
  | assignShared i j => exact hi.counted_assignShared i j
  | moveAssignShared i j => exact Or.inr (hi.counted_moveAssignShared i j)
  | resetShared i => exact Or.inr (hi.counted_resetShared i)
  | newWeak =>
    exact Or.inr ⟨_, rfl, World.Counted.build hi.sharedOk (okOf_append hi.weakOk (Or.inl rfl))
      hi.counts rfl (weakRefs_append_none a w.weak rfl), id⟩
  | assignWeak i j =>
    have hij : i ≠ j := by
      simpa [PtrOpX.selfAssignWeak] using hno
    exact hi.counted_assignWeak i j hij
  | moveAssignWeak i j => exact Or.inr (hi.counted_moveAssignWeak i j)
  | resetWeak i => exact Or.inr (hi.counted_resetWeak i)

/-- One operation adds at most one pointer of each kind to the world. -/
theorem PtrOpX.step_lengthX {w w1 : World} (o : PtrOpX) (e : o.step w = some w1) :
    w1.shared.length ≤ w.shared.length + 1 ∧ w1.weak.length ≤ w.weak.length + 1 := by
  cases o with
  | base o => exact o.step_length e
  | newShared =>
    simp only [PtrOpX.step, Option.some.injEq] at e
    subst e
    simp
  | newWeak =>
    simp only [PtrOpX.step, Option.some.injEq] at e
    subst e
    simp
  | aliasShared i x =>
    simp only [PtrOpX.step] at e
    split at e
    · cases e; simp
    · simp only [Option.map_eq_some'] at e
      obtain ⟨r, -, rfl⟩ := e
      simp
  | resetShared i =>
    simp only [PtrOpX.step] at e
    split at e
    · cases e; simp
    · simp only [Option.map_eq_some'] at e
      obtain ⟨r, -, rfl⟩ := e
      simp
  | resetWeak i =>
    simp only [PtrOpX.step] at e
    split at e
    · cases e; simp
    · simp only [Option.map_eq_some'] at e
      obtain ⟨r, -, rfl⟩ := e
      simp
  | assignShared i j =>
    simp only [PtrOpX.step] at e
    split at e
    · simp only [Option.map_eq_some'] at e
      obtain ⟨r, -, rfl⟩ := e
      simp
    · cases e; simp
  | moveAssignShared i j =>
    simp only [PtrOpX.step] at e
    split at e
    · simp only [Option.map_eq_some'] at e
      obtain ⟨r, -, rfl⟩ := e
      simp
    · cases e; simp
  | assignWeak i j =>
    simp only [PtrOpX.step] at e
    split at e
    · simp only [Option.map_eq_some'] at e
      obtain ⟨r, -, rfl⟩ := e
      simp
    · cases e; simp
  | moveAssignWeak i j =>
    simp only [PtrOpX.step] at e
    split at e
    · split at e
      · simp only [Option.map_eq_some'] at e
        obtain ⟨r, -, rfl⟩ := e
        simp
      · simp only [Option.map_eq_some'] at e
        obtain ⟨r, -, rfl⟩ := e
        simp
    · cases e; simp

/-- A world with fewer than `INT_MAX` pointers of each kind has room for one more reference. -/
theorem World.Room.of_length {a : Nat} {w : World} (hs : w.shared.length < 2147483647)
    (hw : w.weak.length < 2147483647) : World.Room a w :=
  ⟨lt_of_le_of_lt (sharedRefs_le_length a w.shared) hs,
    lt_of_le_of_lt (weakRefs_le_length a w.weak) hw⟩

/-- A run without weak self-assignment is defined when the world holds so few pointers that no
counter can reach `INT_MAX`; it keeps the invariant. -/
theorem runPtrOpsX_counted {a : Nat} : ∀ (ops : List PtrOpX) {w : World},
    (∀ o ∈ ops, o.selfAssignWeak = false) → World.Counted a w →
    w.shared.length + ops.length ≤ 2147483647 → w.weak.length + ops.length ≤ 2147483647 →
    ∃ w1, runPtrOpsX ops w = some w1 ∧ World.Counted a w1 ∧
      (sharedRefs a w.shared = 0 → sharedRefs a w1.shared = 0) := by
  intro ops
  induction ops with
  | nil => intro w _ hi _ _; exact ⟨w, rfl, hi, id⟩
  | cons o os ih =>
    intro w hno hi hs hw
    simp only [List.length_cons] at hs hw
    rcases o.step_counted hi (hno o (List.mem_cons_self _ _)) with
      ⟨-, hb⟩ | ⟨w1, e1, h1, m1⟩
    · exact absurd (World.Room.of_length (by omega) (by omega)) hb
    · obtain ⟨l1, l2⟩ := o.step_lengthX e1
      obtain ⟨w2, e2, h2, m2⟩ := ih (fun x hx => hno x (List.mem_cons_of_mem _ hx)) h1
        (by omega) (by omega)
      exact ⟨w2, by simp only [runPtrOpsX, e1, e2], h2, fun h => m2 (m1 h)⟩

theorem World.ofRaw_counted (s : Store) (raw : Addr) :
    World.Counted s.next (World.ofRaw s raw) := by
  obtain ⟨hcb, hv⟩ := ofRaw_view s (some raw)
  refine ⟨?_, ?_, ?_⟩
  · intro p hp
    have : p = (SharedPtr.ofRaw s (some raw)).2 := by simpa [World.ofRaw] using hp
    rw [this]
    exact Or.inr hcb
  · intro v hv
    simp [World.ofRaw] at hv
  · have h1 : sharedRefs s.next (World.ofRaw s raw).shared = 1 := by
      simp [World.ofRaw, sharedRefs, hcb]
    have h2 : weakRefs s.next (World.ofRaw s raw).weak = 0 := by
      simp [World.ofRaw, weakRefs]
    rw [h1, h2]
    exact Or.inl ⟨Or.inl (by omega), _, hv, rfl, rfl⟩

theorem World.ofMakeShared_counted (s : Store) :
    World.Counted s.next (World.ofMakeShared s) := by
  obtain ⟨hcb, hv⟩ := MakeShared_view s
  refine ⟨?_, ?_, ?_⟩
  · intro p hp
    have : p = (SharedPtr.MakeShared s).2 := by simpa [World.ofMakeShared] using hp
    rw [this]
    exact Or.inr hcb
  · intro v hv
    simp [World.ofMakeShared] at hv
  · have h1 : sharedRefs s.next (World.ofMakeShared s).shared = 1 := by
      simp [World.ofMakeShared, sharedRefs, hcb]
    have h2 : weakRefs s.next (World.ofMakeShared s).weak = 0 := by
      simp [World.ofMakeShared, weakRefs]
    rw [h1, h2]
    exact Or.inl ⟨Or.inl (by omega), _, hv, rfl, rfl⟩

/-- In a counted world the strong count of the block is the number of live `SharedPtr` objects
that reference it; it is 0, or the block is gone, exactly when there is none. -/
theorem World.Counted.strong_zero_iff {a : Nat} {w : World} (hi : World.Counted a w) :
    (∀ v, w.store.view a = some v → v.strong = 0) ↔ sharedRefs a w.shared = 0 := by
  constructor
  · intro h
    by_contra hne
    obtain ⟨v, hv, h1, -⟩ := hi.counts.view_of (Or.inl (by omega))
    have := h v hv
    omega
  · intro h v hv
    rcases hi.counts with ⟨-, v1, hv1, h1, -⟩ | ⟨-, -, hb⟩
    · rw [hv] at hv1
      cases hv1
      rw [h1, h]
      rfl
    · exact absurd hb (Store.blocks_of_view hv)

theorem World.Counted.strong_eq {a : Nat} {w : World} (hi : World.Counted a w) {v : BlockView}
    (hv : w.store.view a = some v) : v.strong = sharedRefs a w.shared := by
  rcases hi.counts with ⟨-, v1, hv1, h1, -⟩ | ⟨-, -, hb⟩
  · rw [hv] at hv1
    cases hv1
    exact h1
  · exact absurd hb (Store.blocks_of_view hv)

/-- With no strong reference left, `Lock` returns an empty pointer and the promotion throws; the
store is not changed. -/
theorem World.Counted.expired_all {a : Nat} {w : World} (hi : World.Counted a w)
    (h0 : sharedRefs a w.shared = 0) {j : Nat} {v : WeakPtr} (hp : w.weak[j]? = some v) :
    v.Lock w.store = some (w.store, SharedPtr.new) ∧
      SharedPtr.ofWeak w.store v = some (.threw BadWeakPtr.mk w.store) := by
  rcases hi.weakOk v (mem_of_getElem?_eq hp) with hcb | hcb
  · exact ⟨by simp only [WeakPtr.Lock, WeakPtr.Expired, hcb],
      by simp only [SharedPtr.ofWeak, WeakPtr.Expired, hcb]⟩
  · have hexp := hi.counts.expired (weakRefs_pos a hp hcb) hcb
    exact ⟨by simp [WeakPtr.Lock, hexp, h0], by simp [SharedPtr.ofWeak, hexp, h0]⟩

theorem BaseBlock.IncreaseWeak_released {s : Store} {a : Nat} (h : s.blocks a = none) :
    BaseBlock.IncreaseWeak s a = none := by
  simp only [BaseBlock.IncreaseWeak, h]

/-- The copy assignment of a weak pointer to itself, `w_i = w_i`, when it has a result: the
counts are as before. -/
theorem World.Counted.counted_assignWeak_self {a : Nat} {w : World} (hi : World.Counted a w)
    (i : Nat) {w1 : World} (e : (PtrOpX.assignWeak i i).step w = some w1) :
    World.Counted a w1 ∧ (sharedRefs a w.shared = 0 → sharedRefs a w1.shared = 0) := by
  simp only [PtrOpX.step] at e
  cases hp : w.weak[i]? with
  | none =>
    simp only [hp, Option.some.injEq] at e
    subst e
    exact ⟨hi, id⟩
  | some this =>
    simp only [hp] at e
    have hthis := hi.weakOk this (mem_of_getElem?_eq hp)
    have h1 := weakRefs_set_none a (q := (⟨this.if_pointer_type_, none⟩ : WeakPtr)) hp rfl
    have h2 := weakRefs_set a (⟨this.if_pointer_type_, this.control_block_⟩ : WeakPtr) hp
    dsimp only at h2
    obtain ⟨s1, e1, hc1⟩ := hi.release_weak hp h1
    by_cases hpos : this.control_block_ = some a →
        0 < sharedRefs a w.shared ∨ 0 < weakRefs a (w.weak.set i ⟨this.if_pointer_type_, none⟩)
    · rcases World.Counted.gain_weak hc1 hthis hpos with ⟨e0, -⟩ | ⟨s2, e2, hc2⟩
      · simp only [WeakPtr.weakAssign_none_of_steps e1 e0, Option.map_none', reduceCtorEq] at e
      simp only [WeakPtr.weakAssign_of_steps e1 e2, Option.map_some', Option.some.injEq] at e
      subst e
      exact ⟨World.Counted.build hi.sharedOk (okOf_set hi.weakOk hthis) hc2 rfl (by omega), id⟩
    · exfalso
      push_neg at hpos
      obtain ⟨hcb, hn, hm⟩ := hpos
      have hb : s1.blocks a = none := by
        rcases hc1 with ⟨h, -⟩ | ⟨-, -, h⟩
        · omega
        · exact h
      have e2 : (match this.control_block_ with
          | none => some s1
          | some b => BaseBlock.IncreaseWeak s1 b) = none := by
        rw [hcb]
        exact BaseBlock.IncreaseWeak_released hb
      simp only [WeakPtr.weakAssign_none_of_steps e1 e2, Option.map_none', reduceCtorEq] at e

/-- One operation that has a result keeps the invariant. -/
theorem PtrOpX.step_counted_of_defined {a : Nat} {w w1 : World} (o : PtrOpX)
    (hi : World.Counted a w) (e : o.step w = some w1) :
    World.Counted a w1 ∧ (sharedRefs a w.shared = 0 → sharedRefs a w1.shared = 0) := by
  by_cases hno : o.selfAssignWeak = false
  · rcases o.step_counted hi hno with ⟨e0, -⟩ | ⟨w2, e2, h2, m2⟩
    · rw [e] at e0
      cases e0
    · rw [e] at e2
      cases e2
      exact ⟨h2, m2⟩
  · cases o with
    | assignWeak i j =>
      have hij : i = j := by simpa [PtrOpX.selfAssignWeak] using hno
      subst hij
      exact hi.counted_assignWeak_self i e
    | _ => exact absurd rfl hno

/-- A run of `n` operations leaves at most `n` more pointers of each kind. -/
theorem runPtrOpsX_length : ∀ (ops : List PtrOpX) {w w1 : World}, runPtrOpsX ops w = some w1 →
    w1.shared.length ≤ w.shared.length + ops.length ∧
      w1.weak.length ≤ w.weak.length + ops.length := by
  intro ops
  induction ops with
  | nil =>
    intro w w1 e
    simp only [runPtrOpsX, Option.some.injEq] at e
    subst e
    simp
  | cons o os ih =>
    intro w w1 e
    simp only [runPtrOpsX] at e
    cases ho : o.step w with
    | none => simp only [ho, reduceCtorEq] at e
    | some w2 =>
      simp only [ho] at e
      obtain ⟨l1, l2⟩ := o.step_lengthX ho
      obtain ⟨l3, l4⟩ := ih e
      simp only [List.length_cons]
      omega

theorem runPtrOpsX_counted_of_defined {a : Nat} : ∀ (ops : List PtrOpX) {w w1 : World},
    runPtrOpsX ops w = some w1 → World.Counted a w →
    World.Counted a w1 ∧ (sharedRefs a w.shared = 0 → sharedRefs a w1.shared = 0) := by
  intro ops
  induction ops with
  | nil =>
    intro w w1 e hi
    simp only [runPtrOpsX, Option.some.injEq] at e
    subst e
    exact ⟨hi, id⟩
  | cons o os ih =>
    intro w w1 e hi
    simp only [runPtrOpsX] at e
    cases ho : o.step w with
    | none => simp only [ho, reduceCtorEq] at e
    | some w2 =>
      simp only [ho] at e
      obtain ⟨h2, m2⟩ := o.step_counted_of_defined hi ho
      obtain ⟨h3, m3⟩ := ih e h2
      exact ⟨h3, fun h => m3 (m2 h)⟩

theorem PointerControlBlock.IfZeroStrong_block (s : Store) (a : Nat) (b : PointerControlBlock)
    (hb : s.blocks a = some (.pointer b)) :
    ∃ b1, (PointerControlBlock.IfZeroStrong s a b).blocks a = some (.pointer b1) ∧
      b1.strong_counter_ = b.strong_counter_ ∧ b1.weak_counter_ = b.weak_counter_ := by
  unfold PointerControlBlock.IfZeroStrong
  cases hd : b.destroyed_
  · exact ⟨{ b with destroyed_ := true }, by simp [Store.setBlock], rfl, rfl⟩
  · exact ⟨b, by simpa using hb, rfl, rfl⟩

theorem ControlBlock.inplace_IfZeroStrong_block (s : Store) (a : Nat) (b : ControlBlock)
    (hb : s.blocks a = some (.inplace b)) :
    ∃ b1, (ControlBlock.IfZeroStrong s a b).blocks a = some (.inplace b1) ∧
      b1.strong_counter_ = b.strong_counter_ ∧ b1.weak_counter_ = b.weak_counter_ := by
  unfold ControlBlock.IfZeroStrong
  cases hd : b.destroyed_
  · exact ⟨{ b with destroyed_ := true }, by simp [Store.setBlock], rfl, rfl⟩
  · exact ⟨b, by simpa using hb, rfl, rfl⟩

theorem PointerControlBlock.IfZeroWeak_block (s : Store) (a : Nat) (b : PointerControlBlock) :
    (PointerControlBlock.IfZeroWeak s a b).blocks a = none := by
  simp [PointerControlBlock.IfZeroWeak, Store.freeBlock]

theorem ControlBlock.inplace_IfZeroWeak_block (s : Store) (a : Nat) (b : ControlBlock) :
    (ControlBlock.IfZeroWeak s a b).blocks a = none := by
  simp [ControlBlock.IfZeroWeak, Store.freeBlock]

/-- The decrements of the two variants, on blocks with the same counters. -/
theorem CounterRel.decrease {a : Nat} (s1 s2 : Store) (c1 : PointerControlBlock)
    (c2 : ControlBlock) (hs : c1.strong_counter_ = c2.strong_counter_)
    (hw : c1.weak_counter_ = c2.weak_counter_) :
    CounterRel a
      (if c1.weak_counter_ = 0 ∧ c1.strong_counter_ = 0 then
          PointerControlBlock.IfZeroWeak (s1.setBlock a (.pointer c1)) a c1
        else if c1.strong_counter_ = 0 then
          PointerControlBlock.IfZeroStrong (s1.setBlock a (.pointer c1)) a c1
        else s1.setBlock a (.pointer c1))
      (if c2.weak_counter_ = 0 ∧ c2.strong_counter_ = 0 then
          ControlBlock.IfZeroWeak (s2.setBlock a (.inplace c2)) a c2
        else if c2.strong_counter_ = 0 then
          ControlBlock.IfZeroStrong (s2.setBlock a (.inplace c2)) a c2
        else s2.setBlock a (.inplace c2)) := by
  rw [hs, hw]
  by_cases hz : c2.weak_counter_ = 0 ∧ c2.strong_counter_ = 0
  · rw [if_pos hz, if_pos hz]
    exact Or.inl ⟨PointerControlBlock.IfZeroWeak_block _ a c1, ControlBlock.inplace_IfZeroWeak_block _ a c2⟩
  · rw [if_neg hz, if_neg hz]
    by_cases hz2 : c2.strong_counter_ = 0
    · rw [if_pos hz2, if_pos hz2]
      obtain ⟨d1, e1, p1, q1⟩ := PointerControlBlock.IfZeroStrong_block
        (s1.setBlock a (.pointer c1)) a c1 (by simp [Store.setBlock])
      obtain ⟨d2, e2, p2, q2⟩ := ControlBlock.inplace_IfZeroStrong_block
        (s2.setBlock a (.inplace c2)) a c2 (by simp [Store.setBlock])
      exact Or.inr ⟨d1, d2, e1, e2, by rw [p1, p2, hs], by rw [q1, q2, hw]⟩
    · rw [if_neg hz2, if_neg hz2]
      exact Or.inr ⟨c1, c2, by simp [Store.setBlock], by simp [Store.setBlock], hs, hw⟩

theorem CounterOp.step_rel {a : Nat} {s1 s2 : Store} (o : CounterOp) (h : CounterRel a s1 s2) :
    (o.step a s1 = none ∧ o.step a s2 = none) ∨
    ∃ t1 t2, o.step a s1 = some t1 ∧ o.step a s2 = some t2 ∧ CounterRel a t1 t2 := by
  rcases h with ⟨h1, h2⟩ | ⟨b1, b2, h1, h2, hs, hw⟩
  · left
    cases o <;>
      simp [CounterOp.step, BaseBlock.IncreaseStrong, BaseBlock.IncreaseWeak,
        BaseBlock.DecreaseStrong, BaseBlock.DecreaseWeak, h1, h2]
  · cases o
    · by_cases hlt : b2.strong_counter_ < INT_MAX
      · right
        refine ⟨s1.setBlock a (.pointer { b1 with strong_counter_ := b1.strong_counter_ + 1 }),
          s2.setBlock a (.inplace { b2 with strong_counter_ := b2.strong_counter_ + 1 }),
          by simp only [CounterOp.step, BaseBlock.IncreaseStrong, h1,
            PointerControlBlock.IncreaseStrong, hs, if_pos hlt],
          by simp only [CounterOp.step, BaseBlock.IncreaseStrong, h2,
            ControlBlock.IncreaseStrong, if_pos hlt], ?_⟩
        exact Or.inr ⟨{ b1 with strong_counter_ := b1.strong_counter_ + 1 },
          { b2 with strong_counter_ := b2.strong_counter_ + 1 },
          by simp [Store.setBlock], by simp [Store.setBlock], by simp [hs], hw⟩
      · left
        exact ⟨by simp only [CounterOp.step, BaseBlock.IncreaseStrong, h1,
            PointerControlBlock.IncreaseStrong, hs, if_neg hlt],
          by simp only [CounterOp.step, BaseBlock.IncreaseStrong, h2,
            ControlBlock.IncreaseStrong, if_neg hlt]⟩
    · by_cases hlt : b2.weak_counter_ < INT_MAX
      · right
        refine ⟨s1.setBlock a (.pointer { b1 with weak_counter_ := b1.weak_counter_ + 1 }),
          s2.setBlock a (.inplace { b2 with weak_counter_ := b2.weak_counter_ + 1 }),
          by simp only [CounterOp.step, BaseBlock.IncreaseWeak, h1,
            PointerControlBlock.IncreaseWeak, hw, if_pos hlt],
          by simp only [CounterOp.step, BaseBlock.IncreaseWeak, h2,
            ControlBlock.IncreaseWeak, if_pos hlt], ?_⟩
        exact Or.inr ⟨{ b1 with weak_counter_ := b1.weak_counter_ + 1 },
          { b2 with weak_counter_ := b2.weak_counter_ + 1 },
          by simp [Store.setBlock], by simp [Store.setBlock], hs, by simp [hw]⟩
      · left
        exact ⟨by simp only [CounterOp.step, BaseBlock.IncreaseWeak, h1,
            PointerControlBlock.IncreaseWeak, hw, if_neg hlt],
          by simp only [CounterOp.step, BaseBlock.IncreaseWeak, h2,
            ControlBlock.IncreaseWeak, if_neg hlt]⟩
    · right
      refine ⟨PointerControlBlock.DecreaseStrong s1 a b1, ControlBlock.DecreaseStrong s2 a b2,
        by simp only [CounterOp.step, BaseBlock.DecreaseStrong, h1],
        by simp only [CounterOp.step, BaseBlock.DecreaseStrong, h2], ?_⟩
      exact CounterRel.decrease s1 s2 { b1 with strong_counter_ := b1.strong_counter_ - 1 }
        { b2 with strong_counter_ := b2.strong_counter_ - 1 } (by simp [hs]) hw
    · right
      refine ⟨PointerControlBlock.DecreaseWeak s1 a b1, ControlBlock.DecreaseWeak s2 a b2,
        by simp only [CounterOp.step, BaseBlock.DecreaseWeak, h1],
        by simp only [CounterOp.step, BaseBlock.DecreaseWeak, h2], ?_⟩
      exact CounterRel.decrease s1 s2 { b1 with weak_counter_ := b1.weak_counter_ - 1 }
        { b2 with weak_counter_ := b2.weak_counter_ - 1 } hs (by simp [hw])

theorem runCounterOps_rel {a : Nat} : ∀ (ops : List CounterOp) {s1 s2 : Store},
    CounterRel a s1 s2 →
    (runCounterOps a ops s1 = none ∧ runCounterOps a ops s2 = none) ∨
    ∃ t1 t2, runCounterOps a ops s1 = some t1 ∧ runCounterOps a ops s2 = some t2 ∧
      CounterRel a t1 t2 := by
  intro ops
  induction ops with
  | nil => intro s1 s2 h; exact Or.inr ⟨s1, s2, rfl, rfl, h⟩
  | cons o os ih =>
    intro s1 s2 h
    rcases o.step_rel h with ⟨e1, e2⟩ | ⟨t1, t2, e1, e2, h1⟩
    · left
      simp only [runCounterOps, e1, e2, and_self]
    · simp only [runCounterOps, e1, e2]
      exact ih h1

/-- The two fresh blocks of `counterQueryScenario` are related. -/
theorem CounterRel.fresh :
    CounterRel 0
      (Store.empty.allocBlock (.pointer (PointerControlBlock.new (some (Addr.raw 7))))).1
      (Store.empty.allocBlock (.inplace ControlBlock.new)).1 :=
  Or.inr ⟨PointerControlBlock.new (some (Addr.raw 7)), ControlBlock.new, rfl, rfl, rfl, rfl⟩

/-- The results of `counterQueryScenario` for the two variants, for any sequence of calls: none
for both (a call on a released block, or an increment that would overflow), or the same
counters, which the pointer variant returns from both queries, while the in-place variant
returns the strong counter from both. -/
theorem counterQueryScenario_cases (ops : List CounterOp) :
    (counterQueryScenario false ops = none ∧ counterQueryScenario true ops = none) ∨
    ∃ n m : Int, counterQueryScenario false ops = some ((n, m), (n, m)) ∧
      counterQueryScenario true ops = some ((n, m), (n, n)) := by
  rcases runCounterOps_rel ops CounterRel.fresh with ⟨e1, e2⟩ | ⟨t1, t2, e1, e2, h⟩
  · left
    simp [counterQueryScenario, e1, e2]
  · rcases h with ⟨h1, h2⟩ | ⟨b1, b2, h1, h2, hs, hw⟩
    · left
      simp [counterQueryScenario, e1, e2, Store.view, h1, h2]
    · right
      refine ⟨b2.strong_counter_, b2.weak_counter_, ?_, ?_⟩
      · simp [counterQueryScenario, e1, Store.view, h1, BaseBlock.view, BaseBlock.GetStrongQ,
          BaseBlock.GetWeakQ, PointerControlBlock.GetStrongQ, PointerControlBlock.GetWeakQ, hs, hw]
      · simp [counterQueryScenario, e2, Store.view, h2, BaseBlock.view, BaseBlock.GetStrongQ,
          BaseBlock.GetWeakQ, ControlBlock.GetStrongQ, ControlBlock.GetWeakQ]

namespace Deque

/-- A write through `operator[]` at a valid index of a deque that represents a list: it succeeds,
the index then holds the value, and only blocks of the deque's own table are touched. -/
theorem Models.set_frame {h : Heap} {d : Deque} {l : List Int} (hm : Models h d l) {i : Nat}
    (hi : i < l.length) (v : Int) :
    ∃ g, d.set h i v = some g ∧ d.get g i = some v ∧ g.next = h.next ∧
      ∀ a, a ∉ tableOf d → g.cells a = h.cells a := by
  rcases hm with ⟨rfl, rfl⟩ | ⟨t, hs, -⟩
  · simp at hi
  · have hcap := hs.cap
    obtain ⟨g, e, hsg, hn, hout, hload⟩ := hs.store_at hi v
    refine ⟨g, by simp only [set, hs.slotOf_eq hi, e], ?_, hn, ?_⟩
    · rw [hsg.get_eq hi, hload i (by omega), if_pos rfl]
    · rw [hs.tableOf_eq]
      exact hout

/-- Two deques of one store that represent the same list in disjoint sets of blocks are
independent: a write through `operator[]` of the first leaves every element of the second as it
was, and after any pushes and pops on either of them each one holds the elements of its own
list. -/
theorem Models.independent {g : Heap} {c d : Deque} {l : List Int} (hmc : Models g c l)
    (hmd : Models g d l) (hdis : ∀ x ∈ tableOf c, x ∉ tableOf d) :
    (∀ i, i < c.Size → ∀ v : Int, ∃ g1, c.set g i v = some g1 ∧ c.get g1 i = some v ∧
      ∀ j, j < d.Size → d.get g1 j = d.get g j) ∧
    (∀ (ops : List (Bool × Op)) (lc1 ld1 : List Int), replay2 ops l l = some (lc1, ld1) →
      ∃ g1 c1 d1, runOps2 ops g c d = some (g1, c1, d1) ∧
        c1.Size = lc1.length ∧ d1.Size = ld1.length ∧
        (∀ i, i < lc1.length → c1.get g1 i = lc1[i]?) ∧
        (∀ i, i < ld1.length → d1.get g1 i = ld1[i]?)) := by
  constructor
  · intro i hi v
    rw [hmc.size_eq] at hi
    obtain ⟨g1, e, hget, hn, hout⟩ := hmc.set_frame hi v
    refine ⟨g1, e, hget, ?_⟩
    intro j hj
    rw [hmd.size_eq] at hj
    have hmd1 : Models g1 d l :=
      hmd.frame (le_of_eq hn.symm) (fun x hx => hout x (fun hxc => hdis x hxc hx))
    rw [hmd1.get_getElem hj, hmd.get_getElem hj]
  · intro ops lc1 ld1 hr
    obtain ⟨g1, c1, d1, e, hm1, hm2, -⟩ := runOps2_models ops hmc hmd hdis hr
    exact ⟨g1, c1, d1, e, hm1.size_eq, hm2.size_eq, fun i hi => hm1.get_getElem hi,
      fun i hi => hm2.get_getElem hi⟩

/-- The copy constructor applied to a deque that represents `l`: the copy lives in blocks that
did not exist before. -/
theorem Models.copyCtor_fresh {h : Heap} {d : Deque} {l : List Int} (hm : Models h d l) :
    ∃ g c, copyCtor h d = some (g, c) ∧ Models g c l ∧ Models g d l ∧
      (∀ x, x < h.next → g.cells x = h.cells x) ∧ ∀ x ∈ tableOf c, h.next ≤ x := by
  obtain ⟨g, c, e, hmc, hn, hold, hfresh⟩ := hm.copyFrom_spec
  exact ⟨g, c, e, hmc, hm.frame hn (fun x hx => hold x (hm.table_lt x hx)), hold, hfresh⟩

/-- Copy assignment of a deque that represents `l` to another deque of the same store: the
result lives in blocks that did not exist before. -/
theorem Models.copyAssign_fresh {h : Heap} {a d : Deque} {la l : List Int}
    (hma : Models h a la) (hm : Models h d l) (hdis : ∀ x ∈ tableOf a, x ∉ tableOf d) :
    ∃ g c, copyAssign h a d false = some (g, c) ∧ Models g c l ∧ Models g d l ∧
      (∀ x ∈ tableOf d, g.cells x = h.cells x) ∧ ∀ x ∈ tableOf c, h.next ≤ x := by
  obtain ⟨g0, e0, hn0, hout0⟩ := hma.delete_resets
  have hkeep : ∀ x ∈ tableOf d, g0.cells x = h.cells x :=
    fun x hx => hout0 x (fun hxa => hdis x hxa hx)
  have hm0 : Models g0 d l := hm.frame (le_of_eq hn0.symm) hkeep
  obtain ⟨g, c, e, hmc, hn, hold, hfresh⟩ := hm0.copyFrom_spec
  refine ⟨g, c, ?_, hmc, hm0.frame hn (fun x hx => hold x (hm0.table_lt x hx)), ?_, ?_⟩
  · simp only [copyAssign, Bool.false_eq_true, if_false, e0, Option.bind_eq_bind,
      Option.some_bind, e]
  · intro x hx
    rw [hold x (hm0.table_lt x hx), hkeep x hx]
  · intro x hx
    rw [← hn0]
    exact hfresh x hx

end Deque

/-! ## The deque as a list: indexing, size, emptying -/

/-- C1: after any sequence of `PushBack`/`PushFront`/`PopBack`/`PopFront` on a
default-constructed deque in which no pop meets an empty deque (the replay on the abstract list is
defined), the run succeeds and `operator[](i)` returns, for every `i < Size()`, the `i`-th element
of the replayed list. -/
theorem deque_index_refines_list (h0 : Heap) (ops : List Op) (l : List Int)
    (hr : replay ops [] = some l) :
    ∃ g d, runOps ops h0 Deque.new = some (g, d) ∧
      ∀ i, i < d.Size → ∃ x, l[i]? = some x ∧ d.get g i = some x := by
  obtain ⟨g, d, e, hm⟩ := runOps_models ops (Deque.models_new h0) hr
  refine ⟨g, d, e, ?_⟩
  intro i hi
  rw [hm.size_eq] at hi
  exact ⟨l[i], List.getElem?_eq_getElem hi, by rw [hm.get_getElem hi, List.getElem?_eq_getElem hi]⟩

theorem deque_index_refines_list_witness :
    replay [Op.pushBack 1, Op.pushFront 2, Op.pushBack 3, Op.popFront] [] = some [1, 3] ∧
    ∃ g d, runOps [Op.pushBack 1, Op.pushFront 2, Op.pushBack 3, Op.popFront] Heap.empty Deque.new
        = some (g, d) ∧
      ∀ i, i < d.Size → ∃ x, [(1 : Int), 3][i]? = some x ∧ d.get g i = some x :=
  ⟨rfl, deque_index_refines_list Heap.empty _ _ rfl⟩

/-- C2: after any such sequence, `Size()` is the number of pushes minus the number of pops (and
the pops never outnumber the pushes). -/
theorem deque_size_net_count (h0 : Heap) (ops : List Op) (l : List Int)
    (hr : replay ops [] = some l) :
    ∃ g d, runOps ops h0 Deque.new = some (g, d) ∧ popCount ops ≤ pushCount ops ∧
      d.Size = pushCount ops - popCount ops := by
  obtain ⟨g, d, e, hm⟩ := runOps_models ops (Deque.models_new h0) hr
  have hc := replay_counts ops hr
  have hs := hm.size_eq
  simp only [List.length_nil] at hc
  exact ⟨g, d, e, by omega, by omega⟩

theorem deque_size_net_count_witness :
    replay [Op.pushBack 1, Op.pushFront 2, Op.pushBack 3, Op.popFront] [] = some [1, 3] ∧
    ∃ g d, runOps [Op.pushBack 1, Op.pushFront 2, Op.pushBack 3, Op.popFront] Heap.empty Deque.new
        = some (g, d) ∧
      popCount [Op.pushBack 1, Op.pushFront 2, Op.pushBack 3, Op.popFront]
        ≤ pushCount [Op.pushBack 1, Op.pushFront 2, Op.pushBack 3, Op.popFront] ∧
      d.Size = pushCount [Op.pushBack 1, Op.pushFront 2, Op.pushBack 3, Op.popFront]
        - popCount [Op.pushBack 1, Op.pushFront 2, Op.pushBack 3, Op.popFront] :=
  ⟨rfl, deque_size_net_count Heap.empty _ _ rfl⟩

/-- C7: in a state reached by pushes and pops with `Size() == 1`, `PopBack` and `PopFront` each
yield exactly the default-constructed members; and after a run with as many pops as pushes the
members are the default-constructed ones, `Size()` is 0, and a push yields what a push on a
freshly constructed deque yields: a table of one block that holds the element. -/
theorem deque_last_pop_resets :
    (∀ (h0 : Heap) (ops : List Op) (l : List Int) (g : Heap) (d : Deque),
      replay ops [] = some l → runOps ops h0 Deque.new = some (g, d) → d.Size = 1 →
      (∃ g1, d.PopBack g = some (g1, Deque.new)) ∧ (∃ g2, d.PopFront g = some (g2, Deque.new))) ∧
    (∀ (h0 : Heap) (ops : List Op) (l : List Int),
      replay ops [] = some l → pushCount ops = popCount ops →
      ∃ g, runOps ops h0 Deque.new = some (g, Deque.new) ∧ Deque.new.Size = 0 ∧
        ∀ v, Deque.new.PushBack g v = some (Deque.withSingle g v, Deque.single g.next) ∧
          Deque.new.PushFront g v = some (Deque.withSingle g v, Deque.single g.next) ∧
          Deque.new.PushBack h0 v = some (Deque.withSingle h0 v, Deque.single h0.next) ∧
          (Deque.single g.next).size_ = 1 ∧ (Deque.single g.next).Size = 1) := by
  constructor
  · intro h0 ops l g d hr hrun hsz
    obtain ⟨g', d', e, hm⟩ := runOps_models ops (Deque.models_new h0) hr
    rw [hrun] at e
    cases e
    have hlen : l.length = 1 := by rw [← hm.size_eq]; exact hsz
    have hne : l ≠ [] := by intro e; rw [e] at hlen; simp at hlen
    obtain ⟨g1, d1, e1, hm1, -, -⟩ := Deque.PopBack_models hm hne
    obtain ⟨g2, d2, e2, hm2, -, -⟩ := Deque.PopFront_models hm hne
    have hn1 : l.dropLast = [] := List.eq_nil_of_length_eq_zero (by simp [hlen])
    have hn2 : l.tail = [] := List.eq_nil_of_length_eq_zero (by simp [hlen])
    rw [hn1] at hm1
    rw [hn2] at hm2
    rw [hm1.eq_new] at e1
    rw [hm2.eq_new] at e2
    exact ⟨⟨g1, e1⟩, ⟨g2, e2⟩⟩
  · intro h0 ops l hr hcnt
    obtain ⟨g, d, e, hm⟩ := runOps_models ops (Deque.models_new h0) hr
    have hc := replay_counts ops hr
    simp only [List.length_nil] at hc
    have hl : l = [] := List.eq_nil_of_length_eq_zero (by omega)
    subst hl
    rw [hm.eq_new] at e
    exact ⟨g, e, rfl, fun v => ⟨Deque.PushBack_new g v, Deque.PushFront_new g v,
      Deque.PushBack_new h0 v, rfl, rfl⟩⟩

theorem deque_last_pop_resets_witness :
    ((∃ g1, (Deque.single 0).PopBack (Deque.withSingle Heap.empty 5) = some (g1, Deque.new)) ∧
      (∃ g2, (Deque.single 0).PopFront (Deque.withSingle Heap.empty 5) = some (g2, Deque.new))) ∧
    (∃ g, runOps [Op.pushBack 1, Op.pushFront 2, Op.popFront, Op.popFront] Heap.empty Deque.new
        = some (g, Deque.new) ∧ Deque.new.Size = 0 ∧
      ∀ v, Deque.new.PushBack g v = some (Deque.withSingle g v, Deque.single g.next) ∧
        Deque.new.PushFront g v = some (Deque.withSingle g v, Deque.single g.next) ∧
        Deque.new.PushBack Heap.empty v
          = some (Deque.withSingle Heap.empty v, Deque.single Heap.empty.next) ∧
        (Deque.single g.next).size_ = 1 ∧ (Deque.single g.next).Size = 1) :=
  ⟨deque_last_pop_resets.1 Heap.empty [Op.pushBack 5] [5] (Deque.withSingle Heap.empty 5)
      (Deque.single 0) rfl (by simp [runOps, Op.apply, Deque.PushBack_new]; rfl) rfl,
    deque_last_pop_resets.2 Heap.empty [Op.pushBack 1, Op.pushFront 2, Op.popFront, Op.popFront]
      [] rfl rfl⟩

/-- C9: for every `n ≥ 1`, after `PushBack(1), ..., PushBack(n)` on a default-constructed deque
`Size() == n` and `operator[](i) == i + 1` for every `i < n`; for `n = 300` in particular
`at(0) == 1`, `at(299) == 300`, `Size() == 300`, and the table has more than one block. -/
theorem deque_pushUpTo (h0 : Heap) (n : Nat) (hn : 1 ≤ n) :
    ∃ g d, runOps (pushUpTo n) h0 Deque.new = some (g, d) ∧ d.Size = n ∧
      (∀ i, i < n → d.get g i = some ((i : Int) + 1)) ∧
      (n = 300 → d.get g 0 = some 1 ∧ d.get g 299 = some 300 ∧ d.Size = 300 ∧ 1 < d.size_) := by
  obtain ⟨g, d, e, hm⟩ := runOps_models (pushUpTo n) (Deque.models_new h0) (replay_pushUpTo n)
  have hsz : d.Size = n := by rw [hm.size_eq]; simp
  have hget : ∀ i, i < n → d.get g i = some ((i : Int) + 1) := by
    intro i hi
    rw [hm.get_getElem (by simpa using hi)]
    simp [hi]
  refine ⟨g, d, e, hsz, hget, ?_⟩
  intro h300
  subst h300
  have hcap := hm.capacity
  simp only [List.length_map, List.length_range] at hcap
  refine ⟨by simpa using hget 0 (by omega), by simpa using hget 299 (by omega), hsz, by omega⟩

theorem deque_pushUpTo_witness :
    1 ≤ 300 ∧ ∃ g d, runOps (pushUpTo 300) Heap.empty Deque.new = some (g, d) ∧ d.Size = 300 ∧
      (∀ i, i < 300 → d.get g i = some ((i : Int) + 1)) ∧
      (300 = 300 → d.get g 0 = some 1 ∧ d.get g 299 = some 300 ∧ d.Size = 300 ∧ 1 < d.size_) :=
  ⟨by decide, deque_pushUpTo Heap.empty 300 (by decide)⟩

/-! ## Shared and weak pointers: counts, destruction, promotion -/

/-- C4, counterexample: for `k = 2147483647` the `k` copies of a fresh `SharedPtr` have no
defined result: the strong counter is an `int` that holds `INT_MAX = 2147483647` after
`k - 1` copies, and the last copy increments it once more (signed overflow).  The copies need
not stay alive: the constructor alone increments the counter. -/
theorem use_count_overflows_at_int_max :
    (SharedPtr.ofRaw Store.empty (some (Addr.raw 7))).2.copies 2147483647
        (SharedPtr.ofRaw Store.empty (some (Addr.raw 7))).1 = none ∧
    (SharedPtr.MakeShared Store.empty).2.copies 2147483647
        (SharedPtr.MakeShared Store.empty).1 = none :=
  ⟨SharedPtr.copies_overflow (ofRaw_view Store.empty (some (Addr.raw 7))).1 2147483647
      (ofRaw_view Store.empty (some (Addr.raw 7))).2 (by decide) (by decide),
    SharedPtr.copies_overflow (MakeShared_view Store.empty).1 2147483647
      (MakeShared_view Store.empty).2 (by decide) (by decide)⟩

/-- C4, amended: for every `k` with `k + 1 ≤ INT_MAX`, after a `SharedPtr` is created from a raw
pointer or by `MakeShared` and copied `k` times, `UseCount()` of the original and of every copy
is `k + 1`. -/
theorem use_count_after_copies (s : Store) (raw : Option Addr) (k : Nat)
    (hk : k < 2147483647) :
    (∃ s2 cs, (SharedPtr.ofRaw s raw).2.copies k (SharedPtr.ofRaw s raw).1 = some (s2, cs) ∧
      cs.length = k ∧ (SharedPtr.ofRaw s raw).2.UseCount s2 = some (k + 1) ∧
      ∀ q ∈ cs, q.UseCount s2 = some (k + 1)) ∧
    (∃ s2 cs, (SharedPtr.MakeShared s).2.copies k (SharedPtr.MakeShared s).1 = some (s2, cs) ∧
      cs.length = k ∧ (SharedPtr.MakeShared s).2.UseCount s2 = some (k + 1) ∧
      ∀ q ∈ cs, q.UseCount s2 = some (k + 1)) :=
  ⟨SharedPtr.copies_useCount (ofRaw_view s raw).1 (ofRaw_view s raw).2 rfl k hk,
    SharedPtr.copies_useCount (MakeShared_view s).1 (MakeShared_view s).2 rfl k hk⟩

theorem use_count_after_copies_witness :
    3 < 2147483647 ∧
    (∃ s2 cs, (SharedPtr.ofRaw Store.empty (some (Addr.raw 7))).2.copies 3
        (SharedPtr.ofRaw Store.empty (some (Addr.raw 7))).1 = some (s2, cs) ∧
      cs.length = 3 ∧
      (SharedPtr.ofRaw Store.empty (some (Addr.raw 7))).2.UseCount s2 = some (3 + 1) ∧
      ∀ q ∈ cs, q.UseCount s2 = some (3 + 1)) ∧
    (∃ s2 cs, (SharedPtr.MakeShared Store.empty).2.copies 3
        (SharedPtr.MakeShared Store.empty).1 = some (s2, cs) ∧
      cs.length = 3 ∧ (SharedPtr.MakeShared Store.empty).2.UseCount s2 = some (3 + 1) ∧
      ∀ q ∈ cs, q.UseCount s2 = some (3 + 1)) :=
  ⟨by decide, use_count_after_copies Store.empty (some (Addr.raw 7)) 3 (by decide)⟩

/-- C8: let `d` and a second deque `a` be reached from default-constructed deques by pushes and
pops (a tagged sequence whose replay on two abstract lists is defined). Then the copy constructor
applied to `d` succeeds, and so does the copy assignment of `d` to `a`; in both cases the result has
`Size()` equal to `d.Size()`, `operator[](i)` of the result returns what `d[i]` returned before the
copy for every `i < d.Size()`, and `d[i]` still returns it afterwards: the copy constructor changes
no block that existed before, the assignment no block of `d`.  The copy is deep: its blocks did
not exist before the copy and none of them is a block of `d`, a write through `operator[]` of the
copy leaves every element of `d` as it was, and after any further pushes and pops on the copy
and on `d` each of the two holds the elements of its own list. -/
theorem deque_copy_equal (h0 : Heap) (ops : List (Bool × Op)) (la ld : List Int)
    (hr : replay2 ops [] [] = some (la, ld)) :
    ∃ h a d, runOps2 ops h0 Deque.new Deque.new = some (h, a, d) ∧
      (∃ g c, Deque.copyCtor h d = some (g, c) ∧ c.Size = d.Size ∧
        (∀ i, i < d.Size → ∃ x, d.get h i = some x ∧ c.get g i = some x ∧ d.get g i = some x) ∧
        (∀ x, x < h.next → g.cells x = h.cells x) ∧
        (∀ x ∈ Deque.tableOf c, h.next ≤ x ∧ x ∉ Deque.tableOf d) ∧
        (∀ i, i < c.Size → ∀ v : Int, ∃ g1, c.set g i v = some g1 ∧ c.get g1 i = some v ∧
          ∀ j, j < d.Size → d.get g1 j = d.get g j) ∧
        (∀ (ops2 : List (Bool × Op)) (lc1 ld1 : List Int),
          replay2 ops2 ld ld = some (lc1, ld1) →
          ∃ g1 c1 d1, runOps2 ops2 g c d = some (g1, c1, d1) ∧
            c1.Size = lc1.length ∧ d1.Size = ld1.length ∧
            (∀ i, i < lc1.length → c1.get g1 i = lc1[i]?) ∧
            (∀ i, i < ld1.length → d1.get g1 i = ld1[i]?))) ∧
      (∃ g c, Deque.copyAssign h a d false = some (g, c) ∧ c.Size = d.Size ∧
        (∀ i, i < d.Size → ∃ x, d.get h i = some x ∧ c.get g i = some x ∧ d.get g i = some x) ∧
        (∀ x ∈ Deque.tableOf d, g.cells x = h.cells x) ∧
        (∀ x ∈ Deque.tableOf c, h.next ≤ x ∧ x ∉ Deque.tableOf d) ∧
        (∀ i, i < c.Size → ∀ v : Int, ∃ g1, c.set g i v = some g1 ∧ c.get g1 i = some v ∧
          ∀ j, j < d.Size → d.get g1 j = d.get g j) ∧
        (∀ (ops2 : List (Bool × Op)) (lc1 ld1 : List Int),
          replay2 ops2 ld ld = some (lc1, ld1) →
          ∃ g1 c1 d1, runOps2 ops2 g c d = some (g1, c1, d1) ∧
            c1.Size = lc1.length ∧ d1.Size = ld1.length ∧
            (∀ i, i < lc1.length → c1.get g1 i = lc1[i]?) ∧
            (∀ i, i < ld1.length → d1.get g1 i = ld1[i]?))) := by
  obtain ⟨h, a, d, e, hma, hmd, hdis⟩ := runOps2_models ops (Deque.models_new h0)
    (Deque.models_new h0) (fun x hx => by simp [Deque.tableOf_new] at hx) hr
  have hget : ∀ {g : Heap} {c : Deque}, Deque.Models g c ld → Deque.Models g d ld →
      ∀ i, i < d.Size → ∃ x, d.get h i = some x ∧ c.get g i = some x ∧ d.get g i = some x := by
    intro g c hmc hmd1 i hi
    rw [hmd.size_eq] at hi
    exact ⟨ld[i], by rw [hmd.get_getElem hi, List.getElem?_eq_getElem hi],
      by rw [hmc.get_getElem hi, List.getElem?_eq_getElem hi],
      by rw [hmd1.get_getElem hi, List.getElem?_eq_getElem hi]⟩
  have hfr : ∀ {c : Deque}, (∀ x ∈ Deque.tableOf c, h.next ≤ x) →
      ∀ x ∈ Deque.tableOf c, h.next ≤ x ∧ x ∉ Deque.tableOf d := by
    intro c hc x hx
    refine ⟨hc x hx, fun hxd => ?_⟩
    have h1 := hmd.table_lt x hxd
    have h2 := hc x hx
    omega
  refine ⟨h, a, d, e, ?_, ?_⟩
  · obtain ⟨g, c, ec, hmc, hmd1, hold, hfresh⟩ := hmd.copyCtor_fresh
    obtain ⟨i1, i2⟩ := hmc.independent hmd1 (fun x hx => (hfr hfresh x hx).2)
    exact ⟨g, c, ec, by rw [hmc.size_eq, hmd.size_eq], hget hmc hmd1, hold, hfr hfresh, i1, i2⟩
  · obtain ⟨g, c, ec, hmc, hmd1, hold, hfresh⟩ := hma.copyAssign_fresh hmd hdis
    obtain ⟨i1, i2⟩ := hmc.independent hmd1 (fun x hx => (hfr hfresh x hx).2)
    exact ⟨g, c, ec, by rw [hmc.size_eq, hmd.size_eq], hget hmc hmd1, hold, hfr hfresh, i1, i2⟩

theorem deque_copy_equal_witness :
    replay2 [(false, Op.pushBack 5), (true, Op.pushBack 7), (false, Op.pushFront 3),
      (true, Op.pushBack 8), (false, Op.popBack)] [] [] = some ([7, 8], [3]) ∧
    ∃ h a d, runOps2 [(false, Op.pushBack 5), (true, Op.pushBack 7), (false, Op.pushFront 3),
        (true, Op.pushBack 8), (false, Op.popBack)] Heap.empty Deque.new Deque.new
        = some (h, a, d) ∧
      (∃ g c, Deque.copyCtor h d = some (g, c) ∧ c.Size = d.Size ∧
        (∀ i, i < d.Size → ∃ x, d.get h i = some x ∧ c.get g i = some x ∧ d.get g i = some x) ∧
        (∀ x, x < h.next → g.cells x = h.cells x) ∧
        (∀ x ∈ Deque.tableOf c, h.next ≤ x ∧ x ∉ Deque.tableOf d) ∧
        (∀ i, i < c.Size → ∀ v : Int, ∃ g1, c.set g i v = some g1 ∧ c.get g1 i = some v ∧
          ∀ j, j < d.Size → d.get g1 j = d.get g j) ∧
        (∀ (ops2 : List (Bool × Op)) (lc1 ld1 : List Int),
          replay2 ops2 [3] [3] = some (lc1, ld1) →
          ∃ g1 c1 d1, runOps2 ops2 g c d = some (g1, c1, d1) ∧
            c1.Size = lc1.length ∧ d1.Size = ld1.length ∧
            (∀ i, i < lc1.length → c1.get g1 i = lc1[i]?) ∧
            (∀ i, i < ld1.length → d1.get g1 i = ld1[i]?))) ∧
      (∃ g c, Deque.copyAssign h a d false = some (g, c) ∧ c.Size = d.Size ∧
        (∀ i, i < d.Size → ∃ x, d.get h i = some x ∧ c.get g i = some x ∧ d.get g i = some x) ∧
        (∀ x ∈ Deque.tableOf d, g.cells x = h.cells x) ∧
        (∀ x ∈ Deque.tableOf c, h.next ≤ x ∧ x ∉ Deque.tableOf d) ∧
        (∀ i, i < c.Size → ∀ v : Int, ∃ g1, c.set g i v = some g1 ∧ c.get g1 i = some v ∧
          ∀ j, j < d.Size → d.get g1 j = d.get g j) ∧
        (∀ (ops2 : List (Bool × Op)) (lc1 ld1 : List Int),
          replay2 ops2 [3] [3] = some (lc1, ld1) →
          ∃ g1 c1 d1, runOps2 ops2 g c d = some (g1, c1, d1) ∧
            c1.Size = lc1.length ∧ d1.Size = ld1.length ∧
            (∀ i, i < lc1.length → c1.get g1 i = lc1[i]?) ∧
            (∀ i, i < ld1.length → d1.get g1 i = ld1[i]?))) :=
  ⟨rfl, deque_copy_equal Heap.empty _ _ _ rfl⟩

/-! ## Shared pointers: moves, aliasing, reset, swap, equality -/

/-- C12, counterexample: for `SharedPtr<T> sp(q)` with a non-null `q`, the pointer
`SharedPtr<T>(sp, nullptr)` returns `q` from `Get()`, not the given alias pointer `nullptr`. -/
theorem alias_null_get_returns_owned :
    aliasGetScenario (some (Addr.raw 7)) none = some (some (Addr.raw 7)) ∧
    aliasGetScenario (some (Addr.raw 7)) none ≠ some none := by
  decide

/-- C12, amended: for every `SharedPtr` `sp` that is empty or whose block is live with a strong
count below `INT_MAX` (so that the increment does not overflow) and every raw
pointer `p`, the pointer `SharedPtr(sp, p)` shares the control block of `sp` (it compares equal
to `sp`), and for every non-null `p` its `Get()` and its `operator->` return `p`. -/
theorem alias_get_returns_alias (s : Store) (sp : SharedPtr) (p : Option Addr)
    (hsp : sp.control_block_ = none ∨
      ∃ a v, sp.control_block_ = some a ∧ s.view a = some v ∧ v.strong < INT_MAX) :
    ∃ s1 q, SharedPtr.aliasing s sp p = some (s1, q) ∧
      q.control_block_ = sp.control_block_ ∧ SharedPtr.eq q sp = true ∧
      ∀ x, p = some x → q.Get s1 = some (some x) ∧ q.arrow s1 = some (some x) := by
  rcases hsp with hcb | ⟨a, v, hcb, hv, hlt⟩
  · refine ⟨s, ⟨p, none, sp.if_pointer_type_⟩, by simp only [SharedPtr.aliasing, hcb],
      hcb.symm, by simp [SharedPtr.eq, hcb], ?_⟩
    rintro x rfl
    exact ⟨rfl, rfl⟩
  · obtain ⟨s1, e1, -, -, -⟩ := SharedPtr.aliasing_of_view hcb hv hlt p
    refine ⟨s1, _, e1, hcb.symm, by simp [SharedPtr.eq, hcb], ?_⟩
    rintro x rfl
    exact ⟨rfl, rfl⟩

theorem alias_get_returns_alias_witness :
    ((SharedPtr.ofRaw Store.empty (some (Addr.raw 7))).2.control_block_ = none ∨
      ∃ a v, (SharedPtr.ofRaw Store.empty (some (Addr.raw 7))).2.control_block_ = some a ∧
        (SharedPtr.ofRaw Store.empty (some (Addr.raw 7))).1.view a = some v ∧
        v.strong < INT_MAX) ∧
    ∃ s1 q, SharedPtr.aliasing (SharedPtr.ofRaw Store.empty (some (Addr.raw 7))).1
        (SharedPtr.ofRaw Store.empty (some (Addr.raw 7))).2 (some (Addr.raw 9)) = some (s1, q) ∧
      q.control_block_ = (SharedPtr.ofRaw Store.empty (some (Addr.raw 7))).2.control_block_ ∧
      SharedPtr.eq q (SharedPtr.ofRaw Store.empty (some (Addr.raw 7))).2 = true ∧
      ∀ x, some (Addr.raw 9) = some x → q.Get s1 = some (some x) ∧ q.arrow s1 = some (some x) :=
  ⟨Or.inr ⟨0, ⟨1, 0, false, some (Addr.raw 7)⟩, rfl, rfl, by decide⟩,
    alias_get_returns_alias _ _ _
      (Or.inr ⟨0, ⟨1, 0, false, some (Addr.raw 7)⟩, rfl, rfl, by decide⟩)⟩

/-- C14, the code at the failing input: after `SharedPtr<T> sp(q); SharedPtr<T> a(sp, p);
a.Reset();` with `q` the object 7 and `p` the object 9, the alias target 9 has been deleted
although `sp` is alive (`sp.UseCount() == 1`); `a` is empty. -/
theorem reset_deletes_alias_target :
    aliasResetScenario (some (Addr.raw 7)) (some (Addr.raw 9))
      = some ([Addr.raw 9], 1, 0, none) := by
  decide

/-- C15, the code at the failing input: after `SharedPtr<T> sp(q); SharedPtr<T> a(sp, p);
SharedPtr<T> b(r); a.Swap(b);` with the objects 7, 9, 8 for `q`, `p`, `r`, the use counts are
exchanged but `a.Get()` is still `p` (not the former `b.Get()`, `r`), and `b.Get()` is `q` (not
the former `a.Get()`, `p`). -/
theorem swap_keeps_alias_pointers :
    swapAliasScenario (some (Addr.raw 7)) (some (Addr.raw 9)) (some (Addr.raw 8))
      = some ((some (Addr.raw 9), 2, some (Addr.raw 8), 1),
              (some (Addr.raw 9), 1, some (Addr.raw 7), 2)) := by
  decide

/-- C16: `a == b` holds if and only if `a` and `b` hold the same control-block pointer.  Two
empty pointers are equal, a copy and an aliasing pointer are equal to their original, and two
pointers whose blocks were created separately (by the raw-pointer constructor, whatever the raw
pointers, or by `MakeShared`) are unequal. -/
theorem eq_iff_same_block :
    (∀ a b : SharedPtr, SharedPtr.eq a b = true ↔ a.control_block_ = b.control_block_) ∧
    SharedPtr.eq SharedPtr.new SharedPtr.new = true ∧
    (∀ (s : Store) (p : SharedPtr) (s1 : Store) (q : SharedPtr),
      SharedPtr.copy s p = some (s1, q) → SharedPtr.eq q p = true) ∧
    (∀ (s : Store) (p : SharedPtr) (x : Option Addr) (s1 : Store) (q : SharedPtr),
      SharedPtr.aliasing s p x = some (s1, q) → SharedPtr.eq q p = true) ∧
    (∀ (s : Store) (raw1 raw2 : Option Addr),
      SharedPtr.eq (SharedPtr.ofRaw s raw1).2 (SharedPtr.ofRaw (SharedPtr.ofRaw s raw1).1 raw2).2
        = false) ∧
    (∀ s : Store,
      SharedPtr.eq (SharedPtr.MakeShared s).2 (SharedPtr.MakeShared (SharedPtr.MakeShared s).1).2
        = false) := by
  refine ⟨fun a b => by simp [SharedPtr.eq], rfl, ?_, ?_, ?_, ?_⟩
  · intro s p s1 q h
    unfold SharedPtr.copy at h
    cases hc : p.control_block_ with
    | none =>
      simp only [hc, Option.some.injEq, Prod.mk.injEq] at h
      obtain ⟨-, rfl⟩ := h
      simp [SharedPtr.eq, hc]
    | some a =>
      simp only [hc, Option.map_eq_some', Prod.mk.injEq] at h
      obtain ⟨s2, -, -, rfl⟩ := h
      simp [SharedPtr.eq, hc]
  · intro s p x s1 q h
    unfold SharedPtr.aliasing at h
    cases hc : p.control_block_ with
    | none =>
      simp only [hc, Option.some.injEq, Prod.mk.injEq] at h
      obtain ⟨-, rfl⟩ := h
      simp [SharedPtr.eq, hc]
    | some a =>
      simp only [hc, Option.map_eq_some', Prod.mk.injEq] at h
      obtain ⟨s2, -, -, rfl⟩ := h
      simp [SharedPtr.eq, hc]
  · intro s raw1 raw2
    simp [SharedPtr.eq, SharedPtr.ofRaw, Store.allocBlock]
  · intro s
    simp [SharedPtr.eq, SharedPtr.MakeShared, Store.allocBlock]

theorem eq_iff_same_block_witness :
    ∃ s1 q, SharedPtr.aliasing (SharedPtr.MakeShared Store.empty).1
        (SharedPtr.MakeShared Store.empty).2 (some (Addr.raw 9)) = some (s1, q) ∧
      SharedPtr.eq q (SharedPtr.MakeShared Store.empty).2 = true :=
  ⟨_, _, rfl, eq_iff_same_block.2.2.2.1 (SharedPtr.MakeShared Store.empty).1
    (SharedPtr.MakeShared Store.empty).2 (some (Addr.raw 9)) _ _ rfl⟩

/-! ## Intrusive pointers -/

/-- C17, counterexample: for `k = 2147483647` the `k` copies of the `IntrusivePtr` of a fresh
object have no defined result: the counter `count_` is an `int` that holds
`INT_MAX = 2147483647` after `k - 1` copies, and the last copy increments it once more (signed
overflow).  The copies need not stay alive: the constructor alone increments the counter. -/
theorem intrusive_use_count_overflows_at_int_max :
    ∃ s1 p, IntrusivePtr.MakeIntrusive ObjStore.empty = some (s1, p) ∧
      p.copies 2147483647 s1 = none := by
  have ho : ObjStore.empty.allocObj.1.objs 0 = some ⟨SimpleCounter.new⟩ := rfl
  have e1 : IntrusivePtr.MakeIntrusive ObjStore.empty
      = some (ObjStore.empty.allocObj.1.setObj 0 ⟨⟨0 + 1⟩⟩, ⟨some 0⟩) := by
    simp only [IntrusivePtr.MakeIntrusive, IntrusivePtr.ofRaw]
    rw [show ObjStore.empty.allocObj.2 = 0 from rfl,
      RefCounted.IncRef_of ho (by decide)]
    rfl
  exact ⟨_, _, e1, IntrusivePtr.copies_counter_overflow
    (ObjStore.setObj_self ObjStore.empty.allocObj.1 0 ⟨⟨0 + 1⟩⟩) 2147483647
    (by decide) (by decide)⟩

/-- C17, amended: for every `k` with `k + 1 ≤ INT_MAX`, after an `IntrusivePtr` is created from
the raw pointer to a fresh object (counter 0) and copy-constructed `k` times, `UseCount()` of the
original and of each of the `k` copies is `k + 1` (4 for `k = 3`). -/
theorem intrusive_use_count_after_copies (s : ObjStore) (a : Nat) (o : RefCounted)
    (ho : s.objs a = some o) (h0 : o.counter_.count_ = 0) (k : Nat) (hk : k < 2147483647) :
    ∃ s1 p s2 cs, IntrusivePtr.ofRaw s (some a) = some (s1, p) ∧
      p.copies k s1 = some (s2, cs) ∧ cs.length = k ∧ p.UseCount s2 = some (k + 1) ∧
      ∀ q ∈ cs, q.UseCount s2 = some (k + 1) := by
  have e1 : IntrusivePtr.ofRaw s (some a) = some (s.setObj a ⟨⟨0 + 1⟩⟩, ⟨some a⟩) := by
    simp only [IntrusivePtr.ofRaw, RefCounted.IncRef_of ho (by rw [h0]; decide), h0,
      Option.map_some']
  obtain ⟨s2, cs, e2, hcs, hobj, -⟩ :=
    IntrusivePtr.copies_counter (ObjStore.setObj_self s a ⟨⟨0 + 1⟩⟩) k
      (by unfold INT_MAX; omega)
  have hu : IntrusivePtr.UseCount s2 ⟨some a⟩ = some (k + 1) := by
    simp only [IntrusivePtr.UseCount, RefCounted.RefCount_of hobj]
    have : ((0 : Int) + 1 + (k : Int)) = ((k + 1 : Nat) : Int) := by push_cast; ring
    rw [this, toSizeT_natCast]
  refine ⟨_, _, s2, cs, e1, e2, by rw [hcs, List.length_replicate], hu, ?_⟩
  intro q hq
  rw [hcs] at hq
  rw [List.eq_of_mem_replicate hq]
  exact hu

theorem intrusive_use_count_after_copies_witness :
    ObjStore.empty.allocObj.1.objs 0 = some ⟨SimpleCounter.new⟩ ∧
    (⟨SimpleCounter.new⟩ : RefCounted).counter_.count_ = 0 ∧ 3 < 2147483647 ∧
    ∃ s1 p s2 cs, IntrusivePtr.ofRaw ObjStore.empty.allocObj.1 (some 0) = some (s1, p) ∧
      p.copies 3 s1 = some (s2, cs) ∧ cs.length = 3 ∧ p.UseCount s2 = some (3 + 1) ∧
      ∀ q ∈ cs, q.UseCount s2 = some (3 + 1) :=
  ⟨rfl, rfl, by decide, intrusive_use_count_after_copies ObjStore.empty.allocObj.1 0
    ⟨SimpleCounter.new⟩ rfl rfl 3 (by decide)⟩

/-- C19: the constructor `IntrusivePtr(T* ptr)` on a non-null pointer to an object whose counter
is 0 yields `UseCount() == 1`; `MakeIntrusive` returns a pointer with `UseCount() == 1`; and
`UseCount()` is 0 for a default- or `nullptr`-constructed pointer, for a moved-from pointer and
for a pointer after `Reset()`. -/
theorem intrusive_first_increment :
    (∀ (s : ObjStore) (a : Nat) (o : RefCounted), s.objs a = some o → o.counter_.count_ = 0 →
      ∃ s1 p, IntrusivePtr.ofRaw s (some a) = some (s1, p) ∧ p.UseCount s1 = some 1) ∧
    (∀ s : ObjStore, ∃ s1 p, IntrusivePtr.MakeIntrusive s = some (s1, p) ∧
      p.UseCount s1 = some 1) ∧
    (∀ s : ObjStore, IntrusivePtr.new.UseCount s = some 0) ∧
    (∀ (s : ObjStore) (p : IntrusivePtr), (IntrusivePtr.move p).2.UseCount s = some 0) ∧
    (∀ (s : ObjStore) (p : IntrusivePtr) (s1 : ObjStore) (p1 : IntrusivePtr),
      p.Reset s = some (s1, p1) → p1.UseCount s1 = some 0) := by
  have key : ∀ (s : ObjStore) (a : Nat) (o : RefCounted), s.objs a = some o →
      o.counter_.count_ = 0 →
      ∃ s1 p, IntrusivePtr.ofRaw s (some a) = some (s1, p) ∧ p.UseCount s1 = some 1 := by
    intro s a o ho h0
    refine ⟨s.setObj a ⟨⟨0 + 1⟩⟩, ⟨some a⟩, ?_, ?_⟩
    · simp only [IntrusivePtr.ofRaw, RefCounted.IncRef_of ho (by rw [h0]; decide), h0,
        Option.map_some']
    · simp only [IntrusivePtr.UseCount, RefCounted.RefCount_of (ObjStore.setObj_self s a _)]
      rfl
  refine ⟨key, ?_, fun _ => rfl, fun _ _ => rfl, ?_⟩
  · intro s
    exact key s.allocObj.1 s.allocObj.2 ⟨SimpleCounter.new⟩
      (by simp [ObjStore.allocObj]) rfl
  · intro s p s1 p1 h
    unfold IntrusivePtr.Reset at h
    cases hp : p.ptr_ with
    | none =>
      simp only [hp, Option.some.injEq, Prod.mk.injEq] at h
      obtain ⟨-, rfl⟩ := h
      rfl
    | some a =>
      simp only [hp, Option.map_eq_some', Prod.mk.injEq] at h
      obtain ⟨s2, -, -, rfl⟩ := h
      rfl

theorem intrusive_first_increment_witness :
    ObjStore.empty.allocObj.1.objs 0 = some ⟨SimpleCounter.new⟩ ∧
    (⟨SimpleCounter.new⟩ : RefCounted).counter_.count_ = 0 ∧
    ∃ s1 p, IntrusivePtr.ofRaw ObjStore.empty.allocObj.1 (some 0) = some (s1, p) ∧
      p.UseCount s1 = some 1 :=
  ⟨rfl, rfl, intrusive_first_increment.1 ObjStore.empty.allocObj.1 0 ⟨SimpleCounter.new⟩
    rfl rfl⟩

/-! ## Moves of a deque -/

section

set_option maxRecDepth 100000

/-- C20, the code at the failing input: after `src.PushBack(1); src.PushFront(2)` the begin index
of `src` is 1, and after `Deque dst(std::move(src))`, or after `dst = std::move(src)` for a
default-constructed `dst`, `dst` has the former members of `src` while `src` keeps the begin index
1: it differs from a default-constructed deque.  For every `rhs` the move constructor gives the
new deque the members of `rhs` and resets all members of `rhs` except `ind_of_begin_`. -/
theorem move_keeps_begin_index :
    moveCtorScenario = some (⟨1, 2, 2, some [0, 1], some 1, some 0, 127, 0⟩,
      { Deque.new with ind_of_begin_ := 1 }) ∧
    moveAssignScenario = some (⟨1, 2, 2, some [0, 1], some 1, some 0, 127, 0⟩,
      { Deque.new with ind_of_begin_ := 1 }) ∧
    ({ Deque.new with ind_of_begin_ := 1 } : Deque) ≠ Deque.new ∧
    ∀ rhs : Deque, (Deque.moveCtor rhs).1 = rhs ∧
      (Deque.moveCtor rhs).2 = { Deque.new with ind_of_begin_ := rhs.ind_of_begin_ } := by
  refine ⟨by decide, by decide, by decide, fun rhs => ⟨rfl, rfl⟩⟩

end

/-! ## The control-block state machine -/

/-- C23: for a live control block of either variant with strong count `n` and weak count `m`.
`DecreaseStrong` releases the block exactly when `n - 1 = 0` and `m = 0`; when `n - 1 = 0` and
`m ≠ 0` (in particular `m > 0`) the block is kept with strong count 0 and the flag set, and the
value is destroyed unless it had been destroyed before; otherwise only the counter changes.
`DecreaseWeak` releases the block exactly when `m - 1 = 0` and `n = 0`, and keeps it with the
weak count `m - 1` otherwise.  So a block is released exactly when both counts are 0 after a
decrement. -/
theorem block_reclaimed_iff_both_zero (s : Store) (a : Nat) (b : BaseBlock)
    (hb : s.blocks a = some b) :
    (∃ s1, BaseBlock.DecreaseStrong s a = some s1 ∧
      (s1.blocks a = none ↔ (b.view a).strong - 1 = 0 ∧ (b.view a).weak = 0) ∧
      ((b.view a).strong - 1 = 0 → (b.view a).weak ≠ 0 →
        s1.view a = some { b.view a with strong := 0, destroyed := true } ∧
        s1.destroyed = s.destroyed ++
          (if (b.view a).destroyed then [] else (b.view a).pointee.toList)) ∧
      ((b.view a).strong - 1 ≠ 0 →
        s1.view a = some { b.view a with strong := (b.view a).strong - 1 } ∧
        s1.destroyed = s.destroyed)) ∧
    (∃ s1, BaseBlock.DecreaseWeak s a = some s1 ∧
      (s1.blocks a = none ↔ (b.view a).weak - 1 = 0 ∧ (b.view a).strong = 0) ∧
      (¬ ((b.view a).weak - 1 = 0 ∧ (b.view a).strong = 0) →
        ∃ v1, s1.view a = some v1 ∧ v1.weak = (b.view a).weak - 1 ∧
          v1.strong = (b.view a).strong)) := by
  have hv : s.view a = some (b.view a) := by simp [Store.view, hb]
  constructor
  · obtain ⟨s1, e, -, -, hA, hB, hC⟩ := BaseBlock.DecreaseStrong_counts hv
    refine ⟨s1, e, ⟨?_, fun h => (hA h.1 h.2).1⟩, hB, hC⟩
    intro hnone
    by_contra hcon
    by_cases h1 : (b.view a).strong - 1 = 0
    · have h2 : (b.view a).weak ≠ 0 := fun h2 => hcon ⟨h1, h2⟩
      exact Store.blocks_of_view (hB h1 h2).1 hnone
    · exact Store.blocks_of_view (hC h1).1 hnone
  · obtain ⟨s1, e, -, -, hA, hB, hC⟩ := BaseBlock.DecreaseWeak_counts hv
    have hkeep : ¬ ((b.view a).weak - 1 = 0 ∧ (b.view a).strong = 0) →
        ∃ v1, s1.view a = some v1 ∧ v1.weak = (b.view a).weak - 1 ∧
          v1.strong = (b.view a).strong := by
      intro hcon
      by_cases h1 : (b.view a).strong = 0
      · have h2 : (b.view a).weak - 1 ≠ 0 := fun h2 => hcon ⟨h2, h1⟩
        exact ⟨_, (hB h2 h1).1, rfl, rfl⟩
      · exact ⟨_, (hC h1).1, rfl, rfl⟩
    refine ⟨s1, e, ⟨?_, fun h => (hA h.1 h.2).1⟩, hkeep⟩
    intro hnone
    by_contra hcon
    obtain ⟨v1, hv1, -, -⟩ := hkeep hcon
    exact Store.blocks_of_view hv1 hnone

theorem block_reclaimed_iff_both_zero_witness :
    (SharedPtr.MakeShared Store.empty).1.blocks 0 = some (.inplace ControlBlock.new) ∧
    ∃ s1, BaseBlock.DecreaseStrong (SharedPtr.MakeShared Store.empty).1 0 = some s1 ∧
      (s1.blocks 0 = none ↔ ((BaseBlock.inplace ControlBlock.new).view 0).strong - 1 = 0 ∧
        ((BaseBlock.inplace ControlBlock.new).view 0).weak = 0) :=
  ⟨rfl, (block_reclaimed_iff_both_zero (SharedPtr.MakeShared Store.empty).1 0
      (.inplace ControlBlock.new) rfl).1.imp fun _ h => ⟨h.1, h.2.1⟩⟩

/-! ## Element access -/

/-- C21: after any sequence of pushes and pops whose replay is defined, for every `i < Size()`
and every `v` the write `d[i] = v` succeeds, afterwards `d[i] == v`, `d[j]` is what it was for
every other `j < Size()`, `Size()` (a member of the deque, which the write does not touch) is
the length of the replayed list, and the read-only `operator[]` returns what the mutable one
returns. -/
theorem deque_write_one_index (h0 : Heap) (ops : List Op) (l : List Int)
    (hr : replay ops [] = some l) :
    ∃ g d, runOps ops h0 Deque.new = some (g, d) ∧ d.Size = l.length ∧
      ∀ i, i < d.Size → ∀ v : Int, ∃ g1, d.set g i v = some g1 ∧ d.get g1 i = some v ∧
        (∀ j, j < d.Size → j ≠ i → d.get g1 j = d.get g j) ∧
        (∀ j, d.getConst g1 j = d.get g1 j) := by
  obtain ⟨g, d, e, hm⟩ := runOps_models ops (Deque.models_new h0) hr
  refine ⟨g, d, e, hm.size_eq, ?_⟩
  intro i hi v
  rw [hm.size_eq] at hi
  rcases hm with ⟨rfl, -⟩ | ⟨t, hs, -⟩
  · simp at hi
  · obtain ⟨g1, e1, -, hget, hother⟩ := hs.set_spec hi v
    refine ⟨g1, e1, hget, ?_, fun j => rfl⟩
    intro j hj
    rw [show d.Size = l.length from hs.count] at hj
    exact hother j hj

theorem deque_write_one_index_witness :
    replay [Op.pushBack 1, Op.pushFront 2, Op.pushBack 3] [] = some [2, 1, 3] ∧
    ∃ g d, runOps [Op.pushBack 1, Op.pushFront 2, Op.pushBack 3] Heap.empty Deque.new
        = some (g, d) ∧ d.Size = [(2 : Int), 1, 3].length ∧
      ∀ i, i < d.Size → ∀ v : Int, ∃ g1, d.set g i v = some g1 ∧ d.get g1 i = some v ∧
        (∀ j, j < d.Size → j ≠ i → d.get g1 j = d.get g j) ∧
        (∀ j, d.getConst g1 j = d.get g1 j) :=
  ⟨rfl, deque_write_one_index Heap.empty _ _ rfl⟩

/-- C22: after any sequence of pushes and pops whose replay is defined, for every `i < Size()`
the table index `(ind_of_begin_ + (lcounter_ + i) / 128) % size_` is within the table, the block
stored there is live and has an array of 128 slots, and `operator[](i)` addresses slot
`(lcounter_ + i) % 128` of that block and returns its content. -/
theorem deque_index_address (h0 : Heap) (ops : List Op) (l : List Int)
    (hr : replay ops [] = some l) :
    ∃ g d, runOps ops h0 Deque.new = some (g, d) ∧
      ∀ i, i < d.Size → ∃ t a b xs, d.main_array_ = some t ∧ t.length = d.size_ ∧
        (d.ind_of_begin_ + (d.lcounter_ + i) / 128) % d.size_ < t.length ∧
        t[(d.ind_of_begin_ + (d.lcounter_ + i) / 128) % d.size_]? = some a ∧
        d.slotOf i = some (a, (d.lcounter_ + i) % 128) ∧
        g.cells a = some b ∧ b.arr = some xs ∧ xs.length = 128 ∧
        (d.lcounter_ + i) % 128 < xs.length ∧
        d.get g i = xs[(d.lcounter_ + i) % 128]? := by
  obtain ⟨g, d, e, hm⟩ := runOps_models ops (Deque.models_new h0) hr
  refine ⟨g, d, e, ?_⟩
  intro i hi
  rw [hm.size_eq] at hi
  rcases hm with ⟨rfl, -⟩ | ⟨t, hs, -⟩
  · simp at hi
  · obtain ⟨a, b, xs, h1, h2, h3, h4, h5, h6, h7⟩ := hs.index_address hi
    exact ⟨t, a, b, xs, hs.table, hs.len, h1, h2, h3, h4, h5, h6, by omega, h7⟩

theorem deque_index_address_witness :
    replay [Op.pushBack 1, Op.pushFront 2, Op.pushBack 3] [] = some [2, 1, 3] ∧
    ∃ g d, runOps [Op.pushBack 1, Op.pushFront 2, Op.pushBack 3] Heap.empty Deque.new
        = some (g, d) ∧
      ∀ i, i < d.Size → ∃ t a b xs, d.main_array_ = some t ∧ t.length = d.size_ ∧
        (d.ind_of_begin_ + (d.lcounter_ + i) / 128) % d.size_ < t.length ∧
        t[(d.ind_of_begin_ + (d.lcounter_ + i) / 128) % d.size_]? = some a ∧
        d.slotOf i = some (a, (d.lcounter_ + i) % 128) ∧
        g.cells a = some b ∧ b.arr = some xs ∧ xs.length = 128 ∧
        (d.lcounter_ + i) % 128 < xs.length ∧
        d.get g i = xs[(d.lcounter_ + i) % 128]? :=
  ⟨rfl, deque_index_address Heap.empty _ _ rfl⟩

/-! ## Growth of the table -/

/-- C26: in a non-empty state reached by pushes and pops (replayed list `l ≠ []`), with `re` the
block of the right edge and `le` the block of the left edge: `PushBack` returns a deque with the
doubled table size if and only if `rcounter_ == 127` and `re.right == l_edge_`, and with the
same table size otherwise; `PushFront` doubles it if and only if `lcounter_ == 0` and
`le.left == r_edge_`, and keeps it otherwise; `PopBack` and `PopFront` never increase it.  Each
of the two link conditions holds exactly when all `size_` blocks of the table are occupied. -/
theorem push_doubles_iff_ring_full (h0 : Heap) (ops : List Op) (l : List Int)
    (hr : replay ops [] = some l) (hne : l ≠ []) :
    ∃ g d, runOps ops h0 Deque.new = some (g, d) ∧
      ∃ re le, g.deref d.r_edge_ = some re ∧ g.deref d.l_edge_ = some le ∧
        (∀ v, ∃ g1 d1, d.PushBack g v = some (g1, d1) ∧
          (d1.size_ = 2 * d.size_ ↔ d.rcounter_ = 127 ∧ re.right = d.l_edge_) ∧
          (d1.size_ ≠ 2 * d.size_ → d1.size_ = d.size_)) ∧
        (∀ v, ∃ g1 d1, d.PushFront g v = some (g1, d1) ∧
          (d1.size_ = 2 * d.size_ ↔ d.lcounter_ = 0 ∧ le.left = d.r_edge_) ∧
          (d1.size_ ≠ 2 * d.size_ → d1.size_ = d.size_)) ∧
        (∃ g1 d1, d.PopBack g = some (g1, d1) ∧ d1.size_ ≤ d.size_) ∧
        (∃ g1 d1, d.PopFront g = some (g1, d1) ∧ d1.size_ ≤ d.size_) ∧
        (re.right = d.l_edge_ ↔ (d.lcounter_ + l.length - 1) / 128 + 1 = d.size_) ∧
        (le.left = d.r_edge_ ↔ (d.lcounter_ + l.length - 1) / 128 + 1 = d.size_) := by
  obtain ⟨g, d, e, hm⟩ := runOps_models ops (Deque.models_new h0) hr
  refine ⟨g, d, e, ?_⟩
  have hm' := hm
  rcases hm with ⟨rfl, -⟩ | ⟨t, hs, -⟩
  · exact absurd rfl hne
  have hsz : 0 < d.size_ := hs.size_pos
  obtain ⟨re, le, hre, hle, h1, h2⟩ := hs.edges_meet
  refine ⟨re, le, hre, hle, ?_, ?_, ?_, ?_, h1, h2⟩
  · intro v
    obtain ⟨g1, d1, e1, -⟩ := Deque.PushBack_models hm' v
    refine ⟨g1, d1, e1, ?_⟩
    rcases Deque.PushBack_size e1 with ⟨h0', -⟩ | ⟨-, re', hre', hrc, hrr, hd⟩ | ⟨-, hno, hd⟩
    · omega
    · rw [hre] at hre'
      cases hre'
      exact ⟨⟨fun _ => ⟨by omega, hrr⟩, fun _ => hd⟩, fun hcon => absurd hd hcon⟩
    · refine ⟨⟨fun hcon => by omega, fun hcon => ?_⟩, fun _ => hd⟩
      exact absurd ⟨re, hre, by omega, hcon.2⟩ hno
  · intro v
    obtain ⟨g1, d1, e1, -⟩ := Deque.PushFront_models hm' v
    refine ⟨g1, d1, e1, ?_⟩
    rcases Deque.PushFront_size e1 with ⟨h0', -⟩ | ⟨-, le', hle', hlc, hll, hd⟩ | ⟨-, hno, hd⟩
    · omega
    · rw [hle] at hle'
      cases hle'
      exact ⟨⟨fun _ => ⟨hlc, hll⟩, fun _ => hd⟩, fun hcon => absurd hd hcon⟩
    · refine ⟨⟨fun hcon => by omega, fun hcon => ?_⟩, fun _ => hd⟩
      exact absurd ⟨le, hle, hcon.1, hcon.2⟩ hno
  · obtain ⟨g1, d1, e1, -⟩ := Deque.PopBack_models hm' hne
    refine ⟨g1, d1, e1, ?_⟩
    rcases Deque.PopBack_size e1 with h3 | h3 <;> omega
  · obtain ⟨g1, d1, e1, -⟩ := Deque.PopFront_models hm' hne
    refine ⟨g1, d1, e1, ?_⟩
    rcases Deque.PopFront_size e1 with h3 | h3 <;> omega

theorem push_doubles_iff_ring_full_witness :
    replay [Op.pushBack 1, Op.pushFront 2] [] = some [2, 1] ∧ [(2 : Int), 1] ≠ [] ∧
    ∃ g d, runOps [Op.pushBack 1, Op.pushFront 2] Heap.empty Deque.new = some (g, d) ∧
      ∃ re le, g.deref d.r_edge_ = some re ∧ g.deref d.l_edge_ = some le ∧
        (∀ v, ∃ g1 d1, d.PushBack g v = some (g1, d1) ∧
          (d1.size_ = 2 * d.size_ ↔ d.rcounter_ = 127 ∧ re.right = d.l_edge_) ∧
          (d1.size_ ≠ 2 * d.size_ → d1.size_ = d.size_)) ∧
        (∀ v, ∃ g1 d1, d.PushFront g v = some (g1, d1) ∧
          (d1.size_ = 2 * d.size_ ↔ d.lcounter_ = 0 ∧ le.left = d.r_edge_) ∧
          (d1.size_ ≠ 2 * d.size_ → d1.size_ = d.size_)) ∧
        (∃ g1 d1, d.PopBack g = some (g1, d1) ∧ d1.size_ ≤ d.size_) ∧
        (∃ g1 d1, d.PopFront g = some (g1, d1) ∧ d1.size_ ≤ d.size_) ∧
        (re.right = d.l_edge_ ↔ (d.lcounter_ + [(2 : Int), 1].length - 1) / 128 + 1 = d.size_) ∧
        (le.left = d.r_edge_ ↔ (d.lcounter_ + [(2 : Int), 1].length - 1) / 128 + 1 = d.size_) :=
  ⟨rfl, by decide, push_doubles_iff_ring_full Heap.empty _ _ rfl (by decide)⟩

/-- C27: in a non-empty state reached by pushes and pops, with table `t` of size `s = size_`,
`Relocate` succeeds and yields the table `t1` of size `2 * s`: entry `i < s` of `t1` is entry
`(ind_of_begin_ + i) % s` of `t` (the old blocks in ring order, entry 0 being the left edge; the
arrays of all old blocks are the same objects as before), the entries from `s` on are fresh
blocks without an array, every block `t1[i]` has `right == t1[(i + 1) % 2s]` and
`left == t1[(i - 1) mod 2s]`, `ind_of_begin_` is 0, and the edges, both counters, the element
count and the value of `operator[](i)` for every `i < Size()` are unchanged. -/
theorem relocate_doubles_table (h0 : Heap) (ops : List Op) (l : List Int)
    (hr : replay ops [] = some l) (hne : l ≠ []) :
    ∃ g d, runOps ops h0 Deque.new = some (g, d) ∧
      ∃ t g1 d1 t1, d.main_array_ = some t ∧ Deque.Relocate g d = some (g1, d1) ∧
        d1.main_array_ = some t1 ∧ 1 ≤ d.size_ ∧ d1.size_ = 2 * d.size_ ∧
        t1.length = 2 * d.size_ ∧
        (∀ i, i < d.size_ → t1[i]? = t[(d.ind_of_begin_ + i) % d.size_]?) ∧
        t1[0]? = d.l_edge_ ∧
        (∀ a, a < g.next → (g1.cells a).map (·.arr) = (g.cells a).map (·.arr)) ∧
        (∀ i, d.size_ ≤ i → i < 2 * d.size_ →
          ∃ a b, t1[i]? = some a ∧ g.next ≤ a ∧ g1.cells a = some b ∧ b.arr = none) ∧
        (∀ i, i < 2 * d.size_ → ∃ a b, t1[i]? = some a ∧ g1.cells a = some b ∧
          b.right = t1[(i + 1) % (2 * d.size_)]? ∧
          b.left = t1[(i + 2 * d.size_ - 1) % (2 * d.size_)]?) ∧
        d1.ind_of_begin_ = 0 ∧ d1.l_edge_ = d.l_edge_ ∧ d1.r_edge_ = d.r_edge_ ∧
        d1.lcounter_ = d.lcounter_ ∧ d1.rcounter_ = d.rcounter_ ∧ d1.el_size_ = d.el_size_ ∧
        ∀ i, i < d.Size → d1.get g1 i = d.get g i := by
  obtain ⟨g, d, e, hm⟩ := runOps_models ops (Deque.models_new h0) hr
  refine ⟨g, d, e, ?_⟩
  rcases hm with ⟨rfl, -⟩ | ⟨t, hs, hc⟩
  · exact absurd rfl hne
  have hsz : 0 < d.size_ := hs.size_pos
  have hb := hs.begin_lt
  have hcap := hs.cap
  have hpos := hs.pos
  obtain ⟨g1, e1, hs1, hnext, harr, -⟩ := hs.relocate d rfl rfl
  have hc1 := hs.relocate_content hc harr
  have hlen := Deque.relocTable_length g d t
  have hget : ∀ {i : Nat}, i < 2 * d.size_ →
      (Deque.relocTable g d t)[i]? = some (entry (Deque.relocTable g d t) i) :=
    fun hi => getElem?_eq_entry (by rw [hlen]; exact hi)
  refine ⟨t, g1, _, Deque.relocTable g d t, hs.table, e1, rfl, hsz, rfl, hlen, ?_, ?_, harr,
    ?_, ?_, rfl, rfl, rfl, rfl, rfl, rfl, ?_⟩
  · intro i hi
    rw [hget (by omega), Deque.relocTable_old g d t hi, wrap_eq_mod (by omega)]
    exact (getElem?_eq_entry (by rw [hs.len]; exact Nat.mod_lt _ hsz)).symm
  · rw [hget (by omega), Deque.relocTable_old g d t hsz, hs.ledge, Nat.add_zero,
      wrap_self hb]
  · intro i h1 h2
    have hlen1 : (Deque.relocated d (Deque.relocTable g d t)).size_ = 2 * d.size_ := rfl
    obtain ⟨b, hb1, hb2⟩ := hs1.arrs i (by rw [hlen1]; exact h2)
    have hw : wrap (2 * d.size_) (0 + i) = i := by unfold wrap; split_ifs <;> omega
    have hcell : g1.cells (entry (Deque.relocTable g d t) i) = some b := by
      have := hb1
      simp only [hlen1, Deque.relocated, hw] at this
      exact this
    have hK : ¬ (i ≤ (d.lcounter_ + l.length - 1) / 128) := by omega
    have hnone : b.arr = none := by
      have := hb2
      simp only [Deque.relocated] at this
      rw [if_neg hK] at this
      cases hba : b.arr with
      | none => rfl
      | some xs => rw [hba] at this; simp at this
    refine ⟨_, b, hget h2, ?_, hcell, hnone⟩
    rw [Deque.relocTable_fresh g d t h1 h2]
    omega
  · intro i hi
    obtain ⟨b, hb1, hb2, hb3⟩ := hs1.links i hi
    have hi1 : (i + 1) % (2 * d.size_) < 2 * d.size_ := Nat.mod_lt _ (by omega)
    have hi2 : (i + 2 * d.size_ - 1) % (2 * d.size_) < 2 * d.size_ := Nat.mod_lt _ (by omega)
    refine ⟨_, b, hget hi, hb1, ?_, ?_⟩
    · rw [hb3, hget hi1]
      congr 2
      exact wrap_eq_mod (by simp only [Deque.relocated]; omega)
    · rw [hb2, hget hi2]
      congr 2
      exact wrap_eq_mod (by simp only [Deque.relocated]; omega)
  · intro i hi
    have hi' : i < l.length := by rw [← hs.count]; exact hi
    rw [hs1.get_eq hi', hs.get_eq hi', hc1 i hi', hc i hi']

theorem relocate_doubles_table_witness :
    replay [Op.pushBack 1, Op.pushFront 2] [] = some [2, 1] ∧ [(2 : Int), 1] ≠ [] ∧
    ∃ g d, runOps [Op.pushBack 1, Op.pushFront 2] Heap.empty Deque.new = some (g, d) ∧
      ∃ t g1 d1 t1, d.main_array_ = some t ∧ Deque.Relocate g d = some (g1, d1) ∧
        d1.main_array_ = some t1 ∧ 1 ≤ d.size_ ∧ d1.size_ = 2 * d.size_ ∧
        t1.length = 2 * d.size_ ∧
        (∀ i, i < d.size_ → t1[i]? = t[(d.ind_of_begin_ + i) % d.size_]?) ∧
        t1[0]? = d.l_edge_ ∧
        (∀ a, a < g.next → (g1.cells a).map (·.arr) = (g.cells a).map (·.arr)) ∧
        (∀ i, d.size_ ≤ i → i < 2 * d.size_ →
          ∃ a b, t1[i]? = some a ∧ g.next ≤ a ∧ g1.cells a = some b ∧ b.arr = none) ∧
        (∀ i, i < 2 * d.size_ → ∃ a b, t1[i]? = some a ∧ g1.cells a = some b ∧
          b.right = t1[(i + 1) % (2 * d.size_)]? ∧
          b.left = t1[(i + 2 * d.size_ - 1) % (2 * d.size_)]?) ∧
        d1.ind_of_begin_ = 0 ∧ d1.l_edge_ = d.l_edge_ ∧ d1.r_edge_ = d.r_edge_ ∧
        d1.lcounter_ = d.lcounter_ ∧ d1.rcounter_ = d.rcounter_ ∧ d1.el_size_ = d.el_size_ ∧
        ∀ i, i < d.Size → d1.get g1 i = d.get g i :=
  ⟨rfl, by decide, relocate_doubles_table Heap.empty _ _ rfl (by decide)⟩

/-! ## The occupied span -/

/-- C24: after any sequence of pushes, pops and `Clear` calls whose replay is defined and leaves
at least one element, the walk along `right` links from the left edge reaches the right edge,
every block on it (both edges included) is a block of the table with an array of 128 slots, and
every other block of the table has no array. -/
theorem span_blocks_have_arrays (h0 : Heap) (ops : List OpC) (l : List Int)
    (hr : replayC ops [] = some l) (hne : l ≠ []) :
    ∃ g d, runOpsC ops h0 Deque.new = some (g, d) ∧ 0 < d.Size ∧
      ∃ bs, Deque.span g d = some bs ∧ d.l_edge_ = bs.head? ∧ d.r_edge_ = bs.getLast? ∧
        (∀ a ∈ bs, a ∈ Deque.tableOf d ∧
          ∃ b xs, g.cells a = some b ∧ b.arr = some xs ∧ xs.length = 128) ∧
        ∀ a ∈ Deque.tableOf d, a ∉ bs → ∃ b, g.cells a = some b ∧ b.arr = none := by
  obtain ⟨g, d, e, hm⟩ := runOpsC_models ops (Deque.models_new h0) hr
  refine ⟨g, d, e, ?_⟩
  rcases hm with ⟨rfl, -⟩ | ⟨t, hs, -⟩
  · exact absurd rfl hne
  · have hsz : d.Size = l.length := hs.count
    rw [hs.tableOf_eq]
    exact ⟨by rw [hsz]; exact hs.pos, hs.span_arrays⟩

theorem span_blocks_have_arrays_witness :
    replayC [OpC.op (Op.pushBack 1), OpC.clear, OpC.op (Op.pushFront 2),
      OpC.op (Op.pushFront 3)] [] = some [3, 2] ∧ [(3 : Int), 2] ≠ [] ∧
    ∃ g d, runOpsC [OpC.op (Op.pushBack 1), OpC.clear, OpC.op (Op.pushFront 2),
        OpC.op (Op.pushFront 3)] Heap.empty Deque.new = some (g, d) ∧ 0 < d.Size ∧
      ∃ bs, Deque.span g d = some bs ∧ d.l_edge_ = bs.head? ∧ d.r_edge_ = bs.getLast? ∧
        (∀ a ∈ bs, a ∈ Deque.tableOf d ∧
          ∃ b xs, g.cells a = some b ∧ b.arr = some xs ∧ xs.length = 128) ∧
        ∀ a ∈ Deque.tableOf d, a ∉ bs → ∃ b, g.cells a = some b ∧ b.arr = none :=
  ⟨rfl, by decide, span_blocks_have_arrays Heap.empty _ _ rfl (by decide)⟩

/-! ## The table size -/

/-- C25, counterexample: the table size of the default-constructed deque is 0, which is not a
power of two. -/
theorem default_table_size_not_power_of_two :
    Deque.new.size_ = 0 ∧ ¬ ∃ k : Nat, Deque.new.size_ = 2 ^ k := by
  refine ⟨rfl, ?_⟩
  rintro ⟨k, hk⟩
  have h0 : Deque.new.size_ = 0 := rfl
  rw [h0] at hk
  exact absurd hk.symm (by positivity)

/-- C25, amended: in every state that a run of public constructors and operations (`Deque()`,
`Deque(n)`, pushes, pops, `Clear`, copy and move construction and assignment, `Swap`) reaches from
the default-constructed deque, the table size of every deque is 0 (the deque has no table) or a
power of two.  After a sequence of pushes, pops and `Clear` calls whose replay is defined the run
is defined, and the table size is a power of two whenever the deque is not empty. -/
theorem table_size_zero_or_power_of_two :
    (∀ (h0 : Heap) (ops : List DequeOp) (w : DequeWorld),
      runDequeOps ops ⟨h0, [Deque.new]⟩ = some w →
      ∀ d ∈ w.deques, d.size_ = 0 ∨ ∃ k, d.size_ = 2 ^ k) ∧
    (∀ (h0 : Heap) (ops : List OpC) (l : List Int), replayC ops [] = some l →
      ∃ g d, runOpsC ops h0 Deque.new = some (g, d) ∧
        (d.size_ = 0 ∨ ∃ k, d.size_ = 2 ^ k) ∧ (l ≠ [] → ∃ k, d.size_ = 2 ^ k)) := by
  constructor
  · intro h0 ops w hrun
    refine runDequeOps_sizeOk ops hrun ?_
    intro d hd
    rw [List.mem_singleton.1 hd]
    exact Deque.SizeOk.new
  · intro h0 ops l hr
    obtain ⟨g, d, e, hm⟩ := runOpsC_models ops (Deque.models_new h0) hr
    have hok := runOpsC_sizeOk ops e Deque.SizeOk.new
    refine ⟨g, d, e, hok, ?_⟩
    intro hne
    rcases hm with ⟨rfl, -⟩ | ⟨t, hs, -⟩
    · exact absurd rfl hne
    · rcases hok with h1 | h1
      · have := hs.size_pos
        omega
      · exact h1

section

set_option maxRecDepth 100000

theorem table_size_zero_or_power_of_two_witness :
    ∃ w, runDequeOps [DequeOp.op 0 (Op.pushBack 1), DequeOp.op 0 (Op.pushFront 2),
        DequeOp.copyCtor 0, DequeOp.moveCtor 1, DequeOp.swap 0 2, DequeOp.clear 1,
        DequeOp.ofSize 3, DequeOp.moveAssign 0 3, DequeOp.create, DequeOp.copyAssign 3 0]
        ⟨Heap.empty, [Deque.new]⟩ = some w ∧
      ∀ d ∈ w.deques, d.size_ = 0 ∨ ∃ k, d.size_ = 2 ^ k := by
  have hdef : (runDequeOps [DequeOp.op 0 (Op.pushBack 1), DequeOp.op 0 (Op.pushFront 2),
      DequeOp.copyCtor 0, DequeOp.moveCtor 1, DequeOp.swap 0 2, DequeOp.clear 1,
      DequeOp.ofSize 3, DequeOp.moveAssign 0 3, DequeOp.create, DequeOp.copyAssign 3 0]
      ⟨Heap.empty, [Deque.new]⟩).isSome = true := by decide
  cases h : runDequeOps [DequeOp.op 0 (Op.pushBack 1), DequeOp.op 0 (Op.pushFront 2),
      DequeOp.copyCtor 0, DequeOp.moveCtor 1, DequeOp.swap 0 2, DequeOp.clear 1,
      DequeOp.ofSize 3, DequeOp.moveAssign 0 3, DequeOp.create, DequeOp.copyAssign 3 0]
      ⟨Heap.empty, [Deque.new]⟩ with
  | none => rw [h] at hdef; cases hdef
  | some w => exact ⟨w, rfl, table_size_zero_or_power_of_two.1 Heap.empty _ w h⟩

end

/-! ## The size constructor -/

section

set_option maxRecDepth 100000

/-- C29, the code at the failing input: after `Deque d(2); d.PushBack(5);` the size is 3, but the
pushed value is at index 1 and index 2 holds 0: the constructor leaves `r_edge_` and `rcounter_`
as `Init` set them (first block, slot 0), so the push writes slot 1 of the first block.  For
`Deque d(1)` the same push happens to write index 1, the end of the deque. -/
theorem size_ctor_push_lands_at_one :
    sizeCtorPushScenario 2 5 = some (3, [some 0, some 5, some 0]) ∧
    sizeCtorPushScenario 1 5 = some (2, [some 0, some 5]) := by
  constructor <;> decide

/-- C30, the code at the failing input: `Deque d(128)` leaves the table at one entry (128 is not
greater than `128 * 1`, so `Relocate` is not called) and then runs `FillArray` through the
entries 0 and 1 (`needed_buffers` is `128 / 128 + 1 = 2`): the second access is outside the
table, and the constructor has no defined result.  For 127 and for 129 it has one. -/
theorem size_ctor_reads_past_table :
    (Deque.ofSize Heap.empty 128).isSome = false ∧
    ((Deque.Init Heap.empty Deque.new).bind fun r => Deque.growTo 128 128 r.1 r.2).map
      (fun r => r.2.tableOf.length) = some 1 ∧
    128 / 128 + 1 = 2 ∧
    (Deque.ofSize Heap.empty 127).isSome = true ∧
    (Deque.ofSize Heap.empty 129).isSome = true := by
  refine ⟨by decide, by decide, by decide, by decide, by decide⟩

end

/-! ## The strong count never comes back from 0 -/

/-- C28: take the world right after `SharedPtr<T> p(raw)` or `MakeShared<T>()` and run any
operations on its pointers: construction of empty pointers, copies, moves, copy and move
assignments, destructors, `Reset`, aliasing construction, `WeakPtr` creation, `Lock`, promotion.
A run of fewer than `INT_MAX` operations without a copy assignment of a weak pointer to itself
is defined (no counter can overflow).  In every defined run:
if the strong count of the block is 0 (or the block is gone) at some point, it is so at every
later point; at such a point `Lock` returns an empty pointer and the promotion throws, both
without changing the store; and an operation that raises the strong count starts from a strong
count of at least 1, with a live `SharedPtr` referencing the block. -/
theorem strong_count_never_revives (s : Store) (raw : Addr) (ops1 ops2 : List PtrOpX)
    (w0 : World) (hw0 : w0 = World.ofRaw s raw ∨ w0 = World.ofMakeShared s) :
    ((∀ o ∈ ops1, o.selfAssignWeak = false) → (∀ o ∈ ops2, o.selfAssignWeak = false) →
      ops1.length + ops2.length < 2147483647 →
      ∃ w1 w2, runPtrOpsX ops1 w0 = some w1 ∧ runPtrOpsX ops2 w1 = some w2) ∧
    ∀ w1 w2, runPtrOpsX ops1 w0 = some w1 → runPtrOpsX ops2 w1 = some w2 →
      ((∀ v, w1.store.view s.next = some v → v.strong = 0) →
        ∀ v, w2.store.view s.next = some v → v.strong = 0) ∧
      ((∀ v, w1.store.view s.next = some v → v.strong = 0) →
        ∀ (j : Nat) (v : WeakPtr), w1.weak[j]? = some v →
          v.Lock w1.store = some (w1.store, SharedPtr.new) ∧
          SharedPtr.ofWeak w1.store v = some (.threw BadWeakPtr.mk w1.store)) ∧
      ∀ o : PtrOpX,
        (o.selfAssignWeak = false → World.Room s.next w1 → ∃ w', o.step w1 = some w') ∧
        ∀ w', o.step w1 = some w' →
          ∀ v v', w1.store.view s.next = some v → w'.store.view s.next = some v' →
            v.strong < v'.strong → 1 ≤ v.strong ∧ 0 < sharedRefs s.next w1.shared := by
  have hc0 : World.Counted s.next w0 := by
    rcases hw0 with rfl | rfl
    · exact World.ofRaw_counted s raw
    · exact World.ofMakeShared_counted s
  constructor
  · intro h1 h2 hlen
    have hl0 : w0.shared.length = 1 ∧ w0.weak.length = 0 := by
      rcases hw0 with rfl | rfl <;> exact ⟨rfl, rfl⟩
    obtain ⟨w1, e1, hc1, -⟩ := runPtrOpsX_counted ops1 h1 hc0 (by omega) (by omega)
    obtain ⟨l1, l2⟩ := runPtrOpsX_length ops1 e1
    obtain ⟨w2, e2, -, -⟩ := runPtrOpsX_counted ops2 h2 hc1 (by omega) (by omega)
    exact ⟨w1, w2, e1, e2⟩
  · intro w1 w2 e1 e2
    obtain ⟨hc1, -⟩ := runPtrOpsX_counted_of_defined ops1 e1 hc0
    obtain ⟨hc2, m2⟩ := runPtrOpsX_counted_of_defined ops2 e2 hc1
    refine ⟨?_, ?_, ?_⟩
    · intro hz
      exact hc2.strong_zero_iff.2 (m2 (hc1.strong_zero_iff.1 hz))
    · intro hz j v hp
      exact hc1.expired_all (hc1.strong_zero_iff.1 hz) hp
    · intro o
      refine ⟨fun hno hroom => ?_, ?_⟩
      · rcases o.step_counted hc1 hno with ⟨-, hb⟩ | ⟨w', e', -, -⟩
        · exact absurd hroom hb
        · exact ⟨w', e'⟩
      · intro w' e' v v' hv hv' hlt
        obtain ⟨hc', m'⟩ := o.step_counted_of_defined hc1 e'
        have hs := hc1.strong_eq hv
        have hs' := hc'.strong_eq hv'
        have hpos : 0 < sharedRefs s.next w1.shared := by
          by_contra hcon
          have := m' (by omega)
          omega
        exact ⟨by omega, hpos⟩

section

set_option maxRecDepth 100000

theorem strong_count_never_revives_witness :
    (World.ofRaw Store.empty (Addr.raw 7) = World.ofRaw Store.empty (Addr.raw 7) ∨
      World.ofRaw Store.empty (Addr.raw 7) = World.ofMakeShared Store.empty) ∧
    ∃ w1 w2, runPtrOpsX [PtrOpX.base (PtrOp.weakOfShared 0), PtrOpX.assignWeak 0 0,
        PtrOpX.aliasShared 0 (some (Addr.raw 9)), PtrOpX.resetShared 0,
        PtrOpX.base (PtrOp.destroyShared 1)] (World.ofRaw Store.empty (Addr.raw 7)) = some w1 ∧
      runPtrOpsX [PtrOpX.base (PtrOp.lock 0), PtrOpX.assignShared 0 1,
        PtrOpX.base (PtrOp.promote 0)] w1 = some w2 ∧
      ((∀ v, w1.store.view Store.empty.next = some v → v.strong = 0) →
        ∀ v, w2.store.view Store.empty.next = some v → v.strong = 0) ∧
      ((∀ v, w1.store.view Store.empty.next = some v → v.strong = 0) →
        ∀ (j : Nat) (v : WeakPtr), w1.weak[j]? = some v →
          v.Lock w1.store = some (w1.store, SharedPtr.new) ∧
          SharedPtr.ofWeak w1.store v = some (.threw BadWeakPtr.mk w1.store)) ∧
      ∀ o : PtrOpX,
        (o.selfAssignWeak = false → World.Room Store.empty.next w1 →
          ∃ w', o.step w1 = some w') ∧
        ∀ w', o.step w1 = some w' →
          ∀ v v', w1.store.view Store.empty.next = some v →
            w'.store.view Store.empty.next = some v' →
            v.strong < v'.strong → 1 ≤ v.strong ∧ 0 < sharedRefs Store.empty.next w1.shared := by
  refine ⟨Or.inl rfl, ?_⟩
  have hdef : ((runPtrOpsX [PtrOpX.base (PtrOp.weakOfShared 0), PtrOpX.assignWeak 0 0,
      PtrOpX.aliasShared 0 (some (Addr.raw 9)), PtrOpX.resetShared 0,
      PtrOpX.base (PtrOp.destroyShared 1)] (World.ofRaw Store.empty (Addr.raw 7))).bind
      (runPtrOpsX [PtrOpX.base (PtrOp.lock 0), PtrOpX.assignShared 0 1,
        PtrOpX.base (PtrOp.promote 0)])).isSome = true := by decide
  cases h1 : runPtrOpsX [PtrOpX.base (PtrOp.weakOfShared 0), PtrOpX.assignWeak 0 0,
      PtrOpX.aliasShared 0 (some (Addr.raw 9)), PtrOpX.resetShared 0,
      PtrOpX.base (PtrOp.destroyShared 1)] (World.ofRaw Store.empty (Addr.raw 7)) with
  | none => rw [h1] at hdef; cases hdef
  | some w1 =>
    rw [h1] at hdef
    cases h2 : runPtrOpsX [PtrOpX.base (PtrOp.lock 0), PtrOpX.assignShared 0 1,
        PtrOpX.base (PtrOp.promote 0)] w1 with
    | none => rw [Option.some_bind, h2] at hdef; cases hdef
    | some w2 =>
      exact ⟨w1, w2, rfl, h2, (strong_count_never_revives Store.empty (Addr.raw 7) _ _ _
        (Or.inl rfl)).2 w1 w2 h1 h2⟩

end

/-! ## Self-assignment of a weak pointer, `IntrusivePtr::Reset(T*)`, unique pointers, counter
queries -/

section

set_option maxRecDepth 100000

/-- C31, the code at the failing input: after `SharedPtr<T> p(raw); WeakPtr<T> w(p);` and the
destruction of `p` the block has strong count 0 and weak count 1 and its value is destroyed.  The
assignment `w = w` then starts with `DecreaseWeak`, which releases the block, and goes on with
`IncreaseWeak` on the released block: it has no defined result.  The same holds for a block made
by `MakeShared`.  With a live `SharedPtr`, or with a second weak reference, the assignment is
defined and leaves the view of the block as it was. -/
theorem weak_self_assign_frees_last_reference :
    weakSelfAssignScenario false
        [PtrOpX.base (PtrOp.weakOfShared 0), PtrOpX.base (PtrOp.destroyShared 0)]
      = some (some ⟨0, 1, true, some (Addr.raw 7)⟩, some false, none) ∧
    weakSelfAssignScenario true
        [PtrOpX.base (PtrOp.weakOfShared 0), PtrOpX.base (PtrOp.destroyShared 0)]
      = some (some ⟨0, 1, true, some (Addr.holder 0)⟩, some false, none) ∧
    weakSelfAssignScenario false [PtrOpX.base (PtrOp.weakOfShared 0)]
      = some (some ⟨1, 1, false, some (Addr.raw 7)⟩, some true,
          some (some ⟨1, 1, false, some (Addr.raw 7)⟩)) ∧
    weakSelfAssignScenario false
        [PtrOpX.base (PtrOp.weakOfShared 0), PtrOpX.base (PtrOp.copyWeak 0),
          PtrOpX.base (PtrOp.destroyShared 0)]
      = some (some ⟨0, 2, true, some (Addr.raw 7)⟩, some true,
          some (some ⟨0, 2, true, some (Addr.raw 7)⟩)) := by
  refine ⟨by decide, by decide, by decide, by decide⟩

/-- C32, the code at the failing input: in `auto a = MakeIntrusive<T>(); a.Reset(a.Get());` the
`DecRef` call that opens `Reset` takes the count of the object to 0 and passes the object to
`Destroy`, and the `IncRef` call that follows is on the destroyed object: `Reset` has no defined
result.  When a second pointer holds the object (count 2), or when `ptr` is another object, the
object `a` is reset to is not destroyed, `a.Get()` is `ptr` and `a.UseCount()` is 2. -/
theorem reset_to_held_destroys_object :
    resetToHeldScenario = some ([0], false) ∧
    resetToSharedScenario = some (some 0, 2, []) ∧
    resetToOtherScenario = some (some 1, some 1, 2, [0]) := by
  refine ⟨by decide, by decide, by decide⟩

end

/-- C33, the code at the failing input: the move assignments of `UniquePtr<void>` and of
`UniquePtr<T[]>` leave the pointer of the source as it was, so after
`a = std::move(b)` both `a.Get()` and `b.Get()` are the former pointer of `b`; in
`{ UniquePtr<T[]> a; UniquePtr<T[]> b(p); a = std::move(b); }` the pointer `p` is passed to the
deleter twice, by the destructor of `b` and by that of `a`.  The move assignment of the primary
template sets the pointer of the source to `nullptr`, and `p` is passed to the deleter once. -/
theorem move_assign_keeps_source_pointer :
    (∀ (log : List (Option Nat)) (a b : UniquePtrVoid),
      (UniquePtrVoid.moveAssign log a b).2.1.Get = b.Get ∧
      (UniquePtrVoid.moveAssign log a b).2.2.Get = b.Get) ∧
    (∀ (log : List (Option Nat)) (a b : UniquePtrArray),
      (UniquePtrArray.moveAssign log a b).2.1.Get = b.Get ∧
      (UniquePtrArray.moveAssign log a b).2.2.Get = b.Get) ∧
    (∀ (log : List (Option Nat)) (a b : UniquePtr),
      (UniquePtr.moveAssign log a b false).2.1.Get = b.Get ∧
      (UniquePtr.moveAssign log a b false).2.2.Get = none) ∧
    uniqueVoidMoveAssignScenario (some 5) = (some 5, some 5, [none, some 5, some 5]) ∧
    uniqueArrayMoveAssignScenario (some 5) = (some 5, some 5, [none, some 5, some 5]) ∧
    uniqueMoveAssignScenario (some 5) = (some 5, none, [none, none, some 5]) := by
  refine ⟨fun _ _ _ => ⟨rfl, rfl⟩, fun _ _ _ => ⟨rfl, rfl⟩, fun _ _ _ => ⟨rfl, rfl⟩,
    rfl, rfl, rfl⟩

/-- C34, the code at the failing input: on a fresh `ControlBlock` (strong count 1, weak count 0)
`GetWeakQ()` returns 1, the strong count, where a fresh `PointerControlBlock` returns 0.  After
any sequence of `IncreaseStrong`, `IncreaseWeak`, `DecreaseStrong`, `DecreaseWeak` calls on a
fresh block of each variant, either the sequence has no defined result for both (a call on a
released block, or an increment of a counter that holds `INT_MAX`), or both have the same
counters `n` (strong) and `m` (weak); `GetStrongQ()` returns `n` for both, `GetWeakQ()` returns `m` for the
pointer variant and `n` for the in-place variant. -/
theorem inplace_weak_query_returns_strong :
    counterQueryScenario true [] = some ((1, 0), (1, 1)) ∧
    counterQueryScenario false [] = some ((1, 0), (1, 0)) ∧
    (∀ b : ControlBlock, b.GetWeakQ = b.strong_counter_) ∧
    (∀ b : PointerControlBlock, b.GetWeakQ = b.weak_counter_) ∧
    ∀ ops : List CounterOp,
      (counterQueryScenario false ops = none ∧ counterQueryScenario true ops = none) ∨
      ∃ n m : Int, counterQueryScenario false ops = some ((n, m), (n, m)) ∧
        counterQueryScenario true ops = some ((n, m), (n, n)) := by
  refine ⟨by decide, by decide, fun _ => rfl, fun _ => rfl, counterQueryScenario_cases⟩
